import Mathlib

/-!
# rtcheck: lock-set analysis of the Go runtime

A shallow embedding of `rtcheck/main.go` and `rtcheck/live.go`.

* Go maps are association lists; `m[k] = v` replaces the entry of `k` or appends one.
* Pointers to immutable records (`*LockSet`) are values.  The one `StringSpace`
  that every `LockSet` of a run points to is threaded as state.
* `big.Int` values that are only built with `SetBit` from zero are natural numbers.
* Recursion is bounded by a fuel argument; `Halt.fuel` is the answer of a run that
  needs more.  `log.Fatalf` is `Halt.fatal`, a run-time panic is `Halt.panic`.
-/

namespace Rtcheck

/-! ## Go maps -/

/-- Lookup `m[k]` with the comma-ok form. -/
def mapGet {κ ν : Type} [DecidableEq κ] : List (κ × ν) → κ → Option ν
  | [], _ => none
  | (k', v) :: rest, k => if k' = k then some v else mapGet rest k

/-- Assignment `m[k] = v`. -/
def mapSet {κ ν : Type} [DecidableEq κ] : List (κ × ν) → κ → ν → List (κ × ν)
  | [], k, v => [(k, v)]
  | (k', v') :: rest, k, v =>
    if k' = k then (k, v) :: rest else (k', v') :: mapSet rest k v

/-! ## StringSpace -/

/-- The interning table: `m` maps a label to its id, `s` lists the labels by id. -/
structure StringSpace where
  m : List (String × Nat)
  s : List String
deriving DecidableEq, Repr

def NewStringSpace : StringSpace := { m := [], s := [] }

/-- `sp.Intern(str)`: the id of `str` and the space after the call. -/
def StringSpace.Intern (sp : StringSpace) (str : String) : Nat × StringSpace :=
  match mapGet sp.m str with
  | some id => (id, sp)
  | none =>
    let id := sp.s.length
    (id, { m := mapSet sp.m str id, s := sp.s ++ [str] })

/-! ## LockSet -/

/-- A set of lock identities as a bitset (`big.Int`, never negative here). -/
structure LockSet where
  bits : Nat
deriving DecidableEq, Repr

abbrev LockSetKey := String

/-- `sp.NewSet()`. -/
def NewSet : LockSet := { bits := 0 }

/-- `big.Int.Bit`. -/
def Bit (x : Nat) (i : Nat) : Nat := if x.testBit i then 1 else 0

/-- `z.SetBit(x, i, b)` for `b` in `{0, 1}`. -/
def SetBit (x : Nat) (i : Nat) (b : Nat) : Nat :=
  if b = 0 then x ^^^ (x &&& 2 ^ i) else x ||| 2 ^ i

/-- `set.Key()`: `bits.Text(16)`, the lower-case base-16 text of the bitset. -/
def LockSet.Key (set : LockSet) : LockSetKey := String.mk (Nat.toDigits 16 set.bits)

/-- The loop of `Plus`: `out` is `none` while the Go variable `out` is nil. -/
def plusLoop (set : LockSet) :
    List String → StringSpace → Option LockSet → StringSpace × Option LockSet
  | [], sp, out => (sp, out)
  | label :: rest, sp, out =>
    let (id, sp1) := sp.Intern label
    match out with
    | none =>
      if Bit set.bits id = 0 then
        plusLoop set rest sp1 (some { bits := SetBit set.bits id 1 })
      else plusLoop set rest sp1 none
    | some o => plusLoop set rest sp1 (some { bits := SetBit o.bits id 1 })

/-- `set.Plus(s)`, with `labels` the result of `s.Labels()`. -/
def LockSet.Plus (set : LockSet) (labels : List String) (sp : StringSpace) :
    StringSpace × LockSet :=
  match plusLoop set labels sp none with
  | (sp1, none) => (sp1, set)
  | (sp1, some out) => (sp1, out)

/-- The loop of `Minus`. -/
def minusLoop (set : LockSet) :
    List String → StringSpace → Option LockSet → StringSpace × Option LockSet
  | [], sp, out => (sp, out)
  | label :: rest, sp, out =>
    let (id, sp1) := sp.Intern label
    match out with
    | none =>
      if Bit set.bits id ≠ 0 then
        minusLoop set rest sp1 (some { bits := SetBit set.bits id 0 })
      else minusLoop set rest sp1 none
    | some o => minusLoop set rest sp1 (some { bits := SetBit o.bits id 0 })

/-- `set.Minus(s)`. -/
def LockSet.Minus (set : LockSet) (labels : List String) (sp : StringSpace) :
    StringSpace × LockSet :=
  match minusLoop set labels sp none with
  | (sp1, none) => (sp1, set)
  | (sp1, some out) => (sp1, out)

/-! ## Plus and Minus on pointers

The same two methods with `*LockSet` as an index into a heap of records, to tell a
returned receiver from a returned copy. -/

/-- The heap of `LockSet` records of a run: a `*LockSet` is an index into it, and
`&LockSet{...}` appends a record. -/
abbrev Heap := List LockSet

/-- The record that the pointer `p` points to. -/
def Heap.load (h : Heap) (p : Nat) : LockSet := h.getD p NewSet

/-- The loop of `Plus` on pointers: `set` is the receiver and `out` the Go variable
`out` (`none` while it is nil); the heap holds the records. -/
def plusLoopPtr (set : Nat) :
    List String → StringSpace → Option Nat → Heap → StringSpace × Option Nat × Heap
  | [], sp, out, h => (sp, out, h)
  | label :: rest, sp, out, h =>
    let (id, sp1) := sp.Intern label
    match out with
    | none =>
      if Bit (h.load set).bits id = 0 then
        let o := h.length
        let h1 := h ++ [NewSet]
        plusLoopPtr set rest sp1 (some o) (h1.set o { bits := SetBit (h1.load set).bits id 1 })
      else plusLoopPtr set rest sp1 none h
    | some o =>
      plusLoopPtr set rest sp1 (some o) (h.set o { bits := SetBit (h.load o).bits id 1 })

/-- `set.Plus(s)` on pointers: the string space, the returned pointer and the heap
after the call. -/
def Heap.Plus (h : Heap) (set : Nat) (labels : List String) (sp : StringSpace) :
    StringSpace × Nat × Heap :=
  match plusLoopPtr set labels sp none h with
  | (sp1, none, h1) => (sp1, set, h1)
  | (sp1, some out, h1) => (sp1, out, h1)

/-- The loop of `Minus` on pointers. -/
def minusLoopPtr (set : Nat) :
    List String → StringSpace → Option Nat → Heap → StringSpace × Option Nat × Heap
  | [], sp, out, h => (sp, out, h)
  | label :: rest, sp, out, h =>
    let (id, sp1) := sp.Intern label
    match out with
    | none =>
      if Bit (h.load set).bits id ≠ 0 then
        let o := h.length
        let h1 := h ++ [NewSet]
        minusLoopPtr set rest sp1 (some o) (h1.set o { bits := SetBit (h1.load set).bits id 0 })
      else minusLoopPtr set rest sp1 none h
    | some o =>
      minusLoopPtr set rest sp1 (some o) (h.set o { bits := SetBit (h.load o).bits id 0 })

/-- `set.Minus(s)` on pointers. -/
def Heap.Minus (h : Heap) (set : Nat) (labels : List String) (sp : StringSpace) :
    StringSpace × Nat × Heap :=
  match minusLoopPtr set labels sp none h with
  | (sp1, none, h1) => (sp1, set, h1)
  | (sp1, some out, h1) => (sp1, out, h1)

/-! ## LockSetSet -/

/-- The map `M` of a `LockSetSet`. -/
structure LockSetSet where
  M : List (LockSetKey × LockSet)
deriving DecidableEq, Repr

def NewLockSetSet : LockSetSet := { M := [] }

/-- `lss.Add(ss)`. -/
def LockSetSet.Add (lss : LockSetSet) (ss : LockSet) : LockSetSet :=
  { M := mapSet lss.M ss.Key ss }

/-- The loop of `Union` over the entries of `lss2.M`. -/
def unionLoop : List (LockSetKey × LockSet) → List (LockSetKey × LockSet) →
    List (LockSetKey × LockSet)
  | m, [] => m
  | m, (k, ss) :: rest => unionLoop (mapSet m k ss) rest

/-- `lss.Union(lss2)`; `none` is the nil pointer. -/
def LockSetSet.Union (lss : LockSetSet) (lss2 : Option LockSetSet) : LockSetSet :=
  match lss2 with
  | none => lss
  | some l2 => { M := unionLoop lss.M l2.M }

/-! ## Program representation (go/ssa, go/callgraph, go/pointer) -/

abbrev FuncId := Nat

/-- An `ssa.Value`: the cases of the type switch in `livenessFor`.  `Instr b i` is
the value defined by instruction `i` of block `b` of the enclosing function. -/
inductive Value where
  | Const (id : Nat)
  | Global (id : Nat)
  | Function (id : FuncId)
  | Builtin (id : Nat)
  | Parameter (id : Nat)
  | FreeVar (id : Nat)
  | Instr (block : Nat) (idx : Nat)
deriving DecidableEq, Repr

/-- The instruction kinds that `walkBlock` and `livenessFor` tell apart.
`Other` is any other instruction, with its `Operands` (an operand may be nil). -/
inductive InstrKind where
  | If (Cond : Value)
  | Call (StaticCallee : Option FuncId) (Fn : Value) (Args : List Value)
  | Return (Results : List Value)
  | Phi (Edges : List Value)
  | Other (rands : List (Option Value))
deriving DecidableEq, Repr

/-- An `ssa.Instruction` with its `Pos()`. -/
structure Instruction where
  kind : InstrKind
  pos : Nat
deriving DecidableEq, Repr

/-- An `ssa.BasicBlock`; its `Index` is its position in `Function.Blocks`, and
`Preds` and `Succs` hold block indices. -/
structure BasicBlock where
  Instrs : List Instruction
  Preds : List Nat
  Succs : List Nat
deriving DecidableEq, Repr

/-- An `ssa.Function`; an external function has no blocks. -/
structure Function where
  Blocks : List BasicBlock
deriving DecidableEq, Repr

/-- A `callgraph.Edge` leaving a node: the call site `(block, idx)` and the callee. -/
structure Edge where
  Site : Nat × Nat
  Callee : FuncId
deriving DecidableEq, Repr

/-- The analysed program with the results of the front end: the functions, the
two lock primitives, `cg.Nodes[f]` with its `Out` edges, and the labels of
`pta.Queries[v].PointsTo()` for a value `v` of function `f`. -/
structure Prog where
  funcs : FuncId → Function
  lockFn : FuncId
  unlockFn : FuncId
  cg : FuncId → Option (List Edge)
  pta : FuncId → Value → List String

/-- `val.Operands(nil)`. -/
def Instruction.Operands (val : Instruction) : List (Option Value) :=
  match val.kind with
  | .If c => [some c]
  | .Call _ fn args => some fn :: args.map some
  | .Return rs => rs.map some
  | .Phi es => es.map some
  | .Other rands => rands

/-! ## Outcomes -/

/-- Why a run did not return: out of fuel, `log.Fatalf`, or a run-time panic. -/
inductive Halt where
  | fuel
  | fatal
  | panic
deriving DecidableEq, Repr

/-! ## livenessFor (live.go) -/

/-- The result `deps`: one set of values per block. -/
abbrev Deps := List (List Value)

/-- `deps[i][v] = struct{}{}`. -/
def depsAdd (deps : Deps) (i : Nat) (v : Value) : Deps :=
  if v ∈ deps.getD i [] then deps else deps.set i (deps.getD i [] ++ [v])

/-- The loop `for _, pred := range use.Preds { walk(def, pred) }`. -/
def walkPreds (rec : Value → Nat → Deps → Except Halt Deps) (d : Value) :
    List Nat → Deps → Except Halt Deps
  | [], deps => .ok deps
  | pred :: rest, deps =>
    match rec d pred deps with
    | .ok deps1 => walkPreds rec d rest deps1
    | .error e => .error e

/-- The body of the closure `walk`, with `rec` for its recursive calls. -/
def walkBody (f : Function) (rec : Value → Nat → Deps → Except Halt Deps)
    (d : Value) (use : Nat) (deps : Deps) : Except Halt Deps :=
  match f.Blocks[use]? with
  | none => .error .panic
  | some ub =>
    if d ∈ deps.getD use [] then .ok deps
    else
      let deps1 := depsAdd deps use d
      let stop : Bool :=
        match d with
        | .Const _ | .Global _ | .Function _ | .Builtin _ => true
        | .Parameter _ | .FreeVar _ => ub.Preds.length == 0
        | .Instr blk _ => blk == use
      if stop then .ok deps1
      else if ub.Preds.length == 0 then .error .fatal
      else walkPreds rec d ub.Preds deps1

/-- The closure `walk` of `livenessFor`. -/
def walk (f : Function) : Nat → Value → Nat → Deps → Except Halt Deps
  | 0 => fun _ _ _ => .error .fuel
  | fuel + 1 => walkBody f (walk f fuel)

/-- What `doInstr` updates: `deps` and `visited`. -/
structure Live where
  deps : Deps
  visited : List (Nat × Nat)
deriving DecidableEq, Repr

/-- The phi loop of `doInstr`: `i` is the index of the edge, `self` the phi. -/
def doPhiEdges (walkF : Value → Nat → Deps → Except Halt Deps)
    (rec : Nat × Nat → Live → Except Halt Live) (self : Nat × Nat) (preds : List Nat) :
    Nat → List Value → Live → Except Halt Live
  | _, [], st => .ok st
  | i, rand :: rest, st =>
    let deps1 := depsAdd st.deps self.1 rand
    match preds[i]? with
    | none => .error .panic
    | some pred =>
      match walkF rand pred deps1 with
      | .error e => .error e
      | .ok deps2 =>
        -- `val.(ssa.Instruction)` tests the phi itself, not the operand
        match rec self { st with deps := deps2 } with
        | .error e => .error e
        | .ok st1 => doPhiEdges walkF rec self preds (i + 1) rest st1

/-- The operand loop of `doInstr` for an instruction of block `blk` that is not a phi. -/
def doRands (walkF : Value → Nat → Deps → Except Halt Deps)
    (rec : Nat × Nat → Live → Except Halt Live) (blk : Nat) :
    List (Option Value) → Live → Except Halt Live
  | [], st => .ok st
  | none :: rest, st => doRands walkF rec blk rest st
  | some rand :: rest, st =>
    match walkF rand blk st.deps with
    | .error e => .error e
    | .ok deps1 =>
      match rand with
      | .Instr b i =>
        match rec (b, i) { st with deps := deps1 } with
        | .error e => .error e
        | .ok st1 => doRands walkF rec blk rest st1
      | _ => doRands walkF rec blk rest { st with deps := deps1 }

/-- The body of the closure `doInstr`, for the instruction at `val = (block, idx)`. -/
def doInstrBody (f : Function) (walkF : Value → Nat → Deps → Except Halt Deps)
    (rec : Nat × Nat → Live → Except Halt Live) (val : Nat × Nat) (st : Live) :
    Except Halt Live :=
  if val ∈ st.visited then .ok st
  else
    let st1 : Live := { st with visited := st.visited ++ [val] }
    match f.Blocks[val.1]? with
    | none => .error .panic
    | some blk =>
      match blk.Instrs[val.2]? with
      | none => .error .panic
      | some ins =>
        match ins.kind with
        | .Phi edges => doPhiEdges walkF rec val blk.Preds 0 edges st1
        | _ => doRands walkF rec val.1 ins.Operands st1

/-- The closure `doInstr` of `livenessFor`. -/
def doInstr (f : Function) : Nat → Nat × Nat → Live → Except Halt Live
  | 0 => fun _ _ => .error .fuel
  | fuel + 1 => doInstrBody f (walk f fuel) (doInstr f fuel)

/-- The loop `for _, val := range vals { doInstr(val) }`. -/
def doVals (f : Function) (fuel : Nat) : List (Nat × Nat) → Live → Except Halt Live
  | [], st => .ok st
  | val :: rest, st =>
    match doInstr f fuel val st with
    | .error e => .error e
    | .ok st1 => doVals f fuel rest st1

/-- `livenessFor(f, vals)`. -/
def livenessFor (fuel : Nat) (f : Function) (vals : List (Nat × Nat)) : Except Halt Deps :=
  match doVals f fuel vals { deps := List.replicate f.Blocks.length [], visited := [] } with
  | .error e => .error e
  | .ok st => .ok st.deps

/-! ## Value state -/

/-- A known value of the value state: `DynConst{c}` with a boolean constant, the
only kind that `walkBlock` consults (`constant.BoolVal`) or creates
(`constant.MakeBool`). -/
structure DynConst where
  c : Bool
deriving DecidableEq, Repr

/-- The methods of `*ValState` that `walkBlock` calls.  Their file is not part of
the sources, so they are parameters of the walk: `nil` is the nil state that
`walkFunction` starts from, `Do` gets the instruction with its place
`(block, idx)`, and `EqualAt` gets the live set `ifDeps[b.Index]`. -/
structure ValStateOps (VS : Type) where
  nil : VS
  Do : VS → Nat × Nat → Instruction → VS
  Get : VS → Value → Option DynConst
  Extend : VS → Value → DynConst → VS
  EqualAt : VS → VS → List Value → Bool

/-! ## The analysis state -/

/-- The per-function record `funcInfo`; a memo entry `none` is the nil pointer
stored while the function is being walked. -/
structure funcInfo where
  exitLockSets : List (LockSetKey × Option LockSetSet)
  ifDeps : Deps
deriving DecidableEq, Repr

/-- The analysis `state` (its `fns` and `stack`) together with the string space
of the run. -/
structure State where
  fns : List (FuncId × funcInfo)
  stack : List FuncId
  sp : StringSpace
deriving DecidableEq, Repr

/-- What a call of `walkBlock` can change: the state and, through the two
pointers it is handed, `blockCache` and `exitLockSets`. -/
structure Walk (VS : Type) where
  s : State
  blockCache : List ((Nat × LockSetKey) × List VS)
  exitLockSets : LockSetSet

/-- The parameters of a run: the program, the value-state methods and `range`, the
order in which a `for ... range lss.M` loop of `walkBlock` meets the entries of
the map (Go leaves it unspecified). -/
structure Env (VS : Type) where
  prog : Prog
  ops : ValStateOps VS
  range : List (LockSetKey × LockSet) → List (LockSetKey × LockSet)

/-- `fInfo.exitLockSets[key] = v` for the record of `f`. -/
def setMemo (s : State) (f : FuncId) (key : LockSetKey) (v : Option LockSetSet) : State :=
  match mapGet s.fns f with
  | none => s
  | some fi =>
    { s with fns := mapSet s.fns f { fi with exitLockSets := mapSet fi.exitLockSets key v } }

/-! ## walkBlock (main.go) -/

/-- The callees `outs` of a call at `site` in function `f`. -/
def callOuts (p : Prog) (f : FuncId) (site : Nat × Nat) (static : Option FuncId) :
    List FuncId :=
  match static with
  | some out => [out]
  | none =>
    match p.cg f with
    | some out => (out.filter (fun o => o.Site = site)).map (fun o => o.Callee)
    | none => []

/-- The loop `for _, ls := range lockSets.M { ls = ls.Plus(lock); nextLockSets.Add(ls) }`. -/
def plusAll (lock : List String) :
    List (LockSetKey × LockSet) → StringSpace → LockSetSet → StringSpace × LockSetSet
  | [], sp, next => (sp, next)
  | (_, ls) :: rest, sp, next =>
    let (sp1, ls1) := ls.Plus lock sp
    plusAll lock rest sp1 (next.Add ls1)

/-- The loop `for _, ls := range lockSets.M { ls = ls.Minus(lock); nextLockSets.Add(ls) }`. -/
def minusAll (lock : List String) :
    List (LockSetKey × LockSet) → StringSpace → LockSetSet → StringSpace × LockSetSet
  | [], sp, next => (sp, next)
  | (_, ls) :: rest, sp, next =>
    let (sp1, ls1) := ls.Minus lock sp
    minusAll lock rest sp1 (next.Add ls1)

/-- The loop `for _, ls := range lockSets.M { nextLockSets.Union(s.walkFunction(o, ls)) }`. -/
def callAll (wf : FuncId → LockSet → State → Except Halt (Option LockSetSet × State))
    (o : FuncId) :
    List (LockSetKey × LockSet) → State → LockSetSet → Except Halt (State × LockSetSet)
  | [], s, next => .ok (s, next)
  | (_, ls) :: rest, s, next =>
    match wf o ls s with
    | .error e => .error e
    | .ok (r, s1) => callAll wf o rest s1 (next.Union r)

/-- The loop `for _, o := range outs` of the call case. -/
def doOuts {VS : Type} (env : Env VS)
    (wf : FuncId → LockSet → State → Except Halt (Option LockSetSet × State))
    (f : FuncId) (args : List Value) (lockSets : LockSetSet) :
    List FuncId → State → LockSetSet → Except Halt (State × LockSetSet)
  | [], s, next => .ok (s, next)
  | o :: rest, s, next =>
    if o = env.prog.lockFn then
      match args with
      | [] => .error .panic
      | a0 :: _ =>
        let (sp1, next1) := plusAll (env.prog.pta f a0) (env.range lockSets.M) s.sp next
        doOuts env wf f args lockSets rest { s with sp := sp1 } next1
    else if o = env.prog.unlockFn then
      match args with
      | [] => .error .panic
      | a0 :: _ =>
        let (sp1, next1) := minusAll (env.prog.pta f a0) (env.range lockSets.M) s.sp next
        doOuts env wf f args lockSets rest { s with sp := sp1 } next1
    else
      match callAll wf o (env.range lockSets.M) s next with
      | .error e => .error e
      | .ok (s1, next1) => doOuts env wf f args lockSets rest s1 next1

/-- The variables of the instruction loop of `walkBlock`. -/
structure Frame (VS : Type) where
  vs : VS
  lockSets : LockSetSet
  ifCond : Option Value
  s : State
  exitLockSets : LockSetSet

/-- One turn of the loop `for _, instr := range b.Instrs`, for the instruction at
`(b, idx)`. -/
def doInstruction {VS : Type} (env : Env VS)
    (wf : FuncId → LockSet → State → Except Halt (Option LockSetSet × State))
    (f : FuncId) (b : Nat) (idx : Nat) (instr : Instruction) (fr : Frame VS) :
    Except Halt (Frame VS) :=
  let vs := env.ops.Do fr.vs (b, idx) instr
  match instr.kind with
  | .If cond => .ok { fr with vs := vs, ifCond := some cond }
  | .Call static _ args =>
    match doOuts env wf f args fr.lockSets (callOuts env.prog f (b, idx) static) fr.s
        NewLockSetSet with
    | .error e => .error e
    | .ok (s1, next) => .ok { fr with vs := vs, lockSets := next, s := s1 }
  | .Return _ => .ok { fr with vs := vs, exitLockSets := fr.exitLockSets.Union (some fr.lockSets) }
  | _ => .ok { fr with vs := vs }

/-- The loop `for _, instr := range b.Instrs`, from instruction `idx` on. -/
def doInstructions {VS : Type} (env : Env VS)
    (wf : FuncId → LockSet → State → Except Halt (Option LockSetSet × State))
    (f : FuncId) (b : Nat) : Nat → List Instruction → Frame VS → Except Halt (Frame VS)
  | _, [], fr => .ok fr
  | idx, instr :: rest, fr =>
    match doInstruction env wf f b idx instr fr with
    | .error e => .error e
    | .ok fr1 => doInstructions env wf f b (idx + 1) rest fr1

/-- The inner loop of `exitPos`: the last non-zero position of the block. -/
def lastPos : List Instruction → Option Nat
  | [] => none
  | i :: rest =>
    match lastPos rest with
    | some p => some p
    | none => if i.pos ≠ 0 then some i.pos else none

/-- The closure `exitPos`. -/
def exitPos (fn : Function) : Nat → Nat → Except Halt Nat
  | 0, _ => .error .fuel
  | fuel + 1, b =>
    match fn.Blocks[b]? with
    | none => .error .panic
    | some blk =>
      match lastPos blk.Instrs with
      | some p => .ok p
      | none =>
        match blk.Preds with
        | [] => .ok 0
        | p :: _ => exitPos fn fuel p

/-- The successors to follow: all of them, or for a resolved condition
`succs[:1]` (true) or `succs[1:]` (false). -/
def pruneSuccs (succs : List Nat) (x : Option DynConst) : Except Halt (List Nat) :=
  match x with
  | none => .ok succs
  | some d =>
    match succs with
    | [] => .error .panic
    | b0 :: rest => if d.c then .ok [b0] else .ok rest

/-- The loop `for i, inval := range instr.Edges` for the phi at `(b2, idx)` when
control comes from block `b`. -/
def phiEdges {VS : Type} (ops : ValStateOps VS) (b : Nat) (preds : List Nat) (phi : Value) :
    Nat → List Value → VS → Except Halt VS
  | _, [], vs2 => .ok vs2
  | i, inval :: rest, vs2 =>
    match preds[i]? with
    | none => .error .panic
    | some p =>
      if p = b then
        match ops.Get vs2 inval with
        | some x => phiEdges ops b preds phi (i + 1) rest (ops.Extend vs2 phi x)
        | none => phiEdges ops b preds phi (i + 1) rest vs2
      else phiEdges ops b preds phi (i + 1) rest vs2

/-- The loop over the leading phis of `b2`. -/
def phiInstrs {VS : Type} (ops : ValStateOps VS) (b : Nat) (b2 : Nat) (preds : List Nat) :
    Nat → List Instruction → VS → Except Halt VS
  | _, [], vs2 => .ok vs2
  | idx, instr :: rest, vs2 =>
    match instr.kind with
    | .Phi edges =>
      match phiEdges ops b preds (.Instr b2 idx) 0 edges vs2 with
      | .error e => .error e
      | .ok vs3 => phiInstrs ops b b2 preds (idx + 1) rest vs3
    | _ => .ok vs2

/-- The value state handed to successor `b2`, the `i`-th of the followed ones. -/
def succState {VS : Type} (ops : ValStateOps VS) (fn : Function) (b : Nat) (vs : VS)
    (ifCond : Option Value) (i : Nat) (b2 : Nat) : Except Halt VS :=
  let vs2 :=
    match ifCond with
    | some cond => ops.Extend vs cond { c := i == 0 }
    | none => vs
  match fn.Blocks[b2]? with
  | none => .error .panic
  | some blk2 => phiInstrs ops b b2 blk2.Preds 0 blk2.Instrs vs2

/-- The inner loop `for i, b2 := range succs` for one `succLockSet`. -/
def walkSuccs {VS : Type} (ops : ValStateOps VS) (fn : Function)
    (rec : Nat → VS → LockSet → Walk VS → Except Halt (Walk VS))
    (b : Nat) (vs : VS) (ifCond : Option Value) (succLockSet : LockSet) :
    Nat → List Nat → Walk VS → Except Halt (Walk VS)
  | _, [], w => .ok w
  | i, b2 :: rest, w =>
    match succState ops fn b vs ifCond i b2 with
    | .error e => .error e
    | .ok vs2 =>
      match rec b2 vs2 succLockSet w with
      | .error e => .error e
      | .ok w1 => walkSuccs ops fn rec b vs ifCond succLockSet (i + 1) rest w1

/-- The outer loop `for _, succLockSet := range lockSets.M`. -/
def walkFrontier {VS : Type} (ops : ValStateOps VS) (fn : Function)
    (rec : Nat → VS → LockSet → Walk VS → Except Halt (Walk VS))
    (b : Nat) (vs : VS) (ifCond : Option Value) (succs : List Nat) :
    List (LockSetKey × LockSet) → Walk VS → Except Halt (Walk VS)
  | [], w => .ok w
  | (_, succLockSet) :: rest, w =>
    match walkSuccs ops fn rec b vs ifCond succLockSet 0 succs w with
    | .error e => .error e
    | .ok w1 => walkFrontier ops fn rec b vs ifCond succs rest w1

/-- The memoization check at the top of `walkBlock`: `true` when the call
returns at once, because an equal state is recorded or more than 10 are. -/
def cacheStop {VS : Type} (ops : ValStateOps VS) (s : State) (f : FuncId) (b : Nat) (vs : VS)
    (bck2s : List VS) : Except Halt Bool :=
  match bck2s with
  | [] => .ok false
  | _ :: _ =>
    match mapGet s.fns f with
    | none => .error .panic
    | some fi =>
      match fi.ifDeps[b]? with
      | none => .error .panic
      | some live =>
        .ok (bck2s.any (fun v => ops.EqualAt v vs live) || decide (bck2s.length > 10))

/-- The lookup `x := vs.Get(ifCond)` of a block that ends in an `If`; `none` when
there is no `If` or the condition is unknown. -/
def resolveCond {VS : Type} (ops : ValStateOps VS) (vs : VS) (ifCond : Option Value) :
    Option DynConst :=
  match ifCond with
  | some cond => ops.Get vs cond
  | none => none

/-- The call of `exitPos` for the log line of a resolved condition. -/
def logPos (exitPosF : Nat → Except Halt Nat) (b : Nat) (x : Option DynConst) :
    Except Halt Nat :=
  match x with
  | some _ => exitPosF b
  | none => .ok 0

/-- The body of `walkBlock` after the memoization check. -/
def walkBlockRun {VS : Type} (env : Env VS)
    (wf : FuncId → LockSet → State → Except Halt (Option LockSetSet × State))
    (exitPosF : Nat → Except Halt Nat)
    (rec : Nat → VS → LockSet → Walk VS → Except Halt (Walk VS))
    (f : FuncId) (b : Nat) (blk : BasicBlock) (vs : VS) (enterLockSet : LockSet)
    (w : Walk VS) : Except Halt (Walk VS) :=
  let bck := (b, enterLockSet.Key)
  let blockCache := mapSet w.blockCache bck ((mapGet w.blockCache bck).getD [] ++ [vs])
  match doInstructions env wf f b 0 blk.Instrs
      { vs := vs, lockSets := NewLockSetSet.Add enterLockSet, ifCond := none, s := w.s,
        exitLockSets := w.exitLockSets } with
  | .error e => .error e
  | .ok fr =>
    let x := resolveCond env.ops fr.vs fr.ifCond
    match logPos exitPosF b x with
    | .error e => .error e
    | .ok _ =>
      match pruneSuccs blk.Succs x with
      | .error e => .error e
      | .ok succs =>
        walkFrontier env.ops (env.prog.funcs f) rec b fr.vs fr.ifCond succs
          (env.range fr.lockSets.M)
          { s := fr.s, blockCache := blockCache, exitLockSets := fr.exitLockSets }

/-- The body of `walkBlock`, with `rec` for its recursive calls. -/
def walkBlockBody {VS : Type} (env : Env VS)
    (wf : FuncId → LockSet → State → Except Halt (Option LockSetSet × State))
    (exitPosF : Nat → Except Halt Nat)
    (rec : Nat → VS → LockSet → Walk VS → Except Halt (Walk VS))
    (f : FuncId) (b : Nat) (vs : VS) (enterLockSet : LockSet) (w : Walk VS) :
    Except Halt (Walk VS) :=
  match (env.prog.funcs f).Blocks[b]? with
  | none => .error .panic
  | some blk =>
    match cacheStop env.ops w.s f b vs
        ((mapGet w.blockCache (b, enterLockSet.Key)).getD []) with
    | .error e => .error e
    | .ok true => .ok w
    | .ok false => walkBlockRun env wf exitPosF rec f b blk vs enterLockSet w

/-- `s.walkBlock(f, b, blockCache, vs, enterLockSet, exitLockSets)`. -/
def walkBlock {VS : Type} (env : Env VS)
    (wf : FuncId → LockSet → State → Except Halt (Option LockSetSet × State))
    (f : FuncId) : Nat → Nat → VS → LockSet → Walk VS → Except Halt (Walk VS)
  | 0 => fun _ _ _ _ => .error .fuel
  | fuel + 1 =>
    walkBlockBody env wf (exitPos (env.prog.funcs f) fuel) (walkBlock env wf f fuel) f

/-! ## walkFunction (main.go) -/

/-- The `ifInstrs` of `walkFunction`: the final `If` of every block that has one. -/
def ifInstrsFrom : Nat → List BasicBlock → List (Nat × Nat)
  | _, [] => []
  | bi, b :: rest =>
    match b.Instrs.getLast? with
    | some { kind := .If _, .. } => (bi, b.Instrs.length - 1) :: ifInstrsFrom (bi + 1) rest
    | _ => ifInstrsFrom (bi + 1) rest

/-- The first-visit part of `walkFunction`: the record of `f` is created with
its control-flow dependencies. -/
def firstVisit (fuel : Nat) (fn : Function) (f : FuncId) (s : State) : Except Halt State :=
  match mapGet s.fns f with
  | some _ => .ok s
  | none =>
    match livenessFor fuel fn (ifInstrsFrom 0 fn.Blocks) with
    | .error e => .error e
    | .ok ifDeps => .ok { s with fns := mapSet s.fns f { exitLockSets := [], ifDeps := ifDeps } }

/-- The memo entry of `(f, key)`: `none` when there is none, `some none` while
`f` is being walked from that lock set. -/
def memoOf (s : State) (f : FuncId) (key : LockSetKey) : Option (Option LockSetSet) :=
  match mapGet s.fns f with
  | none => none
  | some fi => mapGet fi.exitLockSets key

/-- `s.walkFunction(f, locks)`: the returned pointer (`none` is nil) and the
state after the call. -/
def walkFunction {VS : Type} (env : Env VS) :
    Nat → FuncId → LockSet → State → Except Halt (Option LockSetSet × State)
  | 0 => fun _ _ _ => .error .fuel
  | fuel + 1 => fun f locks s =>
    let fn := env.prog.funcs f
    match firstVisit fuel fn f s with
    | .error e => .error e
    | .ok s1 =>
      if fn.Blocks.length = 0 then .ok (some (NewLockSetSet.Add locks), s1)
      else
        let locksKey := locks.Key
        match memoOf s1 f locksKey with
        | some memo => .ok (memo, s1)
        | none =>
          let s2 := setMemo s1 f locksKey none
          let s3 := { s2 with stack := s2.stack ++ [f] }
          match walkBlock env (walkFunction env fuel) f fuel 0 env.ops.nil locks
              { s := s3, blockCache := [], exitLockSets := NewLockSetSet } with
          | .error e => .error e
          | .ok w =>
            let s4 := setMemo w.s f locksKey (some w.exitLockSets)
            .ok (some w.exitLockSets, { s4 with stack := s4.stack.dropLast })

/-! ## Auxiliary definitions for the statements -/

/-- The string space after interning `labels` in order. -/
def internAll : List String → StringSpace → StringSpace
  | [], sp => sp
  | l :: rest, sp => internAll rest (sp.Intern l).2

/-- The set that the loop of `Plus` or `Minus` has computed so far. -/
def cur (set : LockSet) (out : Option LockSet) : LockSet := out.getD set

/-- Modelled from the spec: the Value-State, whose source file is absent.  It is
"an immutable, persistent mapping from a tracked Value to a known constant",
"unseen values are unknown", `Extend` binds a value, `EqualAt` holds when the two
states "agree on every value in liveSet", and `Do` is a no-op, as the spec has it
for an instruction whose result no branch consults. -/
def listOps : ValStateOps (List (Value × DynConst)) :=
  { nil := []
    Do := fun vs _ _ => vs
    Get := fun vs v => mapGet vs v
    Extend := fun vs v c => mapSet vs v c
    EqualAt := fun a b live => live.all (fun v => mapGet a v == mapGet b v) }

/-- The state in which `main` starts the analysis. -/
def initState : State := { fns := [], stack := [], sp := NewStringSpace }

/-- Modelled from the spec: a Value-State as `listOps` that also knows a boolean
constant without a binding: `Const 0` is false and every other `Const` true. -/
def constOps : ValStateOps (List (Value × DynConst)) :=
  { listOps with
    Get := fun vs v =>
      match mapGet vs v with
      | some x => some x
      | none =>
        match v with
        | .Const n => some { c := n != 0 }
        | _ => none }

/-- Whether an instruction defines the value. -/
def Value.isInstr : Value → Bool
  | .Instr _ _ => true
  | _ => false

/-- An instruction that is neither an `If`, a call, a return nor a phi. -/
def Instruction.isOther (i : Instruction) : Bool :=
  match i.kind with
  | .Other _ => true
  | _ => false

/-- The value state after `vs.Do` of the instructions `instrs`, which start at
index `idx` of block `b`. -/
def runDo {VS : Type} (ops : ValStateOps VS) (b : Nat) : Nat → List Instruction → VS → VS
  | _, [], vs => vs
  | idx, i :: rest, vs => runDo ops b (idx + 1) rest (ops.Do vs (b, idx) i)

/-- Every memo entry of `s` is still there, unchanged, in `s1`. -/
def Keeps (s s1 : State) : Prop :=
  ∀ f k v, memoOf s f k = some v → memoOf s1 f k = some v

/-- A function walker that keeps the memo entries. -/
def KeepsWf (wf : FuncId → LockSet → State → Except Halt (Option LockSetSet × State)) : Prop :=
  ∀ o ls s r s1, wf o ls s = .ok (r, s1) → Keeps s s1

/-- A block walker that keeps the memo entries. -/
def KeepsRec {VS : Type} (rec : Nat → VS → LockSet → Walk VS → Except Halt (Walk VS)) : Prop :=
  ∀ b vs ls w w1, rec b vs ls w = .ok w1 → Keeps w.s w1.s

/-- The states that the walker reaches from a state `s`, by the steps in which the
code changes the analysis state:
* `call`: a call of `walkFunction` that returns;
* `enter`: the start of a walk, `walkFunction` up to its call of `walkBlock`: the
  first-visit part, no memo entry for the lockset, the nil placeholder and the push
  on the stack; the states that follow are states inside this walk;
* `leave`: the end of a walk in progress, `walkFunction` after its call of
  `walkBlock`: the placeholder of the walk is replaced by its result and the stack is
  popped (`walkFunction_walk` shows that the placeholder is still there then);
* `plus`, `minus`: the interning of lock labels by the loops over a frontier at a
  call of a lock primitive.
`fin g k` tells for which function and lockset key a walk in progress may end. -/
inductive Later {VS : Type} (env : Env VS) (fin : FuncId → LockSetKey → Prop) :
    State → State → Prop where
  | refl (s : State) : Later env fin s s
  | call (s s1 s2 : State) (fuel : Nat) (g : FuncId) (M : LockSet) (r : Option LockSetSet) :
      Later env fin s s1 → walkFunction env fuel g M s1 = .ok (r, s2) → Later env fin s s2
  | enter (s s1 s2 : State) (fuel : Nat) (g : FuncId) (M : LockSet) :
      Later env fin s s1 → firstVisit fuel (env.prog.funcs g) g s1 = .ok s2 →
      (env.prog.funcs g).Blocks.length ≠ 0 → memoOf s2 g M.Key = none →
      Later env fin s
        { setMemo s2 g M.Key none with stack := (setMemo s2 g M.Key none).stack ++ [g] }
  | leave (s s1 : State) (g : FuncId) (k : LockSetKey) (r : LockSetSet) :
      Later env fin s s1 → fin g k → memoOf s1 g k = some none →
      Later env fin s
        { setMemo s1 g k (some r) with stack := (setMemo s1 g k (some r)).stack.dropLast }
  | plus (s s1 : State) (lock : List String) (l : List (LockSetKey × LockSet))
      (next : LockSetSet) :
      Later env fin s s1 → Later env fin s { s1 with sp := (plusAll lock l s1.sp next).1 }
  | minus (s s1 : State) (lock : List String) (l : List (LockSetKey × LockSet))
      (next : LockSetSet) :
      Later env fin s s1 → Later env fin s { s1 with sp := (minusAll lock l s1.sp next).1 }

/-- The canonical keys of a returned `LockSetSet`. -/
def keysOf (r : Except Halt (Option LockSetSet × State)) : Option (List LockSetKey) :=
  match r with
  | .ok (some lss, _) => some (lss.M.map (fun e => e.1))
  | _ => none

/-- The value of a base-16 digit character. -/
def hexVal (c : Char) : Nat :=
  if c.toNat < 58 then c.toNat - 48 else c.toNat - 87

/-- The number that a base-16 text denotes, most significant digit first. -/
def ofHex (cs : List Char) : Nat := cs.foldl (fun acc c => 16 * acc + hexVal c) 0

/-- The set of canonical keys of a `LockSetSet`. -/
def LockSetSet.keys (lss : LockSetSet) : Finset LockSetKey := (lss.M.map Prod.fst).toFinset

/-- The key invariant: every member is stored under its own canonical key. -/
def KeyInv (lss : LockSetSet) : Prop := ∀ e ∈ lss.M, e.2.Key = e.1

/-- The `LockSetSet`s that `NewLockSetSet`, `Add` and `Union` build. -/
inductive Reachable : LockSetSet → Prop where
  | new : Reachable NewLockSetSet
  | add (lss : LockSetSet) (ss : LockSet) : Reachable lss → Reachable (lss.Add ss)
  | union (lss lss2 : LockSetSet) : Reachable lss → Reachable lss2 →
      Reachable (lss.Union (some lss2))
  | unionNil (lss : LockSetSet) : Reachable lss → Reachable (lss.Union none)

/-- The invariant of a string space in which exactly the labels `ls` are interned:
`s` has no repetition, `m` is the inverse of `s`, and `s` holds the labels of `ls`. -/
def SpaceInv (sp : StringSpace) (ls : List String) : Prop :=
  sp.s.Nodup ∧ (∀ l id, mapGet sp.m l = some id ↔ sp.s[id]? = some l) ∧
    ∀ l, l ∈ sp.s ↔ l ∈ ls

/-- The `LockSetSet` built by adding the locksets with the given bits in order. -/
def setOf (bits : List Nat) : LockSetSet :=
  bits.foldl (fun lss b => lss.Add { bits := b }) NewLockSetSet

/-! ## Example programs

Function 0 is the lock-acquire primitive `lock` and function 1 the lock-release
primitive `unlock`; the global `n` points to the lock object labelled by `exPta`. -/

/-- The call `lock(&g)` for the global `g`. -/
def lockCall (g : Nat) : Instruction := ⟨.Call (some 0) (.Function 0) [.Global g], 1⟩

/-- The call `unlock(&g)` for the global `g`. -/
def unlockCall (g : Nat) : Instruction := ⟨.Call (some 1) (.Function 1) [.Global g], 1⟩

/-- A static call of function `f` without arguments. -/
def plainCall (f : FuncId) : Instruction := ⟨.Call (some f) (.Function f) [], 1⟩

/-- A `return`. -/
def ret : Instruction := ⟨.Return [], 0⟩

/-- The function `func() { lock(&b); unlock(&b) }`. -/
def balancedFn : Function := ⟨[⟨[lockCall 0, unlockCall 0, ret], [], []⟩]⟩

/-- The function `func() { lock(&b) }`. -/
def unbalancedFn : Function := ⟨[⟨[lockCall 0, ret], [], []⟩]⟩

/-- The function `func() { if cond { lock(&b) } }` for a constant `cond`. -/
def branchFn (cond : Nat) : Function :=
  ⟨[⟨[⟨.If (.Const cond), 0⟩], [], [1, 2]⟩,
    ⟨[lockCall 0, ⟨.Other [], 0⟩], [0], [2]⟩,
    ⟨[ret], [0, 1], []⟩]⟩

/-- The function `func() { println() }`: a call of a builtin, which has no static
callee and no call-graph edge. -/
def printFn : Function := ⟨[⟨[⟨.Call none (.Builtin 0) [], 1⟩, ret], [], []⟩]⟩

/-- The function `func f() { f() }`, function 6 of `exProg`. -/
def selfFn : Function := ⟨[⟨[plainCall 6, ret], [], []⟩]⟩

/-- A function whose block 1 is `L: if c { goto L }` with itself as first
predecessor, and no instruction with a position. -/
def spinFn : Function :=
  ⟨[⟨[⟨.Other [], 0⟩], [], [1]⟩,
    ⟨[⟨.If (.Parameter 0), 0⟩], [1, 0], [1, 2]⟩,
    ⟨[ret], [1], []⟩]⟩

/-- The function `func p(c bool) { if c { lock(&b) } }`. -/
def eitherFn : Function :=
  ⟨[⟨[⟨.If (.Parameter 0), 0⟩], [], [1, 2]⟩,
    ⟨[lockCall 0, ret], [0], []⟩,
    ⟨[ret], [0], []⟩]⟩

/-- The function 11 of `exProg`:
`func g(c, d bool) { if c { return }; if d { lock(&b); g(); lock(&m) } else { unlock(&b); g() } }`. -/
def toggleFn : Function :=
  ⟨[⟨[⟨.If (.Parameter 0), 0⟩], [], [1, 2]⟩,
    ⟨[ret], [0], []⟩,
    ⟨[⟨.If (.Parameter 1), 0⟩], [0], [3, 4]⟩,
    ⟨[lockCall 0, plainCall 11, lockCall 1, ret], [2], []⟩,
    ⟨[unlockCall 0, plainCall 11, ret], [2], []⟩]⟩

/-- The function `func() { p(); g() }` with `p` function 10 and `g` function 11. -/
def topFn : Function := ⟨[⟨[plainCall 10, plainCall 11, ret], [], []⟩]⟩

/-- The function
`func f(c bool) { if c { return }; if c { return }; if c { lock(&b); return }; return }`,
function 12 of `exProg`. -/
def twiceFn : Function :=
  ⟨[⟨[⟨.If (.Parameter 0), 0⟩], [], [1, 2]⟩,
    ⟨[ret], [0], []⟩,
    ⟨[⟨.If (.Parameter 0), 0⟩], [0], [3, 4]⟩,
    ⟨[ret], [2], []⟩,
    ⟨[⟨.If (.Parameter 0), 0⟩], [2], [5, 6]⟩,
    ⟨[lockCall 0, ret], [4], []⟩,
    ⟨[ret], [4], []⟩]⟩

/-- The function
`func f(p int, c bool) { y := false; if c { y = p > 0 } else { }; if y { return }; return }`:
block 1 computes `t = p > 0`, block 3 starts with `y = phi [t, false]`.  `Const 0` is
`false` and `Const 1` the number `0`. -/
def phiFn : Function :=
  ⟨[⟨[⟨.If (.Parameter 1), 0⟩], [], [1, 2]⟩,
    ⟨[⟨.Other [some (.Parameter 0), some (.Const 1)], 1⟩, ⟨.Other [], 0⟩], [0], [3]⟩,
    ⟨[⟨.Other [], 0⟩], [0], [3]⟩,
    ⟨[⟨.Phi [.Instr 1 0, .Const 0], 0⟩, ⟨.If (.Instr 3 0), 0⟩], [1, 2], [4, 5]⟩,
    ⟨[ret], [3], []⟩,
    ⟨[ret], [3], []⟩]⟩

/-- The function
`func f(p bool) { x := g(); y := 0; if p { y = x } else { }; if y < x { return }; return }`:
`x` is instruction 0 of block 0, a call of the external function 8; block 3 starts
with `y = phi [x, 0]` and goes on with the comparison, whose operands are `rands`. -/
def joinFn (rands : List (Option Value)) : Function :=
  ⟨[⟨[plainCall 8, ⟨.If (.Parameter 0), 0⟩], [], [1, 2]⟩,
    ⟨[⟨.Other [], 0⟩], [0], [3]⟩,
    ⟨[⟨.Other [], 0⟩], [0], [3]⟩,
    ⟨[⟨.Phi [.Instr 0 0, .Const 0], 0⟩, ⟨.Other rands, 1⟩, ⟨.If (.Instr 3 1), 0⟩],
      [1, 2], [4, 5]⟩,
    ⟨[ret], [3], []⟩,
    ⟨[ret], [3], []⟩]⟩

/-- The function `func f(p bool) { x := g(); if p { if x { return } }; return }`:
`x` is instruction 0 of block 0, a call of the external function 8, and block 1 is
`if x`. -/
def useFn : Function :=
  ⟨[⟨[plainCall 8, ⟨.If (.Parameter 0), 0⟩], [], [1, 2]⟩,
    ⟨[⟨.If (.Instr 0 0), 0⟩], [0], [3, 2]⟩,
    ⟨[ret], [0, 1], []⟩,
    ⟨[ret], [1], []⟩]⟩

/-- The function `func f(c bool) { if c { f(c) } }`, function 13 of `exProg`. -/
def condSelfFn : Function :=
  ⟨[⟨[⟨.If (.Parameter 0), 0⟩], [], [1, 2]⟩,
    ⟨[⟨.Call (some 13) (.Function 13) [.Parameter 0], 1⟩, ⟨.Other [], 0⟩], [0], [2]⟩,
    ⟨[ret], [0, 1], []⟩]⟩

/-- The function `func f(c bool) { if c { f(c) }; g() }` with `g` function 3, which
acquires a lock; function 14 of `exProg`. -/
def condCallFn : Function :=
  ⟨[⟨[⟨.If (.Parameter 0), 0⟩], [], [1, 2]⟩,
    ⟨[⟨.Call (some 14) (.Function 14) [.Parameter 0], 1⟩, ⟨.Other [], 0⟩], [0], [2]⟩,
    ⟨[plainCall 3, ret], [0, 1], []⟩]⟩

/-- The functions of the example program; every other function is external. -/
def exFuncs : FuncId → Function
  | 2 => balancedFn
  | 3 => unbalancedFn
  | 4 => branchFn 1
  | 5 => printFn
  | 6 => selfFn
  | 7 => spinFn
  | 9 => topFn
  | 10 => eitherFn
  | 11 => toggleFn
  | 12 => twiceFn
  | 13 => condSelfFn
  | 14 => condCallFn
  | _ => ⟨[]⟩

/-- The points-to labels of the lock arguments: global 0 is `b`, global 1 is `m`. -/
def exPta : FuncId → Value → List String
  | _, .Global 0 => ["b"]
  | _, .Global 1 => ["m"]
  | _, _ => []

/-- The example program. -/
def exProg : Prog :=
  { funcs := exFuncs, lockFn := 0, unlockFn := 1, cg := fun _ => none, pta := exPta }

/-- A run of the example program that meets the entries of a map in stored order. -/
def exEnv : Env (List (Value × DynConst)) := { prog := exProg, ops := listOps, range := id }

/-- A run of the example program that meets the entries of a map in reverse order. -/
def exEnvRev : Env (List (Value × DynConst)) :=
  { prog := exProg, ops := listOps, range := List.reverse }

/-- A run of the example program with the value state `constOps`. -/
def exEnvConst : Env (List (Value × DynConst)) :=
  { prog := exProg, ops := constOps, range := id }

/-- The state after `walkFunction` of function 2 from the empty lockset in `initState`. -/
def balancedDone : State :=
  { fns := [(2, { exitLockSets := [("0", some ⟨[("0", ⟨0⟩)]⟩)], ifDeps := [[]] })]
    stack := []
    sp := { m := [("b", 0)], s := ["b"] } }

/-- The state inside the walk of function 13 from the empty lockset that starts in
`initState`: the record of the function holds the nil placeholder for the key "0" and
the function is on the stack. -/
def condMid : State :=
  { fns := [(13, { exitLockSets := [("0", none)], ifDeps := [[.Parameter 0], [], []] })]
    stack := [13]
    sp := NewStringSpace }

/-- The state after the walk of function 13 from the empty lockset in `initState`. -/
def condDone : State :=
  { fns := [(13, { exitLockSets := [("0", some ⟨[("0", ⟨0⟩)]⟩)],
                   ifDeps := [[.Parameter 0], [], []] })]
    stack := []
    sp := NewStringSpace }

/-- The state inside a walk of function 3 from the empty lockset that starts in
`balancedDone`. -/
def balancedThenInside : State :=
  { fns := [(2, { exitLockSets := [("0", some ⟨[("0", ⟨0⟩)]⟩)], ifDeps := [[]] }),
            (3, { exitLockSets := [("0", none)], ifDeps := [[]] })]
    stack := [3]
    sp := { m := [("b", 0)], s := ["b"] } }

/-- The control-flow graph of a function is well formed for the walk: successors are
blocks of the function, a phi has no more edges than its block has
predecessors, and a block with an `If` has a successor. -/
def WellFormed (fn : Function) : Prop :=
  ∀ blk ∈ fn.Blocks,
    (∀ b2 ∈ blk.Succs, b2 < fn.Blocks.length) ∧
    (∀ instr ∈ blk.Instrs, ∀ edges, instr.kind = .Phi edges →
      edges.length ≤ blk.Preds.length) ∧
    ((∃ instr ∈ blk.Instrs, ∃ c, instr.kind = .If c) → blk.Succs ≠ [])

/-- A `LockSetSet` that is empty or holds `L` alone. -/
def Small (L : LockSet) (lss : LockSetSet) : Prop :=
  lss.M = [] ∨ lss.M = [(L.Key, L)]

/-- The number of value states that the blocks `0 .. N-1` can still record under
the lockset key `key` before the cap of `walkBlock` stops them. -/
def slack {VS : Type} (N : Nat) (key : LockSetKey)
    (cache : List ((Nat × LockSetKey) × List VS)) : Nat :=
  ((List.range N).map (fun b => 11 - ((mapGet cache (b, key)).getD []).length)).sum

/-! ## The walk of a function that calls itself and external functions -/

/-- Every call in function `f` resolves to at least one callee, and each of its callees
is neither lock primitive and is `f` itself or an external function. -/
def SelfOrExternal (p : Prog) (f : FuncId) : Prop :=
  ∀ b blk idx static fn args pos, (p.funcs f).Blocks[b]? = some blk →
    blk.Instrs[idx]? = some ⟨.Call static fn args, pos⟩ →
    callOuts p f (b, idx) static ≠ [] ∧
    ∀ o ∈ callOuts p f (b, idx) static,
      o ≠ p.lockFn ∧ o ≠ p.unlockFn ∧ (o = f ∨ (p.funcs o).Blocks = [])

/-- Whether the call at `site` of function `f` has an external function among its
callees. -/
def callPasses (p : Prog) (f : FuncId) (site : Nat × Nat) (static : Option FuncId) : Bool :=
  (callOuts p f site static).any (fun o => (p.funcs o).Blocks.isEmpty)

/-- Whether the instructions `instrs`, which start at index `idx` of block `b`, contain
no call without an external callee; `live` tells whether that holds for the
instructions before them. -/
def liveAfter (p : Prog) (f : FuncId) (b : Nat) : Nat → List Instruction → Bool → Bool
  | _, [], live => live
  | idx, i :: rest, live =>
    match i.kind with
    | .Call static _ _ => liveAfter p f b (idx + 1) rest (live && callPasses p f (b, idx) static)
    | _ => liveAfter p f b (idx + 1) rest live

/-- Whether the instructions `instrs`, which start at index `idx` of block `b`, contain
a `Return` that no call without an external callee precedes. -/
def recordsFrom (p : Prog) (f : FuncId) (b : Nat) : Nat → List Instruction → Bool → Bool
  | _, [], _ => false
  | idx, i :: rest, live =>
    match i.kind with
    | .Call static _ _ =>
      recordsFrom p f b (idx + 1) rest (live && callPasses p f (b, idx) static)
    | .Return _ => live || recordsFrom p f b (idx + 1) rest live
    | _ => recordsFrom p f b (idx + 1) rest live

/-- The variable `ifCond` of `walkBlock` after the instructions `instrs`. -/
def condAfter : List Instruction → Option Value → Option Value
  | [], c => c
  | i :: rest, c =>
    match i.kind with
    | .If cond => condAfter rest (some cond)
    | _ => condAfter rest c

/-- The frontier that holds `L` alone, or nothing. -/
def frontierOf (L : LockSet) (live : Bool) : LockSetSet :=
  if live then NewLockSetSet.Add L else NewLockSetSet

/-- The blocks and value states with which the walk of `f` can call `walkBlock`: the
entry block with the nil state, and a successor `b2` that `walkBlock` follows from a
block `b` that arises with `vs` and contains no call without an external callee, with
the state that `walkBlock` hands to `b2`. -/
inductive Arises {VS : Type} (env : Env VS) (f : FuncId) : Nat → VS → Prop where
  | entry : Arises env f 0 env.ops.nil
  | step (b : Nat) (blk : BasicBlock) (vs : VS) (succs : List Nat) (i b2 : Nat) (vs2 : VS) :
      Arises env f b vs → (env.prog.funcs f).Blocks[b]? = some blk →
      liveAfter env.prog f b 0 blk.Instrs true = true →
      pruneSuccs blk.Succs (resolveCond env.ops (runDo env.ops b 0 blk.Instrs vs)
        (condAfter blk.Instrs none)) = .ok succs →
      succs[i]? = some b2 →
      succState env.ops (env.prog.funcs f) b (runDo env.ops b 0 blk.Instrs vs)
        (condAfter blk.Instrs none) i b2 = .ok vs2 →
      Arises env f b2 vs2

/-- The value state decides the branch of block `b` in no state with which the block
arises (a block without an `If` has no branch to decide). -/
def Undecided {VS : Type} (env : Env VS) (f : FuncId) (b : Nat) : Prop :=
  ∀ blk vs, (env.prog.funcs f).Blocks[b]? = some blk → Arises env f b vs →
    resolveCond env.ops (runDo env.ops b 0 blk.Instrs vs) (condAfter blk.Instrs none) = none

/-- The blocks that the walk of `f` reaches whatever the value state does: the entry
block, and every successor of such a block that contains no call without an external
callee and whose branch the value state does not decide. -/
inductive Direct {VS : Type} (env : Env VS) (f : FuncId) : Nat → Prop where
  | entry : Direct env f 0
  | step (b : Nat) (blk : BasicBlock) (b2 : Nat) :
      Direct env f b → (env.prog.funcs f).Blocks[b]? = some blk →
      liveAfter env.prog f b 0 blk.Instrs true = true → Undecided env f b →
      b2 ∈ blk.Succs → Direct env f b2

/-- Block `b` of function `f` has a `Return` that no call without an external callee
precedes in the block. -/
def Records (p : Prog) (f : FuncId) (b : Nat) : Prop :=
  ∃ blk, (p.funcs f).Blocks[b]? = some blk ∧ recordsFrom p f b 0 blk.Instrs true = true

/-- The analysis state during the walk of `f` from `L`: the record of `f` has one live
set for each of the `N` blocks and the nil placeholder for `L`. -/
def InWalk (f : FuncId) (L : LockSet) (N : Nat) (s : State) : Prop :=
  ∃ fi, mapGet s.fns f = some fi ∧ fi.ifDeps.length = N ∧
    mapGet fi.exitLockSets L.Key = some none

/-- The setting of the walk of a function `f` from the lockset `L` whose calls resolve
to `f` and to external functions: `wf` is the function walker, which finds the
placeholder of the walk in progress and returns the entry lockset for an external
function. -/
structure FlowWalk {VS : Type} (env : Env VS)
    (wf : FuncId → LockSet → State → Except Halt (Option LockSetSet × State))
    (f : FuncId) (L : LockSet) (EB : Nat) : Prop where
  range_ok : ∀ l, (env.range l).Perm l
  calls : SelfOrExternal env.prog f
  body : (env.prog.funcs f).Blocks ≠ []
  wellFormed : WellFormed (env.prog.funcs f)
  back : ∀ s, InWalk f L (env.prog.funcs f).Blocks.length s → wf f L s = .ok (none, s)
  ext : ∀ o s, (env.prog.funcs o).Blocks = [] →
    InWalk f L (env.prog.funcs f).Blocks.length s →
    ∃ s1, wf o L s = .ok (some (NewLockSetSet.Add L), s1) ∧
      InWalk f L (env.prog.funcs f).Blocks.length s1
  pos : ∀ b, b < (env.prog.funcs f).Blocks.length →
    ∃ p, exitPos (env.prog.funcs f) EB b = .ok p

/-- Block `c` has a recorded state for the lockset key `key`. -/
def Ran {VS : Type} (key : LockSetKey) (cache : List ((Nat × LockSetKey) × List VS))
    (c : Nat) : Prop :=
  (mapGet cache (c, key)).getD [] ≠ []

/-- What a part of the walk of `f` from `L` that leads from the walk `w` to the walk
`w1` has done. -/
structure FlowPost {VS : Type} (env : Env VS) (f : FuncId) (L : LockSet) (w w1 : Walk VS) :
    Prop where
  state : InWalk f L (env.prog.funcs f).Blocks.length w1.s
  small : Small L w1.exitLockSets
  less : slack (env.prog.funcs f).Blocks.length L.Key w1.blockCache ≤
    slack (env.prog.funcs f).Blocks.length L.Key w.blockCache
  ran : ∀ c, Ran L.Key w.blockCache c → Ran L.Key w1.blockCache c
  exits : w.exitLockSets.M ≠ [] → w1.exitLockSets.M ≠ []
  closed : ∀ c, Ran L.Key w1.blockCache c → ¬ Ran L.Key w.blockCache c →
    (Records env.prog f c → w1.exitLockSets.M ≠ []) ∧
    ∀ blk, (env.prog.funcs f).Blocks[c]? = some blk →
      liveAfter env.prog f c 0 blk.Instrs true = true → Undecided env f c →
      ∀ c2 ∈ blk.Succs, Ran L.Key w1.blockCache c2
  sound : w1.exitLockSets.M ≠ [] → w.exitLockSets.M ≠ [] ∨
    ∃ c vs, Arises env f c vs ∧ Records env.prog f c

/-- A block walker that returns on every block that arises while the slack is at most
`m`, having done what `FlowPost` says and with the block recorded. -/
def GoodFlow {VS : Type} (env : Env VS) (f : FuncId) (L : LockSet) (m : Nat)
    (rec : Nat → VS → LockSet → Walk VS → Except Halt (Walk VS)) : Prop :=
  ∀ b vs w, b < (env.prog.funcs f).Blocks.length → Arises env f b vs →
    InWalk f L (env.prog.funcs f).Blocks.length w.s → Small L w.exitLockSets →
    slack (env.prog.funcs f).Blocks.length L.Key w.blockCache ≤ m →
    ∃ w1, rec b vs L w = .ok w1 ∧ FlowPost env f L w w1 ∧ Ran L.Key w1.blockCache b

/-- The blocks that can be reached from the entry block through blocks that contain no
call without an external callee. -/
inductive Passes (p : Prog) (f : FuncId) : Nat → Prop where
  | entry : Passes p f 0
  | step (b : Nat) (blk : BasicBlock) (b2 : Nat) :
      Passes p f b → (p.funcs f).Blocks[b]? = some blk →
      liveAfter p f b 0 blk.Instrs true = true → b2 ∈ blk.Succs → Passes p f b2

/-- The state after `walkFunction` of function 6 from the empty lockset in `initState`. -/
def selfDone : State :=
  { fns := [(6, { exitLockSets := [("0", some ⟨[]⟩)], ifDeps := [[]] })]
    stack := []
    sp := NewStringSpace }

/-! ## The backward walk of `livenessFor` -/

/-- The value `d` is marked live in block `b`. -/
def Marked (deps : Deps) (d : Value) (b : Nat) : Prop := d ∈ deps.getD b []

instance (deps : Deps) (d : Value) (b : Nat) : Decidable (Marked deps d b) := by
  unfold Marked; infer_instance

/-- The field `Preds` of block `b`; empty for an index that is not a block. -/
def predsOf (fn : Function) (b : Nat) : List Nat :=
  match fn.Blocks[b]? with
  | some blk => blk.Preds
  | none => []

/-- Whether the closure `walk` returns from block `use` right after marking `d`
there: the cases of its type switch. -/
def stopsAt (fn : Function) (d : Value) (use : Nat) : Bool :=
  match d with
  | .Const _ | .Global _ | .Function _ | .Builtin _ => true
  | .Parameter _ | .FreeVar _ => (predsOf fn use).length == 0
  | .Instr blk _ => blk == use

/-- The blocks that a walk for `d` from block `u` reaches when it starts with the
marks `deps`: `u` itself if `d` is not marked there, and every predecessor, not yet
marked, of a reached block in which the walk does not stop. -/
inductive Reaches (fn : Function) (d : Value) (deps : Deps) (u : Nat) : Nat → Prop where
  | start : ¬ Marked deps d u → Reaches fn d deps u u
  | step (c b : Nat) : Reaches fn d deps u c → stopsAt fn d c = false → b ∈ predsOf fn c →
      ¬ Marked deps d b → Reaches fn d deps u b

/-- Every predecessor entry of every block is the index of a block. -/
def ValidPreds (fn : Function) : Prop :=
  ∀ b, ∀ p ∈ predsOf fn b, p < fn.Blocks.length

/-- The number of blocks among the first `n` in which `d` is not marked. -/
def unmarked (n : Nat) (deps : Deps) (d : Value) : Nat :=
  ((Finset.range n).filter (fun b => ¬ Marked deps d b)).card

/-- What a call `walk(d, u)` that returns has done to the marks. -/
structure WalkPost (fn : Function) (d : Value) (deps : Deps) (u : Nat) (deps1 : Deps) :
    Prop where
  length : deps1.length = deps.length
  keeps : ∀ d1 b, Marked deps d1 b → Marked deps1 d1 b
  others : ∀ d1 b, d1 ≠ d → Marked deps1 d1 b → Marked deps d1 b
  here : Marked deps1 d u
  reached : ∀ b, Marked deps1 d b → ¬ Marked deps d b → Reaches fn d deps u b
  closed : ∀ c, Marked deps1 d c → ¬ Marked deps d c → stopsAt fn d c = false →
    predsOf fn c ≠ [] ∧ ∀ p ∈ predsOf fn c, Marked deps1 d p

/-- What the loop over the predecessors `ps` has done to the marks when it returns. -/
structure LoopPost (fn : Function) (d : Value) (deps : Deps) (ps : List Nat) (deps1 : Deps) :
    Prop where
  length : deps1.length = deps.length
  keeps : ∀ d1 b, Marked deps d1 b → Marked deps1 d1 b
  others : ∀ d1 b, d1 ≠ d → Marked deps1 d1 b → Marked deps d1 b
  preds : ∀ p ∈ ps, Marked deps1 d p
  reached : ∀ b, Marked deps1 d b → ¬ Marked deps d b → ∃ p ∈ ps, Reaches fn d deps p b
  closed : ∀ c, Marked deps1 d c → ¬ Marked deps d c → stopsAt fn d c = false →
    predsOf fn c ≠ [] ∧ ∀ p ∈ predsOf fn c, Marked deps1 d p

/-- The outcome of a walk for `d` from `u`: it returns with `WalkPost`, or it is fatal
and has reached a block without predecessors in which it does not stop. -/
def WalkSpec (fn : Function) (d : Value) (u : Nat) (deps : Deps) (r : Except Halt Deps) :
    Prop :=
  (∃ deps1, r = .ok deps1 ∧ WalkPost fn d deps u deps1) ∨
  (r = .error .fatal ∧
    ∃ b, Reaches fn d deps u b ∧ stopsAt fn d b = false ∧ predsOf fn b = [])

/-- A value without a definition: the first case of the type switch in `walk`. -/
def Value.isDefFree : Value → Bool
  | .Const _ | .Global _ | .Function _ | .Builtin _ => true
  | _ => false

/-- A value defined at function entry: the second case of the type switch in `walk`. -/
def Value.isEntryDef : Value → Bool
  | .Parameter _ | .FreeVar _ => true
  | _ => false

/-- The instruction at position `(block, idx)`, if there is one. -/
def instrAt (fn : Function) (val : Nat × Nat) : Option Instruction :=
  match fn.Blocks[val.1]? with
  | some blk => blk.Instrs[val.2]?
  | none => none

/-- The starts of the backward walks of `livenessFor`: `walk(d, u)` is called for an
operand `d` of an instruction of block `u` that is not a phi, and for the `k`-th edge
`d` of a phi with `u` the `k`-th predecessor of the phi's block. -/
def WalkStart (fn : Function) (d : Value) (u : Nat) : Prop :=
  ∃ b idx ins, instrAt fn (b, idx) = some ins ∧
    (((∀ es, ins.kind ≠ .Phi es) ∧ some d ∈ ins.Operands ∧ u = b) ∨
      ∃ (es : List Value) (k : Nat), ins.kind = .Phi es ∧ es[k]? = some d ∧
        (predsOf fn b)[k]? = some u)

/-- Some walk that `livenessFor` can start leads, through blocks in which it does not
stop, to a block without predecessors in which it does not stop either. -/
def BadReach (fn : Function) : Prop :=
  ∃ d u b, WalkStart fn d u ∧ Reaches fn d [] u b ∧ stopsAt fn d b = false ∧ predsOf fn b = []

/-- The length of the longest block. -/
def maxInstrs (fn : Function) : Nat := (fn.Blocks.map (fun b => b.Instrs.length)).foldr max 0

/-- The number of instruction positions that `doInstr` has not visited, counted in
the rectangle of all blocks by the length of the longest one. -/
def unvisited (fn : Function) (st : Live) : Nat :=
  ((Finset.range fn.Blocks.length ×ˢ Finset.range (maxInstrs fn)).filter
    (fun p => p ∉ st.visited)).card

/-- Fuel that `livenessFor` never runs out of on `fn`. -/
def liveFuel (fn : Function) : Nat :=
  fn.Blocks.length * maxInstrs fn + fn.Blocks.length + 2

/-- The program representation is closed: predecessor entries are blocks, an operand
defined by an instruction is an instruction of the function, and a phi has no more
edges than its block has predecessors. -/
structure ValidFn (fn : Function) : Prop where
  preds : ValidPreds fn
  rands : ∀ val ins, instrAt fn val = some ins → (∀ es, ins.kind ≠ .Phi es) →
    ∀ D i, some (Value.Instr D i) ∈ ins.Operands → (instrAt fn (D, i)).isSome = true
  phis : ∀ b idx ins es, instrAt fn (b, idx) = some ins → ins.kind = .Phi es →
    es.length ≤ (predsOf fn b).length

/-- What a call of `doInstr` that returns has kept: the number of live sets and the
visited instructions. -/
def DoPost (st st1 : Live) : Prop :=
  st1.deps.length = st.deps.length ∧ ∀ v ∈ st.visited, v ∈ st1.visited

/-- Block `D` dominates block `B`: every path from the entry block 0 to `B` along
control-flow edges passes through `D`.  An edge from `a` to `b` is an entry `a` of
`b.Preds`. -/
def Dominates (fn : Function) (D B : Nat) : Prop :=
  ∀ path : List Nat, path.head? = some 0 → path.getLast? = some B →
    List.Chain' (fun a b => a ∈ predsOf fn b) path → D ∈ path

/-- Well-formed SSA form: the representation is closed, the entry block 0 is the only
block without predecessors, the defining block of an operand of an instruction that
is not a phi dominates the instruction's block, and the defining block of the `k`-th
edge of a phi dominates the `k`-th predecessor of the phi's block. -/
structure WellFormedSSA (fn : Function) : Prop where
  valid : ValidFn fn
  entry : ∀ b, b < fn.Blocks.length → predsOf fn b = [] → b = 0
  uses : ∀ b idx ins D i, instrAt fn (b, idx) = some ins → (∀ es, ins.kind ≠ .Phi es) →
    some (Value.Instr D i) ∈ ins.Operands → Dominates fn D b
  phiUses : ∀ b idx ins (es : List Value) (k : Nat) D i p, instrAt fn (b, idx) = some ins →
    ins.kind = .Phi es → es[k]? = some (Value.Instr D i) → (predsOf fn b)[k]? = some p →
    Dominates fn D p

/-- No `(block, lockset)` pair of the block cache has more than 11 recorded states. -/
def CacheSmall {VS : Type} (cache : List ((Nat × LockSetKey) × List VS)) : Prop :=
  ∀ key l, mapGet cache key = some l → l.length ≤ 11

/-- A walk of function 12 in which block 2 with the empty lockset has 11 recorded
states that bind the parameter to true. -/
def fullWalk : Walk (List (Value × DynConst)) :=
  { s := { fns := [(12, { exitLockSets := [],
                          ifDeps := [[], [], [.Parameter 0], [], [], [], []] })],
           stack := [], sp := NewStringSpace }
    blockCache := [((2, "0"), List.replicate 11 [(.Parameter 0, ⟨true⟩)])]
    exitLockSets := NewLockSetSet }

/-! ## The walks that `livenessFor` starts -/

/-- A call `walk(d, use)` of the closure `walk` of `livenessFor`, with the marks
`deps` at the time of the call. -/
structure WalkCall where
  d : Value
  use : Nat
  deps : Deps
deriving DecidableEq, Repr

/-- The calls of `walk` that the phi loop of `doInstr` makes, in order, up to the first
one that does not return; `recLog` lists the calls of a nested `doInstr`. -/
def doPhiEdgesLog (walkF : Value → Nat → Deps → Except Halt Deps)
    (rec : Nat × Nat → Live → Except Halt Live) (recLog : Nat × Nat → Live → List WalkCall)
    (self : Nat × Nat) (preds : List Nat) : Nat → List Value → Live → List WalkCall
  | _, [], _ => []
  | i, rand :: rest, st =>
    let deps1 := depsAdd st.deps self.1 rand
    match preds[i]? with
    | none => []
    | some pred =>
      ⟨rand, pred, deps1⟩ ::
        match walkF rand pred deps1 with
        | .error _ => []
        | .ok deps2 =>
          recLog self { st with deps := deps2 } ++
            match rec self { st with deps := deps2 } with
            | .error _ => []
            | .ok st1 => doPhiEdgesLog walkF rec recLog self preds (i + 1) rest st1

/-- The calls of `walk` that the operand loop of `doInstr` makes for an instruction of
block `blk` that is not a phi, in order, up to the first one that does not return. -/
def doRandsLog (walkF : Value → Nat → Deps → Except Halt Deps)
    (rec : Nat × Nat → Live → Except Halt Live) (recLog : Nat × Nat → Live → List WalkCall)
    (blk : Nat) : List (Option Value) → Live → List WalkCall
  | [], _ => []
  | none :: rest, st => doRandsLog walkF rec recLog blk rest st
  | some rand :: rest, st =>
    ⟨rand, blk, st.deps⟩ ::
      match walkF rand blk st.deps with
      | .error _ => []
      | .ok deps1 =>
        match rand with
        | .Instr b i =>
          recLog (b, i) { st with deps := deps1 } ++
            match rec (b, i) { st with deps := deps1 } with
            | .error _ => []
            | .ok st1 => doRandsLog walkF rec recLog blk rest st1
        | _ => doRandsLog walkF rec recLog blk rest { st with deps := deps1 }

/-- The calls of `walk` that a call of `doInstr` makes, nested calls of `doInstr`
included. -/
def doInstrLog (f : Function) : Nat → Nat × Nat → Live → List WalkCall
  | 0 => fun _ _ => []
  | fuel + 1 => fun val st =>
    if val ∈ st.visited then []
    else
      let st1 : Live := { st with visited := st.visited ++ [val] }
      match f.Blocks[val.1]? with
      | none => []
      | some blk =>
        match blk.Instrs[val.2]? with
        | none => []
        | some ins =>
          match ins.kind with
          | .Phi edges =>
            doPhiEdgesLog (walk f fuel) (doInstr f fuel) (doInstrLog f fuel) val blk.Preds 0
              edges st1
          | _ =>
            doRandsLog (walk f fuel) (doInstr f fuel) (doInstrLog f fuel) val.1 ins.Operands st1

/-- The calls of `walk` that the loop `for _, val := range vals { doInstr(val) }` makes. -/
def doValsLog (f : Function) (fuel : Nat) : List (Nat × Nat) → Live → List WalkCall
  | [], _ => []
  | val :: rest, st =>
    doInstrLog f fuel val st ++
      match doInstr f fuel val st with
      | .error _ => []
      | .ok st1 => doValsLog f fuel rest st1

/-- The backward walks that `livenessFor(f, vals)` starts: every call `walk(d, use)`
that `doInstr` makes, in order, with the marks at the time of the call, up to the
first one that does not return. -/
def walksOf (fuel : Nat) (f : Function) (vals : List (Nat × Nat)) : List WalkCall :=
  doValsLog f fuel vals { deps := List.replicate f.Blocks.length [], visited := [] }

/-- The walk of the call reaches a block without predecessors in which it does not
stop. -/
def WalkCall.Stuck (fn : Function) (c : WalkCall) : Prop :=
  ∃ b, Reaches fn c.d c.deps c.use b ∧ stopsAt fn c.d b = false ∧ predsOf fn b = []

/-- What a part of `livenessFor` whose walks are `log` has done when its result is
`r`: it has returned and no walk was stuck, or it has ended in `log.Fatalf` and a walk
was stuck. -/
def LogSpec (fn : Function) (st : Live) (r : Except Halt Live) (log : List WalkCall) : Prop :=
  (∃ st1, r = .ok st1 ∧ DoPost st st1 ∧ ∀ c ∈ log, ¬ c.Stuck fn) ∨
    (r = .error .fatal ∧ ∃ c ∈ log, c.Stuck fn)

/-- A function with two blocks without predecessors: block 0 is `x := g(); return` and
block 1 uses `x`, which no path from a block without predecessors to block 1 defines. -/
def orphanFn : Function :=
  ⟨[⟨[plainCall 8, ret], [], []⟩,
    ⟨[⟨.Other [some (.Instr 0 0)], 1⟩, ret], [], []⟩]⟩

/-! ## Order independence: the walk of a program without recursion -/

/-- The string space `SP` is `sp` after further labels have been interned. -/
def Ext (sp SP : StringSpace) : Prop := ∃ R, SP = internAll R sp

/-- Every label of `labels` is interned in `sp`. -/
def Interned (sp : StringSpace) (labels : List String) : Prop :=
  ∀ l ∈ labels, ∃ id, mapGet sp.m l = some id

/-- The lockset `x` is a member of `lss`, stored under its canonical key. -/
def LockSetSet.has (lss : LockSetSet) (x : LockSet) : Prop := (x.Key, x) ∈ lss.M

/-- What a call of a function does, whatever the order of the walk: `rel SP x y` tells
that the function entered with the lockset `x` can exit with `y` (the bits are those of
the string space `SP`), `labels` are the lock labels that its walk interns, in the order
in which it meets them, and `returns` tells whether it can exit at all. -/
structure Summary where
  rel : StringSpace → LockSet → LockSet → Prop
  labels : List String
  returns : Bool

/-- The summary of an external function: it exits with the lockset it is entered
with. -/
def extSummary : Summary := ⟨fun _ x y => y = x, [], true⟩

/-- The lock argument `args[0]` of a call of a lock primitive. -/
def lockArg (p : Prog) (f : FuncId) (args : List Value) : List String :=
  match args with
  | a0 :: _ => p.pta f a0
  | [] => []

/-- What the callee `o` of a call in `f` makes of the frontier member `x`. -/
def Step (p : Prog) (σ : FuncId → Summary) (SP : StringSpace) (f : FuncId)
    (args : List Value) (o : FuncId) (x y : LockSet) : Prop :=
  if o = p.lockFn then y = (x.Plus (lockArg p f args) SP).2
  else if o = p.unlockFn then y = (x.Minus (lockArg p f args) SP).2
  else (σ o).rel SP x y

/-- The labels that the callee `o` of a call in `f` interns. -/
def outLabels (p : Prog) (σ : FuncId → Summary) (f : FuncId) (args : List Value)
    (o : FuncId) : List String :=
  if o = p.lockFn then lockArg p f args
  else if o = p.unlockFn then lockArg p f args
  else (σ o).labels

/-- Whether the callee `o` hands a lockset back. -/
def outLive (p : Prog) (σ : FuncId → Summary) (o : FuncId) : Bool :=
  if o = p.lockFn then true
  else if o = p.unlockFn then true
  else (σ o).returns

/-- Whether the frontier has a member after the instructions `instrs`, which start at
index `idx` of block `b`; `live` tells whether it has one before them. -/
def liveEnd (p : Prog) (σ : FuncId → Summary) (f : FuncId) (b : Nat) :
    Nat → List Instruction → Bool → Bool
  | _, [], live => live
  | idx, i :: rest, live =>
    match i.kind with
    | .Call static _ _ =>
      liveEnd p σ f b (idx + 1) rest (live && (callOuts p f (b, idx) static).any (outLive p σ))
    | _ => liveEnd p σ f b (idx + 1) rest live

/-- Whether the instructions `instrs` record an exit lockset: they contain a `Return`
that is met with a member in the frontier. -/
def retsIn (p : Prog) (σ : FuncId → Summary) (f : FuncId) (b : Nat) :
    Nat → List Instruction → Bool → Bool
  | _, [], _ => false
  | idx, i :: rest, live =>
    match i.kind with
    | .Call static _ _ =>
      retsIn p σ f b (idx + 1) rest (live && (callOuts p f (b, idx) static).any (outLive p σ))
    | .Return _ => live || retsIn p σ f b (idx + 1) rest live
    | _ => retsIn p σ f b (idx + 1) rest live

/-- The labels that the instructions `instrs` intern, in order. -/
def labsInstrs (p : Prog) (σ : FuncId → Summary) (f : FuncId) (b : Nat) :
    Nat → List Instruction → Bool → List String
  | _, [], _ => []
  | idx, i :: rest, live =>
    match i.kind with
    | .Call static _ args =>
      (if live then (callOuts p f (b, idx) static).flatMap (outLabels p σ f args) else []) ++
        labsInstrs p σ f b (idx + 1) rest
          (live && (callOuts p f (b, idx) static).any (outLive p σ))
    | _ => labsInstrs p σ f b (idx + 1) rest live

/-- The frontier member `x` before the instructions `instrs` yields the member `y`
after them. -/
def Reach (p : Prog) (σ : FuncId → Summary) (SP : StringSpace) (f : FuncId) (b : Nat) :
    Nat → List Instruction → LockSet → LockSet → Prop
  | _, [], x, y => y = x
  | idx, i :: rest, x, y =>
    match i.kind with
    | .Call static _ args =>
      ∃ o ∈ callOuts p f (b, idx) static, ∃ z, Step p σ SP f args o x z ∧
        Reach p σ SP f b (idx + 1) rest z y
    | _ => Reach p σ SP f b (idx + 1) rest x y

/-- The frontier member `x` before the instructions `instrs` yields the exit lockset
`y` at a `Return` among them. -/
def RetIn (p : Prog) (σ : FuncId → Summary) (SP : StringSpace) (f : FuncId) (b : Nat) :
    Nat → List Instruction → LockSet → LockSet → Prop
  | _, [], _, _ => False
  | idx, i :: rest, x, y =>
    match i.kind with
    | .Call static _ args =>
      ∃ o ∈ callOuts p f (b, idx) static, ∃ z, Step p σ SP f args o x z ∧
        RetIn p σ SP f b (idx + 1) rest z y
    | .Return _ => y = x ∨ RetIn p σ SP f b (idx + 1) rest x y
    | _ => RetIn p σ SP f b (idx + 1) rest x y

/-- The successors that `walkBlock` follows from block `b` entered with the value state
`vs`. -/
def followed {VS : Type} (ops : ValStateOps VS) (b : Nat) (blk : BasicBlock) (vs : VS) :
    Except Halt (List Nat) :=
  pruneSuccs blk.Succs
    (resolveCond ops (runDo ops b 0 blk.Instrs vs) (condAfter blk.Instrs none))

/-- The value state that `walkBlock` hands to the `i`-th followed successor `b2` of
block `b` entered with `vs`. -/
def handed {VS : Type} (ops : ValStateOps VS) (fn : Function) (b : Nat) (blk : BasicBlock)
    (vs : VS) (i b2 : Nat) : Except Halt VS :=
  succState ops fn b (runDo ops b 0 blk.Instrs vs) (condAfter blk.Instrs none) i b2

/-- The blocks and value states with which the walk of `f` can call `walkBlock`: the
entry block with the nil state, and a followed successor with the state handed to
it. -/
inductive Enters {VS : Type} (p : Prog) (ops : ValStateOps VS) (f : FuncId) : Nat → VS → Prop where
  | entry : Enters p ops f 0 ops.nil
  | step (b : Nat) (blk : BasicBlock) (vs : VS) (succs : List Nat) (i b2 : Nat) (vs2 : VS) :
      Enters p ops f b vs → (p.funcs f).Blocks[b]? = some blk →
      followed ops b blk vs = .ok succs → succs[i]? = some b2 →
      handed ops (p.funcs f) b blk vs i b2 = .ok vs2 → Enters p ops f b2 vs2

/-- The walk of `f` from block `b`, entered with the value state `vs` and the lockset
`x`, records the exit lockset `y`. -/
inductive Exit {VS : Type} (p : Prog) (ops : ValStateOps VS) (σ : FuncId → Summary)
    (SP : StringSpace) (f : FuncId) : Nat → VS → LockSet → LockSet → Prop where
  | ret (b : Nat) (blk : BasicBlock) (vs : VS) (x y : LockSet) :
      (p.funcs f).Blocks[b]? = some blk → RetIn p σ SP f b 0 blk.Instrs x y →
      Exit p ops σ SP f b vs x y
  | succ (b : Nat) (blk : BasicBlock) (vs : VS) (x z y : LockSet) (succs : List Nat)
      (i b2 : Nat) (vs2 : VS) :
      (p.funcs f).Blocks[b]? = some blk → Reach p σ SP f b 0 blk.Instrs x z →
      followed ops b blk vs = .ok succs → succs[i]? = some b2 →
      handed ops (p.funcs f) b blk vs i b2 = .ok vs2 →
      Exit p ops σ SP f b2 vs2 z y → Exit p ops σ SP f b vs x y

/-- The labels that the walks of the successors `succs` intern, the first of which is
the `i`-th followed one; `child` gives the labels of a block. -/
def labsSuccs {VS : Type} (ops : ValStateOps VS) (fn : Function) (b : Nat) (blk : BasicBlock)
    (vs : VS) (child : Nat → VS → List String) : Nat → List Nat → List String
  | _, [] => []
  | i, b2 :: rest =>
    (match handed ops fn b blk vs i b2 with
      | .ok vs2 => child b2 vs2
      | .error _ => []) ++ labsSuccs ops fn b blk vs child (i + 1) rest

/-- Whether the walk of one of the successors `succs` records an exit lockset. -/
def retSuccs {VS : Type} (ops : ValStateOps VS) (fn : Function) (b : Nat) (blk : BasicBlock)
    (vs : VS) (child : Nat → VS → Bool) : Nat → List Nat → Bool
  | _, [] => false
  | i, b2 :: rest =>
    (match handed ops fn b blk vs i b2 with
      | .ok vs2 => child b2 vs2
      | .error _ => false) || retSuccs ops fn b blk vs child (i + 1) rest

/-- The labels that the walk of `f` from block `b` interns, in order, when the block is
entered with the value state `vs` and a lockset; `dep` decreases along the edges of the
control-flow graph. -/
def labsBlk {VS : Type} (p : Prog) (ops : ValStateOps VS) (σ : FuncId → Summary)
    (dep : Nat → Nat) (f : FuncId) (b : Nat) (vs : VS) : List String :=
  match (p.funcs f).Blocks[b]? with
  | none => []
  | some blk =>
    labsInstrs p σ f b 0 blk.Instrs true ++
      if liveEnd p σ f b 0 blk.Instrs true then
        match followed ops b blk vs with
        | .ok succs =>
          labsSuccs ops (p.funcs f) b blk vs
            (fun b2 vs2 => if dep b2 < dep b then labsBlk p ops σ dep f b2 vs2 else []) 0 succs
        | .error _ => []
      else []
termination_by dep b

/-- Whether the walk of `f` from block `b` records an exit lockset. -/
def retBlk {VS : Type} (p : Prog) (ops : ValStateOps VS) (σ : FuncId → Summary)
    (dep : Nat → Nat) (f : FuncId) (b : Nat) (vs : VS) : Bool :=
  match (p.funcs f).Blocks[b]? with
  | none => false
  | some blk =>
    retsIn p σ f b 0 blk.Instrs true ||
      (liveEnd p σ f b 0 blk.Instrs true &&
        match followed ops b blk vs with
        | .ok succs =>
          retSuccs ops (p.funcs f) b blk vs
            (fun b2 vs2 => if dep b2 < dep b then retBlk p ops σ dep f b2 vs2 else false) 0 succs
        | .error _ => false)
termination_by dep b

/-- The summary of function `g` in a program whose calls lead from a function to
functions of lower `rank` only. -/
def summary {VS : Type} (p : Prog) (ops : ValStateOps VS) (rank : FuncId → Nat)
    (dep : FuncId → Nat → Nat) (g : FuncId) : Summary :=
  if (p.funcs g).Blocks = [] then extSummary
  else
    { rel := fun SP x y =>
        Exit p ops (fun o => if rank o < rank g then summary p ops rank dep o else extSummary)
          SP g 0 ops.nil x y
      labels :=
        labsBlk p ops (fun o => if rank o < rank g then summary p ops rank dep o else extSummary)
          (dep g) g 0 ops.nil
      returns :=
        retBlk p ops (fun o => if rank o < rank g then summary p ops rank dep o else extSummary)
          (dep g) g 0 ops.nil }
termination_by rank g

/-- The result `r` of a call entered with the lockset `x` is what the summary says, in
every string space that extends `sp`. -/
structure GoodRes (S : Summary) (sp : StringSpace) (x : LockSet) (r : LockSetSet) : Prop where
  key : KeyInv r
  live : r.M ≠ [] ↔ S.returns = true
  has : ∀ SP, Ext sp SP → ∀ y, r.has y ↔ S.rel SP x y

/-- The function walker `wf` returns on the callee `o` in every state that satisfies
`Sinv`, with the result and the labels of the summary. -/
def CalleeOk (σ : FuncId → Summary) (Sinv : State → Prop)
    (wf : FuncId → LockSet → State → Except Halt (Option LockSetSet × State))
    (o : FuncId) : Prop :=
  ∀ x s, Sinv s → ∃ r s1, wf o x s = .ok (some r, s1) ∧ Sinv s1 ∧
    s1.sp = internAll (σ o).labels s.sp ∧ GoodRes (σ o) s1.sp x r

/-- The calls of block `b` of `f`: a call of a lock primitive has a lock argument, and
the function walker returns on every other callee. -/
def SiteOk (p : Prog) (σ : FuncId → Summary) (Sinv : State → Prop)
    (wf : FuncId → LockSet → State → Except Halt (Option LockSetSet × State))
    (f : FuncId) (b : Nat) (blk : BasicBlock) : Prop :=
  ∀ idx static fn args pos, blk.Instrs[idx]? = some ⟨.Call static fn args, pos⟩ →
    ∀ o ∈ callOuts p f (b, idx) static,
      ((o = p.lockFn ∨ o = p.unlockFn) → args ≠ []) ∧
      (o ≠ p.lockFn → o ≠ p.unlockFn → CalleeOk σ Sinv wf o)

/-- What the instructions `instrs` of block `b` have made of the frame of
`walkBlock`. -/
structure FrameSpec {VS : Type} (p : Prog) (ops : ValStateOps VS) (σ : FuncId → Summary)
    (Sinv : State → Prop) (f : FuncId) (b idx : Nat) (instrs : List Instruction) (live : Bool)
    (fr fr1 : Frame VS) : Prop where
  vs : fr1.vs = runDo ops b idx instrs fr.vs
  cond : fr1.ifCond = condAfter instrs fr.ifCond
  sinv : Sinv fr1.s
  sp : fr1.s.sp = internAll (labsInstrs p σ f b idx instrs live) fr.s.sp
  keyF : KeyInv fr1.lockSets
  keyE : KeyInv fr1.exitLockSets
  liveF : fr1.lockSets.M ≠ [] ↔ liveEnd p σ f b idx instrs live = true
  liveE : fr1.exitLockSets.M ≠ [] ↔
    fr.exitLockSets.M ≠ [] ∨ retsIn p σ f b idx instrs live = true
  front : ∀ SP, Ext fr1.s.sp SP → ∀ y, fr1.lockSets.has y ↔
    ∃ x, fr.lockSets.has x ∧ Reach p σ SP f b idx instrs x y
  exits : ∀ SP, Ext fr1.s.sp SP → ∀ y, fr1.exitLockSets.has y ↔
    fr.exitLockSets.has y ∨ ∃ x, fr.lockSets.has x ∧ RetIn p σ SP f b idx instrs x y

/-- The walk of `f` from block `c` with the lockset of key `k` is complete in the walk
`w`: its labels are interned and its exit locksets recorded. -/
def DoneAt {VS : Type} (p : Prog) (ops : ValStateOps VS) (σ : FuncId → Summary)
    (dep : Nat → Nat) (f : FuncId) (w : Walk VS) (c : Nat) (k : LockSetKey) : Prop :=
  ∀ x vs, x.Key = k → Enters p ops f c vs →
    Interned w.s.sp (labsBlk p ops σ dep f c vs) ∧
    (retBlk p ops σ dep f c vs = true → w.exitLockSets.M ≠ []) ∧
    ∀ SP, Ext w.s.sp SP → ∀ y, Exit p ops σ SP f c vs x y → w.exitLockSets.has y

/-- What a part of the walk of `f` that leads from the walk `w` to the walk `w1` has
added: the labels `labels` to the string space, the exit locksets `E` (one at least when
`ret` holds), and block walks that are complete. -/
structure Adds {VS : Type} (p : Prog) (ops : ValStateOps VS) (σ : FuncId → Summary)
    (Sinv : State → Prop) (dep : Nat → Nat) (f : FuncId) (w w1 : Walk VS)
    (labels : List String) (ret : Bool) (E : StringSpace → LockSet → Prop) : Prop where
  sinv : Sinv w1.s
  key : KeyInv w1.exitLockSets
  sp : w1.s.sp = internAll labels w.s.sp
  live : w1.exitLockSets.M ≠ [] ↔ w.exitLockSets.M ≠ [] ∨ ret = true
  has : ∀ SP, Ext w1.s.sp SP → ∀ y, w1.exitLockSets.has y ↔ w.exitLockSets.has y ∨ E SP y
  ran : ∀ c k, Ran k w.blockCache c → Ran k w1.blockCache c
  fresh : ∀ c k, Ran k w1.blockCache c → ¬ Ran k w.blockCache c → DoneAt p ops σ dep f w1 c k

/-- The setting of the walk of a function `f` with an acyclic control-flow graph, each
block of which is entered with one value state only: `wf` is the function walker, which
returns on every callee, and `Sinv` holds of the analysis state during the walk. -/
structure OrdWalk {VS : Type} (env : Env VS) (σ : FuncId → Summary) (Sinv : State → Prop)
    (wf : FuncId → LockSet → State → Except Halt (Option LockSetSet × State))
    (dep : Nat → Nat) (f : FuncId) (EB : Nat) : Prop where
  range_ok : ∀ l, (env.range l).Perm l
  stable : ∀ s l, Sinv s → Sinv { s with sp := internAll l s.sp }
  record : ∀ s, Sinv s → ∃ fi, mapGet s.fns f = some fi ∧
    fi.ifDeps.length = (env.prog.funcs f).Blocks.length
  sites : ∀ b blk, (env.prog.funcs f).Blocks[b]? = some blk →
    SiteOk env.prog σ Sinv wf f b blk
  wellFormed : WellFormed (env.prog.funcs f)
  acyclic : ∀ b blk, (env.prog.funcs f).Blocks[b]? = some blk →
    ∀ b2 ∈ blk.Succs, dep b2 < dep b
  unique : ∀ b vs vs2, Enters env.prog env.ops f b vs → Enters env.prog env.ops f b vs2 →
    vs = vs2
  pos : ∀ b, b < (env.prog.funcs f).Blocks.length →
    ∃ q, exitPos (env.prog.funcs f) EB b = .ok q

/-- A block walker that returns on every block below the depth `D`, having added what
the walk of the block adds. -/
def OrdRec {VS : Type} (env : Env VS) (σ : FuncId → Summary) (Sinv : State → Prop)
    (dep : Nat → Nat) (f : FuncId) (D : Nat)
    (rec : Nat → VS → LockSet → Walk VS → Except Halt (Walk VS)) : Prop :=
  ∀ b vs x w, b < (env.prog.funcs f).Blocks.length → dep b < D →
    Enters env.prog env.ops f b vs → Sinv w.s → KeyInv w.exitLockSets →
    (∀ c k, Ran k w.blockCache c → dep c < D → DoneAt env.prog env.ops σ dep f w c k) →
    ∃ w1, rec b vs x w = .ok w1 ∧
      Adds env.prog env.ops σ Sinv dep f w w1 (labsBlk env.prog env.ops σ dep f b vs)
        (retBlk env.prog env.ops σ dep f b vs)
        (fun SP y => Exit env.prog env.ops σ SP f b vs x y)

/-- The summaries of the callees of `g`: those of the functions of lower rank. -/
def calleeSummary {VS : Type} (p : Prog) (ops : ValStateOps VS) (rank : FuncId → Nat)
    (dep : FuncId → Nat → Nat) (g : FuncId) : FuncId → Summary :=
  fun o => if rank o < rank g then summary p ops rank dep o else extSummary

/-- Every memo entry of a finished walk holds what the summary of the function says, and
the labels of the function are interned. -/
def AllGood {VS : Type} (p : Prog) (ops : ValStateOps VS) (rank : FuncId → Nat)
    (dep : FuncId → Nat → Nat) (s : State) : Prop :=
  ∀ g k r, memoOf s g k = some (some r) → ∀ x : LockSet, x.Key = k →
    Interned s.sp (summary p ops rank dep g).labels ∧
    GoodRes (summary p ops rank dep g) s.sp x r

/-- Every record has one live set for each block of its function. -/
def RecsOk (p : Prog) (s : State) : Prop :=
  ∀ g fi, mapGet s.fns g = some fi → fi.ifDeps.length = (p.funcs g).Blocks.length

/-- The walks in progress are walks of functions of rank `m` at least. -/
def NoHole (rank : FuncId → Nat) (m : Nat) (s : State) : Prop :=
  ∀ g k, memoOf s g k = some none → m ≤ rank g

/-- The analysis state `s` inside a walk that started in the state `S`: the finished
walks are good, no walk in progress has been added and no record removed. -/
def InOrdWalk {VS : Type} (p : Prog) (ops : ValStateOps VS) (rank : FuncId → Nat)
    (dep : FuncId → Nat → Nat) (S s : State) : Prop :=
  AllGood p ops rank dep s ∧ RecsOk p s ∧
    (∀ g k, memoOf s g k = some none → memoOf S g k = some none) ∧
    (∀ g fi, mapGet S.fns g = some fi → ∃ fi1, mapGet s.fns g = some fi1)

/-- With the fuel `k`, `walkFunction` returns on the function `g` in every state whose
finished walks are good and whose walks in progress are of functions of higher rank: the
result is what the summary of `g` says. -/
def FnOk {VS : Type} (env : Env VS) (rank : FuncId → Nat) (dep : FuncId → Nat → Nat)
    (k : Nat) (g : FuncId) : Prop :=
  ∀ x s, AllGood env.prog env.ops rank dep s → RecsOk env.prog s →
    NoHole rank (rank g + 1) s →
    ∃ r s1, walkFunction env k g x s = .ok (some r, s1) ∧
      InOrdWalk env.prog env.ops rank dep s s1 ∧
      s1.sp = internAll (summary env.prog env.ops rank dep g).labels s.sp ∧
      GoodRes (summary env.prog env.ops rank dep g) s1.sp x r

/-- The functions for which the order of the walk is shown not to matter: a well-formed
control-flow graph without a cycle (`dep` decreases along its edges) each block of which
is entered with one value state only, on which `livenessFor` and `exitPos` return; a call
of a lock primitive has a lock argument, and every other callee is of lower rank. -/
structure Orderly {VS : Type} (p : Prog) (ops : ValStateOps VS) (rank : FuncId → Nat)
    (dep : Nat → Nat) (g : FuncId) : Prop where
  wellFormed : WellFormed (p.funcs g)
  live : ∃ n deps, livenessFor n (p.funcs g) (ifInstrsFrom 0 (p.funcs g).Blocks) = .ok deps
  pos : ∀ b, b < (p.funcs g).Blocks.length → ∃ n q, exitPos (p.funcs g) n b = .ok q
  calls : ∀ b blk idx static fn args pos, (p.funcs g).Blocks[b]? = some blk →
    blk.Instrs[idx]? = some ⟨.Call static fn args, pos⟩ →
    ∀ o ∈ callOuts p g (b, idx) static,
      ((o = p.lockFn ∨ o = p.unlockFn) → args ≠ []) ∧
      (o ≠ p.lockFn → o ≠ p.unlockFn → rank o < rank g)
  acyclic : ∀ b blk, (p.funcs g).Blocks[b]? = some blk → ∀ b2 ∈ blk.Succs, dep b2 < dep b
  unique : ∀ b vs vs2, Enters p ops g b vs → Enters p ops g b vs2 → vs = vs2

/-- The callee `o` of the call at `(b, idx)` of `g`, other than a lock primitive. -/
def CalleeAt (p : Prog) (g : FuncId) (b idx : Nat) (o : FuncId) : Prop :=
  ∃ blk static fn args pos, (p.funcs g).Blocks[b]? = some blk ∧
    blk.Instrs[idx]? = some (Instruction.mk (.Call static fn args) pos) ∧
    o ∈ callOuts p g (b, idx) static ∧ o ≠ p.lockFn ∧ o ≠ p.unlockFn

/-- A control-flow graph in which no two edges lead to the same block and none leads to
the entry block. -/
def TreeShaped (fn : Function) : Prop :=
  (∀ (b : Nat) (blk : BasicBlock), fn.Blocks[b]? = some blk → 0 ∉ blk.Succs ∧ blk.Succs.Nodup) ∧
  ∀ (b1 b2 : Nat) (blk1 blk2 : BasicBlock) (c : Nat), fn.Blocks[b1]? = some blk1 → fn.Blocks[b2]? = some blk2 →
    c ∈ blk1.Succs → c ∈ blk2.Succs → b1 = b2

/-! ## Order independence: the example program -/

/-- A value state that knows no value: it decides no branch and finds any two states
equal. -/
def blindOps : ValStateOps Unit :=
  { nil := ()
    Do := fun _ _ _ => ()
    Get := fun _ _ => none
    Extend := fun _ _ _ => ()
    EqualAt := fun _ _ _ => true }

/-- The function `func h() { p(); lock(&m) }` with `p` function 10, function 15 of
`ordProg`. -/
def afterEitherFn : Function := ⟨[⟨[plainCall 10, lockCall 1, ret], [], []⟩]⟩

/-- The function
`func j(p bool) { x := e(); y := 0; if x { if p { } else { unlock(&b); y = x } } else { lock(&b) };
  if y < x { if x { lock(&m) } } }`
with `e` function 10, function 17 of `ordProg`: block 3 is the join of the branches
`x && p` and `!x`, and block 5 starts with `y = phi [x, 0]`. -/
def joinLockFn : Function :=
  ⟨[⟨[plainCall 10, ⟨.If (.Instr 0 0), 0⟩], [], [1, 2]⟩,
    ⟨[⟨.If (.Parameter 0), 0⟩], [0], [3, 4]⟩,
    ⟨[lockCall 0, ⟨.Other [], 0⟩], [0], [3]⟩,
    ⟨[⟨.Other [], 0⟩], [1, 2], [5]⟩,
    ⟨[unlockCall 0, ⟨.Other [], 0⟩], [1], [5]⟩,
    ⟨[⟨.Phi [.Instr 0 0, .Const 0], 0⟩, ⟨.Other [some (.Instr 5 0), some (.Instr 0 0)], 1⟩,
      ⟨.If (.Instr 5 1), 0⟩], [4, 3], [6, 7]⟩,
    ⟨[⟨.If (.Instr 0 0), 0⟩], [5], [8, 9]⟩,
    ⟨[ret], [5], []⟩,
    ⟨[lockCall 1, ret], [6], []⟩,
    ⟨[ret], [6], []⟩]⟩

/-- The function
`func q(c, d bool) { for { if !c { lock(&y); return }; lock(&b); if !d { lock(&m); return } } }`,
function 18 of `ordProg`. -/
def loopFn : Function :=
  ⟨[⟨[⟨.If (.Parameter 0), 0⟩], [3], [1, 2]⟩,
    ⟨[lockCall 0, ⟨.Other [], 0⟩], [0], [3]⟩,
    ⟨[lockCall 2, ret], [0], []⟩,
    ⟨[⟨.If (.Parameter 1), 0⟩], [1], [0, 4]⟩,
    ⟨[lockCall 1, ret], [3], []⟩]⟩

/-- The function `func() { p(); q() }` with `p` function 10 and `q` function 18,
function 19 of `ordProg`. -/
def loopCallerFn : Function := ⟨[⟨[plainCall 10, plainCall 18, ret], [], []⟩]⟩

/-- The functions of the program `ordProg`; every other function is external. -/
def ordFuncs : FuncId → Function
  | 10 => eitherFn
  | 15 => afterEitherFn
  | 17 => joinLockFn
  | 18 => loopFn
  | 19 => loopCallerFn
  | _ => ⟨[]⟩

/-- The points-to labels of the lock arguments in `ordProg`. -/
def ordPta : FuncId → Value → List String
  | _, .Global 0 => ["b"]
  | _, .Global 1 => ["m"]
  | _, .Global 2 => ["y"]
  | _, _ => []

/-- A program without recursion. -/
def ordProg : Prog :=
  { funcs := ordFuncs, lockFn := 0, unlockFn := 1, cg := fun _ => none, pta := ordPta }

/-- Runs of `ordProg` that meet the entries of a map in stored order and in reverse
order, with the value state `listOps`. -/
def ordEnv : Env (List (Value × DynConst)) := { prog := ordProg, ops := listOps, range := id }

/-- The run of `ordProg` in reverse order. -/
def ordEnvRev : Env (List (Value × DynConst)) :=
  { prog := ordProg, ops := listOps, range := List.reverse }

/-- The run of `ordProg` in stored order with the value state `blindOps`. -/
def blindEnv : Env Unit := { prog := ordProg, ops := blindOps, range := id }

/-- The run of `ordProg` in reverse order with the value state `blindOps`. -/
def blindEnvRev : Env Unit := { prog := ordProg, ops := blindOps, range := List.reverse }

/-- The rank of the functions of `ordProg`: function 15 calls function 10. -/
def ordRank : FuncId → Nat
  | 15 => 1
  | 17 => 2
  | 18 => 2
  | 19 => 3
  | _ => 0

/-- The depth of the blocks in the functions of `ordProg` without a cycle. -/
def ordDep : FuncId → Nat → Nat := fun _ b => if b = 0 then 1 else 0

/-! # Theorems -/

/-! ## Maps, interning and bit sets -/

theorem mapGet_mapSet_self {κ ν : Type} [DecidableEq κ] (m : List (κ × ν)) (k : κ) (v : ν) :
    mapGet (mapSet m k v) k = some v := by
  induction m with
  | nil => simp [mapSet, mapGet]
  | cons p rest ih =>
    obtain ⟨k', v'⟩ := p
    by_cases h : k' = k
    · simp [mapSet, mapGet, h]
    · simp [mapSet, mapGet, h, ih]

theorem mapGet_mapSet_of_ne {κ ν : Type} [DecidableEq κ] (m : List (κ × ν)) (k k2 : κ) (v : ν)
    (h : k ≠ k2) : mapGet (mapSet m k v) k2 = mapGet m k2 := by
  induction m with
  | nil => simp [mapSet, mapGet, h]
  | cons p rest ih =>
    obtain ⟨k', v'⟩ := p
    by_cases h1 : k' = k
    · subst h1; simp [mapSet, mapGet, h]
    · by_cases h2 : k' = k2
      · subst h2; simp [mapSet, mapGet, h1]
      · simp [mapSet, mapGet, h1, h2, ih]

theorem Intern_get (sp : StringSpace) (str : String) :
    mapGet (sp.Intern str).2.m str = some (sp.Intern str).1 := by
  unfold StringSpace.Intern
  cases h : mapGet sp.m str with
  | some id => simp [h]
  | none => simp [mapGet_mapSet_self]

theorem Intern_keeps (sp : StringSpace) (str l : String) (id : Nat)
    (h : mapGet sp.m l = some id) : mapGet (sp.Intern str).2.m l = some id := by
  unfold StringSpace.Intern
  cases h1 : mapGet sp.m str with
  | some id1 => simpa using h
  | none =>
    have hne : str ≠ l := by
      intro e; subst e; rw [h] at h1; cases h1
    simp [mapGet_mapSet_of_ne _ _ _ _ hne, h]

theorem Intern_of_get (sp : StringSpace) (l : String) (id : Nat)
    (h : mapGet sp.m l = some id) : sp.Intern l = (id, sp) := by
  simp [StringSpace.Intern, h]

theorem internAll_keeps (labels : List String) (sp : StringSpace) (l : String) (id : Nat)
    (h : mapGet sp.m l = some id) : mapGet (internAll labels sp).m l = some id := by
  induction labels generalizing sp with
  | nil => simpa [internAll] using h
  | cons x rest ih => exact ih _ (Intern_keeps sp x l id h)

theorem internAll_get (labels : List String) (sp : StringSpace) (l : String) (hl : l ∈ labels) :
    ∃ id, mapGet (internAll labels sp).m l = some id := by
  induction labels generalizing sp with
  | nil => cases hl
  | cons x rest ih =>
    rcases List.mem_cons.mp hl with h | h
    · subst h
      exact ⟨_, internAll_keeps rest _ _ _ (Intern_get sp l)⟩
    · exact ih _ h

theorem testBit_SetBit_one (x i j : Nat) :
    (SetBit x i 1).testBit j = (x.testBit j || decide (i = j)) := by
  simp [SetBit, Nat.testBit_two_pow]

theorem testBit_SetBit_zero (x i j : Nat) :
    (SetBit x i 0).testBit j = (x.testBit j && !decide (i = j)) := by
  simp [SetBit, Nat.testBit_two_pow]
  by_cases h : i = j <;> simp [h]

theorem plusLoop_fst (set : LockSet) (labels : List String) (sp : StringSpace)
    (out : Option LockSet) : (plusLoop set labels sp out).1 = internAll labels sp := by
  induction labels generalizing sp out with
  | nil => rfl
  | cons l rest ih =>
    cases out with
    | none =>
      simp only [plusLoop, internAll]
      split <;> exact ih _ _
    | some o => simp only [plusLoop, internAll]; exact ih _ _

theorem plusLoop_bits (set : LockSet) (labels : List String) (sp : StringSpace)
    (out : Option LockSet) (i : Nat) :
    (cur set (plusLoop set labels sp out).2).bits.testBit i = true ↔
      (cur set out).bits.testBit i = true ∨
        ∃ l ∈ labels, mapGet (internAll labels sp).m l = some i := by
  induction labels generalizing sp out with
  | nil => simp [plusLoop]
  | cons l rest ih =>
    have hl : mapGet (internAll rest (sp.Intern l).2).m l = some (sp.Intern l).1 :=
      internAll_keeps rest _ _ _ (Intern_get sp l)
    have key : ∀ out1 : Option LockSet,
        ((cur set out1).bits.testBit i = true ↔
          (cur set out).bits.testBit i = true ∨ (sp.Intern l).1 = i) →
        ((cur set (plusLoop set rest (sp.Intern l).2 out1).2).bits.testBit i = true ↔
          (cur set out).bits.testBit i = true ∨
            ∃ l' ∈ l :: rest, mapGet (internAll rest (sp.Intern l).2).m l' = some i) := by
      intro out1 h1
      rw [ih, h1]
      constructor
      · rintro ((h | h) | ⟨l', hl', h⟩)
        · exact Or.inl h
        · exact Or.inr ⟨l, List.mem_cons_self _ _, by rw [hl, h]⟩
        · exact Or.inr ⟨l', List.mem_cons_of_mem _ hl', h⟩
      · rintro (h | ⟨l', hl', h⟩)
        · exact Or.inl (Or.inl h)
        · rcases List.mem_cons.mp hl' with e | e
          · subst e
            rw [hl] at h
            exact Or.inl (Or.inr (Option.some.inj h))
          · exact Or.inr ⟨l', e, h⟩
    cases out with
    | none =>
      simp only [plusLoop, internAll]
      split
      · apply key
        simp [cur, testBit_SetBit_one]
      · rename_i hb
        apply key
        have : set.bits.testBit (sp.Intern l).1 = true := by
          simp only [Bit] at hb
          by_contra hc
          simp [hc] at hb
        simp only [cur, Option.getD]
        constructor
        · exact Or.inl
        · rintro (h | h)
          · exact h
          · rw [← h]; exact this
    | some o =>
      simp only [plusLoop, internAll]
      apply key
      simp [cur, testBit_SetBit_one]

theorem minusLoop_fst (set : LockSet) (labels : List String) (sp : StringSpace)
    (out : Option LockSet) : (minusLoop set labels sp out).1 = internAll labels sp := by
  induction labels generalizing sp out with
  | nil => rfl
  | cons l rest ih =>
    cases out with
    | none =>
      simp only [minusLoop, internAll]
      split <;> exact ih _ _
    | some o => simp only [minusLoop, internAll]; exact ih _ _

theorem minusLoop_bits (set : LockSet) (labels : List String) (sp : StringSpace)
    (out : Option LockSet) (i : Nat) :
    (cur set (minusLoop set labels sp out).2).bits.testBit i = true ↔
      (cur set out).bits.testBit i = true ∧
        ¬ ∃ l ∈ labels, mapGet (internAll labels sp).m l = some i := by
  induction labels generalizing sp out with
  | nil => simp [minusLoop]
  | cons l rest ih =>
    have hl : mapGet (internAll rest (sp.Intern l).2).m l = some (sp.Intern l).1 :=
      internAll_keeps rest _ _ _ (Intern_get sp l)
    have key : ∀ out1 : Option LockSet,
        ((cur set out1).bits.testBit i = true ↔
          (cur set out).bits.testBit i = true ∧ (sp.Intern l).1 ≠ i) →
        ((cur set (minusLoop set rest (sp.Intern l).2 out1).2).bits.testBit i = true ↔
          (cur set out).bits.testBit i = true ∧
            ¬ ∃ l' ∈ l :: rest, mapGet (internAll rest (sp.Intern l).2).m l' = some i) := by
      intro out1 h1
      rw [ih, h1]
      constructor
      · rintro ⟨⟨h, hne⟩, hno⟩
        refine ⟨h, ?_⟩
        rintro ⟨l', hl', h'⟩
        rcases List.mem_cons.mp hl' with e | e
        · subst e
          rw [hl] at h'
          exact hne (Option.some.inj h')
        · exact hno ⟨l', e, h'⟩
      · rintro ⟨h, hno⟩
        refine ⟨⟨h, ?_⟩, ?_⟩
        · intro e
          exact hno ⟨l, List.mem_cons_self _ _, by rw [hl, e]⟩
        · rintro ⟨l', hl', h'⟩
          exact hno ⟨l', List.mem_cons_of_mem _ hl', h'⟩
    cases out with
    | none =>
      simp only [minusLoop, internAll]
      split
      · apply key
        simp [cur, testBit_SetBit_zero]
      · rename_i hb
        apply key
        have : set.bits.testBit (sp.Intern l).1 = false := by
          simp only [Bit] at hb
          by_contra hc
          simp [hc] at hb
        simp only [cur, Option.getD]
        constructor
        · intro h
          refine ⟨h, ?_⟩
          intro e
          rw [e] at this
          rw [this] at h
          cases h
        · exact fun h => h.1
    | some o =>
      simp only [minusLoop, internAll]
      apply key
      simp [cur, testBit_SetBit_zero]

theorem Plus_fst (set : LockSet) (labels : List String) (sp : StringSpace) :
    (set.Plus labels sp).1 = internAll labels sp := by
  unfold LockSet.Plus
  rw [← plusLoop_fst set labels sp none]
  split <;> simp_all

theorem Plus_snd (set : LockSet) (labels : List String) (sp : StringSpace) :
    (set.Plus labels sp).2 = cur set (plusLoop set labels sp none).2 := by
  unfold LockSet.Plus
  split <;> simp_all [cur]

theorem Minus_fst (set : LockSet) (labels : List String) (sp : StringSpace) :
    (set.Minus labels sp).1 = internAll labels sp := by
  unfold LockSet.Minus
  rw [← minusLoop_fst set labels sp none]
  split <;> simp_all

theorem Minus_snd (set : LockSet) (labels : List String) (sp : StringSpace) :
    (set.Minus labels sp).2 = cur set (minusLoop set labels sp none).2 := by
  unfold LockSet.Minus
  split <;> simp_all [cur]

theorem Plus_testBit (set : LockSet) (labels : List String) (sp : StringSpace) (i : Nat) :
    (set.Plus labels sp).2.bits.testBit i = true ↔
      set.bits.testBit i = true ∨ ∃ l ∈ labels, mapGet (internAll labels sp).m l = some i := by
  rw [Plus_snd, plusLoop_bits]; simp [cur]

theorem Minus_testBit (set : LockSet) (labels : List String) (sp : StringSpace) (i : Nat) :
    (set.Minus labels sp).2.bits.testBit i = true ↔
      set.bits.testBit i = true ∧ ¬ ∃ l ∈ labels, mapGet (internAll labels sp).m l = some i := by
  rw [Minus_snd, minusLoop_bits]; simp [cur]

/-- C10: the identities held by `L.Plus(A)` are exactly those of `L` together with
the interned identity of every label of `A`; in particular `L.Plus(A)` is a
superset of `L`. -/
theorem Plus_identities (L : LockSet) (A : List String) (sp : StringSpace) :
    (∀ i, (L.Plus A sp).2.bits.testBit i = true ↔
      L.bits.testBit i = true ∨ ∃ l ∈ A, ((L.Plus A sp).1.Intern l).1 = i) ∧
    (∀ i, L.bits.testBit i = true → (L.Plus A sp).2.bits.testBit i = true) := by
  have h1 : ∀ i, (L.Plus A sp).2.bits.testBit i = true ↔
      L.bits.testBit i = true ∨ ∃ l ∈ A, ((L.Plus A sp).1.Intern l).1 = i := by
    intro i
    rw [Plus_testBit, Plus_fst]
    constructor
    · rintro (h | ⟨l, hl, h⟩)
      · exact Or.inl h
      · exact Or.inr ⟨l, hl, by rw [Intern_of_get _ _ _ h]⟩
    · rintro (h | ⟨l, hl, h⟩)
      · exact Or.inl h
      · obtain ⟨id, hid⟩ := internAll_get A sp l hl
        rw [Intern_of_get _ _ _ hid] at h
        exact Or.inr ⟨l, hl, by rw [hid]; exact congrArg some h⟩
  exact ⟨h1, fun i hi => (h1 i).2 (Or.inl hi)⟩

/-! ## Locksets, string spaces and sets of locksets -/

theorem hexVal_digitChar (k : Nat) (hk : k < 16) : hexVal (Nat.digitChar k) = k := by
  interval_cases k <;> rfl

theorem toDigitsCore_ofHex (fuel n : Nat) (ds : List Char) (h : n < fuel) :
    ∃ part, Nat.toDigitsCore 16 fuel n ds = part ++ ds ∧ ofHex part = n := by
  induction fuel generalizing n ds with
  | zero => omega
  | succ f ih =>
    simp only [Nat.toDigitsCore]
    by_cases h0 : n / 16 = 0
    · rw [if_pos h0]
      refine ⟨[Nat.digitChar (n % 16)], rfl, ?_⟩
      have hn : n < 16 := by omega
      simp [ofHex, Nat.mod_eq_of_lt hn, hexVal_digitChar _ hn]
    · rw [if_neg h0]
      obtain ⟨part, hp, hv⟩ := ih (n / 16) (Nat.digitChar (n % 16) :: ds) (by omega)
      refine ⟨part ++ [Nat.digitChar (n % 16)], by simp [hp], ?_⟩
      unfold ofHex at hv ⊢
      rw [List.foldl_append, hv]
      simp only [List.foldl_cons, List.foldl_nil, hexVal_digitChar _ (Nat.mod_lt n (by decide))]
      omega

theorem ofHex_toDigits (n : Nat) : ofHex (Nat.toDigits 16 n) = n := by
  obtain ⟨part, hp, hv⟩ := toDigitsCore_ofHex (n + 1) n [] (by omega)
  unfold Nat.toDigits
  rw [hp, List.append_nil, hv]

theorem Key_injective (a b : LockSet) (h : a.Key = b.Key) : a = b := by
  unfold LockSet.Key at h
  have h1 : Nat.toDigits 16 a.bits = Nat.toDigits 16 b.bits := by
    injection h
  have h2 := congrArg ofHex h1
  rw [ofHex_toDigits, ofHex_toDigits] at h2
  cases a; cases b; simp_all

/-- C11: the identities held by `L.Minus(A)` are exactly the identities of `L` that
are not the interned identity of any label of `A`. -/
theorem Minus_identities (L : LockSet) (A : List String) (sp : StringSpace) (i : Nat) :
    (L.Minus A sp).2.bits.testBit i = true ↔
      L.bits.testBit i = true ∧ ¬ ∃ l ∈ A, ((L.Minus A sp).1.Intern l).1 = i := by
  rw [Minus_testBit, Minus_fst]
  have key : (∃ l ∈ A, mapGet (internAll A sp).m l = some i) ↔
      ∃ l ∈ A, ((internAll A sp).Intern l).1 = i := by
    constructor
    · rintro ⟨l, hl, h⟩
      exact ⟨l, hl, by rw [Intern_of_get _ _ _ h]⟩
    · rintro ⟨l, hl, h⟩
      obtain ⟨id, hid⟩ := internAll_get A sp l hl
      rw [Intern_of_get _ _ _ hid] at h
      exact ⟨l, hl, by rw [hid]; exact congrArg some h⟩
  rw [key]

/-- C12: the keys of any two locksets (the base-16 text of their bitsets), in
particular of two built from `NewSet` by `Plus` and `Minus`, are equal if and only
if the two sets hold the same identities. -/
theorem Key_eq_iff (a b : LockSet) :
    a.Key = b.Key ↔ ∀ i, a.bits.testBit i = b.bits.testBit i := by
  constructor
  · intro h i
    rw [Key_injective a b h]
  · intro h
    have : a.bits = b.bits := Nat.eq_of_testBit_eq h
    cases a; cases b; simp_all

theorem Heap.load_append (h : Heap) (x : LockSet) (q : Nat) (hq : q < h.length) :
    Heap.load (h ++ [x]) q = h.load q := by
  simp [Heap.load, List.getD_eq_getElem?_getD, List.getElem?_append_left hq]

theorem Heap.load_last (h : Heap) (x : LockSet) : Heap.load (h ++ [x]) h.length = x := by
  simp [Heap.load, List.getD_eq_getElem?_getD]

theorem Heap.set_last (h : Heap) (x y : LockSet) : (h ++ [x]).set h.length y = h ++ [y] := by
  induction h with
  | nil => rfl
  | cons a t ih => simp [ih]

theorem plusLoopPtr_some (set : Nat) (labels : List String) (sp : StringSpace)
    (h : Heap) (ob : LockSet) (v : LockSet) :
    plusLoopPtr set labels sp (some h.length) (h ++ [ob]) =
      ((plusLoop v labels sp (some ob)).1, some h.length,
        h ++ [cur v (plusLoop v labels sp (some ob)).2]) := by
  induction labels generalizing sp ob with
  | nil => rfl
  | cons l rest ih =>
    simp only [plusLoopPtr, plusLoop, Heap.load_last, Heap.set_last]
    exact ih _ _

theorem plusLoop_some (v : LockSet) (labels : List String) (sp : StringSpace) (ob : LockSet) :
    ∃ ob1, (plusLoop v labels sp (some ob)).2 = some ob1 := by
  induction labels generalizing sp ob with
  | nil => exact ⟨ob, rfl⟩
  | cons l rest ih => simp only [plusLoop]; exact ih _ _

theorem plusLoopPtr_none (set : Nat) (labels : List String) (sp : StringSpace)
    (h : Heap) (hp : set < h.length) :
    plusLoopPtr set labels sp none h =
      match (plusLoop (h.load set) labels sp none).2 with
      | none => ((plusLoop (h.load set) labels sp none).1, none, h)
      | some ob => ((plusLoop (h.load set) labels sp none).1, some h.length, h ++ [ob]) := by
  induction labels generalizing sp with
  | nil => rfl
  | cons l rest ih =>
    simp only [plusLoopPtr, plusLoop]
    split
    · rw [Heap.set_last, Heap.load_append _ _ _ hp, plusLoopPtr_some set rest _ h _ (h.load set)]
      obtain ⟨ob1, h1⟩ := plusLoop_some (h.load set) rest (sp.Intern l).2
        { bits := SetBit (h.load set).bits (sp.Intern l).1 1 }
      simp only [h1, cur, Option.getD]
    · exact ih _

theorem plusLoop_differs (v : LockSet) (labels : List String) (sp : StringSpace)
    (out : Option LockSet)
    (hout : ∀ o, out = some o → ∃ j, o.bits.testBit j = true ∧ v.bits.testBit j = false)
    (ob : LockSet) (h : (plusLoop v labels sp out).2 = some ob) :
    ∃ j, ob.bits.testBit j = true ∧ v.bits.testBit j = false := by
  induction labels generalizing sp out with
  | nil => exact hout ob h
  | cons l rest ih =>
    cases out with
    | none =>
      simp only [plusLoop] at h
      split at h
      · rename_i hb
        refine ih _ _ ?_ h
        intro o ho
        cases ho
        refine ⟨(sp.Intern l).1, by simp [testBit_SetBit_one], ?_⟩
        simp only [Bit] at hb
        by_contra hc
        simp at hc
        simp [hc] at hb
      · exact ih _ _ (fun _ ho => by cases ho) h
    | some o =>
      simp only [plusLoop] at h
      refine ih _ _ ?_ h
      intro o1 ho1
      cases ho1
      obtain ⟨j, hj, hv⟩ := hout o rfl
      exact ⟨j, by simp [testBit_SetBit_one, hj], hv⟩

theorem minusLoopPtr_some (set : Nat) (labels : List String) (sp : StringSpace)
    (h : Heap) (ob : LockSet) (v : LockSet) :
    minusLoopPtr set labels sp (some h.length) (h ++ [ob]) =
      ((minusLoop v labels sp (some ob)).1, some h.length,
        h ++ [cur v (minusLoop v labels sp (some ob)).2]) := by
  induction labels generalizing sp ob with
  | nil => rfl
  | cons l rest ih =>
    simp only [minusLoopPtr, minusLoop, Heap.load_last, Heap.set_last]
    exact ih _ _

theorem minusLoop_some (v : LockSet) (labels : List String) (sp : StringSpace) (ob : LockSet) :
    ∃ ob1, (minusLoop v labels sp (some ob)).2 = some ob1 := by
  induction labels generalizing sp ob with
  | nil => exact ⟨ob, rfl⟩
  | cons l rest ih => simp only [minusLoop]; exact ih _ _

theorem minusLoopPtr_none (set : Nat) (labels : List String) (sp : StringSpace)
    (h : Heap) (hp : set < h.length) :
    minusLoopPtr set labels sp none h =
      match (minusLoop (h.load set) labels sp none).2 with
      | none => ((minusLoop (h.load set) labels sp none).1, none, h)
      | some ob => ((minusLoop (h.load set) labels sp none).1, some h.length, h ++ [ob]) := by
  induction labels generalizing sp with
  | nil => rfl
  | cons l rest ih =>
    simp only [minusLoopPtr, minusLoop]
    split
    · rw [Heap.set_last, Heap.load_append _ _ _ hp, minusLoopPtr_some set rest _ h _ (h.load set)]
      obtain ⟨ob1, h1⟩ := minusLoop_some (h.load set) rest (sp.Intern l).2
        { bits := SetBit (h.load set).bits (sp.Intern l).1 0 }
      simp only [h1, cur, Option.getD]
    · exact ih _

theorem minusLoop_differs (v : LockSet) (labels : List String) (sp : StringSpace)
    (out : Option LockSet)
    (hout : ∀ o, out = some o → ∃ j, o.bits.testBit j = false ∧ v.bits.testBit j = true)
    (ob : LockSet) (h : (minusLoop v labels sp out).2 = some ob) :
    ∃ j, ob.bits.testBit j = false ∧ v.bits.testBit j = true := by
  induction labels generalizing sp out with
  | nil => exact hout ob h
  | cons l rest ih =>
    cases out with
    | none =>
      simp only [minusLoop] at h
      split at h
      · rename_i hb
        refine ih _ _ ?_ h
        intro o ho
        cases ho
        refine ⟨(sp.Intern l).1, by simp [testBit_SetBit_zero], ?_⟩
        simp only [Bit] at hb
        by_contra hc
        simp at hc
        simp [hc] at hb
      · exact ih _ _ (fun _ ho => by cases ho) h
    | some o =>
      simp only [minusLoop] at h
      refine ih _ _ ?_ h
      intro o1 ho1
      cases ho1
      obtain ⟨j, hj, hv⟩ := hout o rfl
      exact ⟨j, by simp [testBit_SetBit_zero, hj], hv⟩

/-- C13: on pointers, `Plus` and `Minus` return the receiver itself exactly when the
result holds the same identities as the receiver, and otherwise a record that did not
exist before; no record that existed before the call is changed, the receiver
included; the returned record holds the bits that `LockSet.Plus` and `LockSet.Minus`
compute; and for the empty points-to set both return the receiver and leave the heap
and the string space as they were. -/
theorem Plus_Minus_sharing (h : Heap) (p : Nat) (A : List String) (sp : StringSpace)
    (hp : p < h.length) :
    ((∀ q, q < h.length → (h.Plus p A sp).2.2.load q = h.load q) ∧
      ((h.Plus p A sp).2.1 = p ↔
        ∀ i, ((h.Plus p A sp).2.2.load (h.Plus p A sp).2.1).bits.testBit i =
          (h.load p).bits.testBit i) ∧
      ((h.Plus p A sp).2.1 ≠ p → (h.Plus p A sp).2.1 = h.length) ∧
      (h.Plus p A sp).2.2.load (h.Plus p A sp).2.1 = ((h.load p).Plus A sp).2 ∧
      (h.Plus p A sp).1 = ((h.load p).Plus A sp).1) ∧
    ((∀ q, q < h.length → (h.Minus p A sp).2.2.load q = h.load q) ∧
      ((h.Minus p A sp).2.1 = p ↔
        ∀ i, ((h.Minus p A sp).2.2.load (h.Minus p A sp).2.1).bits.testBit i =
          (h.load p).bits.testBit i) ∧
      ((h.Minus p A sp).2.1 ≠ p → (h.Minus p A sp).2.1 = h.length) ∧
      (h.Minus p A sp).2.2.load (h.Minus p A sp).2.1 = ((h.load p).Minus A sp).2 ∧
      (h.Minus p A sp).1 = ((h.load p).Minus A sp).1) ∧
    h.Plus p [] sp = (sp, p, h) ∧ h.Minus p [] sp = (sp, p, h) := by
  refine ⟨?_, ?_, rfl, rfl⟩
  · unfold Heap.Plus LockSet.Plus
    rw [plusLoopPtr_none p A sp h hp]
    cases hr : (plusLoop (h.load p) A sp none) with
    | mk sp1 out =>
      cases out with
      | none => simp
      | some ob =>
        obtain ⟨j, hj, hv⟩ := plusLoop_differs (h.load p) A sp none (fun _ ho => by cases ho) ob
          (by rw [hr])
        simp only [Heap.load_last]
        refine ⟨fun q hq => Heap.load_append _ _ _ hq, ?_, fun _ => trivial, trivial, trivial⟩
        constructor
        · intro e; omega
        · intro hall
          rw [hall j, hv] at hj
          cases hj
  · unfold Heap.Minus LockSet.Minus
    rw [minusLoopPtr_none p A sp h hp]
    cases hr : (minusLoop (h.load p) A sp none) with
    | mk sp1 out =>
      cases out with
      | none => simp
      | some ob =>
        obtain ⟨j, hj, hv⟩ := minusLoop_differs (h.load p) A sp none (fun _ ho => by cases ho) ob
          (by rw [hr])
        simp only [Heap.load_last]
        refine ⟨fun q hq => Heap.load_append _ _ _ hq, ?_, fun _ => trivial, trivial, trivial⟩
        constructor
        · intro e; omega
        · intro hall
          rw [hall j, hv] at hj
          cases hj

theorem Plus_Minus_sharing_witness :
    ((∀ q, q < 1 → (Heap.Plus [⟨1⟩] 0 ["a"] NewStringSpace).2.2.load q = Heap.load [⟨1⟩] q) ∧
      ((Heap.Plus [⟨1⟩] 0 ["a"] NewStringSpace).2.1 = 0 ↔
        ∀ i, ((Heap.Plus [⟨1⟩] 0 ["a"] NewStringSpace).2.2.load
            (Heap.Plus [⟨1⟩] 0 ["a"] NewStringSpace).2.1).bits.testBit i =
          (Heap.load [⟨1⟩] 0).bits.testBit i) ∧
      ((Heap.Plus [⟨1⟩] 0 ["a"] NewStringSpace).2.1 ≠ 0 →
        (Heap.Plus [⟨1⟩] 0 ["a"] NewStringSpace).2.1 = 1) ∧
      (Heap.Plus [⟨1⟩] 0 ["a"] NewStringSpace).2.2.load
          (Heap.Plus [⟨1⟩] 0 ["a"] NewStringSpace).2.1 =
        ((Heap.load [⟨1⟩] 0).Plus ["a"] NewStringSpace).2 ∧
      (Heap.Plus [⟨1⟩] 0 ["a"] NewStringSpace).1 =
        ((Heap.load [⟨1⟩] 0).Plus ["a"] NewStringSpace).1) ∧
    ((∀ q, q < 1 → (Heap.Minus [⟨1⟩] 0 ["a"] NewStringSpace).2.2.load q = Heap.load [⟨1⟩] q) ∧
      ((Heap.Minus [⟨1⟩] 0 ["a"] NewStringSpace).2.1 = 0 ↔
        ∀ i, ((Heap.Minus [⟨1⟩] 0 ["a"] NewStringSpace).2.2.load
            (Heap.Minus [⟨1⟩] 0 ["a"] NewStringSpace).2.1).bits.testBit i =
          (Heap.load [⟨1⟩] 0).bits.testBit i) ∧
      ((Heap.Minus [⟨1⟩] 0 ["a"] NewStringSpace).2.1 ≠ 0 →
        (Heap.Minus [⟨1⟩] 0 ["a"] NewStringSpace).2.1 = 1) ∧
      (Heap.Minus [⟨1⟩] 0 ["a"] NewStringSpace).2.2.load
          (Heap.Minus [⟨1⟩] 0 ["a"] NewStringSpace).2.1 =
        ((Heap.load [⟨1⟩] 0).Minus ["a"] NewStringSpace).2 ∧
      (Heap.Minus [⟨1⟩] 0 ["a"] NewStringSpace).1 =
        ((Heap.load [⟨1⟩] 0).Minus ["a"] NewStringSpace).1) ∧
    Heap.Plus [⟨1⟩] 0 [] NewStringSpace = (NewStringSpace, 0, [⟨1⟩]) ∧
    Heap.Minus [⟨1⟩] 0 [] NewStringSpace = (NewStringSpace, 0, [⟨1⟩]) :=
  Plus_Minus_sharing [⟨1⟩] 0 ["a"] NewStringSpace (by decide)

theorem spaceInv_new : SpaceInv NewStringSpace [] := by
  refine ⟨List.nodup_nil, ?_, ?_⟩
  · intro l id; simp [NewStringSpace, mapGet]
  · intro l; simp [NewStringSpace]

theorem spaceInv_intern (sp : StringSpace) (ls : List String) (l : String)
    (h : SpaceInv sp ls) : SpaceInv (sp.Intern l).2 (ls ++ [l]) := by
  obtain ⟨hnd, hinv, hmem⟩ := h
  unfold StringSpace.Intern
  cases hg : mapGet sp.m l with
  | some id =>
    have hl : l ∈ sp.s := List.getElem?_mem ((hinv l id).1 hg)
    refine ⟨hnd, hinv, ?_⟩
    intro l'
    simp only [List.mem_append, List.mem_singleton, hmem]
    constructor
    · exact Or.inl
    · rintro (h | h)
      · exact h
      · subst h; exact (hmem _).1 hl
  | none =>
    have hl : l ∉ sp.s := by
      intro hl
      obtain ⟨id, hid⟩ := List.getElem?_of_mem hl
      rw [(hinv l id).2 hid] at hg
      cases hg
    refine ⟨?_, ?_, ?_⟩
    · simp only
      rw [List.nodup_append]
      refine ⟨hnd, List.nodup_singleton l, ?_⟩
      intro a ha hb
      rw [List.mem_singleton] at hb
      subst hb
      exact hl ha
    · intro l' id
      simp only
      by_cases e : l = l'
      · subst e
        rw [mapGet_mapSet_self]
        constructor
        · intro h
          cases h
          simp
        · intro h
          by_cases hlt : id < sp.s.length
          · rw [List.getElem?_append_left hlt] at h
            exact absurd (List.getElem?_mem h) hl
          · have hlen := (List.getElem?_eq_some_iff.1 h).1
            simp at hlen
            have : id = sp.s.length := by omega
            rw [this]
      · rw [mapGet_mapSet_of_ne _ _ _ _ e, hinv]
        constructor
        · intro h
          have hlt := (List.getElem?_eq_some_iff.1 h).1
          rw [List.getElem?_append_left hlt]
          exact h
        · intro h
          by_cases hlt : id < sp.s.length
          · rw [List.getElem?_append_left hlt] at h
            exact h
          · have hlen := (List.getElem?_eq_some_iff.1 h).1
            simp at hlen
            have hid : id = sp.s.length := by omega
            subst hid
            simp at h
            exact absurd h e
    · intro l'
      simp only [List.mem_append, List.mem_singleton, hmem]

theorem spaceInv_internAll (labels : List String) (sp : StringSpace) (ls : List String)
    (h : SpaceInv sp ls) : SpaceInv (internAll labels sp) (ls ++ labels) := by
  induction labels generalizing sp ls with
  | nil => simpa [internAll] using h
  | cons x rest ih =>
    have := ih _ _ (spaceInv_intern sp ls x h)
    simpa [internAll] using this

theorem spaceInv_reach (ls : List String) : SpaceInv (internAll ls NewStringSpace) ls := by
  simpa using spaceInv_internAll ls NewStringSpace [] spaceInv_new

theorem spaceInv_length (sp : StringSpace) (ls : List String) (h : SpaceInv sp ls) :
    sp.s.length = ls.dedup.length := by
  obtain ⟨hnd, _, hmem⟩ := h
  rw [← List.card_toFinset, ← List.toFinset_card_of_nodup hnd]
  congr 1
  ext l
  simp [hmem]

theorem internAll_Intern (ls2 : List String) (sp : StringSpace) (l : String) :
    (internAll ls2 (sp.Intern l).2).Intern l = ((sp.Intern l).1, internAll ls2 (sp.Intern l).2) :=
  Intern_of_get _ _ _ (internAll_keeps ls2 _ _ _ (Intern_get sp l))

/-- C14: in the string space in which the labels `ls` have been interned, the first
`Intern` of a label returns the number of distinct labels interned before it, and
every later `Intern` of the label, after any further `Intern` calls, returns that
same id and leaves the space unchanged. -/
theorem Intern_first_and_later (ls : List String) (l : String) (ls2 : List String)
    (hfresh : l ∉ ls) :
    ((internAll ls NewStringSpace).Intern l).1 = ls.dedup.length ∧
    (internAll ls2 ((internAll ls NewStringSpace).Intern l).2).Intern l =
      (((internAll ls NewStringSpace).Intern l).1,
        internAll ls2 ((internAll ls NewStringSpace).Intern l).2) := by
  refine ⟨?_, internAll_Intern _ _ _⟩
  have hinv := spaceInv_reach ls
  have hnone : mapGet (internAll ls NewStringSpace).m l = none := by
    cases hg : mapGet (internAll ls NewStringSpace).m l with
    | none => rfl
    | some id =>
      exact absurd ((hinv.2.2 l).1 (List.getElem?_mem ((hinv.2.1 l id).1 hg))) hfresh
  simp only [StringSpace.Intern, hnone]
  exact spaceInv_length _ _ hinv

theorem Intern_first_and_later_witness :
    ((internAll ["a", "b", "a"] NewStringSpace).Intern "c").1 = ["a", "b", "a"].dedup.length ∧
    (internAll ["d", "a"] ((internAll ["a", "b", "a"] NewStringSpace).Intern "c").2).Intern "c" =
      (((internAll ["a", "b", "a"] NewStringSpace).Intern "c").1,
        internAll ["d", "a"] ((internAll ["a", "b", "a"] NewStringSpace).Intern "c").2) :=
  Intern_first_and_later ["a", "b", "a"] "c" ["d", "a"] (by decide)

/-- C15: in the string space in which the labels `ls` have been interned, two
different labels of `ls` have different ids, the id of a label of `ls` is the same
after any further `Intern` calls, and the name stored at the id of a label is that
label. -/
theorem Intern_never_reused (ls : List String) :
    (∀ l1 ∈ ls, ∀ l2 ∈ ls, ((internAll ls NewStringSpace).Intern l1).1 =
        ((internAll ls NewStringSpace).Intern l2).1 → l1 = l2) ∧
    (∀ l ∈ ls, ∀ ls2, ((internAll ls2 (internAll ls NewStringSpace)).Intern l).1 =
        ((internAll ls NewStringSpace).Intern l).1) ∧
    (∀ l ∈ ls, (internAll ls NewStringSpace).s[((internAll ls NewStringSpace).Intern l).1]? =
        some l) ∧
    (∀ i l, (internAll ls NewStringSpace).s[i]? = some l →
        l ∈ ls ∧ ((internAll ls NewStringSpace).Intern l).1 = i) := by
  have hinv := spaceInv_reach ls
  have hget : ∀ l ∈ ls, ∃ id, mapGet (internAll ls NewStringSpace).m l = some id :=
    fun l hl => internAll_get ls NewStringSpace l hl
  refine ⟨?_, ?_, ?_, ?_⟩
  · intro l1 h1 l2 h2 he
    obtain ⟨i1, hi1⟩ := hget l1 h1
    obtain ⟨i2, hi2⟩ := hget l2 h2
    rw [Intern_of_get _ _ _ hi1, Intern_of_get _ _ _ hi2] at he
    simp only at he
    subst he
    have a := (hinv.2.1 l1 i1).1 hi1
    have b := (hinv.2.1 l2 i1).1 hi2
    rw [a] at b
    exact Option.some.inj b
  · intro l hl ls2
    obtain ⟨i, hi⟩ := hget l hl
    rw [Intern_of_get _ _ _ hi, Intern_of_get _ _ _ (internAll_keeps ls2 _ _ _ hi)]
  · intro l hl
    obtain ⟨i, hi⟩ := hget l hl
    rw [Intern_of_get _ _ _ hi]
    exact (hinv.2.1 l i).1 hi
  · intro i l h
    refine ⟨(hinv.2.2 l).1 (List.getElem?_mem h), ?_⟩
    rw [Intern_of_get _ _ _ ((hinv.2.1 l i).2 h)]

theorem mem_mapSet {κ ν : Type} [DecidableEq κ] (m : List (κ × ν)) (k : κ) (v : ν)
    (e : κ × ν) (h : e ∈ mapSet m k v) : e = (k, v) ∨ e ∈ m := by
  induction m with
  | nil => simp [mapSet] at h; exact Or.inl h
  | cons p rest ih =>
    obtain ⟨k', v'⟩ := p
    by_cases hk : k' = k
    · simp only [mapSet, hk, if_true, List.mem_cons] at h
      rcases h with h | h
      · exact Or.inl h
      · exact Or.inr (List.mem_cons_of_mem _ h)
    · simp only [mapSet, hk, if_false, List.mem_cons] at h
      rcases h with h | h
      · exact Or.inr (h ▸ List.mem_cons_self _ _)
      · rcases ih h with h1 | h1
        · exact Or.inl h1
        · exact Or.inr (List.mem_cons_of_mem _ h1)

theorem keys_mapSet {κ ν : Type} [DecidableEq κ] (m : List (κ × ν)) (k : κ) (v : ν) :
    ((mapSet m k v).map Prod.fst).toFinset = insert k (m.map Prod.fst).toFinset := by
  induction m with
  | nil => simp [mapSet]
  | cons p rest ih =>
    obtain ⟨k', v'⟩ := p
    by_cases hk : k' = k
    · subst hk; simp [mapSet]
    · simp only [mapSet, hk, if_false, List.map_cons, List.toFinset_cons, ih]
      exact Finset.Insert.comm _ _ _

theorem keys_unionLoop (m l : List (LockSetKey × LockSet)) :
    ((unionLoop m l).map Prod.fst).toFinset =
      (m.map Prod.fst).toFinset ∪ (l.map Prod.fst).toFinset := by
  induction l generalizing m with
  | nil => simp [unionLoop]
  | cons p rest ih =>
    obtain ⟨k, ss⟩ := p
    simp only [unionLoop, ih, keys_mapSet, List.map_cons, List.toFinset_cons]
    ext x
    simp only [Finset.mem_union, Finset.mem_insert]
    tauto

theorem keys_Union (a b : LockSetSet) :
    (a.Union (some b)).keys = a.keys ∪ b.keys := keys_unionLoop a.M b.M

theorem mem_unionLoop (m l : List (LockSetKey × LockSet)) (e : LockSetKey × LockSet)
    (h : e ∈ unionLoop m l) : e ∈ m ∨ e ∈ l := by
  induction l generalizing m with
  | nil => exact Or.inl h
  | cons p rest ih =>
    obtain ⟨k, ss⟩ := p
    rcases ih _ h with h1 | h1
    · rcases mem_mapSet _ _ _ _ h1 with h2 | h2
      · exact Or.inr (h2 ▸ List.mem_cons_self _ _)
      · exact Or.inl h2
    · exact Or.inr (List.mem_cons_of_mem _ h1)

theorem keyInv_Add (lss : LockSetSet) (ss : LockSet) (h : KeyInv lss) : KeyInv (lss.Add ss) := by
  intro e he
  rcases mem_mapSet _ _ _ _ he with h1 | h1
  · subst h1; rfl
  · exact h e h1

theorem keyInv_Union (a b : LockSetSet) (ha : KeyInv a) (hb : KeyInv b) :
    KeyInv (a.Union (some b)) := by
  intro e he
  rcases mem_unionLoop _ _ _ he with h1 | h1
  · exact ha e h1
  · exact hb e h1

theorem mapGet_mem {κ ν : Type} [DecidableEq κ] (m : List (κ × ν)) (k : κ) (v : ν)
    (h : mapGet m k = some v) : (k, v) ∈ m := by
  induction m with
  | nil => cases h
  | cons p rest ih =>
    obtain ⟨k', v'⟩ := p
    by_cases hk : k' = k
    · simp only [mapGet, hk, if_true] at h
      cases h
      subst hk
      exact List.mem_cons_self _ _
    · simp only [mapGet, hk, if_false] at h
      exact List.mem_cons_of_mem _ (ih h)

theorem mapGet_isSome {κ ν : Type} [DecidableEq κ] (m : List (κ × ν)) (k : κ)
    (h : k ∈ (m.map Prod.fst).toFinset) : ∃ v, mapGet m k = some v := by
  induction m with
  | nil => simp at h
  | cons p rest ih =>
    obtain ⟨k', v'⟩ := p
    by_cases hk : k' = k
    · exact ⟨v', by simp [mapGet, hk]⟩
    · simp only [List.map_cons, List.toFinset_cons, Finset.mem_insert] at h
      rcases h with h | h
      · exact absurd h.symm hk
      · obtain ⟨v, hv⟩ := ih h
        exact ⟨v, by simp [mapGet, hk, hv]⟩

/-- Under the key invariant a lookup finds exactly the lockset that has the key. -/
theorem keyInv_mapGet (lss : LockSetSet) (h : KeyInv lss) (k : LockSetKey) (v : LockSet) :
    mapGet lss.M k = some v ↔ k ∈ lss.keys ∧ v.Key = k := by
  constructor
  · intro hg
    have hm := mapGet_mem _ _ _ hg
    refine ⟨?_, h _ hm⟩
    simp only [LockSetSet.keys, List.mem_toFinset, List.mem_map]
    exact ⟨_, hm, rfl⟩
  · rintro ⟨hk, hv⟩
    obtain ⟨v', hv'⟩ := mapGet_isSome _ _ hk
    have := h _ (mapGet_mem _ _ _ hv')
    simp only at this
    rw [hv', Key_injective v' v (this.trans hv.symm)]

theorem mapSet_same {κ ν : Type} [DecidableEq κ] (m : List (κ × ν)) (k : κ) (v : ν)
    (h : mapGet m k = some v) : mapSet m k v = m := by
  induction m with
  | nil => cases h
  | cons p rest ih =>
    obtain ⟨k', v'⟩ := p
    by_cases hk : k' = k
    · simp only [mapGet, hk, if_true] at h
      cases h
      simp [mapSet, hk]
    · simp only [mapGet, hk, if_false] at h
      simp [mapSet, hk, ih h]

theorem unionLoop_same (m l : List (LockSetKey × LockSet))
    (h : ∀ e ∈ l, mapGet m e.1 = some e.2) : unionLoop m l = m := by
  induction l with
  | nil => rfl
  | cons p rest ih =>
    obtain ⟨k, ss⟩ := p
    simp only [unionLoop]
    rw [mapSet_same m k ss (h (k, ss) (List.mem_cons_self _ _))]
    exact ih (fun e he => h e (List.mem_cons_of_mem _ he))

/-- C16: for `LockSetSet`s that satisfy the key invariant, the key set after
`a.Union(b)` is the union of the key sets, so `Union` is commutative, associative
and idempotent on key sets; the members found under each key do not depend on the
order of the operands either, `a.Union(a)` is `a`, and `Union` with nil leaves the
receiver unchanged. -/
theorem Union_keys (a b c : LockSetSet) (ha : KeyInv a) (hb : KeyInv b) (hc : KeyInv c) :
    (a.Union (some b)).keys = a.keys ∪ b.keys ∧
    (a.Union (some b)).keys = (b.Union (some a)).keys ∧
    ((a.Union (some b)).Union (some c)).keys = (a.Union (some (b.Union (some c)))).keys ∧
    (a.Union (some a)).keys = a.keys ∧
    a.Union (some a) = a ∧
    a.Union none = a ∧
    (∀ k, mapGet (a.Union (some b)).M k = mapGet (b.Union (some a)).M k) ∧
    (∀ k, mapGet ((a.Union (some b)).Union (some c)).M k =
      mapGet (a.Union (some (b.Union (some c)))).M k) := by
  have hlook : ∀ x y : LockSetSet, KeyInv x → KeyInv y → x.keys = y.keys →
      ∀ k, mapGet x.M k = mapGet y.M k := by
    intro x y hx hy hxy k
    cases hg : mapGet x.M k with
    | some v =>
      have := (keyInv_mapGet x hx k v).1 hg
      rw [hxy] at this
      exact ((keyInv_mapGet y hy k v).2 this).symm
    | none =>
      cases hg2 : mapGet y.M k with
      | none => rfl
      | some v =>
        have := (keyInv_mapGet y hy k v).1 hg2
        rw [← hxy] at this
        rw [(keyInv_mapGet x hx k v).2 this] at hg
        cases hg
  have hcomm : (a.Union (some b)).keys = (b.Union (some a)).keys := by
    rw [keys_Union, keys_Union, Finset.union_comm]
  have hassoc : ((a.Union (some b)).Union (some c)).keys =
      (a.Union (some (b.Union (some c)))).keys := by
    rw [keys_Union, keys_Union, keys_Union, keys_Union, Finset.union_assoc]
  refine ⟨keys_Union a b, hcomm, hassoc, ?_, ?_, rfl, ?_, ?_⟩
  · rw [keys_Union, Finset.union_self]
  · have : unionLoop a.M a.M = a.M := by
      apply unionLoop_same
      intro e he
      exact (keyInv_mapGet a ha e.1 e.2).2
        ⟨by simp only [LockSetSet.keys, List.mem_toFinset, List.mem_map]; exact ⟨e, he, rfl⟩,
          ha e he⟩
    simp only [LockSetSet.Union, this]
  · exact hlook _ _ (keyInv_Union a b ha hb) (keyInv_Union b a hb ha) hcomm
  · exact hlook _ _ (keyInv_Union _ c (keyInv_Union a b ha hb) hc)
      (keyInv_Union a _ ha (keyInv_Union b c hb hc)) hassoc

theorem keyInv_reachable (lss : LockSetSet) (h : Reachable lss) : KeyInv lss := by
  induction h with
  | new => intro e he; cases he
  | add lss ss _ ih => exact keyInv_Add lss ss ih
  | union a b _ _ iha ihb => exact keyInv_Union a b iha ihb
  | unionNil a _ ih => exact ih

theorem reachable_setOf (bits : List Nat) : Reachable (setOf bits) := by
  unfold setOf
  suffices h : ∀ lss, Reachable lss →
      Reachable (bits.foldl (fun lss b => lss.Add { bits := b }) lss) from h _ Reachable.new
  induction bits with
  | nil => exact fun _ h => h
  | cons b rest ih => exact fun lss h => ih _ (Reachable.add lss _ h)

theorem Union_keys_witness :
    ((setOf [1, 2]).Union (some (setOf [2, 3]))).keys = (setOf [1, 2]).keys ∪ (setOf [2, 3]).keys ∧
    ((setOf [1, 2]).Union (some (setOf [2, 3]))).keys =
      ((setOf [2, 3]).Union (some (setOf [1, 2]))).keys ∧
    (((setOf [1, 2]).Union (some (setOf [2, 3]))).Union (some (setOf [0]))).keys =
      ((setOf [1, 2]).Union (some ((setOf [2, 3]).Union (some (setOf [0]))))).keys ∧
    ((setOf [1, 2]).Union (some (setOf [1, 2]))).keys = (setOf [1, 2]).keys ∧
    (setOf [1, 2]).Union (some (setOf [1, 2])) = setOf [1, 2] ∧
    (setOf [1, 2]).Union none = setOf [1, 2] ∧
    (∀ k, mapGet ((setOf [1, 2]).Union (some (setOf [2, 3]))).M k =
      mapGet ((setOf [2, 3]).Union (some (setOf [1, 2]))).M k) ∧
    (∀ k, mapGet (((setOf [1, 2]).Union (some (setOf [2, 3]))).Union (some (setOf [0]))).M k =
      mapGet ((setOf [1, 2]).Union (some ((setOf [2, 3]).Union (some (setOf [0]))))).M k) :=
  Union_keys (setOf [1, 2]) (setOf [2, 3]) (setOf [0])
    (keyInv_reachable _ (reachable_setOf _)) (keyInv_reachable _ (reachable_setOf _))
    (keyInv_reachable _ (reachable_setOf _))

theorem nodup_mapSet {κ ν : Type} [DecidableEq κ] (m : List (κ × ν)) (k : κ) (v : ν)
    (h : (m.map Prod.fst).Nodup) : ((mapSet m k v).map Prod.fst).Nodup := by
  induction m with
  | nil => simp [mapSet]
  | cons p rest ih =>
    obtain ⟨k', v'⟩ := p
    simp only [List.map_cons, List.nodup_cons] at h
    by_cases hk : k' = k
    · subst hk
      simp only [mapSet, if_true, List.map_cons, List.nodup_cons]
      exact h
    · simp only [mapSet, hk, if_false, List.map_cons, List.nodup_cons]
      refine ⟨?_, ih h.2⟩
      intro hmem
      have : k' ∈ ((mapSet rest k v).map Prod.fst).toFinset := List.mem_toFinset.2 hmem
      rw [keys_mapSet, Finset.mem_insert, List.mem_toFinset] at this
      rcases this with e | e
      · exact hk e
      · exact h.1 e

theorem nodup_unionLoop (m l : List (LockSetKey × LockSet)) (h : (m.map Prod.fst).Nodup) :
    ((unionLoop m l).map Prod.fst).Nodup := by
  induction l generalizing m with
  | nil => exact h
  | cons p rest ih => exact ih _ (nodup_mapSet m p.1 p.2 h)

theorem nodup_reachable (lss : LockSetSet) (h : Reachable lss) : (lss.M.map Prod.fst).Nodup := by
  induction h with
  | new => exact List.nodup_nil
  | add lss ss _ ih => exact nodup_mapSet _ _ _ ih
  | union a b _ _ iha _ => exact nodup_unionLoop _ _ iha
  | unionNil a _ ih => exact ih

/-- C17: a `LockSetSet` built from `NewLockSetSet` by `Add` and `Union` stores every
member under its own canonical key and has one entry per key, so two members under
the same key hold the same identities, and adding a lockset that holds the
identities of a member changes nothing. -/
theorem Reachable_keys (lss : LockSetSet) (h : Reachable lss) :
    (∀ k ls, (k, ls) ∈ lss.M → ls.Key = k) ∧
    (lss.M.map Prod.fst).Nodup ∧
    (∀ k a b, (k, a) ∈ lss.M → (k, b) ∈ lss.M → a = b) ∧
    (∀ k a ss, (k, a) ∈ lss.M → (∀ i, ss.bits.testBit i = a.bits.testBit i) →
      lss.Add ss = lss) := by
  have hinv := keyInv_reachable lss h
  refine ⟨fun k ls hm => hinv (k, ls) hm, nodup_reachable lss h, ?_, ?_⟩
  · intro k a b hka hkb
    exact Key_injective a b ((hinv _ hka).trans (hinv _ hkb).symm)
  · intro k a ss hka hbits
    have hss : ss = a := by
      have := Nat.eq_of_testBit_eq hbits
      cases ss; cases a; simp_all
    subst hss
    have hk := hinv _ hka
    simp only at hk
    have hg : mapGet lss.M ss.Key = some ss :=
      (keyInv_mapGet lss hinv ss.Key ss).2
        ⟨by simp only [LockSetSet.keys, List.mem_toFinset, List.mem_map]
            exact ⟨(k, ss), hka, hk.symm⟩, rfl⟩
    simp only [LockSetSet.Add, mapSet_same _ _ _ hg]

theorem Reachable_keys_witness :
    (∀ k ls, (k, ls) ∈ ((setOf [1, 2]).Union (some (setOf [2, 3]))).M → ls.Key = k) ∧
    (((setOf [1, 2]).Union (some (setOf [2, 3]))).M.map Prod.fst).Nodup ∧
    (∀ k a b, (k, a) ∈ ((setOf [1, 2]).Union (some (setOf [2, 3]))).M →
      (k, b) ∈ ((setOf [1, 2]).Union (some (setOf [2, 3]))).M → a = b) ∧
    (∀ k a ss, (k, a) ∈ ((setOf [1, 2]).Union (some (setOf [2, 3]))).M →
      (∀ i, ss.bits.testBit i = a.bits.testBit i) →
      ((setOf [1, 2]).Union (some (setOf [2, 3]))).Add ss =
        (setOf [1, 2]).Union (some (setOf [2, 3]))) :=
  Reachable_keys _ (Reachable.union _ _ (reachable_setOf [1, 2]) (reachable_setOf [2, 3]))
/-! ## First lemmas on the walk; external functions -/

theorem range_single {VS : Type} (env : Env VS) (hrange : ∀ l, (env.range l).Perm l)
    (a : LockSetKey × LockSet) : env.range [a] = [a] :=
  List.perm_singleton.mp (hrange [a])

theorem firstVisit_noIf (fuel : Nat) (fn : Function) (f : FuncId) (s : State)
    (h : ifInstrsFrom 0 fn.Blocks = []) :
    ∃ s1, firstVisit fuel fn f s = .ok s1 ∧ s1.sp = s.sp ∧ s1.stack = s.stack ∧
      (∀ k, memoOf s f k = none → memoOf s1 f k = none) ∧
      ∃ fi, mapGet s1.fns f = some fi := by
  unfold firstVisit
  cases hf : mapGet s.fns f with
  | some fi => exact ⟨s, rfl, rfl, rfl, fun _ h => h, fi, hf⟩
  | none =>
    simp only [h, livenessFor, doVals]
    refine ⟨_, rfl, rfl, rfl, ?_, _, mapGet_mapSet_self _ _ _⟩
    intro k _
    simp [memoOf, mapGet_mapSet_self, mapGet]

theorem Plus_Minus_bits (A B : List String) (hAB : ∀ l, l ∈ A → l ∈ B) (sp : StringSpace) :
    ((NewSet.Plus A sp).2.Minus B (NewSet.Plus A sp).1).2 = NewSet := by
  have h : ((NewSet.Plus A sp).2.Minus B (NewSet.Plus A sp).1).2.bits = 0 := by
    apply Nat.eq_of_testBit_eq
    intro i
    rw [Nat.zero_testBit]
    by_contra hc
    have ht := (Minus_testBit _ _ _ i).1 (by simpa using hc)
    obtain ⟨h1, h2⟩ := ht
    rcases (Plus_testBit _ _ _ i).1 h1 with h3 | ⟨l, hl, h3⟩
    · simp [NewSet] at h3
    · apply h2
      refine ⟨l, hAB l hl, ?_⟩
      rw [Plus_fst]
      exact internAll_keeps B _ l i h3
  cases hr : ((NewSet.Plus A sp).2.Minus B (NewSet.Plus A sp).1).2 with
  | mk b => rw [hr] at h; simp only at h; subst h; rfl

theorem Plus_single (X : String) (sp : StringSpace) :
    NewSet.Plus [X] sp = ((sp.Intern X).2, { bits := 2 ^ (sp.Intern X).1 }) := by
  simp [LockSet.Plus, plusLoop, NewSet, Bit, SetBit]

theorem exitPos_entry (fn : Function) (fuel b : Nat) (blk : BasicBlock)
    (hb : fn.Blocks[b]? = some blk) (hp : blk.Preds = []) :
    ∃ p, exitPos fn (fuel + 1) b = .ok p := by
  simp only [exitPos, hb, hp]
  cases lastPos blk.Instrs <;> simp

theorem livenessFor_oneIf (fuel : Nat) (fn : Function) (cond : Value) (p0 : Nat)
    (s0 : List Nat) (rest : List BasicBlock)
    (hfn : fn.Blocks = ⟨[⟨.If cond, p0⟩], [], s0⟩ :: rest)
    (hc : cond.isInstr = false) :
    livenessFor (fuel + 2) fn [(0, 0)] =
      .ok (([cond] : List Value) :: List.replicate rest.length []) := by
  have hb0 : fn.Blocks[0]? = some ⟨[⟨.If cond, p0⟩], [], s0⟩ := by rw [hfn]; simp
  cases cond <;>
    simp_all [livenessFor, doVals, doInstr, doInstrBody, Instruction.Operands, doRands, walk,
      walkBody, depsAdd, Value.isInstr, List.replicate]

/-- C7: for an external function (one with no blocks) and every entry lockset `L`,
`walkFunction` returns a `LockSetSet` with exactly one member, `L` itself, keyed
by `L.Key()`; the state only gains the record of the function on a first visit. -/
theorem walkFunction_external {VS : Type} (env : Env VS) (fuel : Nat) (f : FuncId)
    (L : LockSet) (s : State) (hext : (env.prog.funcs f).Blocks = []) :
    walkFunction env (fuel + 1) f L s =
      .ok (some { M := [(L.Key, L)] },
        match mapGet s.fns f with
        | some _ => s
        | none => { s with fns := mapSet s.fns f { exitLockSets := [], ifDeps := [] } }) := by
  simp only [walkFunction, firstVisit, hext, ifInstrsFrom, livenessFor, doVals]
  cases h : mapGet s.fns f <;> simp [NewLockSetSet, LockSetSet.Add, mapSet]

theorem walkFunction_external_witness :
    walkFunction exEnv 1 8 { bits := 5 } initState =
      .ok (some { M := [("5", { bits := 5 })] },
        { initState with fns := [(8, { exitLockSets := [], ifDeps := [] })] }) :=
  walkFunction_external exEnv 0 8 { bits := 5 } initState rfl

/-! ## Memoization -/

theorem Keeps.refl (s : State) : Keeps s s := fun _ _ _ h => h

theorem Keeps.trans {s s1 s2 : State} (h1 : Keeps s s1) (h2 : Keeps s1 s2) : Keeps s s2 :=
  fun f k v h => h2 f k v (h1 f k v h)

theorem Keeps.of_fns {s s1 : State} (h : s1.fns = s.fns) : Keeps s s1 := by
  intro f k v hv
  simpa [memoOf, h] using hv

theorem callAll_keeps (wf) (hwf : KeepsWf wf) (o : FuncId) (l : List (LockSetKey × LockSet))
    (s : State) (next : LockSetSet) (s1 : State) (next1 : LockSetSet)
    (h : callAll wf o l s next = .ok (s1, next1)) : Keeps s s1 := by
  induction l generalizing s next with
  | nil => simp only [callAll, Except.ok.injEq, Prod.mk.injEq] at h; rw [← h.1]; exact Keeps.refl s
  | cons p rest ih =>
    obtain ⟨k, ls⟩ := p
    simp only [callAll] at h
    split at h
    · cases h
    · rename_i r s2 heq
      exact (hwf _ _ _ _ _ heq).trans (ih _ _ h)

theorem doOuts_keeps {VS : Type} (env : Env VS) (wf) (hwf : KeepsWf wf) (f : FuncId)
    (args : List Value) (lockSets : LockSetSet) (outs : List FuncId)
    (s : State) (next : LockSetSet) (s1 : State) (next1 : LockSetSet)
    (h : doOuts env wf f args lockSets outs s next = .ok (s1, next1)) : Keeps s s1 := by
  induction outs generalizing s next with
  | nil => simp only [doOuts, Except.ok.injEq, Prod.mk.injEq] at h; rw [← h.1]; exact Keeps.refl s
  | cons o rest ih =>
    simp only [doOuts] at h
    split at h
    · split at h
      · cases h
      · have h2 := ih _ _ h
        exact Keeps.trans (Keeps.of_fns rfl) h2
    · split at h
      · split at h
        · cases h
        · have h2 := ih _ _ h
          exact Keeps.trans (Keeps.of_fns rfl) h2
      · split at h
        · cases h
        · rename_i s2 next2 heq
          exact (callAll_keeps wf hwf _ _ _ _ _ _ heq).trans (ih _ _ h)

theorem doInstruction_keeps {VS : Type} (env : Env VS) (wf) (hwf : KeepsWf wf) (f : FuncId)
    (b idx : Nat) (instr : Instruction) (fr fr1 : Frame VS)
    (h : doInstruction env wf f b idx instr fr = .ok fr1) : Keeps fr.s fr1.s := by
  unfold doInstruction at h
  split at h
  · cases h; exact Keeps.refl _
  · split at h
    · cases h
    · rename_i s1 next heq
      cases h
      exact doOuts_keeps env wf hwf _ _ _ _ _ _ _ _ heq
  · cases h; exact Keeps.refl _
  · cases h; exact Keeps.refl _

theorem doInstructions_keeps {VS : Type} (env : Env VS) (wf) (hwf : KeepsWf wf) (f : FuncId)
    (b idx : Nat) (instrs : List Instruction) (fr fr1 : Frame VS)
    (h : doInstructions env wf f b idx instrs fr = .ok fr1) : Keeps fr.s fr1.s := by
  induction instrs generalizing idx fr with
  | nil => simp only [doInstructions, Except.ok.injEq] at h; rw [h]; exact Keeps.refl _
  | cons i rest ih =>
    simp only [doInstructions] at h
    split at h
    · cases h
    · rename_i fr2 heq
      exact (doInstruction_keeps env wf hwf _ _ _ _ _ _ heq).trans (ih _ _ h)

theorem walkSuccs_keeps {VS : Type} (ops : ValStateOps VS) (fn : Function) (rec)
    (hrec : KeepsRec rec) (b : Nat) (vs : VS) (ifCond : Option Value) (ls : LockSet)
    (i : Nat) (succs : List Nat) (w w1 : Walk VS)
    (h : walkSuccs ops fn rec b vs ifCond ls i succs w = .ok w1) : Keeps w.s w1.s := by
  induction succs generalizing i w with
  | nil => simp only [walkSuccs, Except.ok.injEq] at h; rw [h]; exact Keeps.refl _
  | cons b2 rest ih =>
    simp only [walkSuccs] at h
    split at h
    · cases h
    · split at h
      · cases h
      · rename_i w2 heq
        exact (hrec _ _ _ _ _ heq).trans (ih _ _ h)

theorem walkFrontier_keeps {VS : Type} (ops : ValStateOps VS) (fn : Function) (rec)
    (hrec : KeepsRec rec) (b : Nat) (vs : VS) (ifCond : Option Value) (succs : List Nat)
    (l : List (LockSetKey × LockSet)) (w w1 : Walk VS)
    (h : walkFrontier ops fn rec b vs ifCond succs l w = .ok w1) : Keeps w.s w1.s := by
  induction l generalizing w with
  | nil => simp only [walkFrontier, Except.ok.injEq] at h; rw [h]; exact Keeps.refl _
  | cons p rest ih =>
    obtain ⟨k, ls⟩ := p
    simp only [walkFrontier] at h
    split at h
    · cases h
    · rename_i w2 heq
      exact (walkSuccs_keeps ops fn rec hrec _ _ _ _ _ _ _ _ heq).trans (ih _ h)

theorem walkBlockBody_keeps {VS : Type} (env : Env VS) (wf) (hwf : KeepsWf wf) (exitPosF) (rec)
    (hrec : KeepsRec rec) (f : FuncId) : KeepsRec (walkBlockBody env wf exitPosF rec f) := by
  intro b vs ls w w1 h
  unfold walkBlockBody at h
  split at h
  · cases h
  · split at h
    · cases h
    · cases h; exact Keeps.refl _
    · unfold walkBlockRun at h
      simp only at h
      split at h
      · cases h
      · rename_i fr hfr
        split at h
        · cases h
        · split at h
          · cases h
          · have h1 := doInstructions_keeps env wf hwf _ _ _ _ _ _ hfr
            have h2 := walkFrontier_keeps _ _ _ hrec _ _ _ _ _ _ _ h
            exact h1.trans h2

theorem walkBlock_keeps {VS : Type} (env : Env VS) (wf) (hwf : KeepsWf wf) (f : FuncId)
    (fuel : Nat) : KeepsRec (walkBlock env wf f fuel) := by
  induction fuel with
  | zero => intro b vs ls w w1 h; cases h
  | succ n ih => exact walkBlockBody_keeps env wf hwf _ _ ih f


theorem memoOf_setMemo_of_ne (s : State) (f g : FuncId) (key k : LockSetKey)
    (v : Option LockSetSet) (hne : ¬ (g = f ∧ k = key)) :
    memoOf (setMemo s f key v) g k = memoOf s g k := by
  unfold setMemo
  cases hf : mapGet s.fns f with
  | none => rfl
  | some fi =>
    by_cases hg : g = f
    · subst hg
      have hk : key ≠ k := fun e => hne ⟨rfl, e.symm⟩
      simp [memoOf, mapGet_mapSet_self, hf, mapGet_mapSet_of_ne _ _ _ _ hk]
    · have hg2 : f ≠ g := fun e => hg e.symm
      simp [memoOf, mapGet_mapSet_of_ne _ _ _ _ hg2]

theorem memoOf_setMemo_self (s : State) (f : FuncId) (key : LockSetKey)
    (v : Option LockSetSet) (fi : funcInfo) (hf : mapGet s.fns f = some fi) :
    memoOf (setMemo s f key v) f key = some v := by
  simp [setMemo, hf, memoOf, mapGet_mapSet_self]

theorem memoOf_stack (s : State) (st : List FuncId) (g : FuncId) (k : LockSetKey) :
    memoOf { s with stack := st } g k = memoOf s g k := rfl

theorem firstVisit_keeps (fuel : Nat) (fn : Function) (f : FuncId) (s s1 : State)
    (h : firstVisit fuel fn f s = .ok s1) : Keeps s s1 := by
  unfold firstVisit at h
  cases hf : mapGet s.fns f with
  | some fi => simp only [hf] at h; cases h; exact Keeps.refl s
  | none =>
    simp only [hf] at h
    split at h
    · cases h
    · cases h
      intro g k v hv
      have hg : f ≠ g := by
        intro e; subst e
        simp [memoOf, hf] at hv
      simpa [memoOf, mapGet_mapSet_of_ne _ _ _ _ hg] using hv

theorem firstVisit_has (fuel : Nat) (fn : Function) (f : FuncId) (s s1 : State)
    (h : firstVisit fuel fn f s = .ok s1) : ∃ fi, mapGet s1.fns f = some fi := by
  unfold firstVisit at h
  cases hf : mapGet s.fns f with
  | some fi => simp only [hf] at h; cases h; exact ⟨fi, hf⟩
  | none =>
    simp only [hf] at h
    split at h
    · cases h
    · cases h
      exact ⟨_, mapGet_mapSet_self _ _ _⟩

theorem memoOf_has (s : State) (f : FuncId) (k : LockSetKey) (v : Option LockSetSet)
    (h : memoOf s f k = some v) : ∃ fi, mapGet s.fns f = some fi := by
  unfold memoOf at h
  cases hf : mapGet s.fns f with
  | none => simp [hf] at h
  | some fi => exact ⟨fi, rfl⟩

theorem walkFunction_keeps {VS : Type} (env : Env VS) (fuel : Nat) :
    KeepsWf (walkFunction env fuel) := by
  induction fuel with
  | zero => intro o ls s r s1 h; cases h
  | succ n ih =>
    intro f locks s r sEnd h
    simp only [walkFunction] at h
    split at h
    · cases h
    · rename_i s1 hfv
      have hk1 := firstVisit_keeps _ _ _ _ _ hfv
      split at h
      · cases h; exact hk1
      · split at h
        · cases h; exact hk1
        · rename_i hmemo
          split at h
          · cases h
          · rename_i w hw
            cases h
            have hkw := walkBlock_keeps env _ ih f n _ _ _ _ _ hw
            intro g k v hv
            have h1 := hk1 g k v hv
            have hne : ¬ (g = f ∧ k = locks.Key) := by
              rintro ⟨e1, e2⟩
              subst e1; subst e2
              rw [hmemo] at h1; cases h1
            have h3 : memoOf w.s g k = some v := by
              apply hkw
              rw [memoOf_stack, memoOf_setMemo_of_ne _ _ _ _ _ _ hne]
              exact h1
            rw [memoOf_stack, memoOf_setMemo_of_ne _ _ _ _ _ _ hne]
            exact h3

theorem walkFunction_records {VS : Type} (env : Env VS) (fuel : Nat) (f : FuncId)
    (L : LockSet) (s s1 : State) (r : Option LockSetSet)
    (hbody : (env.prog.funcs f).Blocks ≠ [])
    (h : walkFunction env fuel f L s = .ok (r, s1)) : memoOf s1 f L.Key = some r := by
  have hlen : ¬ (env.prog.funcs f).Blocks.length = 0 := by
    simpa [List.length_eq_zero] using hbody
  cases fuel with
  | zero => cases h
  | succ n =>
    simp only [walkFunction, if_neg hlen] at h
    split at h
    · cases h
    · rename_i s2 hfv
      obtain ⟨fi, hfi⟩ := firstVisit_has _ _ _ _ _ hfv
      split at h
      · rename_i memo hmemo
        cases h; exact hmemo
      · split at h
        · cases h
        · rename_i w hw
          cases h
          have hkw := walkBlock_keeps env _ (walkFunction_keeps env n) f n _ _ _ _ _ hw
          have h3 : memoOf w.s f L.Key = some none := by
            apply hkw
            rw [memoOf_stack]
            exact memoOf_setMemo_self _ _ _ _ fi hfi
          obtain ⟨fi2, hfi2⟩ := memoOf_has _ _ _ _ h3
          rw [memoOf_stack]
          exact memoOf_setMemo_self _ _ _ _ fi2 hfi2

theorem walkFunction_hit {VS : Type} (env : Env VS) (fuel : Nat) (f : FuncId)
    (L : LockSet) (s : State) (r : Option LockSetSet)
    (hbody : (env.prog.funcs f).Blocks ≠ [])
    (h : memoOf s f L.Key = some r) : walkFunction env (fuel + 1) f L s = .ok (r, s) := by
  have hlen : ¬ (env.prog.funcs f).Blocks.length = 0 := by
    simpa [List.length_eq_zero] using hbody
  obtain ⟨fi, hfi⟩ := memoOf_has _ _ _ _ h
  simp only [walkFunction, firstVisit, hfi, if_neg hlen, h]

theorem walkFunction_walk {VS : Type} (env : Env VS) (fuel : Nat) (f : FuncId)
    (L : LockSet) (s sEnd : State) (r : Option LockSetSet) (s1 : State)
    (hbody : (env.prog.funcs f).Blocks ≠ [])
    (hfv : firstVisit fuel (env.prog.funcs f) f s = .ok s1)
    (hmemo : memoOf s1 f L.Key = none)
    (h : walkFunction env (fuel + 1) f L s = .ok (r, sEnd)) :
    ∃ w, walkBlock env (walkFunction env fuel) f fuel 0 env.ops.nil L
        { s := { setMemo s1 f L.Key none with stack := (setMemo s1 f L.Key none).stack ++ [f] }
          blockCache := [], exitLockSets := NewLockSetSet } = .ok w ∧
      memoOf w.s f L.Key = some none ∧ r = some w.exitLockSets ∧
      sEnd = { setMemo w.s f L.Key (some w.exitLockSets) with
        stack := (setMemo w.s f L.Key (some w.exitLockSets)).stack.dropLast } := by
  have hlen : ¬ (env.prog.funcs f).Blocks.length = 0 := by
    simpa [List.length_eq_zero] using hbody
  obtain ⟨fi, hfi⟩ := firstVisit_has _ _ _ _ _ hfv
  simp only [walkFunction, hfv, if_neg hlen, hmemo] at h
  split at h
  · cases h
  · rename_i w hw
    cases h
    refine ⟨w, hw, ?_, rfl, rfl⟩
    apply walkBlock_keeps env _ (walkFunction_keeps env fuel) f fuel _ _ _ _ _ hw
    rw [memoOf_stack]
    exact memoOf_setMemo_self _ _ _ _ fi hfi

theorem Later.chain {VS : Type} {env : Env VS} {fin : FuncId → LockSetKey → Prop}
    {s s1 s2 : State} (h1 : Later env fin s s1) (h2 : Later env fin s1 s2) :
    Later env fin s s2 := by
  induction h2 with
  | refl => exact h1
  | call a b fuel g M r _ hc ih => exact Later.call _ _ _ fuel g M r ih hc
  | enter a b fuel g M _ hfv hb hm ih => exact Later.enter _ _ _ fuel g M ih hfv hb hm
  | leave a g k r _ hf hp ih => exact Later.leave _ _ g k r ih hf hp
  | plus a lock l next _ ih => exact Later.plus _ _ lock l next ih
  | minus a lock l next _ ih => exact Later.minus _ _ lock l next ih

theorem callAll_later {VS : Type} (env : Env VS) (fin : FuncId → LockSetKey → Prop) (wf)
    (hwf : ∀ o ls s r s1, wf o ls s = .ok (r, s1) → Later env fin s s1)
    (o : FuncId) (l : List (LockSetKey × LockSet))
    (s : State) (next : LockSetSet) (s1 : State) (next1 : LockSetSet)
    (h : callAll wf o l s next = .ok (s1, next1)) : Later env fin s s1 := by
  induction l generalizing s next with
  | nil => simp only [callAll, Except.ok.injEq, Prod.mk.injEq] at h; rw [← h.1]; exact Later.refl s
  | cons p rest ih =>
    obtain ⟨k, ls⟩ := p
    simp only [callAll] at h
    split at h
    · cases h
    · rename_i r s2 heq
      exact (hwf _ _ _ _ _ heq).chain (ih _ _ h)

theorem doOuts_later {VS : Type} (env : Env VS) (fin : FuncId → LockSetKey → Prop) (wf)
    (hwf : ∀ o ls s r s1, wf o ls s = .ok (r, s1) → Later env fin s s1) (f : FuncId)
    (args : List Value) (lockSets : LockSetSet) (outs : List FuncId)
    (s : State) (next : LockSetSet) (s1 : State) (next1 : LockSetSet)
    (h : doOuts env wf f args lockSets outs s next = .ok (s1, next1)) : Later env fin s s1 := by
  induction outs generalizing s next with
  | nil => simp only [doOuts, Except.ok.injEq, Prod.mk.injEq] at h; rw [← h.1]; exact Later.refl s
  | cons o rest ih =>
    simp only [doOuts] at h
    split at h
    · split at h
      · cases h
      · have h2 := ih _ _ h
        exact Later.chain (Later.plus _ _ _ _ _ (Later.refl s)) h2
    · split at h
      · split at h
        · cases h
        · have h2 := ih _ _ h
          exact Later.chain (Later.minus _ _ _ _ _ (Later.refl s)) h2
      · split at h
        · cases h
        · rename_i s2 next2 heq
          exact (callAll_later env fin wf hwf _ _ _ _ _ _ heq).chain (ih _ _ h)

theorem doInstruction_later {VS : Type} (env : Env VS) (fin : FuncId → LockSetKey → Prop) (wf)
    (hwf : ∀ o ls s r s1, wf o ls s = .ok (r, s1) → Later env fin s s1) (f : FuncId)
    (b idx : Nat) (instr : Instruction) (fr fr1 : Frame VS)
    (h : doInstruction env wf f b idx instr fr = .ok fr1) : Later env fin fr.s fr1.s := by
  unfold doInstruction at h
  split at h
  · cases h; exact Later.refl _
  · split at h
    · cases h
    · rename_i s1 next heq
      cases h
      exact doOuts_later env fin wf hwf _ _ _ _ _ _ _ _ heq
  · cases h; exact Later.refl _
  · cases h; exact Later.refl _

theorem doInstructions_later {VS : Type} (env : Env VS) (fin : FuncId → LockSetKey → Prop) (wf)
    (hwf : ∀ o ls s r s1, wf o ls s = .ok (r, s1) → Later env fin s s1) (f : FuncId)
    (b idx : Nat) (instrs : List Instruction) (fr fr1 : Frame VS)
    (h : doInstructions env wf f b idx instrs fr = .ok fr1) : Later env fin fr.s fr1.s := by
  induction instrs generalizing idx fr with
  | nil => simp only [doInstructions, Except.ok.injEq] at h; rw [h]; exact Later.refl _
  | cons i rest ih =>
    simp only [doInstructions] at h
    split at h
    · cases h
    · rename_i fr2 heq
      exact (doInstruction_later env fin wf hwf _ _ _ _ _ _ heq).chain (ih _ _ h)

theorem walkSuccs_later {VS : Type} (env : Env VS) (fin : FuncId → LockSetKey → Prop)
    (fn : Function) (rec)
    (hrec : ∀ b vs ls (w w1 : Walk VS), rec b vs ls w = .ok w1 → Later env fin w.s w1.s)
    (b : Nat) (vs : VS) (ifCond : Option Value) (ls : LockSet)
    (i : Nat) (succs : List Nat) (w w1 : Walk VS)
    (h : walkSuccs env.ops fn rec b vs ifCond ls i succs w = .ok w1) : Later env fin w.s w1.s := by
  induction succs generalizing i w with
  | nil => simp only [walkSuccs, Except.ok.injEq] at h; rw [h]; exact Later.refl _
  | cons b2 rest ih =>
    simp only [walkSuccs] at h
    split at h
    · cases h
    · split at h
      · cases h
      · rename_i w2 heq
        exact (hrec _ _ _ _ _ heq).chain (ih _ _ h)

theorem walkFrontier_later {VS : Type} (env : Env VS) (fin : FuncId → LockSetKey → Prop)
    (fn : Function) (rec)
    (hrec : ∀ b vs ls (w w1 : Walk VS), rec b vs ls w = .ok w1 → Later env fin w.s w1.s)
    (b : Nat) (vs : VS) (ifCond : Option Value) (succs : List Nat)
    (l : List (LockSetKey × LockSet)) (w w1 : Walk VS)
    (h : walkFrontier env.ops fn rec b vs ifCond succs l w = .ok w1) :
    Later env fin w.s w1.s := by
  induction l generalizing w with
  | nil => simp only [walkFrontier, Except.ok.injEq] at h; rw [h]; exact Later.refl _
  | cons p rest ih =>
    obtain ⟨k, ls⟩ := p
    simp only [walkFrontier] at h
    split at h
    · cases h
    · rename_i w2 heq
      exact (walkSuccs_later env fin fn rec hrec _ _ _ _ _ _ _ _ heq).chain (ih _ h)

theorem walkBlock_later {VS : Type} (env : Env VS) (fin : FuncId → LockSetKey → Prop) (wf)
    (hwf : ∀ o ls s r s1, wf o ls s = .ok (r, s1) → Later env fin s s1) (f : FuncId)
    (fuel : Nat) : ∀ b vs ls (w w1 : Walk VS), walkBlock env wf f fuel b vs ls w = .ok w1 →
      Later env fin w.s w1.s := by
  induction fuel with
  | zero => intro b vs ls w w1 h; cases h
  | succ n ih =>
    intro b vs ls w w1 h
    rw [walkBlock] at h
    unfold walkBlockBody at h
    split at h
    · cases h
    · split at h
      · cases h
      · cases h; exact Later.refl _
      · unfold walkBlockRun at h
        simp only at h
        split at h
        · cases h
        · rename_i fr hfr
          split at h
          · cases h
          · split at h
            · cases h
            · have h1 := doInstructions_later env fin wf hwf _ _ _ _ _ _ hfr
              have h2 := walkFrontier_later env fin _ _ ih _ _ _ _ _ _ _ h
              exact h1.chain h2

theorem Later_memo {VS : Type} (env : Env VS) (fin : FuncId → LockSetKey → Prop)
    (s s2 : State) (h : Later env fin s s2) (f : FuncId) (key : LockSetKey)
    (v : Option LockSetSet) (hm : memoOf s f key = some v) (hv : v = none → ¬ fin f key) :
    memoOf s2 f key = some v := by
  induction h with
  | refl => exact hm
  | call s1 s2 fuel g M r _ hc ih => exact walkFunction_keeps env fuel _ _ _ _ _ hc _ _ _ ih
  | enter s1 s2 fuel g M _ hfv _ hnone ih =>
    have h2 := firstVisit_keeps _ _ _ _ _ hfv _ _ _ ih
    have hne : ¬ (f = g ∧ key = M.Key) := by
      rintro ⟨e1, e2⟩
      subst e1; subst e2
      rw [hnone] at h2; cases h2
    rw [memoOf_stack, memoOf_setMemo_of_ne _ _ _ _ _ _ hne]
    exact h2
  | leave s1 g k r _ hfin hplace ih =>
    have hne : ¬ (f = g ∧ key = k) := by
      rintro ⟨e1, e2⟩
      subst e1; subst e2
      rw [hplace] at ih
      cases ih
      exact hv rfl hfin
    rw [memoOf_stack, memoOf_setMemo_of_ne _ _ _ _ _ _ hne]
    exact ih
  | plus s1 lock l next _ ih => exact ih
  | minus s1 lock l next _ ih => exact ih

/-- C8 (amended): for a function with a body, once `walkFunction(f, L)` has completed
with the result `r`, any later `walkFunction(f, L2)` with `L2.Key() == L.Key()`
returns `r` again, needs no fuel for a block walk and leaves the state with its memo
tables as it is.  Later is any state that the walker reaches from the end of the
first call: after further calls, inside the walks of other functions, after walks in
progress have ended.  When the first call returned nil, the placeholder of a walk of
`f` from a lockset with that key in progress, this holds as long as that walk has not
ended (`fin`). -/
theorem walkFunction_memoized {VS : Type} (env : Env VS) (fuel : Nat) (f : FuncId)
    (L : LockSet) (s s1 : State) (r : Option LockSetSet)
    (hbody : (env.prog.funcs f).Blocks ≠ [])
    (h : walkFunction env fuel f L s = .ok (r, s1))
    (fin : FuncId → LockSetKey → Prop) (hfin : r = none → ¬ fin f L.Key)
    (s2 : State) (hlater : Later env fin s1 s2) (L2 : LockSet) (hkey : L2.Key = L.Key)
    (fuel2 : Nat) : walkFunction env (fuel2 + 1) f L2 s2 = .ok (r, s2) := by
  apply walkFunction_hit env fuel2 f L2 s2 r hbody
  rw [hkey]
  exact Later_memo env fin s1 s2 hlater _ _ _
    (walkFunction_records env fuel f L s s1 r hbody h) hfin

/-! ## Calls without a callee, and a walk that does not return -/

/-- A call without any callee empties the frontier. -/
theorem doInstruction_no_callee {VS : Type} (env : Env VS) (wf) (f : FuncId) (b idx : Nat)
    (static : Option FuncId) (fn : Value) (args : List Value) (pos : Nat) (fr : Frame VS)
    (h : callOuts env.prog f (b, idx) static = []) :
    doInstruction env wf f b idx ⟨.Call static fn args, pos⟩ fr =
      .ok { fr with vs := env.ops.Do fr.vs (b, idx) ⟨.Call static fn args, pos⟩,
                    lockSets := NewLockSetSet } := by
  simp [doInstruction, h, doOuts]

/-- C4: in `printFn` the call has no static callee and its function no call-graph
node, and the walk from the empty lockset returns no lockset at all: the
frontier after the call is empty, not the frontier before it, so the empty
lockset held before the call does not reach the return. -/
theorem walkFunction_unresolved_call :
    keysOf (walkFunction exEnv 2 5 NewSet initState) = some [] ∧
    doInstruction exEnv (walkFunction exEnv 1) 5 0 0 ⟨.Call none (.Builtin 0) [], 1⟩
      { vs := [], lockSets := NewLockSetSet.Add NewSet, ifCond := none, s := initState,
        exitLockSets := NewLockSetSet } =
      .ok { vs := [], lockSets := NewLockSetSet, ifCond := none, s := initState,
            exitLockSets := NewLockSetSet } := by
  constructor
  · rfl
  · rfl

theorem exitPos_spin (fuel : Nat) : exitPos spinFn fuel 1 = .error .fuel := by
  induction fuel with
  | zero => rfl
  | succ n ih =>
    have hb : spinFn.Blocks[1]? =
        some ⟨[⟨.If (.Parameter 0), 0⟩], [1, 0], [1, 2]⟩ := rfl
    simp only [exitPos, hb, lastPos]
    simpa using ih

theorem Key_NewSet : NewSet.Key = "0" := by decide

theorem liveness_spin (n : Nat) :
    livenessFor n spinFn (ifInstrsFrom 0 spinFn.Blocks) = .error .fuel ∨
    livenessFor n spinFn (ifInstrsFrom 0 spinFn.Blocks) =
      .ok [[.Parameter 0], [.Parameter 0], []] := by
  rcases n with _ | _ | _ | n
  · left; rfl
  · left; rfl
  · left; rfl
  · right; rfl

theorem walkBlock_spin_again (wf) (fuel : Nat) (s : State) (cache) (ex : LockSetSet)
    (fi : funcInfo) (h1 : mapGet cache (1, "0") = some [[]])
    (h2 : mapGet s.fns 7 = some fi) (h3 : fi.ifDeps = [[.Parameter 0], [.Parameter 0], []]) :
    walkBlock exEnv wf 7 fuel 1 [(.Parameter 0, ⟨true⟩)] NewSet ⟨s, cache, ex⟩ =
      .error .fuel := by
  cases fuel with
  | zero => rfl
  | succ n =>
    have hb : (exEnv.prog.funcs 7).Blocks[1]? =
        some ⟨[⟨.If (.Parameter 0), 0⟩], [1, 0], [1, 2]⟩ := rfl
    have he : exitPos (exEnv.prog.funcs 7) n 1 = .error .fuel := exitPos_spin n
    simp only [walkBlock, walkBlockBody, hb, Key_NewSet, h1, Option.getD, cacheStop, h2, h3,
      walkBlockRun, resolveCond, logPos, doInstructions, doInstruction, he]
    rfl

theorem walkBlock_spin_first (wf) (fuel : Nat) (s : State) (cache) (ex : LockSetSet)
    (fi : funcInfo) (h1 : mapGet cache (1, "0") = none)
    (h2 : mapGet s.fns 7 = some fi) (h3 : fi.ifDeps = [[.Parameter 0], [.Parameter 0], []]) :
    walkBlock exEnv wf 7 fuel 1 [] NewSet ⟨s, cache, ex⟩ = .error .fuel := by
  cases fuel with
  | zero => rfl
  | succ n =>
    have hb : (exEnv.prog.funcs 7).Blocks[1]? =
        some ⟨[⟨.If (.Parameter 0), 0⟩], [1, 0], [1, 2]⟩ := rfl
    simp only [walkBlock, walkBlockBody, hb, Key_NewSet, h1, Option.getD, cacheStop, walkBlockRun, resolveCond, logPos,
      doInstructions, doInstruction]
    have hg : exEnv.ops.Get (exEnv.ops.Do [] (1, 0) ⟨.If (.Parameter 0), 0⟩)
        (.Parameter 0) = none := rfl
    simp only [hg, pruneSuccs]
    have hr : exEnv.range (NewLockSetSet.Add NewSet).M = [("0", NewSet)] := by decide
    simp only [hr, walkFrontier, walkSuccs]
    have hs : succState exEnv.ops (exEnv.prog.funcs 7) 1
        (exEnv.ops.Do [] (1, 0) ⟨.If (.Parameter 0), 0⟩) (some (.Parameter 0)) 0 1 =
        .ok [(.Parameter 0, ⟨true⟩)] := rfl
    simp only [hs, List.nil_append]
    rw [walkBlock_spin_again wf n _ _ _ fi (mapGet_mapSet_self _ _ _) h2 h3]

theorem walkBlock_spin_entry (wf) (fuel : Nat) (s : State) (ex : LockSetSet) (fi : funcInfo)
    (h2 : mapGet s.fns 7 = some fi) (h3 : fi.ifDeps = [[.Parameter 0], [.Parameter 0], []]) :
    walkBlock exEnv wf 7 fuel 0 [] NewSet ⟨s, [], ex⟩ = .error .fuel := by
  cases fuel with
  | zero => rfl
  | succ n =>
    have hb : (exEnv.prog.funcs 7).Blocks[0]? = some ⟨[⟨.Other [], 0⟩], [], [1]⟩ := rfl
    simp only [walkBlock, walkBlockBody, hb, Key_NewSet, mapGet, Option.getD, cacheStop,
      walkBlockRun, resolveCond, logPos, doInstructions, doInstruction, pruneSuccs]
    have hr : exEnv.range (NewLockSetSet.Add NewSet).M = [("0", NewSet)] := by decide
    simp only [hr, walkFrontier, walkSuccs]
    have hs : succState exEnv.ops (exEnv.prog.funcs 7) 0
        (exEnv.ops.Do [] (0, 0) ⟨.Other [], 0⟩) none 0 1 = .ok [] := rfl
    simp only [hs, List.nil_append]
    rw [walkBlock_spin_first wf n _ _ _ fi (by decide) h2 h3]

/-- C6: the walk of `spinFn` from the empty lockset never returns: on the second
visit of block 1 the branch condition is known, `exitPos` is called and follows
`Preds[0]` from block 1 to block 1 for ever, so every amount of fuel runs out. -/
theorem walkFunction_spin (fuel : Nat) :
    walkFunction exEnv fuel 7 NewSet initState = .error .fuel := by
  cases fuel with
  | zero => rfl
  | succ n =>
    have hf : exEnv.prog.funcs 7 = spinFn := rfl
    simp only [walkFunction, hf, firstVisit]
    have hm : mapGet initState.fns 7 = none := rfl
    simp only [hm]
    rcases liveness_spin n with h | h
    · simp only [h]
    · simp only [h]
      have hl : ¬ spinFn.Blocks.length = 0 := by decide
      rw [if_neg hl]
      have hmemo : memoOf ⟨mapSet initState.fns 7
          ⟨[], [[.Parameter 0], [.Parameter 0], []]⟩, initState.stack, initState.sp⟩ 7
          NewSet.Key = none := rfl
      simp only [hmemo]
      split
      · rename_i e heq
        have hw := (walkBlock_spin_entry _ n _ _ ⟨[("0", none)],
          [[.Parameter 0], [.Parameter 0], []]⟩ (by rfl) (by rfl)).symm.trans heq
        cases hw
        rfl
      · rename_i w heq
        have hw := (walkBlock_spin_entry _ n _ _ ⟨[("0", none)],
          [[.Parameter 0], [.Parameter 0], []]⟩ (by rfl) (by rfl)).symm.trans heq
        cases hw

/-! ## More fuel keeps a result -/

theorem exitPos_mono (fn : Function) (n : Nat) (b p : Nat) (h : exitPos fn n b = .ok p) :
    exitPos fn (n + 1) b = .ok p := by
  induction n generalizing b with
  | zero => cases h
  | succ k ih =>
    rw [exitPos] at h ⊢
    split
    · rename_i hb; simp only [hb] at h; cases h
    · rename_i blk hb
      simp only [hb] at h
      split
      · rename_i q hq; simp only [hq] at h; exact h
      · rename_i hq
        simp only [hq] at h
        split
        · rename_i hp; simp only [hp] at h; exact h
        · rename_i p1 rest hp
          simp only [hp] at h
          exact ih _ h

theorem exitPos_mono_le (fn : Function) (n m : Nat) (b p : Nat) (hle : n ≤ m)
    (h : exitPos fn n b = .ok p) : exitPos fn m b = .ok p := by
  induction hle with
  | refl => exact h
  | step _ ih => exact exitPos_mono fn _ b p ih

theorem walkPreds_mono (rec rec2 : Value → Nat → Deps → Except Halt Deps)
    (hrec : ∀ d u deps r, rec d u deps = .ok r → rec2 d u deps = .ok r)
    (d : Value) (preds : List Nat) (deps r : Deps)
    (h : walkPreds rec d preds deps = .ok r) : walkPreds rec2 d preds deps = .ok r := by
  induction preds generalizing deps with
  | nil => exact h
  | cons p rest ih =>
    simp only [walkPreds] at h ⊢
    split at h
    · rename_i deps1 heq
      rw [hrec _ _ _ _ heq]
      exact ih _ h
    · cases h

theorem walkBody_mono (f : Function) (rec rec2 : Value → Nat → Deps → Except Halt Deps)
    (hrec : ∀ d u deps r, rec d u deps = .ok r → rec2 d u deps = .ok r)
    (d : Value) (use : Nat) (deps r : Deps)
    (h : walkBody f rec d use deps = .ok r) : walkBody f rec2 d use deps = .ok r := by
  unfold walkBody at h ⊢
  cases hb : f.Blocks[use]? with
  | none => simp only [hb] at h; cases h
  | some ub =>
    simp only [hb] at h ⊢
    by_cases hm : d ∈ deps.getD use []
    · simp only [hm, if_true] at h ⊢; exact h
    · simp only [hm, if_false] at h ⊢
      split_ifs at h ⊢ with h1 h2
      · exact h
      · exact walkPreds_mono rec rec2 hrec _ _ _ _ h

theorem walk_mono (f : Function) (n : Nat) (d : Value) (use : Nat) (deps r : Deps)
    (h : walk f n d use deps = .ok r) : walk f (n + 1) d use deps = .ok r := by
  induction n generalizing d use deps r with
  | zero => cases h
  | succ k ih => exact walkBody_mono f _ _ ih _ _ _ _ h



theorem walk_mono_le (f : Function) (n m : Nat) (hle : n ≤ m) (d : Value) (use : Nat)
    (deps r : Deps) (h : walk f n d use deps = .ok r) : walk f m d use deps = .ok r := by
  induction hle with
  | refl => exact h
  | step _ ih => exact walk_mono f _ _ _ _ _ ih

theorem doPhiEdges_mono (walkF walkF2 : Value → Nat → Deps → Except Halt Deps)
    (rec rec2 : Nat × Nat → Live → Except Halt Live)
    (hwalk : ∀ d u deps r, walkF d u deps = .ok r → walkF2 d u deps = .ok r)
    (hrec : ∀ v st r, rec v st = .ok r → rec2 v st = .ok r)
    (self : Nat × Nat) (preds : List Nat) (i : Nat) (edges : List Value) (st r : Live)
    (h : doPhiEdges walkF rec self preds i edges st = .ok r) :
    doPhiEdges walkF2 rec2 self preds i edges st = .ok r := by
  induction edges generalizing i st with
  | nil => exact h
  | cons e rest ih =>
    simp only [doPhiEdges] at h ⊢
    cases hp : preds[i]? with
    | none => simp only [hp] at h; cases h
    | some pred =>
      simp only [hp] at h ⊢
      cases hw : walkF e pred (depsAdd st.deps self.1 e) with
      | error x => simp only [hw] at h; cases h
      | ok deps2 =>
        simp only [hw, hwalk _ _ _ _ hw] at h ⊢
        cases hr : rec self { st with deps := deps2 } with
        | error x => simp only [hr] at h; cases h
        | ok st1 =>
          simp only [hr, hrec _ _ _ hr] at h ⊢
          exact ih _ _ h

theorem doRands_mono (walkF walkF2 : Value → Nat → Deps → Except Halt Deps)
    (rec rec2 : Nat × Nat → Live → Except Halt Live)
    (hwalk : ∀ d u deps r, walkF d u deps = .ok r → walkF2 d u deps = .ok r)
    (hrec : ∀ v st r, rec v st = .ok r → rec2 v st = .ok r)
    (blk : Nat) (rands : List (Option Value)) (st r : Live)
    (h : doRands walkF rec blk rands st = .ok r) :
    doRands walkF2 rec2 blk rands st = .ok r := by
  induction rands generalizing st with
  | nil => exact h
  | cons x rest ih =>
    cases x with
    | none => simp only [doRands] at h ⊢; exact ih _ h
    | some rand =>
      simp only [doRands] at h ⊢
      cases hw : walkF rand blk st.deps with
      | error x => simp only [hw] at h; cases h
      | ok deps1 =>
        simp only [hw, hwalk _ _ _ _ hw] at h ⊢
        cases rand with
        | Instr b i =>
          simp only at h ⊢
          cases hr : rec (b, i) { st with deps := deps1 } with
          | error x => simp only [hr] at h; cases h
          | ok st1 =>
            simp only [hr, hrec _ _ _ hr] at h ⊢
            exact ih _ h
        | _ => simp only at h ⊢; exact ih _ h

theorem doInstrBody_mono (f : Function)
    (walkF walkF2 : Value → Nat → Deps → Except Halt Deps)
    (rec rec2 : Nat × Nat → Live → Except Halt Live)
    (hwalk : ∀ d u deps r, walkF d u deps = .ok r → walkF2 d u deps = .ok r)
    (hrec : ∀ v st r, rec v st = .ok r → rec2 v st = .ok r)
    (val : Nat × Nat) (st r : Live)
    (h : doInstrBody f walkF rec val st = .ok r) : doInstrBody f walkF2 rec2 val st = .ok r := by
  unfold doInstrBody at h ⊢
  by_cases hv : val ∈ st.visited
  · simp only [hv, if_true] at h ⊢; exact h
  · simp only [hv, if_false] at h ⊢
    cases hb : f.Blocks[val.1]? with
    | none => simp only [hb] at h; cases h
    | some blk =>
      simp only [hb] at h ⊢
      cases hi : blk.Instrs[val.2]? with
      | none => simp only [hi] at h; cases h
      | some ins =>
        simp only [hi] at h ⊢
        cases hk : ins.kind with
        | Phi edges =>
          simp only [hk] at h ⊢
          exact doPhiEdges_mono _ _ _ _ hwalk hrec _ _ _ _ _ _ h
        | If c =>
          simp only [hk] at h ⊢
          exact doRands_mono _ _ _ _ hwalk hrec _ _ _ _ h
        | Call a b c =>
          simp only [hk] at h ⊢
          exact doRands_mono _ _ _ _ hwalk hrec _ _ _ _ h
        | Return rs =>
          simp only [hk] at h ⊢
          exact doRands_mono _ _ _ _ hwalk hrec _ _ _ _ h
        | Other rs =>
          simp only [hk] at h ⊢
          exact doRands_mono _ _ _ _ hwalk hrec _ _ _ _ h

theorem doInstr_mono (f : Function) (n : Nat) (val : Nat × Nat) (st r : Live)
    (h : doInstr f n val st = .ok r) : doInstr f (n + 1) val st = .ok r := by
  induction n generalizing val st r with
  | zero => cases h
  | succ k ih =>
    exact doInstrBody_mono f _ _ _ _ (fun d u deps r hw => walk_mono f k d u deps r hw) ih _ _ _ h

theorem doVals_mono (f : Function) (n : Nat) (vals : List (Nat × Nat)) (st r : Live)
    (h : doVals f n vals st = .ok r) : doVals f (n + 1) vals st = .ok r := by
  induction vals generalizing st with
  | nil => exact h
  | cons v rest ih =>
    simp only [doVals] at h ⊢
    cases hd : doInstr f n v st with
    | error x => simp only [hd] at h; cases h
    | ok st1 =>
      simp only [hd, doInstr_mono f n v st st1 hd] at h ⊢
      exact ih _ h

theorem livenessFor_mono (n : Nat) (f : Function) (vals : List (Nat × Nat)) (r : Deps)
    (h : livenessFor n f vals = .ok r) : livenessFor (n + 1) f vals = .ok r := by
  unfold livenessFor at h ⊢
  cases hd : doVals f n vals { deps := List.replicate f.Blocks.length [], visited := [] } with
  | error x => simp only [hd] at h; cases h
  | ok st =>
    simp only [hd, doVals_mono f n vals _ st hd] at h ⊢
    exact h

theorem livenessFor_mono_le (n m : Nat) (hle : n ≤ m) (f : Function)
    (vals : List (Nat × Nat)) (r : Deps)
    (h : livenessFor n f vals = .ok r) : livenessFor m f vals = .ok r := by
  induction hle with
  | refl => exact h
  | step _ ih => exact livenessFor_mono _ f vals r ih

theorem callAll_mono (wf wf2 : FuncId → LockSet → State → Except Halt (Option LockSetSet × State))
    (hwf : ∀ o ls s r, wf o ls s = .ok r → wf2 o ls s = .ok r)
    (o : FuncId) (l : List (LockSetKey × LockSet)) (s : State) (next : LockSetSet)
    (r : State × LockSetSet) (h : callAll wf o l s next = .ok r) :
    callAll wf2 o l s next = .ok r := by
  induction l generalizing s next with
  | nil => exact h
  | cons p rest ih =>
    obtain ⟨k, ls⟩ := p
    simp only [callAll] at h ⊢
    cases hw : wf o ls s with
    | error x => simp only [hw] at h; cases h
    | ok q =>
      obtain ⟨r1, s1⟩ := q
      simp only [hw, hwf _ _ _ _ hw] at h ⊢
      exact ih _ _ h

theorem doOuts_mono {VS : Type} (env : Env VS)
    (wf wf2 : FuncId → LockSet → State → Except Halt (Option LockSetSet × State))
    (hwf : ∀ o ls s r, wf o ls s = .ok r → wf2 o ls s = .ok r)
    (f : FuncId) (args : List Value) (lockSets : LockSetSet) (outs : List FuncId)
    (s : State) (next : LockSetSet) (r : State × LockSetSet)
    (h : doOuts env wf f args lockSets outs s next = .ok r) :
    doOuts env wf2 f args lockSets outs s next = .ok r := by
  induction outs generalizing s next with
  | nil => exact h
  | cons o rest ih =>
    simp only [doOuts] at h ⊢
    split_ifs at h ⊢ with h1 h2
    · cases args with
      | nil => cases h
      | cons a0 tl => exact ih _ _ h
    · cases args with
      | nil => cases h
      | cons a0 tl => exact ih _ _ h
    · cases hc : callAll wf o (env.range lockSets.M) s next with
      | error x => simp only [hc] at h; cases h
      | ok q =>
        obtain ⟨s1, next1⟩ := q
        simp only [hc, callAll_mono wf wf2 hwf _ _ _ _ _ hc] at h ⊢
        exact ih _ _ h

theorem doInstruction_mono {VS : Type} (env : Env VS)
    (wf wf2 : FuncId → LockSet → State → Except Halt (Option LockSetSet × State))
    (hwf : ∀ o ls s r, wf o ls s = .ok r → wf2 o ls s = .ok r)
    (f b idx : Nat) (instr : Instruction) (fr r : Frame VS)
    (h : doInstruction env wf f b idx instr fr = .ok r) :
    doInstruction env wf2 f b idx instr fr = .ok r := by
  unfold doInstruction at h ⊢
  cases hk : instr.kind with
  | Call static fn args =>
    simp only [hk] at h ⊢
    cases hd : doOuts env wf f args fr.lockSets (callOuts env.prog f (b, idx) static) fr.s
        NewLockSetSet with
    | error x => simp only [hd] at h; cases h
    | ok q =>
      obtain ⟨s1, next⟩ := q
      simp only [hd, doOuts_mono env wf wf2 hwf _ _ _ _ _ _ _ hd] at h ⊢
      exact h
  | If c => simp only [hk] at h ⊢; exact h
  | Return rs => simp only [hk] at h ⊢; exact h
  | Phi es => simp only [hk] at h ⊢; exact h
  | Other rs => simp only [hk] at h ⊢; exact h

theorem doInstructions_mono {VS : Type} (env : Env VS)
    (wf wf2 : FuncId → LockSet → State → Except Halt (Option LockSetSet × State))
    (hwf : ∀ o ls s r, wf o ls s = .ok r → wf2 o ls s = .ok r)
    (f b idx : Nat) (instrs : List Instruction) (fr r : Frame VS)
    (h : doInstructions env wf f b idx instrs fr = .ok r) :
    doInstructions env wf2 f b idx instrs fr = .ok r := by
  induction instrs generalizing idx fr with
  | nil => exact h
  | cons i rest ih =>
    simp only [doInstructions] at h ⊢
    cases hd : doInstruction env wf f b idx i fr with
    | error x => simp only [hd] at h; cases h
    | ok fr1 =>
      simp only [hd, doInstruction_mono env wf wf2 hwf _ _ _ _ _ _ hd] at h ⊢
      exact ih _ _ h

theorem walkSuccs_mono {VS : Type} (ops : ValStateOps VS) (fn : Function)
    (rec rec2 : Nat → VS → LockSet → Walk VS → Except Halt (Walk VS))
    (hrec : ∀ b vs ls w r, rec b vs ls w = .ok r → rec2 b vs ls w = .ok r)
    (b : Nat) (vs : VS) (ifCond : Option Value) (ls : LockSet) (i : Nat) (succs : List Nat)
    (w r : Walk VS) (h : walkSuccs ops fn rec b vs ifCond ls i succs w = .ok r) :
    walkSuccs ops fn rec2 b vs ifCond ls i succs w = .ok r := by
  induction succs generalizing i w with
  | nil => exact h
  | cons b2 rest ih =>
    simp only [walkSuccs] at h ⊢
    cases hs : succState ops fn b vs ifCond i b2 with
    | error x => simp only [hs] at h; cases h
    | ok vs2 =>
      simp only [hs] at h ⊢
      cases hr : rec b2 vs2 ls w with
      | error x => simp only [hr] at h; cases h
      | ok w1 =>
        simp only [hr, hrec _ _ _ _ _ hr] at h ⊢
        exact ih _ _ h

theorem walkFrontier_mono {VS : Type} (ops : ValStateOps VS) (fn : Function)
    (rec rec2 : Nat → VS → LockSet → Walk VS → Except Halt (Walk VS))
    (hrec : ∀ b vs ls w r, rec b vs ls w = .ok r → rec2 b vs ls w = .ok r)
    (b : Nat) (vs : VS) (ifCond : Option Value) (succs : List Nat)
    (l : List (LockSetKey × LockSet)) (w r : Walk VS)
    (h : walkFrontier ops fn rec b vs ifCond succs l w = .ok r) :
    walkFrontier ops fn rec2 b vs ifCond succs l w = .ok r := by
  induction l generalizing w with
  | nil => exact h
  | cons p rest ih =>
    obtain ⟨k, ls⟩ := p
    simp only [walkFrontier] at h ⊢
    cases hs : walkSuccs ops fn rec b vs ifCond ls 0 succs w with
    | error x => simp only [hs] at h; cases h
    | ok w1 =>
      simp only [hs, walkSuccs_mono ops fn rec rec2 hrec _ _ _ _ _ _ _ _ hs] at h ⊢
      exact ih _ h

theorem walkBlockBody_mono {VS : Type} (env : Env VS)
    (wf wf2 : FuncId → LockSet → State → Except Halt (Option LockSetSet × State))
    (hwf : ∀ o ls s r, wf o ls s = .ok r → wf2 o ls s = .ok r)
    (ep ep2 : Nat → Except Halt Nat) (hep : ∀ b p, ep b = .ok p → ep2 b = .ok p)
    (rec rec2 : Nat → VS → LockSet → Walk VS → Except Halt (Walk VS))
    (hrec : ∀ b vs ls w r, rec b vs ls w = .ok r → rec2 b vs ls w = .ok r)
    (f b : Nat) (vs : VS) (ls : LockSet) (w r : Walk VS)
    (h : walkBlockBody env wf ep rec f b vs ls w = .ok r) :
    walkBlockBody env wf2 ep2 rec2 f b vs ls w = .ok r := by
  unfold walkBlockBody at h ⊢
  cases hb : (env.prog.funcs f).Blocks[b]? with
  | none => simp only [hb] at h; cases h
  | some blk =>
    simp only [hb] at h ⊢
    cases hc : cacheStop env.ops w.s f b vs ((mapGet w.blockCache (b, ls.Key)).getD []) with
    | error x => simp only [hc] at h; cases h
    | ok stop =>
      cases stop with
      | true => simp only [hc] at h ⊢; exact h
      | false =>
        simp only [hc] at h ⊢
        unfold walkBlockRun at h ⊢
        simp only at h ⊢
        cases hd : doInstructions env wf f b 0 blk.Instrs
            { vs := vs, lockSets := NewLockSetSet.Add ls, ifCond := none, s := w.s,
              exitLockSets := w.exitLockSets } with
        | error x => simp only [hd] at h; cases h
        | ok fr =>
          simp only [hd, doInstructions_mono env wf wf2 hwf _ _ _ _ _ _ hd] at h ⊢
          cases hl : logPos ep b (resolveCond env.ops fr.vs fr.ifCond) with
          | error x => simp only [hl] at h; cases h
          | ok pp =>
            have hl2 : logPos ep2 b (resolveCond env.ops fr.vs fr.ifCond) = .ok pp := by
              unfold logPos at hl ⊢
              cases hx : resolveCond env.ops fr.vs fr.ifCond with
              | none => simp only [hx] at hl ⊢; exact hl
              | some d => simp only [hx] at hl ⊢; exact hep b pp hl
            simp only [hl, hl2] at h ⊢
            cases hp : pruneSuccs blk.Succs (resolveCond env.ops fr.vs fr.ifCond) with
            | error x => simp only [hp] at h; cases h
            | ok succs =>
              simp only [hp] at h ⊢
              exact walkFrontier_mono _ _ rec rec2 hrec _ _ _ _ _ _ _ h

theorem walkBlock_mono {VS : Type} (env : Env VS)
    (wf wf2 : FuncId → LockSet → State → Except Halt (Option LockSetSet × State))
    (hwf : ∀ o ls s r, wf o ls s = .ok r → wf2 o ls s = .ok r)
    (f : FuncId) (n : Nat) (b : Nat) (vs : VS) (ls : LockSet) (w r : Walk VS)
    (h : walkBlock env wf f n b vs ls w = .ok r) :
    walkBlock env wf2 f (n + 1) b vs ls w = .ok r := by
  induction n generalizing b vs ls w r with
  | zero => cases h
  | succ k ih =>
    exact walkBlockBody_mono env wf wf2 hwf _ _
      (fun b p hp => exitPos_mono _ _ _ _ hp) _ _ ih _ _ _ _ _ _ h

theorem firstVisit_mono (n : Nat) (fn : Function) (f : FuncId) (s s1 : State)
    (h : firstVisit n fn f s = .ok s1) : firstVisit (n + 1) fn f s = .ok s1 := by
  unfold firstVisit at h ⊢
  cases hf : mapGet s.fns f with
  | some fi => simp only [hf] at h ⊢; exact h
  | none =>
    simp only [hf] at h ⊢
    cases hl : livenessFor n fn (ifInstrsFrom 0 fn.Blocks) with
    | error x => simp only [hl] at h; cases h
    | ok deps =>
      simp only [hl, livenessFor_mono n fn _ deps hl] at h ⊢
      exact h

theorem walkFunction_mono {VS : Type} (env : Env VS) (n : Nat) (f : FuncId) (L : LockSet)
    (s : State) (r : Option LockSetSet × State)
    (h : walkFunction env n f L s = .ok r) : walkFunction env (n + 1) f L s = .ok r := by
  induction n generalizing f L s r with
  | zero => cases h
  | succ k ih =>
    rw [walkFunction] at h ⊢
    simp only at h ⊢
    cases hfv : firstVisit k (env.prog.funcs f) f s with
    | error x => simp only [hfv] at h; cases h
    | ok s1 =>
      simp only [hfv, firstVisit_mono k _ f s s1 hfv] at h ⊢
      split_ifs at h ⊢ with hlen
      · exact h
      · cases hm : memoOf s1 f L.Key with
        | some memo => simp only [hm] at h ⊢; exact h
        | none =>
          simp only [hm] at h ⊢
          split at h
          · cases h
          · rename_i w hw
            rw [walkBlock_mono env _ _ ih f k _ _ _ _ _ hw]
            exact h

theorem walkFunction_mono_le {VS : Type} (env : Env VS) (n m : Nat) (hle : n ≤ m)
    (f : FuncId) (L : LockSet) (s : State) (r : Option LockSetSet × State)
    (h : walkFunction env n f L s = .ok r) : walkFunction env m f L s = .ok r := by
  induction hle with
  | refl => exact h
  | step _ ih => exact walkFunction_mono env _ f L s r ih

/-! ## The liveness result has one set per block -/

theorem depsAdd_length (deps : Deps) (i : Nat) (v : Value) :
    (depsAdd deps i v).length = deps.length := by
  unfold depsAdd
  split <;> simp

theorem walkPreds_length (rec : Value → Nat → Deps → Except Halt Deps)
    (hrec : ∀ d u deps r, rec d u deps = .ok r → r.length = deps.length)
    (d : Value) (preds : List Nat) (deps r : Deps)
    (h : walkPreds rec d preds deps = .ok r) : r.length = deps.length := by
  induction preds generalizing deps with
  | nil => simp only [walkPreds, Except.ok.injEq] at h; rw [h]
  | cons p rest ih =>
    simp only [walkPreds] at h
    cases hw : rec d p deps with
    | error x => simp only [hw] at h; cases h
    | ok deps1 =>
      simp only [hw] at h
      rw [ih _ h, hrec _ _ _ _ hw]

theorem walkBody_length (f : Function) (rec : Value → Nat → Deps → Except Halt Deps)
    (hrec : ∀ d u deps r, rec d u deps = .ok r → r.length = deps.length)
    (d : Value) (use : Nat) (deps r : Deps)
    (h : walkBody f rec d use deps = .ok r) : r.length = deps.length := by
  unfold walkBody at h
  cases hb : f.Blocks[use]? with
  | none => simp only [hb] at h; cases h
  | some ub =>
    simp only [hb] at h
    split_ifs at h with h1 h2 h3
    · cases h; rfl
    · cases h; exact depsAdd_length _ _ _
    · rw [walkPreds_length rec hrec _ _ _ _ h, depsAdd_length]

theorem walk_length (f : Function) (n : Nat) (d : Value) (use : Nat) (deps r : Deps)
    (h : walk f n d use deps = .ok r) : r.length = deps.length := by
  induction n generalizing d use deps r with
  | zero => cases h
  | succ k ih => exact walkBody_length f _ ih _ _ _ _ h

theorem doPhiEdges_length (walkF : Value → Nat → Deps → Except Halt Deps)
    (rec : Nat × Nat → Live → Except Halt Live)
    (hwalk : ∀ d u deps r, walkF d u deps = .ok r → r.length = deps.length)
    (hrec : ∀ v st r, rec v st = .ok r → r.deps.length = st.deps.length)
    (self : Nat × Nat) (preds : List Nat) (i : Nat) (edges : List Value) (st r : Live)
    (h : doPhiEdges walkF rec self preds i edges st = .ok r) :
    r.deps.length = st.deps.length := by
  induction edges generalizing i st with
  | nil => simp only [doPhiEdges, Except.ok.injEq] at h; rw [h]
  | cons e rest ih =>
    simp only [doPhiEdges] at h
    cases hp : preds[i]? with
    | none => simp only [hp] at h; cases h
    | some pred =>
      simp only [hp] at h
      cases hw : walkF e pred (depsAdd st.deps self.1 e) with
      | error x => simp only [hw] at h; cases h
      | ok deps2 =>
        simp only [hw] at h
        cases hr : rec self { st with deps := deps2 } with
        | error x => simp only [hr] at h; cases h
        | ok st1 =>
          simp only [hr] at h
          rw [ih _ _ h, hrec _ _ _ hr]
          simp only
          rw [hwalk _ _ _ _ hw, depsAdd_length]

theorem doRands_length (walkF : Value → Nat → Deps → Except Halt Deps)
    (rec : Nat × Nat → Live → Except Halt Live)
    (hwalk : ∀ d u deps r, walkF d u deps = .ok r → r.length = deps.length)
    (hrec : ∀ v st r, rec v st = .ok r → r.deps.length = st.deps.length)
    (blk : Nat) (rands : List (Option Value)) (st r : Live)
    (h : doRands walkF rec blk rands st = .ok r) : r.deps.length = st.deps.length := by
  induction rands generalizing st with
  | nil => simp only [doRands, Except.ok.injEq] at h; rw [h]
  | cons x rest ih =>
    cases x with
    | none => simp only [doRands] at h; exact ih _ h
    | some rand =>
      simp only [doRands] at h
      cases hw : walkF rand blk st.deps with
      | error x => simp only [hw] at h; cases h
      | ok deps1 =>
        simp only [hw] at h
        have hl := hwalk _ _ _ _ hw
        cases rand with
        | Instr b i =>
          simp only at h
          cases hr : rec (b, i) { st with deps := deps1 } with
          | error x => simp only [hr] at h; cases h
          | ok st1 =>
            simp only [hr] at h
            rw [ih _ h, hrec _ _ _ hr]
            exact hl
        | _ => simp only at h; rw [ih _ h]; exact hl

theorem doInstrBody_length (f : Function)
    (walkF : Value → Nat → Deps → Except Halt Deps)
    (rec : Nat × Nat → Live → Except Halt Live)
    (hwalk : ∀ d u deps r, walkF d u deps = .ok r → r.length = deps.length)
    (hrec : ∀ v st r, rec v st = .ok r → r.deps.length = st.deps.length)
    (val : Nat × Nat) (st r : Live)
    (h : doInstrBody f walkF rec val st = .ok r) : r.deps.length = st.deps.length := by
  unfold doInstrBody at h
  by_cases hv : val ∈ st.visited
  · simp only [hv, if_true, Except.ok.injEq] at h; rw [h]
  · simp only [hv, if_false] at h
    cases hb : f.Blocks[val.1]? with
    | none => simp only [hb] at h; cases h
    | some blk =>
      simp only [hb] at h
      cases hi : blk.Instrs[val.2]? with
      | none => simp only [hi] at h; cases h
      | some ins =>
        simp only [hi] at h
        cases hk : ins.kind with
        | Phi edges =>
          simp only [hk] at h
          exact (doPhiEdges_length _ _ hwalk hrec _ _ _ _ _ _ h).trans rfl
        | If c =>
          simp only [hk] at h
          exact (doRands_length _ _ hwalk hrec _ _ _ _ h).trans rfl
        | Call a b c =>
          simp only [hk] at h
          exact (doRands_length _ _ hwalk hrec _ _ _ _ h).trans rfl
        | Return rs =>
          simp only [hk] at h
          exact (doRands_length _ _ hwalk hrec _ _ _ _ h).trans rfl
        | Other rs =>
          simp only [hk] at h
          exact (doRands_length _ _ hwalk hrec _ _ _ _ h).trans rfl

theorem doInstr_length (f : Function) (n : Nat) (val : Nat × Nat) (st r : Live)
    (h : doInstr f n val st = .ok r) : r.deps.length = st.deps.length := by
  induction n generalizing val st r with
  | zero => cases h
  | succ k ih =>
    exact doInstrBody_length f _ _ (fun d u deps r hw => walk_length f k d u deps r hw) ih _ _ _ h

theorem doVals_length (f : Function) (n : Nat) (vals : List (Nat × Nat)) (st r : Live)
    (h : doVals f n vals st = .ok r) : r.deps.length = st.deps.length := by
  induction vals generalizing st with
  | nil => simp only [doVals, Except.ok.injEq] at h; rw [h]
  | cons v rest ih =>
    simp only [doVals] at h
    cases hd : doInstr f n v st with
    | error x => simp only [hd] at h; cases h
    | ok st1 =>
      simp only [hd] at h
      rw [ih _ h, doInstr_length f n v st st1 hd]

theorem livenessFor_length (n : Nat) (f : Function) (vals : List (Nat × Nat)) (r : Deps)
    (h : livenessFor n f vals = .ok r) : r.length = f.Blocks.length := by
  unfold livenessFor at h
  cases hd : doVals f n vals { deps := List.replicate f.Blocks.length [], visited := [] } with
  | error x => simp only [hd] at h; cases h
  | ok st =>
    simp only [hd, Except.ok.injEq] at h
    rw [← h, doVals_length f n vals _ st hd]
    simp

/-! ## Straight-line and branching functions -/

theorem runDo_append {VS : Type} (ops : ValStateOps VS) (b idx : Nat)
    (l1 l2 : List Instruction) (vs : VS) :
    runDo ops b idx (l1 ++ l2) vs = runDo ops b (idx + l1.length) l2 (runDo ops b idx l1 vs) := by
  induction l1 generalizing idx vs with
  | nil => rfl
  | cons i rest ih =>
    have h := ih (idx + 1) (ops.Do vs (b, idx) i)
    rw [show idx + 1 + rest.length = idx + (rest.length + 1) by omega] at h
    simpa only [List.cons_append, runDo, List.length_cons] using h

theorem doInstructions_append {VS : Type} (env : Env VS) (wf) (f b idx : Nat)
    (l1 l2 : List Instruction) (fr : Frame VS) :
    doInstructions env wf f b idx (l1 ++ l2) fr =
      match doInstructions env wf f b idx l1 fr with
      | .error e => .error e
      | .ok fr1 => doInstructions env wf f b (idx + l1.length) l2 fr1 := by
  induction l1 generalizing idx fr with
  | nil => rfl
  | cons i rest ih =>
    simp only [List.cons_append, doInstructions, List.length_cons]
    cases doInstruction env wf f b idx i fr with
    | error e => rfl
    | ok fr1 =>
      have h := ih (idx + 1) fr1
      rw [show idx + 1 + rest.length = idx + (rest.length + 1) by omega] at h
      simpa only using h

theorem doInstructions_others {VS : Type} (env : Env VS) (wf) (f b idx : Nat)
    (l : List Instruction) (hl : ∀ i ∈ l, i.isOther = true) (fr : Frame VS) :
    doInstructions env wf f b idx l fr =
      .ok { fr with vs := runDo env.ops b idx l fr.vs } := by
  induction l generalizing idx fr with
  | nil => rfl
  | cons i rest ih =>
    have hi := hl i (List.mem_cons_self _ _)
    obtain ⟨kind, pos⟩ := i
    cases kind with
    | Other rs =>
      simp only [doInstructions, doInstruction, runDo]
      rw [ih _ (fun j hj => hl j (List.mem_cons_of_mem _ hj))]
    | If c => simp [Instruction.isOther] at hi
    | Call a b c => simp [Instruction.isOther] at hi
    | Return rs => simp [Instruction.isOther] at hi
    | Phi es => simp [Instruction.isOther] at hi

theorem doInstructions_pre {VS : Type} (env : Env VS) (wf) (f b idx : Nat)
    (pre : List Instruction) (i : Instruction) (rest : List Instruction)
    (hpre : ∀ j ∈ pre, j.isOther = true) (fr : Frame VS) :
    doInstructions env wf f b idx (pre ++ i :: rest) fr =
      match doInstruction env wf f b (idx + pre.length) i
          { fr with vs := runDo env.ops b idx pre fr.vs } with
      | .error e => .error e
      | .ok fr1 => doInstructions env wf f b (idx + pre.length + 1) rest fr1 := by
  rw [doInstructions_append, doInstructions_others env wf f b idx pre hpre]
  rfl

theorem isOther_kind (i : Instruction) (h : i.isOther = true) :
    (∀ c, i.kind ≠ .If c) ∧ (∀ es, i.kind ≠ .Phi es) := by
  obtain ⟨kind, pos⟩ := i
  cases kind <;> simp [Instruction.isOther] at h ⊢

theorem phiInstrs_noPhi {VS : Type} (ops : ValStateOps VS) (b b2 : Nat) (preds : List Nat)
    (idx : Nat) (l : List Instruction) (vs : VS)
    (hl : ∀ i, l.head? = some i → ∀ es, i.kind ≠ .Phi es) :
    phiInstrs ops b b2 preds idx l vs = .ok vs := by
  cases l with
  | nil => rfl
  | cons i rest =>
    have hi := hl i rfl
    obtain ⟨kind, pos⟩ := i
    cases kind with
    | Phi es => exact absurd rfl (hi es)
    | If c => rfl
    | Call a b c => rfl
    | Return rs => rfl
    | Other rs => rfl

theorem head_pre (pre : List Instruction) (i : Instruction) (rest : List Instruction)
    (hpre : ∀ j ∈ pre, j.isOther = true) (hi : ∀ es, i.kind ≠ .Phi es) :
    ∀ j, (pre ++ i :: rest).head? = some j → ∀ es, j.kind ≠ .Phi es := by
  intro j hj
  cases pre with
  | nil => simp at hj; subst hj; exact hi
  | cons a t =>
    simp at hj; subst hj
    exact (isOther_kind _ (hpre _ (List.mem_cons_self _ _))).2

theorem ifInstrsFrom_noIf (bi : Nat) (b : BasicBlock) (rest : List BasicBlock)
    (hb : ∀ i, b.Instrs.getLast? = some i → ∀ c, i.kind ≠ .If c) :
    ifInstrsFrom bi (b :: rest) = ifInstrsFrom (bi + 1) rest := by
  simp only [ifInstrsFrom]
  split
  · rename_i c p heq
    exact absurd rfl (hb _ heq c)
  · rfl

theorem ifInstrsFrom_if (bi : Nat) (pre : List Instruction) (cond : Value) (p0 : Nat)
    (preds succs : List Nat) (rest : List BasicBlock) :
    ifInstrsFrom bi (⟨pre ++ [⟨.If cond, p0⟩], preds, succs⟩ :: rest) =
      (bi, pre.length) :: ifInstrsFrom (bi + 1) rest := by
  simp [ifInstrsFrom]

/-- C1: a function whose single block calls the lock-acquire primitive on an
argument, then the lock-release primitive on an argument with the same points-to
set (the same labels), then returns, with any instructions that are not calls in
between, walked from the empty lockset, returns the `LockSetSet` whose only member
is the empty lockset. -/
theorem walkFunction_acquire_release {VS : Type} (env : Env VS) (fuel : Nat) (f : FuncId)
    (s : State) (x y : Value) (xs ys rs : List Value)
    (c1 c2 : Option FuncId) (v1 v2 : Value) (p1 p2 p3 : Nat)
    (o0 o1 o2 : List Instruction)
    (hrange : ∀ l, (env.range l).Perm l)
    (hne : env.prog.lockFn ≠ env.prog.unlockFn)
    (hbody : env.prog.funcs f =
      ⟨[⟨o0 ++ ⟨.Call c1 v1 (x :: xs), p1⟩ ::
          (o1 ++ ⟨.Call c2 v2 (y :: ys), p2⟩ :: (o2 ++ [⟨.Return rs, p3⟩])), [], []⟩]⟩)
    (ho0 : ∀ i ∈ o0, i.isOther = true) (ho1 : ∀ i ∈ o1, i.isOther = true)
    (ho2 : ∀ i ∈ o2, i.isOther = true)
    (hc1 : callOuts env.prog f (0, o0.length) c1 = [env.prog.lockFn])
    (hc2 : callOuts env.prog f (0, o0.length + 1 + o1.length) c2 = [env.prog.unlockFn])
    (hsame : ∀ l, l ∈ env.prog.pta f x ↔ l ∈ env.prog.pta f y)
    (hmemo : memoOf s f NewSet.Key = none) :
    ∃ s1, walkFunction env (fuel + 2) f NewSet s =
      .ok (some { M := [(NewSet.Key, NewSet)] }, s1) := by
  obtain ⟨s1, hfv, hsp, hst, hm1, fi, hfi⟩ := firstVisit_noIf (fuel + 1) (env.prog.funcs f) f s
    (by
      have hlast : (o0 ++ (⟨.Call c1 v1 (x :: xs), p1⟩ : Instruction) ::
          (o1 ++ ⟨.Call c2 v2 (y :: ys), p2⟩ :: (o2 ++ [⟨.Return rs, p3⟩]))).getLast? =
          some ⟨.Return rs, p3⟩ := by
        rw [List.getLast?_append_cons, ← List.cons_append, List.getLast?_append_cons,
          ← List.cons_append, List.getLast?_concat]
      rw [hbody]; simp only [ifInstrsFrom, hlast])
  have hlen : ¬ (env.prog.funcs f).Blocks.length = 0 := by rw [hbody]; simp
  have hb0 : (env.prog.funcs f).Blocks[0]? = some
      ⟨o0 ++ ⟨.Call c1 v1 (x :: xs), p1⟩ ::
          (o1 ++ ⟨.Call c2 v2 (y :: ys), p2⟩ :: (o2 ++ [⟨.Return rs, p3⟩])), [], []⟩ := by
    rw [hbody]; rfl
  have hpm := Plus_Minus_bits (env.prog.pta f x) (env.prog.pta f y) (fun l hl => (hsame l).1 hl)
  simp only [walkFunction, hfv, if_neg hlen, hm1 _ hmemo, walkBlock, walkBlockBody, hb0,
    mapGet, Option.getD, cacheStop, walkBlockRun, resolveCond, logPos,
    doInstructions_pre _ _ _ _ _ _ _ _ ho0, doInstructions_pre _ _ _ _ _ _ _ _ ho1,
    doInstructions_pre _ _ _ _ _ _ _ _ ho2, Nat.zero_add, doInstructions,
    doInstruction, hc1, hc2, doOuts, if_true, hne.symm, if_false, NewLockSetSet,
    LockSetSet.Add, mapSet, range_single env hrange, plusAll, minusAll, hpm,
    LockSetSet.Union, unionLoop, pruneSuccs, walkFrontier, walkSuccs]
  exact ⟨_, rfl⟩


theorem walkFunction_acquire_release_witness :
    ∃ s1, walkFunction exEnv 2 2 NewSet initState =
      .ok (some { M := [(NewSet.Key, NewSet)] }, s1) :=
  walkFunction_acquire_release exEnv 0 2 initState (.Global 0) (.Global 0) [] [] []
    (some 0) (some 1) (.Function 0) (.Function 1) 1 1 0 [] [] []
    (fun l => List.Perm.refl l) (by decide) rfl (by simp) (by simp) (by simp) rfl rfl
    (fun _ => Iff.rfl) rfl


/-- C2: a function whose single block calls the lock-acquire primitive on an
argument whose points-to set is exactly `{X}` and then returns, with any
instructions that are not calls in between, walked from the empty lockset, returns
the `LockSetSet` whose only member is the lockset that holds the identity of `X`
and nothing else. -/
theorem walkFunction_unbalanced {VS : Type} (env : Env VS) (fuel : Nat) (f : FuncId)
    (s : State) (X : String) (x : Value) (xs rs : List Value)
    (c1 : Option FuncId) (v1 : Value) (p1 p2 : Nat) (o0 o1 : List Instruction)
    (hrange : ∀ l, (env.range l).Perm l)
    (hbody : env.prog.funcs f =
      ⟨[⟨o0 ++ ⟨.Call c1 v1 (x :: xs), p1⟩ :: (o1 ++ [⟨.Return rs, p2⟩]), [], []⟩]⟩)
    (ho0 : ∀ i ∈ o0, i.isOther = true) (ho1 : ∀ i ∈ o1, i.isOther = true)
    (hc1 : callOuts env.prog f (0, o0.length) c1 = [env.prog.lockFn])
    (hx : env.prog.pta f x = [X])
    (hmemo : memoOf s f NewSet.Key = none) :
    ∃ s1, walkFunction env (fuel + 2) f NewSet s =
      .ok (some { M := [(LockSet.Key { bits := 2 ^ (s.sp.Intern X).1 },
        { bits := 2 ^ (s.sp.Intern X).1 })] }, s1) := by
  obtain ⟨s1, hfv, hsp, hst, hm1, fi, hfi⟩ := firstVisit_noIf (fuel + 1) (env.prog.funcs f) f s
    (by
      have hlast : (o0 ++ (⟨.Call c1 v1 (x :: xs), p1⟩ : Instruction) ::
          (o1 ++ [⟨.Return rs, p2⟩])).getLast? = some ⟨.Return rs, p2⟩ := by
        rw [List.getLast?_append_cons, ← List.cons_append, List.getLast?_concat]
      rw [hbody]; simp only [ifInstrsFrom, hlast])
  have hlen : ¬ (env.prog.funcs f).Blocks.length = 0 := by rw [hbody]; simp
  have hb0 : (env.prog.funcs f).Blocks[0]? = some
      ⟨o0 ++ ⟨.Call c1 v1 (x :: xs), p1⟩ :: (o1 ++ [⟨.Return rs, p2⟩]), [], []⟩ := by
    rw [hbody]; rfl
  have hsp2 : (setMemo s1 f NewSet.Key none).sp = s.sp := by
    rw [← hsp]; unfold setMemo; split <;> rfl
  simp only [walkFunction, hfv, if_neg hlen, hm1 _ hmemo, walkBlock, walkBlockBody, hb0,
    mapGet, Option.getD, cacheStop, walkBlockRun, resolveCond, logPos,
    doInstructions_pre _ _ _ _ _ _ _ _ ho0, doInstructions_pre _ _ _ _ _ _ _ _ ho1,
    Nat.zero_add, doInstructions, doInstruction, hc1,
    doOuts, if_true, hx, NewLockSetSet, LockSetSet.Add, mapSet,
    range_single env hrange, plusAll, Plus_single, hsp2, LockSetSet.Union, unionLoop,
    pruneSuccs, walkFrontier, walkSuccs]
  exact ⟨_, rfl⟩

theorem walkFunction_unbalanced_witness :
    ∃ s1, walkFunction exEnv 2 3 NewSet initState =
      .ok (some { M := [(LockSet.Key { bits := 2 ^ (initState.sp.Intern "b").1 },
        { bits := 2 ^ (initState.sp.Intern "b").1 })] }, s1) :=
  walkFunction_unbalanced exEnv 0 3 initState "b" (.Global 0) [] [] (some 0) (.Function 0) 1 0
    [] [] (fun l => List.Perm.refl l) rfl (by simp) (by simp) rfl rfl rfl


theorem getLast?_pre_other (pre post : List Instruction) (i : Instruction)
    (hi : ∀ c, i.kind ≠ .If c) (hpost : ∀ j ∈ post, j.isOther = true) :
    ∀ j, (pre ++ i :: post).getLast? = some j → ∀ c, j.kind ≠ .If c := by
  intro j hj
  rw [List.getLast?_append_cons] at hj
  rcases List.mem_cons.1 (List.mem_of_getLast?_eq_some hj) with h | h
  · subst h; exact hi
  · exact (isOther_kind _ (hpost _ h)).1

/-- C3: for `if cond { acquire(X) } else {}` followed by a return, where the
value state at the end of the entry block resolves `cond` to the boolean `c`,
`walkFunction` from the empty lockset follows only the successor that `c`
selects: it returns exactly `{{X}}` when `c` is true and exactly `{{}}` when `c`
is false. The blocks may hold any further instructions that are not calls,
returns or phis. -/
theorem walkFunction_branch {VS : Type} (env : Env VS) (fuel n : Nat) (f : FuncId)
    (s : State) (X : String) (cond x : Value) (xs rs : List Value)
    (c1 : Option FuncId) (v1 : Value) (p0 p1 p3 : Nat) (c : Bool)
    (pre0 pre1 post1 pre2 : List Instruction) (deps : Deps)
    (hrange : ∀ l, (env.range l).Perm l)
    (hbody : env.prog.funcs f =
      ⟨[⟨pre0 ++ [⟨.If cond, p0⟩], [], [1, 2]⟩,
        ⟨pre1 ++ ⟨.Call c1 v1 (x :: xs), p1⟩ :: post1, [0], [2]⟩,
        ⟨pre2 ++ [⟨.Return rs, p3⟩], [0, 1], []⟩]⟩)
    (hpre0 : ∀ i ∈ pre0, i.isOther = true) (hpre1 : ∀ i ∈ pre1, i.isOther = true)
    (hpost1 : ∀ i ∈ post1, i.isOther = true) (hpre2 : ∀ i ∈ pre2, i.isOther = true)
    (hlive : livenessFor n (env.prog.funcs f) [(0, pre0.length)] = .ok deps)
    (hget : env.ops.Get (runDo env.ops 0 0 (pre0 ++ [⟨.If cond, p0⟩]) env.ops.nil) cond =
      some ⟨c⟩)
    (hc1 : callOuts env.prog f (1, pre1.length) c1 = [env.prog.lockFn])
    (hx : env.prog.pta f x = [X])
    (hfresh : mapGet s.fns f = none) :
    ∃ s1, walkFunction env (fuel + n + 4) f NewSet s =
      .ok (some { M := [(LockSet.Key (if c then { bits := 2 ^ (s.sp.Intern X).1 } else NewSet),
        if c then { bits := 2 ^ (s.sp.Intern X).1 } else NewSet)] }, s1) := by
  have hif : ifInstrsFrom 0 (env.prog.funcs f).Blocks = [(0, pre0.length)] := by
    rw [hbody]
    simp only []
    rw [ifInstrsFrom_if, ifInstrsFrom_noIf _ _ _
        (getLast?_pre_other pre1 post1 _ (fun _ h => by cases h) hpost1),
      ifInstrsFrom_noIf _ _ _ (getLast?_pre_other pre2 [] _ (fun _ h => by cases h)
        (fun _ h => by cases h))]
    rfl
  have hlive2 := livenessFor_mono_le n (fuel + n + 3) (by omega) _ _ _ hlive
  have hlen : ¬ (env.prog.funcs f).Blocks.length = 0 := by rw [hbody]; simp
  have hb0 : (env.prog.funcs f).Blocks[0]? = some ⟨pre0 ++ [⟨.If cond, p0⟩], [], [1, 2]⟩ := by
    rw [hbody]; rfl
  have hb1 : (env.prog.funcs f).Blocks[1]? = some
      ⟨pre1 ++ ⟨.Call c1 v1 (x :: xs), p1⟩ :: post1, [0], [2]⟩ := by
    rw [hbody]; rfl
  have hb2 : (env.prog.funcs f).Blocks[2]? = some ⟨pre2 ++ [⟨.Return rs, p3⟩], [0, 1], []⟩ := by
    rw [hbody]; rfl
  have hphi1 : ∀ b preds idx (vs : VS), phiInstrs env.ops b 1 preds idx
      (pre1 ++ ⟨.Call c1 v1 (x :: xs), p1⟩ :: post1) vs = .ok vs := fun b preds idx vs =>
    phiInstrs_noPhi _ _ _ _ _ _ _ (head_pre _ _ _ hpre1 (fun _ h => by cases h))
  have hphi2 : ∀ b preds idx (vs : VS), phiInstrs env.ops b 2 preds idx
      (pre2 ++ [⟨.Return rs, p3⟩]) vs = .ok vs := fun b preds idx vs =>
    phiInstrs_noPhi _ _ _ _ _ _ _ (head_pre _ _ _ hpre2 (fun _ h => by cases h))
  have hrun : runDo env.ops 0 0 (pre0 ++ [⟨.If cond, p0⟩]) env.ops.nil =
      env.ops.Do (runDo env.ops 0 0 pre0 env.ops.nil) (0, pre0.length) ⟨.If cond, p0⟩ := by
    rw [runDo_append]; simp [runDo]
  rw [hrun] at hget
  obtain ⟨pp, hpp⟩ := exitPos_entry (env.prog.funcs f) (fuel + n + 1) 0 _ hb0 rfl
  simp only [walkFunction, firstVisit, hfresh, hif, hlive2, if_neg hlen, memoOf,
    mapGet_mapSet_self, mapGet, setMemo]
  simp only [walkBlock, walkBlockBody, hb0, mapGet, Option.getD, cacheStop, walkBlockRun,
    resolveCond, logPos, doInstructions_pre _ _ _ _ _ _ _ _ hpre0, Nat.zero_add,
    doInstructions, doInstruction, hget, hpp, NewLockSetSet, LockSetSet.Add, mapSet,
    range_single env hrange]
  cases c
  · simp [pruneSuccs, walkFrontier, walkSuccs, succState, hb2, hphi2, walkBlock,
      walkBlockBody, mapGet, mapSet, cacheStop, walkBlockRun, resolveCond, logPos,
      doInstructions_pre _ _ _ _ _ _ _ _ hpre2, doInstructions, doInstruction,
      LockSetSet.Union, unionLoop, NewLockSetSet, LockSetSet.Add, range_single env hrange]
  · simp [pruneSuccs, walkFrontier, walkSuccs, succState, hb1, hb2, hphi1, hphi2, walkBlock,
      walkBlockBody, mapGet, mapSet, cacheStop, walkBlockRun, resolveCond, logPos,
      doInstructions_pre _ _ _ _ _ _ _ _ hpre1, doInstructions_pre _ _ _ _ _ _ _ _ hpre2,
      doInstructions_others _ _ _ _ _ _ hpost1, doInstructions, doInstruction,
      LockSetSet.Union, unionLoop, NewLockSetSet, LockSetSet.Add, range_single env hrange,
      hc1, doOuts, hx, plusAll, Plus_single]

theorem walkFunction_branch_witness :
    ∃ s1, walkFunction exEnvConst 6 4 NewSet initState =
      .ok (some { M := [(LockSet.Key (if true then { bits := 2 ^ (initState.sp.Intern "b").1 }
          else NewSet),
        if true then { bits := 2 ^ (initState.sp.Intern "b").1 } else NewSet)] }, s1) :=
  walkFunction_branch exEnvConst 0 2 4 initState "b" (.Const 1) (.Global 0) [] []
    (some 0) (.Function 0) 0 1 0 true [] [] [⟨.Other [], 0⟩] []
    (([.Const 1] : List Value) :: List.replicate 2 [])
    (fun l => List.Perm.refl l) rfl (by simp) (by simp) (by simp [Instruction.isOther])
    (by simp) (livenessFor_oneIf 0 (exProg.funcs 4) (.Const 1) 0 [1, 2] _ rfl rfl)
    rfl rfl rfl rfl

/-! ## The walk of a function that calls itself and external functions -/

theorem walkFunction_noBlocks {VS : Type} (env : Env VS) (fuel : Nat) (f : FuncId)
    (L : LockSet) (s : State) (hext : (env.prog.funcs f).Blocks = []) :
    walkFunction env (fuel + 1) f L s =
      .ok (some { M := [(L.Key, L)] },
        match mapGet s.fns f with
        | some _ => s
        | none => { s with fns := mapSet s.fns f { exitLockSets := [], ifDeps := [] } }) := by
  simp only [walkFunction, firstVisit, hext, ifInstrsFrom, livenessFor, doVals]
  cases h : mapGet s.fns f <;> simp [NewLockSetSet, LockSetSet.Add, mapSet]

theorem range_small {VS : Type} (env : Env VS) (hrange : ∀ l, (env.range l).Perm l)
    (l : List (LockSetKey × LockSet)) (hl : l.length ≤ 1) : env.range l = l := by
  match l, hl with
  | [], _ => exact List.perm_nil.mp (hrange [])
  | [a], _ => exact List.perm_singleton.mp (hrange [a])

theorem Small.empty (L : LockSet) : Small L NewLockSetSet := Or.inl rfl

theorem phiEdges_ok {VS : Type} (ops : ValStateOps VS) (b : Nat) (preds : List Nat)
    (phi : Value) (i : Nat) (edges : List Value) (vs : VS)
    (hlen : i + edges.length ≤ preds.length) :
    ∃ vs1, phiEdges ops b preds phi i edges vs = .ok vs1 := by
  induction edges generalizing i vs with
  | nil => exact ⟨vs, rfl⟩
  | cons e rest ih =>
    have hi : i < preds.length := by simp at hlen; omega
    have hlen2 : i + 1 + rest.length ≤ preds.length := by simp at hlen; omega
    simp only [phiEdges, List.getElem?_eq_getElem hi]
    split_ifs
    · cases ops.Get vs e with
      | none => exact ih _ _ hlen2
      | some x => exact ih _ _ hlen2
    · exact ih _ _ hlen2

theorem phiInstrs_ok {VS : Type} (ops : ValStateOps VS) (b b2 : Nat) (preds : List Nat)
    (idx : Nat) (instrs : List Instruction) (vs : VS)
    (hphi : ∀ instr ∈ instrs, ∀ edges, instr.kind = .Phi edges → edges.length ≤ preds.length) :
    ∃ vs1, phiInstrs ops b b2 preds idx instrs vs = .ok vs1 := by
  induction instrs generalizing idx vs with
  | nil => exact ⟨vs, rfl⟩
  | cons i rest ih =>
    obtain ⟨kind, pos⟩ := i
    cases kind with
    | Phi edges =>
      have hle := hphi ⟨.Phi edges, pos⟩ (List.mem_cons_self _ _) edges rfl
      obtain ⟨vs3, h3⟩ := phiEdges_ok ops b preds (.Instr b2 idx) 0 edges vs (by omega)
      simp only [phiInstrs, h3]
      exact ih _ _ (fun instr hin => hphi instr (List.mem_cons_of_mem _ hin))
    | If c => exact ⟨vs, rfl⟩
    | Call a b c => exact ⟨vs, rfl⟩
    | Return rs => exact ⟨vs, rfl⟩
    | Other rs => exact ⟨vs, rfl⟩

theorem succState_ok {VS : Type} (ops : ValStateOps VS) (fn : Function) (hwf : WellFormed fn)
    (b : Nat) (vs : VS) (ifCond : Option Value) (i b2 : Nat) (hb2 : b2 < fn.Blocks.length) :
    ∃ vs2, succState ops fn b vs ifCond i b2 = .ok vs2 := by
  unfold succState
  simp only [List.getElem?_eq_getElem hb2]
  exact phiInstrs_ok ops b b2 _ 0 _ _ (hwf _ (List.getElem_mem _)).2.1

theorem slack_mapSet {VS : Type} (N : Nat) (key : LockSetKey)
    (cache : List ((Nat × LockSetKey) × List VS)) (b : Nat) (vs : VS) (hb : b < N)
    (hlen : ((mapGet cache (b, key)).getD []).length ≤ 10) :
    slack N key (mapSet cache (b, key) ((mapGet cache (b, key)).getD [] ++ [vs])) + 1 ≤
      slack N key cache := by
  unfold slack
  apply Nat.succ_le_of_lt
  apply List.sum_lt_sum
  · intro i _
    by_cases hi : i = b
    · subst hi
      simp only [mapGet_mapSet_self, Option.getD_some, List.length_append, List.length_singleton]
      omega
    · have hne : (b, key) ≠ (i, key) := by
        intro e; exact hi (Prod.mk.inj e).1.symm
      rw [mapGet_mapSet_of_ne _ _ _ _ hne]
  · refine ⟨b, List.mem_range.mpr hb, ?_⟩
    simp only [mapGet_mapSet_self, Option.getD_some, List.length_append, List.length_singleton]
    omega

theorem cacheStop_ok {VS : Type} (ops : ValStateOps VS) (S : State) (f : FuncId) (b : Nat)
    (vs : VS) (l : List VS) (fi : funcInfo) (hfi : mapGet S.fns f = some fi)
    (hb : b < fi.ifDeps.length) :
    ∃ stop, cacheStop ops S f b vs l = .ok stop ∧ (stop = false → l.length ≤ 10) := by
  cases l with
  | nil => exact ⟨false, rfl, fun _ => by simp⟩
  | cons a rest =>
    simp only [cacheStop, hfi, List.getElem?_eq_getElem hb]
    refine ⟨_, rfl, ?_⟩
    intro hstop
    simp only [Bool.or_eq_false_iff, decide_eq_false_iff_not] at hstop
    omega

theorem pruneSuccs_ok (succs : List Nat) (x : Option DynConst)
    (hne : x ≠ none → succs ≠ []) :
    ∃ l, pruneSuccs succs x = .ok l ∧ ∀ b2 ∈ l, b2 ∈ succs := by
  cases x with
  | none => exact ⟨succs, rfl, fun _ h => h⟩
  | some d =>
    cases succs with
    | nil => exact absurd rfl (hne (by simp))
    | cons b0 rest =>
      simp only [pruneSuccs]
      split_ifs
      · exact ⟨[b0], rfl, fun b2 h => by simp at h; simp [h]⟩
      · exact ⟨rest, rfl, fun b2 h => List.mem_cons_of_mem _ h⟩

theorem slack_nil {VS : Type} (N : Nat) (key : LockSetKey) :
    slack N key ([] : List ((Nat × LockSetKey) × List VS)) = 11 * N := by
  simp [slack, mapGet, mul_comm]

theorem exitPos_uniform (fn : Function) (M : Nat)
    (h : ∀ b, b < M → ∃ n p, exitPos fn n b = .ok p) :
    ∃ EB, ∀ b, b < M → ∃ p, exitPos fn EB b = .ok p := by
  induction M with
  | zero => exact ⟨0, fun b hb => absurd hb (Nat.not_lt_zero b)⟩
  | succ k ih =>
    obtain ⟨EB0, h0⟩ := ih (fun b hb => h b (Nat.lt_succ_of_lt hb))
    obtain ⟨n, p, hp⟩ := h k (Nat.lt_succ_self k)
    refine ⟨max EB0 n, ?_⟩
    intro b hb
    rcases Nat.lt_succ_iff_lt_or_eq.mp hb with hlt | heq
    · obtain ⟨q, hq⟩ := h0 b hlt
      exact ⟨q, exitPos_mono_le fn EB0 _ b q (le_max_left _ _) hq⟩
    · subst heq
      exact ⟨p, exitPos_mono_le fn n _ b p (le_max_right _ _) hp⟩

theorem frontierOf_length (L : LockSet) (live : Bool) : (frontierOf L live).M.length ≤ 1 := by
  cases live <;> simp [frontierOf, NewLockSetSet, LockSetSet.Add, mapSet]

theorem frontierOf_union (L : LockSet) (acc : Bool) :
    (frontierOf L acc).Union (some (NewLockSetSet.Add L)) = frontierOf L true := by
  cases acc <;>
    simp [frontierOf, NewLockSetSet, LockSetSet.Add, LockSetSet.Union, unionLoop, mapSet]

theorem frontierOf_false (L : LockSet) : frontierOf L false = NewLockSetSet := rfl

theorem callAll_back {VS : Type} {env : Env VS} {wf} {f : FuncId} {L : LockSet} {EB : Nat}
    (h : FlowWalk env wf f L EB) (live : Bool) (s : State)
    (hs : InWalk f L (env.prog.funcs f).Blocks.length s) (next : LockSetSet) :
    callAll wf f (env.range (frontierOf L live).M) s next = .ok (s, next) := by
  rw [range_small env h.range_ok _ (frontierOf_length L live)]
  cases live
  · simp [frontierOf, NewLockSetSet, callAll]
  · simp [frontierOf, NewLockSetSet, LockSetSet.Add, mapSet, callAll, h.back s hs,
      LockSetSet.Union]

theorem callAll_ext {VS : Type} {env : Env VS} {wf} {f : FuncId} {L : LockSet} {EB : Nat}
    (h : FlowWalk env wf f L EB) (o : FuncId) (hext : (env.prog.funcs o).Blocks = [])
    (live : Bool) (s : State)
    (hs : InWalk f L (env.prog.funcs f).Blocks.length s) (acc : Bool) :
    ∃ s1, callAll wf o (env.range (frontierOf L live).M) s (frontierOf L acc) =
        .ok (s1, frontierOf L (acc || live)) ∧
      InWalk f L (env.prog.funcs f).Blocks.length s1 := by
  rw [range_small env h.range_ok _ (frontierOf_length L live)]
  cases live
  · exact ⟨s, by simp [frontierOf, NewLockSetSet, callAll], hs⟩
  · obtain ⟨s1, h1, hs1⟩ := h.ext o s hext hs
    refine ⟨s1, ?_, hs1⟩
    have hM : (frontierOf L true).M = [(L.Key, L)] := by
      simp [frontierOf, NewLockSetSet, LockSetSet.Add, mapSet]
    rw [hM]
    simp only [callAll, h1, frontierOf_union, Bool.or_true]

theorem doOuts_flow {VS : Type} {env : Env VS} {wf} {f : FuncId} {L : LockSet} {EB : Nat}
    (h : FlowWalk env wf f L EB) (args : List Value) (live : Bool) (outs : List FuncId)
    (hall : ∀ o ∈ outs, o ≠ env.prog.lockFn ∧ o ≠ env.prog.unlockFn ∧
      (o = f ∨ (env.prog.funcs o).Blocks = []))
    (s : State) (hs : InWalk f L (env.prog.funcs f).Blocks.length s) (acc : Bool) :
    ∃ s1, doOuts env wf f args (frontierOf L live) outs s (frontierOf L acc) =
        .ok (s1, frontierOf L
          (acc || (live && outs.any (fun o => (env.prog.funcs o).Blocks.isEmpty)))) ∧
      InWalk f L (env.prog.funcs f).Blocks.length s1 := by
  induction outs generalizing s acc with
  | nil => exact ⟨s, by simp [doOuts], hs⟩
  | cons o rest ih =>
    obtain ⟨hl, hu, hcase⟩ := hall o (List.mem_cons_self _ _)
    have hrest := fun o ho => hall o (List.mem_cons_of_mem _ ho)
    by_cases hext : (env.prog.funcs o).Blocks = []
    · obtain ⟨s1, h1, hs1⟩ := callAll_ext h o hext live s hs acc
      obtain ⟨s2, h2, hs2⟩ := ih hrest s1 hs1 (acc || live)
      refine ⟨s2, ?_, hs2⟩
      simp only [doOuts, if_neg hl, if_neg hu, h1, h2, List.any_cons, hext, List.isEmpty_nil]
      congr 2
      cases acc <;> cases live <;> simp
    · have hof : o = f := by
        rcases hcase with e | e
        · exact e
        · exact absurd e hext
      subst hof
      obtain ⟨s2, h2, hs2⟩ := ih hrest s hs acc
      refine ⟨s2, ?_, hs2⟩
      have hemp : (env.prog.funcs o).Blocks.isEmpty = false := by
        cases hb : (env.prog.funcs o).Blocks with
        | nil => exact absurd hb hext
        | cons a l => rfl
      simp only [doOuts, if_neg hl, if_neg hu, callAll_back h live s hs, h2, List.any_cons, hemp,
        Bool.false_or]

/-- What the instructions of a block have done to the frame of `walkBlock`. -/
structure FrameFlow {VS : Type} (env : Env VS) (f : FuncId) (L : LockSet) (b idx : Nat)
    (instrs : List Instruction) (live : Bool) (fr fr1 : Frame VS) : Prop where
  vs : fr1.vs = runDo env.ops b idx instrs fr.vs
  cond : fr1.ifCond = condAfter instrs fr.ifCond
  front : fr1.lockSets = frontierOf L (liveAfter env.prog f b idx instrs live)
  state : InWalk f L (env.prog.funcs f).Blocks.length fr1.s
  small : Small L fr1.exitLockSets
  exits : fr.exitLockSets.M ≠ [] → fr1.exitLockSets.M ≠ []
  records : recordsFrom env.prog f b idx instrs live = true → fr1.exitLockSets.M ≠ []
  sound : fr1.exitLockSets.M ≠ [] →
    fr.exitLockSets.M ≠ [] ∨ recordsFrom env.prog f b idx instrs live = true

theorem Small.union_frontier {L : LockSet} {e : LockSetSet} (he : Small L e) (live : Bool) :
    Small L (e.Union (some (frontierOf L live))) ∧
    ((e.Union (some (frontierOf L live))).M ≠ [] ↔ (e.M ≠ [] ∨ live = true)) := by
  rcases he with he | he <;> cases live <;>
    simp [Small, frontierOf, NewLockSetSet, LockSetSet.Add, LockSetSet.Union, he, unionLoop,
      mapSet]

theorem doInstructions_flow {VS : Type} {env : Env VS} {wf} {f : FuncId} {L : LockSet}
    {EB : Nat} (h : FlowWalk env wf f L EB) (b : Nat) (blk : BasicBlock)
    (hb : (env.prog.funcs f).Blocks[b]? = some blk) (idx : Nat) (instrs : List Instruction)
    (hsuf : ∀ j instr, instrs[j]? = some instr → blk.Instrs[idx + j]? = some instr)
    (live : Bool) (fr : Frame VS) (hfront : fr.lockSets = frontierOf L live)
    (hs : InWalk f L (env.prog.funcs f).Blocks.length fr.s) (hsmall : Small L fr.exitLockSets) :
    ∃ fr1, doInstructions env wf f b idx instrs fr = .ok fr1 ∧
      FrameFlow env f L b idx instrs live fr fr1 := by
  induction instrs generalizing idx live fr with
  | nil =>
    exact ⟨fr, rfl, ⟨rfl, rfl, hfront, hs, hsmall, fun x => x,
      fun x => (by simp [recordsFrom] at x), fun x => Or.inl x⟩⟩
  | cons i rest ih =>
    have hi : blk.Instrs[idx]? = some i := by simpa using hsuf 0 i (by simp)
    have hsuf2 : ∀ j instr, rest[j]? = some instr → blk.Instrs[idx + 1 + j]? = some instr := by
      intro j instr hj
      have := hsuf (j + 1) instr (by simpa using hj)
      rw [show idx + 1 + j = idx + (j + 1) by omega]
      exact this
    obtain ⟨kind, pos⟩ := i
    cases kind with
    | If c =>
      obtain ⟨fr2, h2, p2⟩ := ih (idx + 1) hsuf2 live
        { fr with vs := env.ops.Do fr.vs (b, idx) ⟨.If c, pos⟩, ifCond := some c } hfront hs hsmall
      exact ⟨fr2, by simp only [doInstructions, doInstruction, h2],
        ⟨p2.vs, p2.cond, p2.front, p2.state, p2.small, p2.exits, p2.records, p2.sound⟩⟩
    | Phi es =>
      obtain ⟨fr2, h2, p2⟩ := ih (idx + 1) hsuf2 live
        { fr with vs := env.ops.Do fr.vs (b, idx) ⟨.Phi es, pos⟩ } hfront hs hsmall
      exact ⟨fr2, by simp only [doInstructions, doInstruction, h2],
        ⟨p2.vs, p2.cond, p2.front, p2.state, p2.small, p2.exits, p2.records, p2.sound⟩⟩
    | Other rs =>
      obtain ⟨fr2, h2, p2⟩ := ih (idx + 1) hsuf2 live
        { fr with vs := env.ops.Do fr.vs (b, idx) ⟨.Other rs, pos⟩ } hfront hs hsmall
      exact ⟨fr2, by simp only [doInstructions, doInstruction, h2],
        ⟨p2.vs, p2.cond, p2.front, p2.state, p2.small, p2.exits, p2.records, p2.sound⟩⟩
    | Return rs =>
      have hu := hsmall.union_frontier live
      obtain ⟨fr2, h2, p2⟩ := ih (idx + 1) hsuf2 live
        { fr with vs := env.ops.Do fr.vs (b, idx) ⟨.Return rs, pos⟩,
                  exitLockSets := fr.exitLockSets.Union (some fr.lockSets) } hfront hs
        (by simp only [hfront]; exact hu.1)
      refine ⟨fr2, by simp only [doInstructions, doInstruction, h2],
        ⟨p2.vs, p2.cond, p2.front, p2.state, p2.small, ?_, ?_, ?_⟩⟩
      · intro hx
        apply p2.exits
        simp only [hfront]
        exact hu.2.2 (Or.inl hx)
      · intro hx
        simp only [recordsFrom, Bool.or_eq_true] at hx
        rcases hx with hx | hx
        · apply p2.exits
          simp only [hfront]
          exact hu.2.2 (Or.inr hx)
        · exact p2.records hx
      · intro hx
        rcases p2.sound hx with h3 | h3
        · simp only [hfront] at h3
          rcases hu.2.1 h3 with h4 | h4
          · exact Or.inl h4
          · exact Or.inr (by simp [recordsFrom, h4])
        · exact Or.inr (by simp [recordsFrom, h3])
    | Call static fn args =>
      obtain ⟨_, hall⟩ := h.calls b blk idx static fn args pos hb hi
      obtain ⟨s1, h1, hs1⟩ := doOuts_flow h args live _ hall fr.s hs false
      rw [frontierOf_false, ← hfront] at h1
      simp only [Bool.false_or] at h1
      have h1' : doOuts env wf f args fr.lockSets (callOuts env.prog f (b, idx) static) fr.s
          NewLockSetSet =
          .ok (s1, frontierOf L (live && callPasses env.prog f (b, idx) static)) := h1
      obtain ⟨fr2, h2, p2⟩ := ih (idx + 1) hsuf2 (live && callPasses env.prog f (b, idx) static)
        { fr with vs := env.ops.Do fr.vs (b, idx) ⟨.Call static fn args, pos⟩,
                  lockSets := frontierOf L (live && callPasses env.prog f (b, idx) static),
                  s := s1 } rfl hs1 hsmall
      exact ⟨fr2, by simp only [doInstructions, doInstruction, h1', h2],
        ⟨p2.vs, p2.cond, p2.front, p2.state, p2.small, p2.exits, p2.records, p2.sound⟩⟩

theorem FlowPost.stay {VS : Type} (env : Env VS) (f : FuncId) (L : LockSet) (w : Walk VS)
    (hs : InWalk f L (env.prog.funcs f).Blocks.length w.s) (hsm : Small L w.exitLockSets) :
    FlowPost env f L w w :=
  ⟨hs, hsm, le_refl _, fun _ h => h, fun h => h, fun _ h1 h0 => absurd h1 h0, fun h => Or.inl h⟩

theorem FlowPost.seq {VS : Type} {env : Env VS} {f : FuncId} {L : LockSet} {w w1 w2 : Walk VS}
    (h1 : FlowPost env f L w w1) (h2 : FlowPost env f L w1 w2) : FlowPost env f L w w2 := by
  refine ⟨h2.state, h2.small, le_trans h2.less h1.less, fun c h => h2.ran c (h1.ran c h),
    fun h => h2.exits (h1.exits h), ?_, ?_⟩
  · intro c hc2 hc0
    by_cases hc1 : Ran L.Key w1.blockCache c
    · obtain ⟨hr, hsucc⟩ := h1.closed c hc1 hc0
      exact ⟨fun hrec => h2.exits (hr hrec),
        fun blk hb hl hu c2 hc2 => h2.ran c2 (hsucc blk hb hl hu c2 hc2)⟩
    · exact h2.closed c hc2 hc1
  · intro hx
    rcases h2.sound hx with h3 | h3
    · exact h1.sound h3
    · exact Or.inr h3

theorem Ran.recorded {VS : Type} (key : LockSetKey) (cache : List ((Nat × LockSetKey) × List VS))
    (b : Nat) (vs : VS) :
    Ran key (mapSet cache (b, key) ((mapGet cache (b, key)).getD [] ++ [vs])) b := by
  simp [Ran, mapGet_mapSet_self]

theorem Ran.elsewhere {VS : Type} (key : LockSetKey) (cache : List ((Nat × LockSetKey) × List VS))
    (b c : Nat) (l : List VS) (hne : c ≠ b) :
    Ran key (mapSet cache (b, key) l) c ↔ Ran key cache c := by
  have hk : (b, key) ≠ (c, key) := fun e => hne (Prod.mk.inj e).1.symm
  simp [Ran, mapGet_mapSet_of_ne _ _ _ _ hk]

theorem Ran.retained {VS : Type} (key : LockSetKey) (cache : List ((Nat × LockSetKey) × List VS))
    (b c : Nat) (vs : VS) (h : Ran key cache c) :
    Ran key (mapSet cache (b, key) ((mapGet cache (b, key)).getD [] ++ [vs])) c := by
  by_cases hc : c = b
  · subst hc; exact Ran.recorded key cache c vs
  · exact (Ran.elsewhere key cache b c _ hc).2 h

theorem cacheStop_true {VS : Type} (ops : ValStateOps VS) (s : State) (f : FuncId) (b : Nat)
    (vs : VS) (l : List VS) (h : cacheStop ops s f b vs l = .ok true) : l ≠ [] := by
  intro e
  subst e
  cases h

theorem condAfter_some (instrs : List Instruction) (c0 : Option Value) (c : Value)
    (h : condAfter instrs c0 = some c) :
    c0 = some c ∨ ∃ instr ∈ instrs, ∃ c1, instr.kind = .If c1 := by
  induction instrs generalizing c0 with
  | nil => exact Or.inl h
  | cons i rest ih =>
    obtain ⟨kind, pos⟩ := i
    cases kind with
    | If c1 => exact Or.inr ⟨_, List.mem_cons_self _ _, c1, rfl⟩
    | Call a b d =>
      rcases ih c0 h with e | ⟨x, hx, hc⟩
      · exact Or.inl e
      · exact Or.inr ⟨x, List.mem_cons_of_mem _ hx, hc⟩
    | Return rs =>
      rcases ih c0 h with e | ⟨x, hx, hc⟩
      · exact Or.inl e
      · exact Or.inr ⟨x, List.mem_cons_of_mem _ hx, hc⟩
    | Phi es =>
      rcases ih c0 h with e | ⟨x, hx, hc⟩
      · exact Or.inl e
      · exact Or.inr ⟨x, List.mem_cons_of_mem _ hx, hc⟩
    | Other rs =>
      rcases ih c0 h with e | ⟨x, hx, hc⟩
      · exact Or.inl e
      · exact Or.inr ⟨x, List.mem_cons_of_mem _ hx, hc⟩

theorem walkSuccs_flow {VS : Type} (env : Env VS) (f : FuncId) (L : LockSet) (m : Nat) (rec)
    (hrec : GoodFlow env f L m rec) (hwf : WellFormed (env.prog.funcs f))
    (b : Nat) (vs : VS) (ifCond : Option Value) (i : Nat) (succs : List Nat)
    (hsuccs : ∀ b2 ∈ succs, b2 < (env.prog.funcs f).Blocks.length)
    (harise : ∀ j b2 vs2, succs[j]? = some b2 →
      succState env.ops (env.prog.funcs f) b vs ifCond (i + j) b2 = .ok vs2 →
      Arises env f b2 vs2)
    (w : Walk VS) (hs : InWalk f L (env.prog.funcs f).Blocks.length w.s)
    (hsm : Small L w.exitLockSets)
    (hm : slack (env.prog.funcs f).Blocks.length L.Key w.blockCache ≤ m) :
    ∃ w1, walkSuccs env.ops (env.prog.funcs f) rec b vs ifCond L i succs w = .ok w1 ∧
      FlowPost env f L w w1 ∧ ∀ b2 ∈ succs, Ran L.Key w1.blockCache b2 := by
  induction succs generalizing i w with
  | nil => exact ⟨w, rfl, FlowPost.stay env f L w hs hsm, fun b2 h => by cases h⟩
  | cons b2 rest ih =>
    have hb2 := hsuccs b2 (List.mem_cons_self _ _)
    obtain ⟨vs2, hvs2⟩ := succState_ok env.ops (env.prog.funcs f) hwf b vs ifCond i b2 hb2
    have ha : Arises env f b2 vs2 := harise 0 b2 vs2 (by simp) (by simpa using hvs2)
    obtain ⟨w1, h1, p1, r1⟩ := hrec b2 vs2 w hb2 ha hs hsm hm
    obtain ⟨w2, h2, p2, r2⟩ := ih (i + 1)
      (fun x hx => hsuccs x (List.mem_cons_of_mem _ hx))
      (fun j c vsc hj hc => harise (j + 1) c vsc (by simpa using hj) (by
        rw [show i + (j + 1) = i + 1 + j by omega]; exact hc))
      w1 p1.state p1.small (le_trans p1.less hm)
    refine ⟨w2, by simp only [walkSuccs, hvs2, h1, h2], p1.seq p2, ?_⟩
    intro c hc
    rcases List.mem_cons.1 hc with e | e
    · rw [e]; exact p2.ran b2 r1
    · exact r2 c e

theorem walkBlock_flow {VS : Type} {env : Env VS} {wf} {f : FuncId} {L : LockSet}
    {EB : Nat} (h : FlowWalk env wf f L EB) (fuel : Nat) :
    ∀ b vs (w : Walk VS), b < (env.prog.funcs f).Blocks.length → Arises env f b vs →
      InWalk f L (env.prog.funcs f).Blocks.length w.s → Small L w.exitLockSets →
      slack (env.prog.funcs f).Blocks.length L.Key w.blockCache + EB < fuel →
      ∃ w1, walkBlock env wf f fuel b vs L w = .ok w1 ∧ FlowPost env f L w w1 ∧
        Ran L.Key w1.blockCache b := by
  induction fuel with
  | zero => intro b vs w _ _ _ _ hlt; omega
  | succ k ih =>
    intro b vs w hb ha hs hsm hlt
    obtain ⟨fi, hfi, hdeps, _⟩ := hs
    have hs : InWalk f L (env.prog.funcs f).Blocks.length w.s := ⟨fi, hfi, hdeps, by assumption⟩
    have hblk : (env.prog.funcs f).Blocks[b]? = some ((env.prog.funcs f).Blocks[b]) :=
      List.getElem?_eq_getElem hb
    obtain ⟨stop, hstop, hlen⟩ := cacheStop_ok env.ops w.s f b vs
      ((mapGet w.blockCache (b, L.Key)).getD []) fi hfi (by rw [hdeps]; exact hb)
    cases stop with
    | true =>
      simp only [walkBlock, walkBlockBody, hblk, hstop]
      exact ⟨w, rfl, FlowPost.stay env f L w hs hsm, cacheStop_true _ _ _ _ _ _ hstop⟩
    | false =>
      simp only [walkBlock, walkBlockBody, hblk, hstop, walkBlockRun]
      have hsl := slack_mapSet (env.prog.funcs f).Blocks.length L.Key w.blockCache b vs hb
        (hlen rfl)
      obtain ⟨fr, hfr, p⟩ := doInstructions_flow h b _ hblk 0
        ((env.prog.funcs f).Blocks[b]).Instrs (fun j instr hj => by simpa using hj) true
        { vs := vs, lockSets := NewLockSetSet.Add L, ifCond := none, s := w.s,
          exitLockSets := w.exitLockSets } rfl hs hsm
      simp only [hfr]
      have hmem : (env.prog.funcs f).Blocks[b] ∈ (env.prog.funcs f).Blocks :=
        List.getElem_mem _
      obtain ⟨hsuccs, _, hif⟩ := h.wellFormed _ hmem
      have hvs : fr.vs = runDo env.ops b 0 ((env.prog.funcs f).Blocks[b]).Instrs vs := p.vs
      have hcond : fr.ifCond = condAfter ((env.prog.funcs f).Blocks[b]).Instrs none := p.cond
      have hlog : ∃ q, logPos (exitPos (env.prog.funcs f) k) b
          (resolveCond env.ops fr.vs fr.ifCond) = .ok q := by
        cases resolveCond env.ops fr.vs fr.ifCond with
        | none => exact ⟨0, rfl⟩
        | some d =>
          obtain ⟨q, hq⟩ := h.pos b hb
          exact ⟨q, exitPos_mono_le _ EB k b q (by omega) hq⟩
      obtain ⟨q, hq⟩ := hlog
      simp only [hq]
      obtain ⟨succs, hpr, hsub⟩ := pruneSuccs_ok ((env.prog.funcs f).Blocks[b]).Succs
        (resolveCond env.ops fr.vs fr.ifCond) (by
          intro hx
          apply hif
          cases hc : fr.ifCond with
          | none => exact absurd (by simp only [resolveCond, hc]) hx
          | some c =>
            rw [hcond] at hc
            rcases condAfter_some _ _ _ hc with e | e
            · cases e
            · exact e)
      simp only [hpr]
      have hgood : GoodFlow env f L
          (slack (env.prog.funcs f).Blocks.length L.Key
            (mapSet w.blockCache (b, L.Key) ((mapGet w.blockCache (b, L.Key)).getD [] ++ [vs])))
          (walkBlock env wf f k) := by
        intro b2 vs2 w2 hb2 ha2 hs2 hsm2 hm2
        exact ih b2 vs2 w2 hb2 ha2 hs2 hsm2 (by omega)
      rw [p.front, range_small env h.range_ok _ (frontierOf_length L _)]
      have hrecorded := Ran.recorded L.Key w.blockCache b vs
      -- the walk after the instructions of the block
      obtain ⟨w0, hw0⟩ : ∃ w0 : Walk VS, w0 = ⟨fr.s,
          mapSet w.blockCache (b, L.Key) ((mapGet w.blockCache (b, L.Key)).getD [] ++ [vs]),
          fr.exitLockSets⟩ := ⟨_, rfl⟩
      rw [← hw0]
      have hsub0 : ∃ w1, walkFrontier env.ops (env.prog.funcs f) (walkBlock env wf f k) b fr.vs
          fr.ifCond succs
          (frontierOf L (liveAfter env.prog f b 0 ((env.prog.funcs f).Blocks[b]).Instrs true)).M
          w0 = .ok w1 ∧ FlowPost env f L w0 w1 ∧
          (liveAfter env.prog f b 0 ((env.prog.funcs f).Blocks[b]).Instrs true = true →
            ∀ b2 ∈ succs, Ran L.Key w1.blockCache b2) := by
        cases hlive : liveAfter env.prog f b 0 ((env.prog.funcs f).Blocks[b]).Instrs true with
        | false =>
          refine ⟨w0, by simp [frontierOf, NewLockSetSet, walkFrontier], ?_, fun e => by cases e⟩
          exact FlowPost.stay env f L w0 (by rw [hw0]; exact p.state) (by rw [hw0]; exact p.small)
        | true =>
          obtain ⟨w1, h1, p1, r1⟩ := walkSuccs_flow env f L _ _ hgood h.wellFormed b fr.vs
            fr.ifCond 0 succs (fun b2 hb2 => hsuccs b2 (hsub b2 hb2))
            (by
              intro j b2 vs2 hj hst
              rw [hvs, hcond] at hst
              rw [hvs, hcond] at hpr
              exact Arises.step b _ vs succs (0 + j) b2 vs2 ha hblk hlive hpr
                (by simpa using hj) hst)
            w0 (by rw [hw0]; exact p.state) (by rw [hw0]; exact p.small)
            (by rw [hw0])
          refine ⟨w1, ?_, p1, fun _ => r1⟩
          simp [frontierOf, NewLockSetSet, LockSetSet.Add, mapSet, walkFrontier, h1]
      obtain ⟨w1, h1, p1, r1⟩ := hsub0
      refine ⟨w1, h1, ?_, ?_⟩
      · refine ⟨p1.state, p1.small, ?_, ?_, ?_, ?_, ?_⟩
        · have := p1.less
          rw [hw0] at this
          simp only at this
          omega
        · intro c hc
          apply p1.ran
          rw [hw0]
          exact Ran.retained L.Key w.blockCache b c vs hc
        · intro hx
          apply p1.exits
          rw [hw0]
          exact p.exits hx
        · intro c hc1 hc
          by_cases hcb : c = b
          · subst hcb
            refine ⟨?_, ?_⟩
            · rintro ⟨blk, hblk2, hrec⟩
              rw [hblk] at hblk2
              cases hblk2
              apply p1.exits
              rw [hw0]
              exact p.records hrec
            · intro blk hblk2 hlive hund c2 hc2
              rw [hblk] at hblk2
              cases hblk2
              have hx := hund _ vs hblk ha
              rw [← hvs, ← hcond] at hx
              rw [hx] at hpr
              cases hpr
              exact r1 hlive c2 hc2
          · have hc0 : ¬ Ran L.Key w0.blockCache c := by
              rw [hw0]
              simp only
              rw [Ran.elsewhere L.Key w.blockCache b c _ hcb]
              exact hc
            exact p1.closed c hc1 hc0
        · intro hx
          rcases p1.sound hx with h3 | h3
          · rw [hw0] at h3
            rcases p.sound h3 with h4 | h4
            · exact Or.inl h4
            · exact Or.inr ⟨b, vs, ha, _, hblk, h4⟩
          · exact Or.inr h3
      · apply p1.ran
        rw [hw0]
        exact hrecorded

theorem pruneSuccs_sub (succs0 : List Nat) (x : Option DynConst) (succs : List Nat)
    (h : pruneSuccs succs0 x = .ok succs) : ∀ b2 ∈ succs, b2 ∈ succs0 := by
  cases x with
  | none => cases h; exact fun _ h => h
  | some d =>
    cases succs0 with
    | nil => cases h
    | cons b0 rest =>
      simp only [pruneSuccs] at h
      split_ifs at h
      · cases h; intro b2 hb2; simp at hb2; simp [hb2]
      · cases h; exact fun b2 hb2 => List.mem_cons_of_mem _ hb2

theorem passes_of_arises {VS : Type} (env : Env VS) (f : FuncId) (b : Nat) (vs : VS)
    (h : Arises env f b vs) : Passes env.prog f b := by
  induction h with
  | entry => exact Passes.entry
  | step b blk vs succs i b2 vs2 _ hblk hlive hpr hi _ ih =>
    exact Passes.step b blk b2 ih hblk hlive
      (pruneSuccs_sub _ _ _ hpr b2 (List.getElem?_mem hi))

theorem passes_of_direct {VS : Type} (env : Env VS) (f : FuncId) (b : Nat)
    (h : Direct env f b) : Passes env.prog f b := by
  induction h with
  | entry => exact Passes.entry
  | step b blk b2 _ hblk hlive _ hmem ih => exact Passes.step b blk b2 ih hblk hlive hmem

theorem direct_of_passes {VS : Type} (env : Env VS) (f : FuncId)
    (hund : ∀ b, Undecided env f b) (b : Nat) (h : Passes env.prog f b) : Direct env f b := by
  induction h with
  | entry => exact Direct.entry
  | step b blk b2 _ hblk hlive hmem ih => exact Direct.step b blk b2 ih hblk hlive (hund b) hmem

theorem Small.nonempty {L : LockSet} {lss : LockSetSet} (h : Small L lss) (hne : lss.M ≠ []) :
    lss.M = [(L.Key, L)] := by
  rcases h with h | h
  · exact absurd h hne
  · exact h

theorem not_ran_nil {VS : Type} (key : LockSetKey) (c : Nat) :
    ¬ Ran key ([] : List ((Nat × LockSetKey) × List VS)) c := by
  simp [Ran, mapGet]

theorem direct_ran {VS : Type} (env : Env VS) (f : FuncId) (L : LockSet) (w w1 : Walk VS)
    (hw : w.blockCache = []) (p : FlowPost env f L w w1) (h0 : Ran L.Key w1.blockCache 0)
    (b : Nat) (h : Direct env f b) : Ran L.Key w1.blockCache b := by
  induction h with
  | entry => exact h0
  | step b blk b2 _ hblk hlive hund hmem ih =>
    exact (p.closed b ih (by rw [hw]; exact not_ran_nil _ _)).2 blk hblk hlive hund b2 hmem

/-- C5 (amended): a function with a body whose calls each resolve to at least one
callee and only to the function itself and to external functions other than the lock
primitives, with a well-formed control-flow graph on which `livenessFor` and `exitPos`
return, walked from the empty lockset in a state that has not visited it.
`walkFunction` terminates, with the same result for every larger amount of fuel, and
returns either the `LockSetSet` whose sole member is the empty lockset or the one
without a member.  It returns the first when a `Return` that no call resolving to the
function alone precedes in its block can be reached from the entry through blocks that
contain no such call and whose branch the value state does not decide (`Direct`); it
returns the second when no such `Return` is in a block that the walk can enter at all
(`Arises`), as for `func f() { f() }`.  When the value state decides no branch the
first is returned if and only if such a `Return` can be reached through blocks without
a call that resolves to the function alone (`Passes`). -/
theorem walkFunction_self {VS : Type} (env : Env VS) (f : FuncId) (s : State)
    (hrange : ∀ l, (env.range l).Perm l)
    (hcalls : SelfOrExternal env.prog f)
    (hwf : WellFormed (env.prog.funcs f))
    (hbody : (env.prog.funcs f).Blocks ≠ [])
    (hlive : ∃ n deps, livenessFor n (env.prog.funcs f)
      (ifInstrsFrom 0 (env.prog.funcs f).Blocks) = .ok deps)
    (hpos : ∀ b, b < (env.prog.funcs f).Blocks.length →
      ∃ n p, exitPos (env.prog.funcs f) n b = .ok p)
    (hfresh : mapGet s.fns f = none) :
    ∃ n r s1, (∀ fuel, n ≤ fuel → walkFunction env fuel f NewSet s = .ok (some r, s1)) ∧
      (r.M = [(NewSet.Key, NewSet)] ∨ r.M = []) ∧
      ((∃ b, Direct env f b ∧ Records env.prog f b) → r.M = [(NewSet.Key, NewSet)]) ∧
      ((¬ ∃ b vs, Arises env f b vs ∧ Records env.prog f b) → r.M = []) ∧
      ((∀ b, Undecided env f b) →
        (r.M = [(NewSet.Key, NewSet)] ↔ ∃ b, Passes env.prog f b ∧ Records env.prog f b)) := by
  obtain ⟨nl, deps, hl⟩ := hlive
  obtain ⟨EB, hEB⟩ := exitPos_uniform _ _ hpos
  have hlen : ¬ (env.prog.funcs f).Blocks.length = 0 := by
    simpa [List.length_eq_zero] using hbody
  have hN : 0 < (env.prog.funcs f).Blocks.length := Nat.pos_of_ne_zero hlen
  obtain ⟨G, hG⟩ : ∃ G, G = nl + 11 * (env.prog.funcs f).Blocks.length + EB := ⟨_, rfl⟩
  obtain ⟨F, hF⟩ : ∃ F, F = G + 1 := ⟨_, rfl⟩
  have hlF : livenessFor F (env.prog.funcs f) (ifInstrsFrom 0 (env.prog.funcs f).Blocks) =
      .ok deps := livenessFor_mono_le nl F (by omega) _ _ _ hl
  let s1 : State := { s with fns := mapSet s.fns f { exitLockSets := [], ifDeps := deps } }
  have hfv : firstVisit F (env.prog.funcs f) f s = .ok s1 := by
    simp only [firstVisit, hfresh, hlF]
  have hmemo : memoOf s1 f NewSet.Key = none := by
    simp [s1, memoOf, mapGet_mapSet_self, mapGet]
  let S : State :=
    { setMemo s1 f NewSet.Key none with
      stack := (setMemo s1 f NewSet.Key none).stack ++ [f] }
  have hS : InWalk f NewSet (env.prog.funcs f).Blocks.length S := by
    refine ⟨{ exitLockSets := mapSet [] NewSet.Key none, ifDeps := deps }, ?_, ?_, ?_⟩
    · simp [S, s1, setMemo, mapGet_mapSet_self]
    · exact livenessFor_length _ _ _ _ hl
    · simp [mapSet, mapGet]
  have hflow : FlowWalk env (walkFunction env F) f NewSet EB :=
    { range_ok := hrange
      calls := hcalls
      body := hbody
      wellFormed := hwf
      back := by
        intro s2 ⟨fi, hfi, _, hplace⟩
        rw [hF]
        exact walkFunction_hit env G f NewSet s2 none hbody (by simp [memoOf, hfi, hplace])
      ext := by
        intro o s2 hext ⟨fi, hfi, hd, hplace⟩
        rw [hF, walkFunction_noBlocks env G o NewSet s2 hext]
        refine ⟨_, rfl, ?_⟩
        cases ho : mapGet s2.fns o with
        | some _ => exact ⟨fi, hfi, hd, hplace⟩
        | none =>
          have hne : o ≠ f := by
            intro e; rw [e] at hext; exact hbody hext
          exact ⟨fi, by simp [mapGet_mapSet_of_ne _ _ _ _ hne, hfi], hd, hplace⟩
      pos := hEB }
  obtain ⟨w1, hw1, post, hran0⟩ := walkBlock_flow hflow F 0 env.ops.nil
    { s := S, blockCache := [], exitLockSets := NewLockSetSet } hN Arises.entry hS
    (Small.empty _) (by rw [slack_nil]; omega)
  have hdirect : (∃ b, Direct env f b ∧ Records env.prog f b) →
      w1.exitLockSets.M = [(NewSet.Key, NewSet)] := by
    rintro ⟨b, hd, hrec⟩
    have hr := direct_ran env f NewSet _ w1 rfl post hran0 b hd
    exact post.small.nonempty ((post.closed b hr (not_ran_nil _ _)).1 hrec)
  have harises : (¬ ∃ b vs, Arises env f b vs ∧ Records env.prog f b) →
      w1.exitLockSets.M = [] := by
    intro hno
    by_contra hne
    rcases post.sound hne with h3 | h3
    · exact h3 rfl
    · exact hno h3
  refine ⟨F + 1, w1.exitLockSets,
    { setMemo w1.s f NewSet.Key (some w1.exitLockSets) with
      stack := (setMemo w1.s f NewSet.Key (some w1.exitLockSets)).stack.dropLast }, ?_, ?_,
    hdirect, harises, ?_⟩
  · intro fuel hfuel
    apply walkFunction_mono_le env (F + 1) fuel hfuel
    rw [walkFunction]
    simp only [hfv, if_neg hlen, hmemo]
    rw [hw1]
  · rcases post.small with h | h
    · exact Or.inr h
    · exact Or.inl h
  · intro hund
    constructor
    · intro hr
      by_contra hno
      have : w1.exitLockSets.M = [] := by
        apply harises
        rintro ⟨b, vs, ha, hrec⟩
        exact hno ⟨b, passes_of_arises env f b vs ha, hrec⟩
      rw [this] at hr
      cases hr
    · rintro ⟨b, hp, hrec⟩
      exact hdirect ⟨b, direct_of_passes env f hund b hp, hrec⟩

/-! ## Order independence: programs without recursion, cycles and joins -/

theorem internAll_append (l1 l2 : List String) (sp : StringSpace) :
    internAll (l1 ++ l2) sp = internAll l2 (internAll l1 sp) := by
  induction l1 generalizing sp with
  | nil => rfl
  | cons a rest ih =>
    show internAll (rest ++ l2) (sp.Intern a).2 = internAll l2 (internAll rest (sp.Intern a).2)
    exact ih _

theorem internAll_interned (labels : List String) (sp : StringSpace)
    (h : Interned sp labels) : internAll labels sp = sp := by
  induction labels with
  | nil => rfl
  | cons a rest ih =>
    obtain ⟨id, hid⟩ := h a (List.mem_cons_self _ _)
    simp only [internAll, Intern_of_get sp a id hid]
    exact ih (fun l hl => h l (List.mem_cons_of_mem _ hl))

theorem interned_internAll (labels : List String) (sp : StringSpace) :
    Interned (internAll labels sp) labels :=
  fun l hl => internAll_get labels sp l hl

theorem Interned.wider {sp SP : StringSpace} {labels : List String} (h : Interned sp labels)
    (he : Ext sp SP) : Interned SP labels := by
  obtain ⟨R, rfl⟩ := he
  intro l hl
  obtain ⟨id, hid⟩ := h l hl
  exact ⟨id, internAll_keeps R sp l id hid⟩

theorem Interned.both {sp : StringSpace} {l1 l2 : List String} (h1 : Interned sp l1)
    (h2 : Interned sp l2) : Interned sp (l1 ++ l2) := by
  intro l hl
  rcases List.mem_append.1 hl with e | e
  · exact h1 l e
  · exact h2 l e

theorem internAll_idem (labels : List String) (sp : StringSpace) :
    internAll labels (internAll labels sp) = internAll labels sp :=
  internAll_interned labels _ (interned_internAll labels sp)

theorem Ext.itself (sp : StringSpace) : Ext sp sp := ⟨[], rfl⟩

theorem Ext.byIntern (labels : List String) (sp : StringSpace) : Ext sp (internAll labels sp) :=
  ⟨labels, rfl⟩

theorem Ext.thenExt {a b c : StringSpace} (h1 : Ext a b) (h2 : Ext b c) : Ext a c := by
  obtain ⟨R1, rfl⟩ := h1
  obtain ⟨R2, rfl⟩ := h2
  exact ⟨R1 ++ R2, (internAll_append R1 R2 a).symm⟩

theorem LockSet.eq_of_bits (a b : LockSet) (h : ∀ i, a.bits.testBit i = b.bits.testBit i) :
    a = b := by
  cases a; cases b
  simp only [LockSet.mk.injEq]
  exact Nat.eq_of_testBit_eq h

theorem mapGet_agree (labels : List String) (sp SP : StringSpace)
    (he : Ext (internAll labels sp) SP) (l : String) (hl : l ∈ labels) (i : Nat) :
    mapGet (internAll labels sp).m l = some i ↔ mapGet (internAll labels SP).m l = some i := by
  obtain ⟨id, hid⟩ := internAll_get labels sp l hl
  obtain ⟨R, hR⟩ := he
  have h2 : mapGet (internAll labels SP).m l = some id := by
    apply internAll_keeps
    rw [hR]
    exact internAll_keeps R _ l id hid
  rw [hid, h2]

theorem Plus_pure (x : LockSet) (labels : List String) (sp SP : StringSpace)
    (he : Ext (internAll labels sp) SP) : (x.Plus labels sp).2 = (x.Plus labels SP).2 := by
  apply LockSet.eq_of_bits
  intro i
  rw [Bool.eq_iff_iff, Plus_testBit, Plus_testBit]
  constructor
  · rintro (h | ⟨l, hl, hi⟩)
    · exact Or.inl h
    · exact Or.inr ⟨l, hl, (mapGet_agree labels sp SP he l hl i).1 hi⟩
  · rintro (h | ⟨l, hl, hi⟩)
    · exact Or.inl h
    · exact Or.inr ⟨l, hl, (mapGet_agree labels sp SP he l hl i).2 hi⟩

theorem Minus_pure (x : LockSet) (labels : List String) (sp SP : StringSpace)
    (he : Ext (internAll labels sp) SP) : (x.Minus labels sp).2 = (x.Minus labels SP).2 := by
  apply LockSet.eq_of_bits
  intro i
  rw [Bool.eq_iff_iff, Minus_testBit, Minus_testBit]
  constructor
  · rintro ⟨h, hn⟩
    refine ⟨h, ?_⟩
    rintro ⟨l, hl, hi⟩
    exact hn ⟨l, hl, (mapGet_agree labels sp SP he l hl i).2 hi⟩
  · rintro ⟨h, hn⟩
    refine ⟨h, ?_⟩
    rintro ⟨l, hl, hi⟩
    exact hn ⟨l, hl, (mapGet_agree labels sp SP he l hl i).1 hi⟩

theorem mem_mapSet_of_ne {κ ν : Type} [DecidableEq κ] (m : List (κ × ν)) (k : κ) (v : ν)
    (e : κ × ν) (he : e ∈ m) (hne : e.1 ≠ k) : e ∈ mapSet m k v := by
  induction m with
  | nil => cases he
  | cons a rest ih =>
    obtain ⟨k1, v1⟩ := a
    simp only [mapSet]
    split_ifs with hk
    · rcases List.mem_cons.1 he with h | h
      · subst h; exact absurd hk hne
      · exact List.mem_cons_of_mem _ h
    · rcases List.mem_cons.1 he with h | h
      · subst h; exact List.mem_cons_self _ _
      · exact List.mem_cons_of_mem _ (ih h)

theorem mem_mapSet_self {κ ν : Type} [DecidableEq κ] (m : List (κ × ν)) (k : κ) (v : ν) :
    (k, v) ∈ mapSet m k v :=
  mapGet_mem _ _ _ (mapGet_mapSet_self m k v)

theorem has_mapSet (m : List (LockSetKey × LockSet)) (x y : LockSet) :
    (y.Key, y) ∈ mapSet m x.Key x ↔ (y.Key, y) ∈ m ∨ y = x := by
  constructor
  · intro h
    rcases mem_mapSet m x.Key x _ h with e | e
    · exact Or.inr (Prod.mk.inj e).2
    · exact Or.inl e
  · rintro (h | h)
    · by_cases hk : y.Key = x.Key
      · rw [Key_injective y x hk]; exact mem_mapSet_self m x.Key x
      · exact mem_mapSet_of_ne m x.Key x _ h hk
    · rw [h]; exact mem_mapSet_self m x.Key x

theorem has_Add (lss : LockSetSet) (x y : LockSet) :
    (lss.Add x).has y ↔ lss.has y ∨ y = x :=
  has_mapSet lss.M x y

theorem has_unionLoop (m l : List (LockSetKey × LockSet)) (hl : ∀ e ∈ l, e.2.Key = e.1)
    (y : LockSet) : (y.Key, y) ∈ unionLoop m l ↔ (y.Key, y) ∈ m ∨ (y.Key, y) ∈ l := by
  induction l generalizing m with
  | nil => simp [unionLoop]
  | cons a rest ih =>
    obtain ⟨k, ss⟩ := a
    have hk : ss.Key = k := hl (k, ss) (List.mem_cons_self _ _)
    subst hk
    simp only [unionLoop]
    rw [ih _ (fun e he => hl e (List.mem_cons_of_mem _ he)), has_mapSet]
    constructor
    · rintro ((h | h) | h)
      · exact Or.inl h
      · exact Or.inr (by rw [h]; exact List.mem_cons_self _ _)
      · exact Or.inr (List.mem_cons_of_mem _ h)
    · rintro (h | h)
      · exact Or.inl (Or.inl h)
      · rcases List.mem_cons.1 h with e | e
        · exact Or.inl (Or.inr (Prod.mk.inj e).2)
        · exact Or.inr e

theorem has_Union (a b : LockSetSet) (hb : KeyInv b) (y : LockSet) :
    (a.Union (some b)).has y ↔ a.has y ∨ b.has y :=
  has_unionLoop a.M b.M hb y

theorem has_New (y : LockSet) : ¬ NewLockSetSet.has y := by
  simp [LockSetSet.has, NewLockSetSet]

theorem keyInv_New : KeyInv NewLockSetSet := by
  intro e he
  cases he

theorem keys_of_has (a b : LockSetSet) (ha : KeyInv a) (hb : KeyInv b)
    (h : ∀ y, a.has y ↔ b.has y) : a.keys = b.keys := by
  ext k
  simp only [LockSetSet.keys, List.mem_toFinset, List.mem_map]
  constructor
  · rintro ⟨⟨k1, x⟩, hx, rfl⟩
    have hk := ha _ hx
    simp only at hk
    refine ⟨(x.Key, x), (h x).1 ?_, hk⟩
    rw [LockSetSet.has, hk]; exact hx
  · rintro ⟨⟨k1, x⟩, hx, rfl⟩
    have hk := hb _ hx
    simp only at hk
    refine ⟨(x.Key, x), (h x).2 ?_, hk⟩
    rw [LockSetSet.has, hk]; exact hx

theorem has_of_mem (lss : LockSetSet) (h : KeyInv lss) (e : LockSetKey × LockSet)
    (he : e ∈ lss.M) : lss.has e.2 := by
  have hk := h e he
  rw [LockSetSet.has, hk]
  exact he

theorem plusAll_spec (lock : List String) (l : List (LockSetKey × LockSet))
    (sp : StringSpace) (next : LockSetSet) (hk : KeyInv next) :
    (plusAll lock l sp next).1 = (if l = [] then sp else internAll lock sp) ∧
    KeyInv (plusAll lock l sp next).2 ∧
    ∀ SP, Ext (internAll lock sp) SP → ∀ y, (plusAll lock l sp next).2.has y ↔
      next.has y ∨ ∃ e ∈ l, y = (e.2.Plus lock SP).2 := by
  induction l generalizing sp next with
  | nil => exact ⟨rfl, hk, fun SP _ y => by simp [plusAll]⟩
  | cons a rest ih =>
    obtain ⟨k, ls⟩ := a
    have hstep : plusAll lock ((k, ls) :: rest) sp next =
        plusAll lock rest (ls.Plus lock sp).1 (next.Add (ls.Plus lock sp).2) := rfl
    rw [hstep, Plus_fst]
    obtain ⟨h1, h2, h3⟩ := ih (internAll lock sp) (next.Add (ls.Plus lock sp).2)
      (keyInv_Add _ _ hk)
    refine ⟨?_, h2, ?_⟩
    · rw [h1, internAll_idem]
      simp
    · intro SP he y
      rw [h3 SP (by rw [internAll_idem]; exact he), has_Add, Plus_pure ls lock sp SP he]
      constructor
      · rintro ((h | h) | ⟨e, he2, h⟩)
        · exact Or.inl h
        · exact Or.inr ⟨(k, ls), List.mem_cons_self _ _, h⟩
        · exact Or.inr ⟨e, List.mem_cons_of_mem _ he2, h⟩
      · rintro (h | ⟨e, he2, h⟩)
        · exact Or.inl (Or.inl h)
        · rcases List.mem_cons.1 he2 with e1 | e1
          · subst e1; exact Or.inl (Or.inr h)
          · exact Or.inr ⟨e, e1, h⟩

theorem minusAll_spec (lock : List String) (l : List (LockSetKey × LockSet))
    (sp : StringSpace) (next : LockSetSet) (hk : KeyInv next) :
    (minusAll lock l sp next).1 = (if l = [] then sp else internAll lock sp) ∧
    KeyInv (minusAll lock l sp next).2 ∧
    ∀ SP, Ext (internAll lock sp) SP → ∀ y, (minusAll lock l sp next).2.has y ↔
      next.has y ∨ ∃ e ∈ l, y = (e.2.Minus lock SP).2 := by
  induction l generalizing sp next with
  | nil => exact ⟨rfl, hk, fun SP _ y => by simp [minusAll]⟩
  | cons a rest ih =>
    obtain ⟨k, ls⟩ := a
    have hstep : minusAll lock ((k, ls) :: rest) sp next =
        minusAll lock rest (ls.Minus lock sp).1 (next.Add (ls.Minus lock sp).2) := rfl
    rw [hstep, Minus_fst]
    obtain ⟨h1, h2, h3⟩ := ih (internAll lock sp) (next.Add (ls.Minus lock sp).2)
      (keyInv_Add _ _ hk)
    refine ⟨?_, h2, ?_⟩
    · rw [h1, internAll_idem]
      simp
    · intro SP he y
      rw [h3 SP (by rw [internAll_idem]; exact he), has_Add, Minus_pure ls lock sp SP he]
      constructor
      · rintro ((h | h) | ⟨e, he2, h⟩)
        · exact Or.inl h
        · exact Or.inr ⟨(k, ls), List.mem_cons_self _ _, h⟩
        · exact Or.inr ⟨e, List.mem_cons_of_mem _ he2, h⟩
      · rintro (h | ⟨e, he2, h⟩)
        · exact Or.inl (Or.inl h)
        · rcases List.mem_cons.1 he2 with e1 | e1
          · subst e1; exact Or.inl (Or.inr h)
          · exact Or.inr ⟨e, e1, h⟩

theorem summary_eq {VS : Type} (p : Prog) (ops : ValStateOps VS) (rank : FuncId → Nat)
    (dep : FuncId → Nat → Nat) (g : FuncId) (h : (p.funcs g).Blocks ≠ []) :
    summary p ops rank dep g =
      ⟨fun SP x y =>
        Exit p ops (fun o => if rank o < rank g then summary p ops rank dep o else extSummary)
          SP g 0 ops.nil x y,
        labsBlk p ops (fun o => if rank o < rank g then summary p ops rank dep o else extSummary)
          (dep g) g 0 ops.nil,
        retBlk p ops (fun o => if rank o < rank g then summary p ops rank dep o else extSummary)
          (dep g) g 0 ops.nil⟩ := by
  rw [summary, if_neg h]

theorem summary_ext {VS : Type} (p : Prog) (ops : ValStateOps VS) (rank : FuncId → Nat)
    (dep : FuncId → Nat → Nat) (g : FuncId) (h : (p.funcs g).Blocks = []) :
    summary p ops rank dep g = extSummary := by
  rw [summary, if_pos h]

theorem labsBlk_eq {VS : Type} (p : Prog) (ops : ValStateOps VS) (σ : FuncId → Summary)
    (dep : Nat → Nat) (f : FuncId) (b : Nat) (vs : VS) (blk : BasicBlock)
    (hb : (p.funcs f).Blocks[b]? = some blk) :
    labsBlk p ops σ dep f b vs =
      labsInstrs p σ f b 0 blk.Instrs true ++
      if liveEnd p σ f b 0 blk.Instrs true then
        match followed ops b blk vs with
        | .ok succs =>
          labsSuccs ops (p.funcs f) b blk vs
            (fun b2 vs2 => if dep b2 < dep b then labsBlk p ops σ dep f b2 vs2 else []) 0 succs
        | .error _ => []
      else [] := by
  rw [labsBlk, hb]

theorem retBlk_eq {VS : Type} (p : Prog) (ops : ValStateOps VS) (σ : FuncId → Summary)
    (dep : Nat → Nat) (f : FuncId) (b : Nat) (vs : VS) (blk : BasicBlock)
    (hb : (p.funcs f).Blocks[b]? = some blk) :
    retBlk p ops σ dep f b vs =
    (retsIn p σ f b 0 blk.Instrs true ||
      (liveEnd p σ f b 0 blk.Instrs true &&
        match followed ops b blk vs with
        | .ok succs =>
          retSuccs ops (p.funcs f) b blk vs
            (fun b2 vs2 => if dep b2 < dep b then retBlk p ops σ dep f b2 vs2 else false) 0 succs
        | .error _ => false)) := by
  rw [retBlk, hb]

theorem mapSet_ne_nil {κ ν : Type} [DecidableEq κ] (m : List (κ × ν)) (k : κ) (v : ν) :
    mapSet m k v ≠ [] := by
  cases m with
  | nil => simp [mapSet]
  | cons a rest =>
    obtain ⟨k1, v1⟩ := a
    simp only [mapSet]
    split_ifs <;> simp

theorem Add_ne_nil (lss : LockSetSet) (x : LockSet) : (lss.Add x).M ≠ [] :=
  mapSet_ne_nil _ _ _

theorem unionLoop_ne_nil (m l : List (LockSetKey × LockSet)) :
    unionLoop m l ≠ [] ↔ m ≠ [] ∨ l ≠ [] := by
  induction l generalizing m with
  | nil => simp [unionLoop]
  | cons a rest ih =>
    obtain ⟨k, ss⟩ := a
    simp only [unionLoop]
    rw [ih]
    simp [mapSet_ne_nil]

theorem Union_ne_nil (a b : LockSetSet) :
    (a.Union (some b)).M ≠ [] ↔ a.M ≠ [] ∨ b.M ≠ [] :=
  unionLoop_ne_nil a.M b.M

theorem has_nonempty (F : LockSetSet) (hF : KeyInv F) : F.M ≠ [] ↔ ∃ x, F.has x := by
  constructor
  · intro h
    cases hM : F.M with
    | nil => exact absurd hM h
    | cons e rest =>
      exact ⟨e.2, has_of_mem F hF e (by rw [hM]; exact List.mem_cons_self _ _)⟩
  · rintro ⟨x, hx⟩ hM
    rw [LockSetSet.has, hM] at hx
    cases hx

theorem range_has {VS : Type} (env : Env VS) (hrange : ∀ l, (env.range l).Perm l)
    (F : LockSetSet) (hF : KeyInv F) (P : LockSet → Prop) :
    (∃ e ∈ env.range F.M, P e.2) ↔ ∃ x, F.has x ∧ P x := by
  constructor
  · rintro ⟨e, he, hP⟩
    exact ⟨e.2, has_of_mem F hF e ((hrange F.M).mem_iff.1 he), hP⟩
  · rintro ⟨x, hx, hP⟩
    exact ⟨(x.Key, x), (hrange F.M).mem_iff.2 hx, hP⟩

theorem range_nil {VS : Type} (env : Env VS) (hrange : ∀ l, (env.range l).Perm l)
    (l : List (LockSetKey × LockSet)) : env.range l = [] ↔ l = [] := by
  constructor
  · intro h
    have := hrange l
    rw [h] at this
    exact List.perm_nil.mp this.symm |> fun x => x
  · intro h
    subst h
    exact List.perm_nil.mp (hrange [])

theorem plusAll_live (lock : List String) (l : List (LockSetKey × LockSet))
    (sp : StringSpace) (next : LockSetSet) :
    (plusAll lock l sp next).2.M ≠ [] ↔ next.M ≠ [] ∨ l ≠ [] := by
  induction l generalizing sp next with
  | nil => simp [plusAll]
  | cons a rest ih =>
    obtain ⟨k, ls⟩ := a
    have hstep : plusAll lock ((k, ls) :: rest) sp next =
        plusAll lock rest (ls.Plus lock sp).1 (next.Add (ls.Plus lock sp).2) := rfl
    rw [hstep, ih]
    simp [Add_ne_nil]

theorem minusAll_live (lock : List String) (l : List (LockSetKey × LockSet))
    (sp : StringSpace) (next : LockSetSet) :
    (minusAll lock l sp next).2.M ≠ [] ↔ next.M ≠ [] ∨ l ≠ [] := by
  induction l generalizing sp next with
  | nil => simp [minusAll]
  | cons a rest ih =>
    obtain ⟨k, ls⟩ := a
    have hstep : minusAll lock ((k, ls) :: rest) sp next =
        minusAll lock rest (ls.Minus lock sp).1 (next.Add (ls.Minus lock sp).2) := rfl
    rw [hstep, ih]
    simp [Add_ne_nil]

theorem callAll_spec (σ : FuncId → Summary) (Sinv : State → Prop)
    (wf : FuncId → LockSet → State → Except Halt (Option LockSetSet × State)) (o : FuncId)
    (hok : CalleeOk σ Sinv wf o) (l : List (LockSetKey × LockSet)) (s : State)
    (next : LockSetSet) (hs : Sinv s) (hk : KeyInv next) :
    ∃ s1 next1, callAll wf o l s next = .ok (s1, next1) ∧ Sinv s1 ∧
      s1.sp = (if l = [] then s.sp else internAll (σ o).labels s.sp) ∧ KeyInv next1 ∧
      (next1.M ≠ [] ↔ next.M ≠ [] ∨ (l ≠ [] ∧ (σ o).returns = true)) ∧
      ∀ SP, Ext s1.sp SP → ∀ y, next1.has y ↔ next.has y ∨ ∃ e ∈ l, (σ o).rel SP e.2 y := by
  induction l generalizing s next with
  | nil => exact ⟨s, next, rfl, hs, rfl, hk, by simp, fun SP _ y => by simp⟩
  | cons a rest ih =>
    obtain ⟨k, ls⟩ := a
    obtain ⟨r, s1, h1, hs1, hsp1, g1⟩ := hok ls s hs
    obtain ⟨s2, next2, h2, hs2, hsp2, hk2, hl2, hh2⟩ := ih s1 (next.Union (some r)) hs1
      (keyInv_Union _ _ hk g1.key)
    have hsp : s2.sp = internAll (σ o).labels s.sp := by
      rw [hsp2, hsp1]
      split_ifs
      · rfl
      · exact internAll_idem _ _
    refine ⟨s2, next2, by simp only [callAll, h1, h2], hs2, by simp [hsp], hk2, ?_, ?_⟩
    · rw [hl2, Union_ne_nil, g1.live]
      constructor
      · rintro ((h | h) | ⟨_, h⟩)
        · exact Or.inl h
        · exact Or.inr ⟨by simp, h⟩
        · exact Or.inr ⟨by simp, h⟩
      · rintro (h | ⟨_, h⟩)
        · exact Or.inl (Or.inl h)
        · exact Or.inl (Or.inr h)
    · intro SP he y
      have he1 : Ext s1.sp SP := by
        rw [hsp] at he
        rw [hsp1]
        exact he
      rw [hh2 SP he y, has_Union _ _ g1.key, g1.has SP he1 y]
      constructor
      · rintro ((h | h) | ⟨e, he2, h⟩)
        · exact Or.inl h
        · exact Or.inr ⟨(k, ls), List.mem_cons_self _ _, h⟩
        · exact Or.inr ⟨e, List.mem_cons_of_mem _ he2, h⟩
      · rintro (h | ⟨e, he2, h⟩)
        · exact Or.inl (Or.inl h)
        · rcases List.mem_cons.1 he2 with e1 | e1
          · subst e1; exact Or.inl (Or.inr h)
          · exact Or.inr ⟨e, e1, h⟩

theorem doOuts_empty {VS : Type} (env : Env VS)
    (wf : FuncId → LockSet → State → Except Halt (Option LockSetSet × State))
    (f : FuncId) (args : List Value) (F : LockSetSet) (hF : env.range F.M = [])
    (outs : List FuncId)
    (hargs : ∀ o ∈ outs, (o = env.prog.lockFn ∨ o = env.prog.unlockFn) → args ≠ [])
    (s : State) (next : LockSetSet) :
    doOuts env wf f args F outs s next = .ok (s, next) := by
  induction outs with
  | nil => rfl
  | cons o rest ih =>
    have ih2 := ih (fun o ho => hargs o (List.mem_cons_of_mem _ ho))
    by_cases hl : o = env.prog.lockFn
    · cases hargsE : args with
      | nil => exact absurd hargsE (hargs o (List.mem_cons_self _ _) (Or.inl hl))
      | cons a0 args2 =>
        simp only [doOuts, if_pos hl, hF, plusAll]
        rw [← hargsE]
        exact ih2
    · by_cases hu : o = env.prog.unlockFn
      · cases hargsE : args with
        | nil => exact absurd hargsE (hargs o (List.mem_cons_self _ _) (Or.inr hu))
        | cons a0 args2 =>
          simp only [doOuts, if_neg hl, if_pos hu, hF, minusAll]
          rw [← hargsE]
          exact ih2
      · simp only [doOuts, if_neg hl, if_neg hu, hF, callAll]
        exact ih2

theorem doOuts_step {VS : Type} (env : Env VS)
    (σ : FuncId → Summary) (Sinv : State → Prop)
    (wf : FuncId → LockSet → State → Except Halt (Option LockSetSet × State))
    (hsp : ∀ s l, Sinv s → Sinv { s with sp := internAll l s.sp })
    (f : FuncId) (args : List Value) (F : LockSetSet) (hF : env.range F.M ≠ [])
    (o : FuncId) (rest : List FuncId)
    (hargs : (o = env.prog.lockFn ∨ o = env.prog.unlockFn) → args ≠ [])
    (hcallee : o ≠ env.prog.lockFn → o ≠ env.prog.unlockFn → CalleeOk σ Sinv wf o)
    (s : State) (next : LockSetSet) (hs : Sinv s) (hk : KeyInv next) :
    ∃ s1 next1, doOuts env wf f args F (o :: rest) s next =
        doOuts env wf f args F rest s1 next1 ∧ Sinv s1 ∧
      s1.sp = internAll (outLabels env.prog σ f args o) s.sp ∧ KeyInv next1 ∧
      (next1.M ≠ [] ↔ next.M ≠ [] ∨ outLive env.prog σ o = true) ∧
      ∀ SP, Ext s1.sp SP → ∀ y, next1.has y ↔
        next.has y ∨ ∃ e ∈ env.range F.M, Step env.prog σ SP f args o e.2 y := by
  by_cases hl : o = env.prog.lockFn
  · cases hargsE : args with
    | nil => exact absurd hargsE (hargs (Or.inl hl))
    | cons a0 args2 =>
      obtain ⟨p1, p2, p3⟩ := plusAll_spec (env.prog.pta f a0) (env.range F.M) s.sp next hk
      rw [if_neg hF] at p1
      refine ⟨{ s with sp := (plusAll (env.prog.pta f a0) (env.range F.M) s.sp next).1 },
        (plusAll (env.prog.pta f a0) (env.range F.M) s.sp next).2, ?_, ?_, ?_, p2, ?_, ?_⟩
      · simp only [doOuts, if_pos hl]
      · rw [p1]; exact hsp s _ hs
      · simp [outLabels, hl, lockArg, p1]
      · rw [plusAll_live]
        simp [outLive, hl, hF]
      · intro SP he y
        simp only [p1] at he
        rw [p3 SP he y]
        simp [Step, hl, lockArg]
  · by_cases hu : o = env.prog.unlockFn
    · cases hargsE : args with
      | nil => exact absurd hargsE (hargs (Or.inr hu))
      | cons a0 args2 =>
        obtain ⟨p1, p2, p3⟩ := minusAll_spec (env.prog.pta f a0) (env.range F.M) s.sp next hk
        rw [if_neg hF] at p1
        refine ⟨{ s with sp := (minusAll (env.prog.pta f a0) (env.range F.M) s.sp next).1 },
          (minusAll (env.prog.pta f a0) (env.range F.M) s.sp next).2, ?_, ?_, ?_, p2, ?_, ?_⟩
        · simp only [doOuts, if_neg hl, if_pos hu]
        · rw [p1]; exact hsp s _ hs
        · simp [outLabels, hl, hu, lockArg, p1]
        · rw [minusAll_live]
          simp [outLive, hl, hu, hF]
        · intro SP he y
          simp only [p1] at he
          rw [p3 SP he y]
          subst hu
          simp [Step, hl, lockArg]
    · obtain ⟨s1, next1, h1, hs1, hsp1, hk1, hl1, hh1⟩ :=
        callAll_spec σ Sinv wf o (hcallee hl hu) (env.range F.M) s next hs hk
      rw [if_neg hF] at hsp1
      refine ⟨s1, next1, ?_, hs1, ?_, hk1, ?_, ?_⟩
      · simp only [doOuts, if_neg hl, if_neg hu, h1]
      · simp [outLabels, hl, hu, hsp1]
      · rw [hl1]
        simp [outLive, hl, hu, hF]
      · intro SP he y
        rw [hh1 SP he y]
        simp [Step, hl, hu]

theorem doOuts_live {VS : Type} (env : Env VS)
    (σ : FuncId → Summary) (Sinv : State → Prop)
    (wf : FuncId → LockSet → State → Except Halt (Option LockSetSet × State))
    (hsp : ∀ s l, Sinv s → Sinv { s with sp := internAll l s.sp })
    (f : FuncId) (args : List Value) (F : LockSetSet) (hF : env.range F.M ≠ [])
    (outs : List FuncId)
    (hargs : ∀ o ∈ outs, (o = env.prog.lockFn ∨ o = env.prog.unlockFn) → args ≠ [])
    (hcallee : ∀ o ∈ outs, o ≠ env.prog.lockFn → o ≠ env.prog.unlockFn →
      CalleeOk σ Sinv wf o)
    (s : State) (next : LockSetSet) (hs : Sinv s) (hk : KeyInv next) :
    ∃ s1 next1, doOuts env wf f args F outs s next = .ok (s1, next1) ∧ Sinv s1 ∧
      s1.sp = internAll (outs.flatMap (outLabels env.prog σ f args)) s.sp ∧ KeyInv next1 ∧
      (next1.M ≠ [] ↔ next.M ≠ [] ∨ outs.any (outLive env.prog σ) = true) ∧
      ∀ SP, Ext s1.sp SP → ∀ y, next1.has y ↔
        next.has y ∨ ∃ o ∈ outs, ∃ e ∈ env.range F.M, Step env.prog σ SP f args o e.2 y := by
  induction outs generalizing s next with
  | nil => exact ⟨s, next, rfl, hs, rfl, hk, by simp, fun SP _ y => by simp⟩
  | cons o rest ih =>
    obtain ⟨s1, next1, h1, hs1, hsp1, hk1, hl1, hh1⟩ := doOuts_step env σ Sinv wf hsp f args F hF
      o rest (hargs o (List.mem_cons_self _ _)) (hcallee o (List.mem_cons_self _ _)) s next hs hk
    obtain ⟨s2, next2, h2, hs2, hsp2, hk2, hl2, hh2⟩ := ih
      (fun o ho => hargs o (List.mem_cons_of_mem _ ho))
      (fun o ho => hcallee o (List.mem_cons_of_mem _ ho)) s1 next1 hs1 hk1
    refine ⟨s2, next2, by rw [h1, h2], hs2, ?_, hk2, ?_, ?_⟩
    · rw [hsp2, hsp1, List.flatMap_cons, internAll_append]
    · rw [hl2, hl1, List.any_cons, Bool.or_eq_true, or_assoc]
    · intro SP he y
      have he1 : Ext s1.sp SP := Ext.thenExt (by rw [hsp2]; exact Ext.byIntern _ _) he
      rw [hh2 SP he y, hh1 SP he1 y]
      constructor
      · rintro ((h | h) | ⟨o2, ho2, h⟩)
        · exact Or.inl h
        · exact Or.inr ⟨o, List.mem_cons_self _ _, h⟩
        · exact Or.inr ⟨o2, List.mem_cons_of_mem _ ho2, h⟩
      · rintro (h | ⟨o2, ho2, h⟩)
        · exact Or.inl (Or.inl h)
        · rcases List.mem_cons.1 ho2 with e1 | e1
          · subst e1; exact Or.inl (Or.inr h)
          · exact Or.inr ⟨o2, e1, h⟩

theorem has_New_iff (y : LockSet) : NewLockSetSet.has y ↔ False :=
  ⟨fun h => has_New y h, fun h => h.elim⟩

theorem doInstructions_spec {VS : Type} (env : Env VS) (hrange : ∀ l, (env.range l).Perm l)
    (σ : FuncId → Summary) (Sinv : State → Prop)
    (wf : FuncId → LockSet → State → Except Halt (Option LockSetSet × State))
    (hsp : ∀ s l, Sinv s → Sinv { s with sp := internAll l s.sp })
    (f : FuncId) (b : Nat) (blk : BasicBlock) (hsite : SiteOk env.prog σ Sinv wf f b blk)
    (idx : Nat) (instrs : List Instruction)
    (hsuf : ∀ j instr, instrs[j]? = some instr → blk.Instrs[idx + j]? = some instr)
    (live : Bool) (fr : Frame VS) (hlive : fr.lockSets.M ≠ [] ↔ live = true)
    (hs : Sinv fr.s) (hkF : KeyInv fr.lockSets) (hkE : KeyInv fr.exitLockSets) :
    ∃ fr1, doInstructions env wf f b idx instrs fr = .ok fr1 ∧
      FrameSpec env.prog env.ops σ Sinv f b idx instrs live fr fr1 := by
  induction instrs generalizing idx live fr with
  | nil =>
    refine ⟨fr, rfl, ⟨rfl, rfl, hs, rfl, hkF, hkE, hlive, by simp [retsIn], ?_, ?_⟩⟩
    · intro SP _ y
      simp [Reach]
    · intro SP _ y
      simp [RetIn]
  | cons i rest ih =>
    have hi : blk.Instrs[idx]? = some i := by simpa using hsuf 0 i (by simp)
    have hsuf2 : ∀ j instr, rest[j]? = some instr → blk.Instrs[idx + 1 + j]? = some instr := by
      intro j instr hj
      have := hsuf (j + 1) instr (by simpa using hj)
      rw [show idx + 1 + j = idx + (j + 1) by omega]
      exact this
    obtain ⟨kind, pos⟩ := i
    cases kind with
    | If c =>
      obtain ⟨fr2, h2, p2⟩ := ih (idx + 1) hsuf2 live
        { fr with vs := env.ops.Do fr.vs (b, idx) ⟨.If c, pos⟩, ifCond := some c }
        hlive hs hkF hkE
      exact ⟨fr2, by simp only [doInstructions, doInstruction, h2],
        ⟨p2.vs, p2.cond, p2.sinv, p2.sp, p2.keyF, p2.keyE, p2.liveF, p2.liveE, p2.front,
          p2.exits⟩⟩
    | Phi es =>
      obtain ⟨fr2, h2, p2⟩ := ih (idx + 1) hsuf2 live
        { fr with vs := env.ops.Do fr.vs (b, idx) ⟨.Phi es, pos⟩ } hlive hs hkF hkE
      exact ⟨fr2, by simp only [doInstructions, doInstruction, h2],
        ⟨p2.vs, p2.cond, p2.sinv, p2.sp, p2.keyF, p2.keyE, p2.liveF, p2.liveE, p2.front,
          p2.exits⟩⟩
    | Other rs =>
      obtain ⟨fr2, h2, p2⟩ := ih (idx + 1) hsuf2 live
        { fr with vs := env.ops.Do fr.vs (b, idx) ⟨.Other rs, pos⟩ } hlive hs hkF hkE
      exact ⟨fr2, by simp only [doInstructions, doInstruction, h2],
        ⟨p2.vs, p2.cond, p2.sinv, p2.sp, p2.keyF, p2.keyE, p2.liveF, p2.liveE, p2.front,
          p2.exits⟩⟩
    | Return rs =>
      obtain ⟨fr2, h2, p2⟩ := ih (idx + 1) hsuf2 live
        { fr with vs := env.ops.Do fr.vs (b, idx) ⟨.Return rs, pos⟩,
                  exitLockSets := fr.exitLockSets.Union (some fr.lockSets) } hlive hs hkF
        (keyInv_Union _ _ hkE hkF)
      refine ⟨fr2, by simp only [doInstructions, doInstruction, h2],
        ⟨p2.vs, p2.cond, p2.sinv, p2.sp, p2.keyF, p2.keyE, p2.liveF, ?_, p2.front, ?_⟩⟩
      · rw [p2.liveE]
        simp only [Union_ne_nil, hlive, retsIn, Bool.or_eq_true, or_assoc]
      · intro SP he y
        rw [p2.exits SP he y]
        simp only [has_Union _ _ hkF, RetIn]
        constructor
        · rintro ((h | h) | ⟨x, hx, h⟩)
          · exact Or.inl h
          · exact Or.inr ⟨y, h, Or.inl rfl⟩
          · exact Or.inr ⟨x, hx, Or.inr h⟩
        · rintro (h | ⟨x, hx, h | h⟩)
          · exact Or.inl (Or.inl h)
          · subst h; exact Or.inl (Or.inr hx)
          · exact Or.inr ⟨x, hx, h⟩
    | Call static fn args =>
      have hso := hsite idx static fn args pos hi
      have hargs := fun o ho => (hso o ho).1
      have hcallee := fun o ho => (hso o ho).2
      cases live with
      | false =>
        have hF : env.range fr.lockSets.M = [] := by
          rw [range_nil env hrange]
          by_contra hne
          exact absurd (hlive.1 hne) (by simp)
        have h1 := doOuts_empty env wf f args fr.lockSets hF
          (callOuts env.prog f (b, idx) static) hargs fr.s NewLockSetSet
        obtain ⟨fr2, h2, p2⟩ := ih (idx + 1) hsuf2 false
          { fr with vs := env.ops.Do fr.vs (b, idx) ⟨.Call static fn args, pos⟩,
                    lockSets := NewLockSetSet, s := fr.s } (by simp [NewLockSetSet]) hs
          keyInv_New hkE
        have hno : ∀ x, ¬ fr.lockSets.has x := by
          intro x hx
          have := (has_nonempty _ hkF).2 ⟨x, hx⟩
          exact absurd (hlive.1 this) (by simp)
        refine ⟨fr2, by simp only [doInstructions, doInstruction, h1, h2],
          ⟨p2.vs, p2.cond, p2.sinv, ?_, p2.keyF, p2.keyE, ?_, ?_, ?_, ?_⟩⟩
        · rw [p2.sp]
          simp [labsInstrs]
        · rw [p2.liveF]
          simp [liveEnd]
        · rw [p2.liveE]
          simp [retsIn]
        · intro SP he y
          rw [p2.front SP he y]
          simp [has_New_iff, hno]
        · intro SP he y
          rw [p2.exits SP he y]
          simp [has_New_iff, hno]
      | true =>
        have hF : env.range fr.lockSets.M ≠ [] := by
          rw [Ne, range_nil env hrange]
          exact hlive.2 rfl
        obtain ⟨s1, next1, h1, hs1, hsp1, hk1, hl1, hh1⟩ := doOuts_live env σ Sinv wf hsp f args
          fr.lockSets hF (callOuts env.prog f (b, idx) static) hargs hcallee fr.s NewLockSetSet
          hs keyInv_New
        obtain ⟨fr2, h2, p2⟩ := ih (idx + 1) hsuf2
          ((callOuts env.prog f (b, idx) static).any (outLive env.prog σ))
          { fr with vs := env.ops.Do fr.vs (b, idx) ⟨.Call static fn args, pos⟩,
                    lockSets := next1, s := s1 }
          (by rw [hl1]; simp [NewLockSetSet]) hs1 hk1 hkE
        refine ⟨fr2, by simp only [doInstructions, doInstruction, h1, h2],
          ⟨p2.vs, p2.cond, p2.sinv, ?_, p2.keyF, p2.keyE, ?_, ?_, ?_, ?_⟩⟩
        · rw [p2.sp]
          simp only [hsp1, labsInstrs, if_true, Bool.true_and, internAll_append]
        · rw [p2.liveF]
          simp [liveEnd]
        · rw [p2.liveE]
          simp [retsIn]
        · intro SP he y
          have he1 : Ext s1.sp SP := Ext.thenExt (by rw [p2.sp]; exact Ext.byIntern _ _) he
          rw [p2.front SP he y]
          simp only [hh1 SP he1, has_New_iff, false_or, Reach]
          constructor
          · rintro ⟨z, ⟨o, ho, e, he2, hst⟩, hr⟩
            exact ⟨e.2, has_of_mem _ hkF e ((hrange _).mem_iff.1 he2), o, ho, z, hst, hr⟩
          · rintro ⟨x, hx, o, ho, z, hst, hr⟩
            exact ⟨z, ⟨o, ho, (x.Key, x), (hrange _).mem_iff.2 hx, hst⟩, hr⟩
        · intro SP he y
          have he1 : Ext s1.sp SP := Ext.thenExt (by rw [p2.sp]; exact Ext.byIntern _ _) he
          rw [p2.exits SP he y]
          simp only [hh1 SP he1, has_New_iff, false_or, RetIn]
          constructor
          · rintro (h | ⟨z, ⟨o, ho, e, he2, hst⟩, hr⟩)
            · exact Or.inl h
            · exact Or.inr
                ⟨e.2, has_of_mem _ hkF e ((hrange _).mem_iff.1 he2), o, ho, z, hst, hr⟩
          · rintro (h | ⟨x, hx, o, ho, z, hst, hr⟩)
            · exact Or.inl h
            · exact Or.inr ⟨z, ⟨o, ho, (x.Key, x), (hrange _).mem_iff.2 hx, hst⟩, hr⟩

theorem DoneAt.keptDone {VS : Type} {p : Prog} {ops : ValStateOps VS} {σ : FuncId → Summary}
    {dep : Nat → Nat} {f : FuncId} {w w1 : Walk VS} {c : Nat} {k : LockSetKey}
    (h : DoneAt p ops σ dep f w c k) (hsp : Ext w.s.sp w1.s.sp)
    (hne : w.exitLockSets.M ≠ [] → w1.exitLockSets.M ≠ [])
    (hhas : ∀ y, w.exitLockSets.has y → w1.exitLockSets.has y) :
    DoneAt p ops σ dep f w1 c k := by
  intro x vs hx hv
  obtain ⟨h1, h2, h3⟩ := h x vs hx hv
  exact ⟨h1.wider hsp, fun hr => hne (h2 hr),
    fun SP he y hy => hhas y (h3 SP (Ext.thenExt hsp he) y hy)⟩

theorem Adds.spExt {VS : Type} {p : Prog} {ops : ValStateOps VS} {σ : FuncId → Summary}
    {Sinv : State → Prop} {dep : Nat → Nat} {f : FuncId} {w w1 : Walk VS}
    {labels : List String} {ret : Bool} {E : StringSpace → LockSet → Prop}
    (h : Adds p ops σ Sinv dep f w w1 labels ret E) : Ext w.s.sp w1.s.sp :=
  ⟨labels, h.sp⟩

theorem Adds.grows {VS : Type} {p : Prog} {ops : ValStateOps VS} {σ : FuncId → Summary}
    {Sinv : State → Prop} {dep : Nat → Nat} {f : FuncId} {w w1 : Walk VS}
    {labels : List String} {ret : Bool} {E : StringSpace → LockSet → Prop}
    (h : Adds p ops σ Sinv dep f w w1 labels ret E) (y : LockSet)
    (hy : w.exitLockSets.has y) : w1.exitLockSets.has y :=
  (h.has w1.s.sp (Ext.itself _) y).2 (Or.inl hy)

theorem Adds.keepsDone {VS : Type} {p : Prog} {ops : ValStateOps VS} {σ : FuncId → Summary}
    {Sinv : State → Prop} {dep : Nat → Nat} {f : FuncId} {w w1 : Walk VS}
    {labels : List String} {ret : Bool} {E : StringSpace → LockSet → Prop}
    (h : Adds p ops σ Sinv dep f w w1 labels ret E) {c : Nat} {k : LockSetKey}
    (hd : DoneAt p ops σ dep f w c k) : DoneAt p ops σ dep f w1 c k :=
  hd.keptDone h.spExt (fun hne => h.live.2 (Or.inl hne)) h.grows

theorem Adds.keepsInv {VS : Type} {p : Prog} {ops : ValStateOps VS} {σ : FuncId → Summary}
    {Sinv : State → Prop} {dep : Nat → Nat} {f : FuncId} {w w1 : Walk VS}
    {labels : List String} {ret : Bool} {E : StringSpace → LockSet → Prop}
    (h : Adds p ops σ Sinv dep f w w1 labels ret E) (D : Nat)
    (hinv : ∀ c k, Ran k w.blockCache c → dep c < D → DoneAt p ops σ dep f w c k) :
    ∀ c k, Ran k w1.blockCache c → dep c < D → DoneAt p ops σ dep f w1 c k := by
  intro c k hr hd
  by_cases h0 : Ran k w.blockCache c
  · exact h.keepsDone (hinv c k h0 hd)
  · exact h.fresh c k hr h0

theorem Adds.nothing {VS : Type} (p : Prog) (ops : ValStateOps VS) (σ : FuncId → Summary)
    (Sinv : State → Prop) (dep : Nat → Nat) (f : FuncId) (w : Walk VS) (hs : Sinv w.s)
    (hk : KeyInv w.exitLockSets) :
    Adds p ops σ Sinv dep f w w [] false (fun _ _ => False) :=
  ⟨hs, hk, rfl, by simp, fun _ _ _ => by simp, fun _ _ h => h, fun _ _ h h0 => absurd h h0⟩

theorem Adds.thenAdds {VS : Type} {p : Prog} {ops : ValStateOps VS} {σ : FuncId → Summary}
    {Sinv : State → Prop} {dep : Nat → Nat} {f : FuncId} {w w1 w2 : Walk VS}
    {l1 l2 : List String} {r1 r2 : Bool} {E1 E2 : StringSpace → LockSet → Prop}
    (h1 : Adds p ops σ Sinv dep f w w1 l1 r1 E1) (h2 : Adds p ops σ Sinv dep f w1 w2 l2 r2 E2) :
    Adds p ops σ Sinv dep f w w2 (l1 ++ l2) (r1 || r2) (fun SP y => E1 SP y ∨ E2 SP y) := by
  refine ⟨h2.sinv, h2.key, ?_, ?_, ?_, fun c k h => h2.ran c k (h1.ran c k h), ?_⟩
  · rw [h2.sp, h1.sp, internAll_append]
  · rw [h2.live, h1.live, Bool.or_eq_true, or_assoc]
  · intro SP he y
    rw [h2.has SP he y, h1.has SP (Ext.thenExt h2.spExt he) y, or_assoc]
  · intro c k hr h0
    by_cases hc1 : Ran k w1.blockCache c
    · exact h2.keepsDone (h1.fresh c k hc1 h0)
    · exact h2.fresh c k hr hc1

theorem Adds.restate {VS : Type} {p : Prog} {ops : ValStateOps VS} {σ : FuncId → Summary}
    {Sinv : State → Prop} {dep : Nat → Nat} {f : FuncId} {w w1 : Walk VS}
    {l1 l2 : List String} {r1 r2 : Bool} {E1 E2 : StringSpace → LockSet → Prop}
    (h : Adds p ops σ Sinv dep f w w1 l1 r1 E1)
    (hl : internAll l1 w.s.sp = internAll l2 w.s.sp) (hr : r1 = r2)
    (hE : ∀ SP, Ext w1.s.sp SP → ∀ y,
      (w.exitLockSets.has y ∨ E1 SP y ↔ w.exitLockSets.has y ∨ E2 SP y)) :
    Adds p ops σ Sinv dep f w w1 l2 r2 E2 := by
  refine ⟨h.sinv, h.key, by rw [h.sp, hl], by rw [h.live, hr], ?_, h.ran, h.fresh⟩
  intro SP he y
  rw [h.has SP he y, hE SP he y]

theorem walkSuccs_ord {VS : Type} {env : Env VS} {σ : FuncId → Summary} {Sinv : State → Prop}
    {wf} {dep : Nat → Nat} {f : FuncId} {EB : Nat} (h : OrdWalk env σ Sinv wf dep f EB)
    (rec : Nat → VS → LockSet → Walk VS → Except Halt (Walk VS))
    (b : Nat) (blk : BasicBlock) (hb : (env.prog.funcs f).Blocks[b]? = some blk) (vs : VS)
    (hrec : OrdRec env σ Sinv dep f (dep b) rec) (x : LockSet) (i : Nat) (succs : List Nat)
    (hsub : ∀ b2 ∈ succs, b2 ∈ blk.Succs)
    (henter : ∀ j b2 vs2, succs[j]? = some b2 →
      handed env.ops (env.prog.funcs f) b blk vs (i + j) b2 = .ok vs2 →
      Enters env.prog env.ops f b2 vs2)
    (w : Walk VS) (hs : Sinv w.s) (hk : KeyInv w.exitLockSets)
    (hinv : ∀ c k, Ran k w.blockCache c → dep c < dep b →
      DoneAt env.prog env.ops σ dep f w c k) :
    ∃ w1, walkSuccs env.ops (env.prog.funcs f) rec b (runDo env.ops b 0 blk.Instrs vs)
        (condAfter blk.Instrs none) x i succs w = .ok w1 ∧
      Adds env.prog env.ops σ Sinv dep f w w1
        (labsSuccs env.ops (env.prog.funcs f) b blk vs
          (fun b2 vs2 => if dep b2 < dep b then labsBlk env.prog env.ops σ dep f b2 vs2 else [])
          i succs)
        (retSuccs env.ops (env.prog.funcs f) b blk vs
          (fun b2 vs2 => if dep b2 < dep b then retBlk env.prog env.ops σ dep f b2 vs2 else false)
          i succs)
        (fun SP y => ∃ j b2 vs2, succs[j]? = some b2 ∧
          handed env.ops (env.prog.funcs f) b blk vs (i + j) b2 = .ok vs2 ∧
          Exit env.prog env.ops σ SP f b2 vs2 x y) := by
  induction succs generalizing i w with
  | nil =>
    refine ⟨w, rfl, (Adds.nothing _ _ _ _ _ _ w hs hk).restate rfl rfl ?_⟩
    intro SP _ y
    simp
  | cons b2 rest ih =>
    have hmem : blk ∈ (env.prog.funcs f).Blocks := List.getElem?_mem hb
    have hb2s : b2 ∈ blk.Succs := hsub b2 (List.mem_cons_self _ _)
    have hb2 : b2 < (env.prog.funcs f).Blocks.length := (h.wellFormed blk hmem).1 b2 hb2s
    have hdep : dep b2 < dep b := h.acyclic b blk hb b2 hb2s
    obtain ⟨vs2, hvs2⟩ := succState_ok env.ops (env.prog.funcs f) h.wellFormed b
      (runDo env.ops b 0 blk.Instrs vs) (condAfter blk.Instrs none) i b2 hb2
    have hhand : handed env.ops (env.prog.funcs f) b blk vs i b2 = .ok vs2 := hvs2
    have ha : Enters env.prog env.ops f b2 vs2 := henter 0 b2 vs2 (by simp) (by simpa using hhand)
    obtain ⟨w1, h1, p1⟩ := hrec b2 vs2 x w hb2 hdep ha hs hk hinv
    obtain ⟨w2, h2, p2⟩ := ih (i + 1)
      (fun c hc => hsub c (List.mem_cons_of_mem _ hc))
      (fun j c vsc hj hc => henter (j + 1) c vsc (by simpa using hj) (by
        rw [show i + (j + 1) = i + 1 + j by omega]; exact hc))
      w1 p1.sinv p1.key (p1.keepsInv (dep b) hinv)
    refine ⟨w2, by simp only [walkSuccs, hvs2, h1, h2], (p1.thenAdds p2).restate ?_ ?_ ?_⟩
    · simp only [labsSuccs, hhand, if_pos hdep]
    · simp only [retSuccs, hhand, if_pos hdep]
    · intro SP _ y
      apply or_congr_right
      constructor
      · rintro (hx | ⟨j, c, vsc, hj, hc, hx⟩)
        · exact ⟨0, b2, vs2, by simp, by simpa using hhand, hx⟩
        · exact ⟨j + 1, c, vsc, by simpa using hj, by
            rw [show i + (j + 1) = i + 1 + j by omega]; exact hc, hx⟩
      · rintro ⟨j, c, vsc, hj, hc, hx⟩
        cases j with
        | zero =>
          simp only [List.getElem?_cons_zero, Option.some.injEq] at hj
          subst hj
          simp only [Nat.add_zero] at hc
          rw [hhand] at hc
          cases hc
          exact Or.inl hx
        | succ j =>
          exact Or.inr ⟨j, c, vsc, by simpa using hj, by
            rw [show i + 1 + j = i + (j + 1) by omega]; exact hc, hx⟩

theorem walkFrontier_ord {VS : Type} {env : Env VS} {σ : FuncId → Summary}
    {Sinv : State → Prop} {wf} {dep : Nat → Nat} {f : FuncId} {EB : Nat}
    (h : OrdWalk env σ Sinv wf dep f EB)
    (rec : Nat → VS → LockSet → Walk VS → Except Halt (Walk VS))
    (b : Nat) (blk : BasicBlock) (hb : (env.prog.funcs f).Blocks[b]? = some blk) (vs : VS)
    (hrec : OrdRec env σ Sinv dep f (dep b) rec) (succs : List Nat)
    (hsub : ∀ b2 ∈ succs, b2 ∈ blk.Succs)
    (henter : ∀ j b2 vs2, succs[j]? = some b2 →
      handed env.ops (env.prog.funcs f) b blk vs j b2 = .ok vs2 →
      Enters env.prog env.ops f b2 vs2)
    (l : List (LockSetKey × LockSet))
    (w : Walk VS) (hs : Sinv w.s) (hk : KeyInv w.exitLockSets)
    (hinv : ∀ c k, Ran k w.blockCache c → dep c < dep b →
      DoneAt env.prog env.ops σ dep f w c k) :
    ∃ w1, walkFrontier env.ops (env.prog.funcs f) rec b (runDo env.ops b 0 blk.Instrs vs)
        (condAfter blk.Instrs none) succs l w = .ok w1 ∧
      Adds env.prog env.ops σ Sinv dep f w w1
        (if l = [] then [] else labsSuccs env.ops (env.prog.funcs f) b blk vs
          (fun b2 vs2 => if dep b2 < dep b then labsBlk env.prog env.ops σ dep f b2 vs2 else [])
          0 succs)
        (!l.isEmpty && retSuccs env.ops (env.prog.funcs f) b blk vs
          (fun b2 vs2 => if dep b2 < dep b then retBlk env.prog env.ops σ dep f b2 vs2 else false)
          0 succs)
        (fun SP y => ∃ e ∈ l, ∃ j b2 vs2, succs[j]? = some b2 ∧
          handed env.ops (env.prog.funcs f) b blk vs j b2 = .ok vs2 ∧
          Exit env.prog env.ops σ SP f b2 vs2 e.2 y) := by
  induction l generalizing w with
  | nil =>
    refine ⟨w, rfl, (Adds.nothing _ _ _ _ _ _ w hs hk).restate rfl rfl ?_⟩
    intro SP _ y
    simp
  | cons e rest ih =>
    obtain ⟨k, x⟩ := e
    obtain ⟨w1, h1, p1⟩ := walkSuccs_ord h rec b blk hb vs hrec x 0 succs hsub
      (fun j b2 vs2 hj hc => henter j b2 vs2 hj (by simpa using hc)) w hs hk hinv
    obtain ⟨w2, h2, p2⟩ := ih w1 p1.sinv p1.key (p1.keepsInv (dep b) hinv)
    refine ⟨w2, by simp only [walkFrontier, h1, h2], (p1.thenAdds p2).restate ?_ ?_ ?_⟩
    · simp only [internAll_append, reduceCtorEq, if_false]
      split_ifs
      · rfl
      · exact internAll_idem _ _
    · cases rest <;> simp
    · intro SP _ y
      apply or_congr_right
      constructor
      · rintro (⟨j, c, vsc, hj, hc, hx⟩ | ⟨e, he, j, c, vsc, hj, hc, hx⟩)
        · exact ⟨(k, x), List.mem_cons_self _ _, j, c, vsc, hj, by simpa using hc, hx⟩
        · exact ⟨e, List.mem_cons_of_mem _ he, j, c, vsc, hj, hc, hx⟩
      · rintro ⟨e, he, j, c, vsc, hj, hc, hx⟩
        rcases List.mem_cons.1 he with e1 | e1
        · subst e1
          exact Or.inl ⟨j, c, vsc, hj, by simpa using hc, hx⟩
        · exact Or.inr ⟨e, e1, j, c, vsc, hj, hc, hx⟩

theorem Exit_iff {VS : Type} (p : Prog) (ops : ValStateOps VS) (σ : FuncId → Summary)
    (SP : StringSpace) (f : FuncId) (b : Nat) (blk : BasicBlock)
    (hb : (p.funcs f).Blocks[b]? = some blk) (vs : VS) (succs : List Nat)
    (hf : followed ops b blk vs = .ok succs) (x y : LockSet) :
    Exit p ops σ SP f b vs x y ↔
      RetIn p σ SP f b 0 blk.Instrs x y ∨
      ∃ z, Reach p σ SP f b 0 blk.Instrs x z ∧ ∃ j b2 vs2, succs[j]? = some b2 ∧
        handed ops (p.funcs f) b blk vs j b2 = .ok vs2 ∧ Exit p ops σ SP f b2 vs2 z y := by
  constructor
  · intro hx
    cases hx with
    | ret _ blk2 _ _ _ hb2 hr =>
      rw [hb] at hb2
      cases hb2
      exact Or.inl hr
    | succ _ blk2 _ _ z _ succs2 i b2 vs2 hb2 hr hf2 hi hh he =>
      rw [hb] at hb2
      cases hb2
      rw [hf] at hf2
      cases hf2
      exact Or.inr ⟨z, hr, i, b2, vs2, hi, hh, he⟩
  · rintro (hr | ⟨z, hr, i, b2, vs2, hi, hh, he⟩)
    · exact Exit.ret b blk vs x y hb hr
    · exact Exit.succ b blk vs x z y succs i b2 vs2 hb hr hf hi hh he

theorem Ran.keptAt {VS : Type} (cache : List ((Nat × LockSetKey) × List VS))
    (b : Nat) (key : LockSetKey) (vs : VS) (c : Nat) (k : LockSetKey) (h : Ran k cache c) :
    Ran k (mapSet cache (b, key) ((mapGet cache (b, key)).getD [] ++ [vs])) c := by
  by_cases hc : (b, key) = (c, k)
  · cases hc
    simp [Ran, mapGet_mapSet_self]
  · simpa [Ran, mapGet_mapSet_of_ne _ _ _ _ hc] using h

theorem Ran.otherKey {VS : Type} (cache : List ((Nat × LockSetKey) × List VS))
    (b : Nat) (key : LockSetKey) (l : List VS) (c : Nat) (k : LockSetKey)
    (hne : (b, key) ≠ (c, k)) :
    Ran k (mapSet cache (b, key) l) c ↔ Ran k cache c := by
  simp [Ran, mapGet_mapSet_of_ne _ _ _ _ hne]

theorem has_single (x y : LockSet) : (NewLockSetSet.Add x).has y ↔ y = x := by
  rw [has_Add]
  simp [has_New_iff]

theorem walkBlock_ord {VS : Type} {env : Env VS} {σ : FuncId → Summary} {Sinv : State → Prop}
    {wf} {dep : Nat → Nat} {f : FuncId} {EB : Nat} (h : OrdWalk env σ Sinv wf dep f EB)
    (fuel : Nat) :
    ∀ b vs x (w : Walk VS), b < (env.prog.funcs f).Blocks.length → dep b + EB < fuel →
      Enters env.prog env.ops f b vs → Sinv w.s → KeyInv w.exitLockSets →
      (∀ c k, Ran k w.blockCache c → dep c ≤ dep b → DoneAt env.prog env.ops σ dep f w c k) →
      ∃ w1, walkBlock env wf f fuel b vs x w = .ok w1 ∧
        Adds env.prog env.ops σ Sinv dep f w w1 (labsBlk env.prog env.ops σ dep f b vs)
          (retBlk env.prog env.ops σ dep f b vs)
          (fun SP y => Exit env.prog env.ops σ SP f b vs x y) := by
  induction fuel with
  | zero => intro b vs x w _ hlt; omega
  | succ n ih =>
    intro b vs x w hb hfuel ha hs hk hinv
    obtain ⟨fi, hfi, hdeps⟩ := h.record w.s hs
    have hblk : (env.prog.funcs f).Blocks[b]? = some ((env.prog.funcs f).Blocks[b]) :=
      List.getElem?_eq_getElem hb
    obtain ⟨blk, hblkE⟩ : ∃ blk, blk = (env.prog.funcs f).Blocks[b] := ⟨_, rfl⟩
    rw [← hblkE] at hblk
    obtain ⟨stop, hstop, _⟩ := cacheStop_ok env.ops w.s f b vs
      ((mapGet w.blockCache (b, x.Key)).getD []) fi hfi (by rw [hdeps]; exact hb)
    cases stop with
    | true =>
      have hran : Ran x.Key w.blockCache b := cacheStop_true _ _ _ _ _ _ hstop
      obtain ⟨d1, d2, d3⟩ := hinv b x.Key hran (le_refl _) x vs rfl ha
      refine ⟨w, by simp only [walkBlock, walkBlockBody, hblk, hstop],
        ⟨hs, hk, (internAll_interned _ _ d1).symm, ?_, ?_, fun _ _ hr => hr,
          fun _ _ hr h0 => absurd hr h0⟩⟩
      · constructor
        · exact fun hne => Or.inl hne
        · rintro (hne | hr)
          · exact hne
          · exact d2 hr
      · intro SP he y
        constructor
        · exact fun hy => Or.inl hy
        · rintro (hy | hy)
          · exact hy
          · exact d3 SP he y hy
    | false =>
      simp only [walkBlock, walkBlockBody, hblk, hstop, walkBlockRun]
      obtain ⟨fr, hfr, p⟩ := doInstructions_spec env h.range_ok σ Sinv wf h.stable f b blk
        (h.sites b blk hblk) 0 blk.Instrs (fun j instr hj => by simpa using hj) true
        { vs := vs, lockSets := NewLockSetSet.Add x, ifCond := none, s := w.s,
          exitLockSets := w.exitLockSets }
        (by simp [Add_ne_nil]) hs (keyInv_Add _ _ keyInv_New) hk
      simp only [hfr]
      have hmem : blk ∈ (env.prog.funcs f).Blocks := List.getElem?_mem hblk
      obtain ⟨hsuccs, _, hif⟩ := h.wellFormed _ hmem
      have hvs : fr.vs = runDo env.ops b 0 blk.Instrs vs := p.vs
      have hcond : fr.ifCond = condAfter blk.Instrs none := p.cond
      have hlog : ∃ q, logPos (exitPos (env.prog.funcs f) n) b
          (resolveCond env.ops fr.vs fr.ifCond) = .ok q := by
        cases resolveCond env.ops fr.vs fr.ifCond with
        | none => exact ⟨0, rfl⟩
        | some d =>
          obtain ⟨q, hq⟩ := h.pos b hb
          exact ⟨q, exitPos_mono_le _ EB n b q (by omega) hq⟩
      obtain ⟨q, hq⟩ := hlog
      simp only [hq]
      obtain ⟨succs, hpr, hsub⟩ := pruneSuccs_ok blk.Succs
        (resolveCond env.ops fr.vs fr.ifCond) (by
          intro hx
          apply hif
          cases hc : fr.ifCond with
          | none => exact absurd (by simp only [resolveCond, hc]) hx
          | some c =>
            rw [hcond] at hc
            rcases condAfter_some _ _ _ hc with e | e
            · cases e
            · exact e)
      simp only [hpr]
      rw [hvs, hcond] at hpr
      have hfol : followed env.ops b blk vs = .ok succs := hpr
      rw [hvs, hcond]
      -- the walk after the instructions of the block
      obtain ⟨w0, hw0⟩ : ∃ w0 : Walk VS, w0 = ⟨fr.s,
          mapSet w.blockCache (b, x.Key) ((mapGet w.blockCache (b, x.Key)).getD [] ++ [vs]),
          fr.exitLockSets⟩ := ⟨_, rfl⟩
      rw [← hw0]
      have hext0 : Ext w.s.sp w0.s.sp := by
        rw [hw0]
        exact ⟨_, p.sp⟩
      have hgrow0 : ∀ y, w.exitLockSets.has y → w0.exitLockSets.has y := by
        intro y hy
        rw [hw0]
        exact (p.exits fr.s.sp (Ext.itself _) y).2 (Or.inl hy)
      have hne0 : w.exitLockSets.M ≠ [] → w0.exitLockSets.M ≠ [] := by
        intro hne
        rw [hw0]
        exact p.liveE.2 (Or.inl hne)
      have hinv0 : ∀ c k, Ran k w0.blockCache c → dep c < dep b →
          DoneAt env.prog env.ops σ dep f w0 c k := by
        intro c k hr hd
        have hne : (b, x.Key) ≠ (c, k) := by
          intro e
          cases e
          omega
        rw [hw0] at hr
        simp only at hr
        rw [Ran.otherKey _ _ _ _ _ _ hne] at hr
        exact (hinv c k hr (le_of_lt hd)).keptDone hext0 hne0 hgrow0
      have hrec : OrdRec env σ Sinv dep f (dep b) (walkBlock env wf f n) := by
        intro b2 vs2 x2 w2 hb2 hd2 ha2 hs2 hk2 hinv2
        exact ih b2 vs2 x2 w2 hb2 (by omega) ha2 hs2 hk2
          (fun c k hr hd => hinv2 c k hr (by omega))
      obtain ⟨w1, h1, p1⟩ := walkFrontier_ord h (walkBlock env wf f n) b blk hblk vs hrec succs
        hsub (fun j b2 vs2 hj hc => Enters.step b blk vs succs j b2 vs2 ha hblk hfol hj hc)
        (env.range fr.lockSets.M) w0 (by rw [hw0]; exact p.sinv) (by rw [hw0]; exact p.keyE)
        hinv0
      have hnil : env.range fr.lockSets.M = [] ↔
          liveEnd env.prog σ f b 0 blk.Instrs true = false := by
        rw [range_nil env h.range_ok, ← Bool.not_eq_true, ← p.liveF]
        simp
      have hsp : w1.s.sp = internAll (labsBlk env.prog env.ops σ dep f b vs) w.s.sp := by
        rw [p1.sp, labsBlk_eq _ _ _ _ _ _ _ blk hblk, internAll_append, hfol]
        have : w0.s.sp = internAll (labsInstrs env.prog σ f b 0 blk.Instrs true) w.s.sp := by
          rw [hw0]; exact p.sp
        rw [this]
        cases hl : liveEnd env.prog σ f b 0 blk.Instrs true with
        | false => simp [hnil.2 hl]
        | true =>
          have hne : ¬ env.range fr.lockSets.M = [] := fun e => by
            rw [hnil.1 e] at hl; cases hl
          simp [hne]
      have hlive : w1.exitLockSets.M ≠ [] ↔
          w.exitLockSets.M ≠ [] ∨ retBlk env.prog env.ops σ dep f b vs = true := by
        rw [p1.live, retBlk_eq _ _ _ _ _ _ _ blk hblk, hfol]
        have : w0.exitLockSets.M ≠ [] ↔ w.exitLockSets.M ≠ [] ∨
            retsIn env.prog σ f b 0 blk.Instrs true = true := by
          rw [hw0]; exact p.liveE
        rw [this]
        cases hl : liveEnd env.prog σ f b 0 blk.Instrs true with
        | false => simp [hnil.2 hl]
        | true =>
          have hne : ¬ env.range fr.lockSets.M = [] := fun e => by
            rw [hnil.1 e] at hl; cases hl
          have hemp : (env.range fr.lockSets.M).isEmpty = false := by
            cases hr : env.range fr.lockSets.M with
            | nil => exact absurd hr hne
            | cons a l => rfl
          simp [hemp, or_assoc]
      have hhas : ∀ SP, Ext w1.s.sp SP → ∀ y, w1.exitLockSets.has y ↔
          w.exitLockSets.has y ∨ Exit env.prog env.ops σ SP f b vs x y := by
        intro SP he y
        have he0 : Ext fr.s.sp SP := by
          have : Ext w0.s.sp SP := Ext.thenExt p1.spExt he
          rw [hw0] at this
          exact this
        rw [p1.has SP he y, Exit_iff _ _ _ _ _ _ blk hblk vs succs hfol]
        have : w0.exitLockSets.has y ↔ w.exitLockSets.has y ∨
            ∃ x0, (NewLockSetSet.Add x).has x0 ∧ RetIn env.prog σ SP f b 0 blk.Instrs x0 y := by
          rw [hw0]; exact p.exits SP he0 y
        rw [this, or_assoc]
        apply or_congr_right
        apply or_congr
        · simp [has_single]
        · rw [range_has env h.range_ok fr.lockSets p.keyF
            (fun z => ∃ j b2 vs2, succs[j]? = some b2 ∧
              handed env.ops (env.prog.funcs f) b blk vs j b2 = .ok vs2 ∧
              Exit env.prog env.ops σ SP f b2 vs2 z y)]
          apply exists_congr
          intro z
          apply and_congr_left
          intro _
          rw [p.front SP he0 z]
          simp [has_single]
      refine ⟨w1, h1, ⟨p1.sinv, p1.key, hsp, hlive, hhas, ?_, ?_⟩⟩
      · intro c k hr
        apply p1.ran
        rw [hw0]
        exact Ran.keptAt _ _ _ _ _ _ hr
      · intro c k hr h0
        by_cases hck : (b, x.Key) = (c, k)
        · cases hck
          intro x2 vs2 hx2 ha2
          have hxe : x2 = x := Key_injective _ _ hx2
          have hve : vs2 = vs := h.unique b vs2 vs ha2 ha
          subst hxe
          subst hve
          refine ⟨?_, fun hr2 => hlive.2 (Or.inr hr2), fun SP he y hy => (hhas SP he y).2 (Or.inr hy)⟩
          rw [hsp]
          exact interned_internAll _ _
        · apply p1.fresh c k hr
          rw [hw0]
          simp only
          rw [Ran.otherKey _ _ _ _ _ _ hck]
          exact h0

theorem GoodRes.inExt {S : Summary} {sp sp1 : StringSpace} {x : LockSet} {r : LockSetSet}
    (h : GoodRes S sp x r) (he : Ext sp sp1) : GoodRes S sp1 x r :=
  ⟨h.key, h.live, fun SP he1 y => h.has SP (Ext.thenExt he he1) y⟩

theorem AllGood.carried {VS : Type} {p : Prog} {ops : ValStateOps VS} {rank : FuncId → Nat}
    {dep : FuncId → Nat → Nat} {s s1 : State} (h : AllGood p ops rank dep s)
    (hm : ∀ g k r, memoOf s1 g k = some (some r) → memoOf s g k = some (some r))
    (he : Ext s.sp s1.sp) : AllGood p ops rank dep s1 := by
  intro g k r hr x hx
  obtain ⟨h1, h2⟩ := h g k r (hm g k r hr) x hx
  exact ⟨h1.wider he, h2.inExt he⟩

theorem InOrdWalk.interning {VS : Type} {p : Prog} {ops : ValStateOps VS} {rank : FuncId → Nat}
    {dep : FuncId → Nat → Nat} {S s : State} (h : InOrdWalk p ops rank dep S s)
    (l : List String) : InOrdWalk p ops rank dep S { s with sp := internAll l s.sp } := by
  obtain ⟨h1, h2, h3, h4⟩ := h
  exact ⟨h1.carried (fun _ _ _ hr => hr) (Ext.byIntern l s.sp), h2, h3, h4⟩

theorem InOrdWalk.atStart {VS : Type} {p : Prog} {ops : ValStateOps VS} {rank : FuncId → Nat}
    {dep : FuncId → Nat → Nat} {s : State} (h1 : AllGood p ops rank dep s) (h2 : RecsOk p s) :
    InOrdWalk p ops rank dep s s :=
  ⟨h1, h2, fun _ _ h => h, fun _ fi h => ⟨fi, h⟩⟩

theorem InOrdWalk.followedBy {VS : Type} {p : Prog} {ops : ValStateOps VS} {rank : FuncId → Nat}
    {dep : FuncId → Nat → Nat} {S s s1 : State} (h : InOrdWalk p ops rank dep S s)
    (h1 : InOrdWalk p ops rank dep s s1) : InOrdWalk p ops rank dep S s1 := by
  obtain ⟨_, _, a3, a4⟩ := h
  obtain ⟨b1, b2, b3, b4⟩ := h1
  refine ⟨b1, b2, fun g k hh => a3 g k (b3 g k hh), ?_⟩
  intro g fi hfi
  obtain ⟨fi1, hfi1⟩ := a4 g fi hfi
  exact b4 g fi1 hfi1

theorem setMemo_sp (s : State) (f : FuncId) (key : LockSetKey) (v : Option LockSetSet) :
    (setMemo s f key v).sp = s.sp := by
  unfold setMemo
  cases mapGet s.fns f <;> rfl

theorem setMemo_has (s : State) (f : FuncId) (key : LockSetKey) (v : Option LockSetSet)
    (g : FuncId) (fi : funcInfo) (h : mapGet s.fns g = some fi) :
    ∃ fi1, mapGet (setMemo s f key v).fns g = some fi1 := by
  unfold setMemo
  cases hf : mapGet s.fns f with
  | none => exact ⟨fi, h⟩
  | some fi0 =>
    by_cases hg : f = g
    · subst hg
      exact ⟨_, mapGet_mapSet_self _ _ _⟩
    · exact ⟨fi, by simpa [mapGet_mapSet_of_ne _ _ _ _ hg] using h⟩

theorem setMemo_deps (s : State) (f : FuncId) (key : LockSetKey) (v : Option LockSetSet)
    (g : FuncId) (fi1 : funcInfo) (h : mapGet (setMemo s f key v).fns g = some fi1) :
    ∃ fi, mapGet s.fns g = some fi ∧ fi1.ifDeps = fi.ifDeps := by
  unfold setMemo at h
  cases hf : mapGet s.fns f with
  | none =>
    simp only [hf] at h
    exact ⟨fi1, h, rfl⟩
  | some fi0 =>
    simp only [hf] at h
    by_cases hg : f = g
    · subst hg
      rw [mapGet_mapSet_self] at h
      cases h
      exact ⟨fi0, hf, rfl⟩
    · rw [mapGet_mapSet_of_ne _ _ _ _ hg] at h
      exact ⟨fi1, h, rfl⟩

theorem RecsOk.afterMemo {p : Prog} {s : State} (h : RecsOk p s) (f : FuncId)
    (key : LockSetKey) (v : Option LockSetSet) : RecsOk p (setMemo s f key v) := by
  intro g fi1 h1
  obtain ⟨fi, hfi, hd⟩ := setMemo_deps s f key v g fi1 h1
  rw [hd]
  exact h g fi hfi

theorem bound_mem {α : Type} (l : List α) (Q : α → Nat → Prop)
    (hmono : ∀ a n m, n ≤ m → Q a n → Q a m) (h : ∀ a ∈ l, ∃ N, Q a N) :
    ∃ N, ∀ a ∈ l, Q a N := by
  induction l with
  | nil => exact ⟨0, fun a ha => by cases ha⟩
  | cons a rest ih =>
    obtain ⟨N1, h1⟩ := ih (fun c hc => h c (List.mem_cons_of_mem _ hc))
    obtain ⟨N2, h2⟩ := h a (List.mem_cons_self _ _)
    refine ⟨max N1 N2, ?_⟩
    intro c hc
    rcases List.mem_cons.1 hc with e | e
    · subst e
      exact hmono _ _ _ (le_max_right _ _) h2
    · exact hmono _ _ _ (le_max_left _ _) (h1 c e)

theorem bound_lt (n : Nat) (Q : Nat → Nat → Prop)
    (hmono : ∀ a n m, n ≤ m → Q a n → Q a m) (h : ∀ i, i < n → ∃ N, Q i N) :
    ∃ N, ∀ i, i < n → Q i N := by
  obtain ⟨N, hN⟩ := bound_mem (List.range n) Q hmono (fun i hi => h i (List.mem_range.1 hi))
  exact ⟨N, fun i hi => hN i (List.mem_range.2 hi)⟩

theorem callees_bound (p : Prog) (g : FuncId) (Q : FuncId → Nat → Prop)
    (hmono : ∀ a n m, n ≤ m → Q a n → Q a m)
    (h : ∀ b idx o, CalleeAt p g b idx o → ∃ N, Q o N) :
    ∃ N, ∀ b idx o, CalleeAt p g b idx o → Q o N := by
  obtain ⟨N, hN⟩ := bound_lt (p.funcs g).Blocks.length
    (fun b N => ∀ idx o, CalleeAt p g b idx o → Q o N)
    (fun b n m hnm hq idx o hc => hmono o n m hnm (hq idx o hc))
    (by
      intro b hb
      obtain ⟨N, hN⟩ := bound_lt ((p.funcs g).Blocks[b]).Instrs.length
        (fun idx N => ∀ o, CalleeAt p g b idx o → Q o N)
        (fun idx n m hnm hq o hc => hmono o n m hnm (hq o hc))
        (by
          intro idx hidx
          cases hinstr : ((p.funcs g).Blocks[b]).Instrs[idx] with
          | mk kind ps =>
            have hget : ((p.funcs g).Blocks[b]).Instrs[idx]? = some ⟨kind, ps⟩ := by
              rw [List.getElem?_eq_getElem hidx, hinstr]
            cases kind with
            | Call static fn args =>
              obtain ⟨N, hN⟩ := bound_mem (callOuts p g (b, idx) static)
                (fun o N => CalleeAt p g b idx o → Q o N)
                (fun o n m hnm hq hc => hmono o n m hnm (hq hc))
                (by
                  intro o _
                  by_cases hc : CalleeAt p g b idx o
                  · obtain ⟨N, hN⟩ := h b idx o hc
                    exact ⟨N, fun _ => hN⟩
                  · exact ⟨0, fun hc2 => absurd hc2 hc⟩)
              refine ⟨N, ?_⟩
              intro o hc
              obtain ⟨blk, static2, fn2, args2, pos2, hblk, hi, ho, _, _⟩ := id hc
              rw [List.getElem?_eq_getElem hb] at hblk
              cases hblk
              rw [hget] at hi
              cases hi
              exact hN o ho hc
            | If c =>
              refine ⟨0, ?_⟩
              rintro o ⟨blk, static2, fn2, args2, pos2, hblk, hi, _⟩
              rw [List.getElem?_eq_getElem hb] at hblk
              cases hblk
              rw [hget] at hi
              cases hi
            | Phi c =>
              refine ⟨0, ?_⟩
              rintro o ⟨blk, static2, fn2, args2, pos2, hblk, hi, _⟩
              rw [List.getElem?_eq_getElem hb] at hblk
              cases hblk
              rw [hget] at hi
              cases hi
            | Return c =>
              refine ⟨0, ?_⟩
              rintro o ⟨blk, static2, fn2, args2, pos2, hblk, hi, _⟩
              rw [List.getElem?_eq_getElem hb] at hblk
              cases hblk
              rw [hget] at hi
              cases hi
            | Other c =>
              refine ⟨0, ?_⟩
              rintro o ⟨blk, static2, fn2, args2, pos2, hblk, hi, _⟩
              rw [List.getElem?_eq_getElem hb] at hblk
              cases hblk
              rw [hget] at hi
              cases hi)
      refine ⟨N, ?_⟩
      intro idx o hc
      obtain ⟨blk, static, fn, args, pos, hblk, hi, _⟩ := id hc
      rw [List.getElem?_eq_getElem hb] at hblk
      cases hblk
      have hidx : idx < ((p.funcs g).Blocks[b]).Instrs.length := by
        by_contra hge
        rw [List.getElem?_eq_none (by omega)] at hi
        cases hi
      exact hN idx hidx o hc)
  refine ⟨N, ?_⟩
  intro b idx o hc
  obtain ⟨blk, static, fn, args, pos, hblk, _⟩ := id hc
  have hb : b < (p.funcs g).Blocks.length := by
    by_contra hge
    rw [List.getElem?_eq_none (by omega)] at hblk
    cases hblk
  exact hN b hb idx o hc

theorem firstVisit_ord (p : Prog) (k : Nat) (g : FuncId) (s : State) (deps : Deps)
    (hlive : livenessFor k (p.funcs g) (ifInstrsFrom 0 (p.funcs g).Blocks) = .ok deps)
    (hrec : RecsOk p s) :
    ∃ s1, firstVisit k (p.funcs g) g s = .ok s1 ∧ s1.sp = s.sp ∧
      (∀ g2 k2, memoOf s1 g2 k2 = memoOf s g2 k2) ∧ RecsOk p s1 ∧
      (∃ fi, mapGet s1.fns g = some fi) ∧
      (∀ g2 fi, mapGet s.fns g2 = some fi → ∃ fi1, mapGet s1.fns g2 = some fi1) := by
  cases hf : mapGet s.fns g with
  | some fi =>
    exact ⟨s, by simp only [firstVisit, hf], rfl, fun _ _ => rfl, hrec, ⟨fi, hf⟩,
      fun _ fi2 h => ⟨fi2, h⟩⟩
  | none =>
    refine ⟨{ s with fns := mapSet s.fns g { exitLockSets := [], ifDeps := deps } },
      by simp only [firstVisit, hf, hlive], rfl, ?_, ?_, ⟨_, mapGet_mapSet_self _ _ _⟩, ?_⟩
    · intro g2 k2
      by_cases hg : g = g2
      · subst hg
        simp [memoOf, mapGet_mapSet_self, hf, mapGet]
      · simp [memoOf, mapGet_mapSet_of_ne _ _ _ _ hg]
    · intro g2 fi2 h2
      by_cases hg : g = g2
      · subst hg
        simp only [mapGet_mapSet_self, Option.some.injEq] at h2
        subst h2
        exact livenessFor_length _ _ _ _ hlive
      · simp only [mapGet_mapSet_of_ne _ _ _ _ hg] at h2
        exact hrec g2 fi2 h2
    · intro g2 fi2 h2
      by_cases hg : g = g2
      · subst hg
        rw [hf] at h2
        cases h2
      · exact ⟨fi2, by simpa [mapGet_mapSet_of_ne _ _ _ _ hg] using h2⟩

theorem goodRes_single (x : LockSet) (sp : StringSpace) :
    GoodRes extSummary sp x (NewLockSetSet.Add x) :=
  ⟨keyInv_Add _ _ keyInv_New, by simp [Add_ne_nil, extSummary],
    fun _ _ y => by simp [has_single, extSummary]⟩

theorem fnOk_external {VS : Type} (env : Env VS) (rank : FuncId → Nat)
    (dep : FuncId → Nat → Nat) (g : FuncId) (hext : (env.prog.funcs g).Blocks = [])
    (k : Nat) : FnOk env rank dep (k + 1) g := by
  intro x s hgood hrec _
  rw [walkFunction_noBlocks env k g x s hext, summary_ext _ _ _ _ _ hext]
  refine ⟨_, _, rfl, ?_, ?_, ?_⟩
  · cases hf : mapGet s.fns g with
    | some fi => exact InOrdWalk.atStart hgood hrec
    | none =>
      have hmemo : ∀ g2 k2,
          memoOf { s with fns := mapSet s.fns g { exitLockSets := [], ifDeps := [] } } g2 k2 =
            memoOf s g2 k2 := by
        intro g2 k2
        by_cases hg : g = g2
        · subst hg
          simp [memoOf, mapGet_mapSet_self, hf, mapGet]
        · simp [memoOf, mapGet_mapSet_of_ne _ _ _ _ hg]
      refine ⟨hgood.carried (fun g2 k2 r hr => by rw [← hmemo]; exact hr) (Ext.itself _), ?_,
        fun g2 k2 hh => by rw [← hmemo]; exact hh, ?_⟩
      · intro g2 fi2 h2
        by_cases hg : g = g2
        · subst hg
          simp only [mapGet_mapSet_self, Option.some.injEq] at h2
          subst h2
          simp [hext]
        · simp only [mapGet_mapSet_of_ne _ _ _ _ hg] at h2
          exact hrec g2 fi2 h2
      · intro g2 fi2 h2
        by_cases hg : g = g2
        · subst hg
          rw [hf] at h2
          cases h2
        · exact ⟨fi2, by simpa [mapGet_mapSet_of_ne _ _ _ _ hg] using h2⟩
  · cases hf : mapGet s.fns g <;> simp [extSummary, internAll]
  · cases hf : mapGet s.fns g <;> exact goodRes_single x _

theorem fnOk_body {VS : Type} (env : Env VS) (hrange : ∀ l, (env.range l).Perm l)
    (rank : FuncId → Nat) (dep : FuncId → Nat → Nat) (g : FuncId)
    (hord : Orderly env.prog env.ops rank (dep g) g)
    (hbody : (env.prog.funcs g).Blocks ≠ []) (k : Nat)
    (hcallee : ∀ b idx o, CalleeAt env.prog g b idx o → FnOk env rank dep k o)
    (deps : Deps)
    (hlive : livenessFor k (env.prog.funcs g) (ifInstrsFrom 0 (env.prog.funcs g).Blocks) =
      .ok deps)
    (EB : Nat)
    (hpos : ∀ b, b < (env.prog.funcs g).Blocks.length →
      ∃ q, exitPos (env.prog.funcs g) EB b = .ok q)
    (hfuel : dep g 0 + EB < k) : FnOk env rank dep (k + 1) g := by
  intro x s hgood hrec hhole
  have hlen : ¬ (env.prog.funcs g).Blocks.length = 0 := by
    simpa [List.length_eq_zero] using hbody
  have hN : 0 < (env.prog.funcs g).Blocks.length := Nat.pos_of_ne_zero hlen
  obtain ⟨s1, hfv, hsp1, hmemo1, hrec1, ⟨fi1, hfi1⟩, hkept1⟩ :=
    firstVisit_ord env.prog k g s deps hlive hrec
  have hgood1 : AllGood env.prog env.ops rank dep s1 :=
    hgood.carried (fun g2 k2 r hr => by rw [← hmemo1]; exact hr) (by rw [hsp1]; exact Ext.itself _)
  have hin1 : InOrdWalk env.prog env.ops rank dep s s1 :=
    ⟨hgood1, hrec1, fun g2 k2 hh => by rw [← hmemo1]; exact hh, hkept1⟩
  have hsum : summary env.prog env.ops rank dep g =
      ⟨fun SP x y =>
        Exit env.prog env.ops (calleeSummary env.prog env.ops rank dep g) SP g 0 env.ops.nil x y,
        labsBlk env.prog env.ops (calleeSummary env.prog env.ops rank dep g) (dep g) g 0
          env.ops.nil,
        retBlk env.prog env.ops (calleeSummary env.prog env.ops rank dep g) (dep g) g 0
          env.ops.nil⟩ := summary_eq env.prog env.ops rank dep g hbody
  cases hmemo : memoOf s1 g x.Key with
  | some v =>
    cases v with
    | none =>
      have := hhole g x.Key (by rw [← hmemo1]; exact hmemo)
      omega
    | some r =>
      obtain ⟨hi, hg⟩ := hgood1 g x.Key r hmemo x rfl
      refine ⟨r, s1, ?_, hin1, ?_, hg⟩
      · simp only [walkFunction, hfv, if_neg hlen, hmemo]
      · rw [internAll_interned _ _ (by rw [← hsp1]; exact hi), hsp1]
  | none =>
    obtain ⟨S, hS⟩ : ∃ S : State, S = { setMemo s1 g x.Key none with
        stack := (setMemo s1 g x.Key none).stack ++ [g] } := ⟨_, rfl⟩
    have hSmemo : ∀ g2 k2, ¬ (g2 = g ∧ k2 = x.Key) → memoOf S g2 k2 = memoOf s1 g2 k2 := by
      intro g2 k2 hne
      rw [hS, memoOf_stack, memoOf_setMemo_of_ne _ _ _ _ _ _ hne]
    have hSself : memoOf S g x.Key = some none := by
      rw [hS, memoOf_stack]
      exact memoOf_setMemo_self _ _ _ _ fi1 hfi1
    have hSsp : S.sp = s.sp := by
      rw [hS]
      simp only
      rw [setMemo_sp, hsp1]
    have hSgood : AllGood env.prog env.ops rank dep S := by
      apply hgood1.carried
      · intro g2 k2 r hr
        by_cases hne : g2 = g ∧ k2 = x.Key
        · obtain ⟨e1, e2⟩ := hne
          subst e1; subst e2
          rw [hSself] at hr
          cases hr
        · rw [← hSmemo g2 k2 hne]
          exact hr
      · rw [hSsp, hsp1]
        exact Ext.itself _
    have hSrec : RecsOk env.prog S := by
      rw [hS]
      exact hrec1.afterMemo g x.Key none
    obtain ⟨fiS, hfiS⟩ : ∃ fi, mapGet S.fns g = some fi := by
      rw [hS]
      exact setMemo_has s1 g x.Key none g fi1 hfi1
    have hShole : ∀ g2 k2, memoOf S g2 k2 = some none → rank g ≤ rank g2 := by
      intro g2 k2 hh
      by_cases hne : g2 = g ∧ k2 = x.Key
      · rw [hne.1]
      · rw [hSmemo g2 k2 hne, hmemo1] at hh
        have := hhole g2 k2 hh
        omega
    have hwalk : OrdWalk env (calleeSummary env.prog env.ops rank dep g)
        (InOrdWalk env.prog env.ops rank dep S) (walkFunction env k) (dep g) g EB :=
      { range_ok := hrange
        stable := fun s2 l h2 => h2.interning l
        record := by
          intro s2 h2
          obtain ⟨fi2, hfi2⟩ := h2.2.2.2 g fiS hfiS
          exact ⟨fi2, hfi2, h2.2.1 g fi2 hfi2⟩
        sites := by
          intro b blk hblk idx static fn args pos hi o ho
          obtain ⟨c1, c2⟩ := hord.calls b blk idx static fn args pos hblk hi o ho
          refine ⟨c1, ?_⟩
          intro hl hu
          have hlt := c2 hl hu
          have hok := hcallee b idx o ⟨blk, static, fn, args, pos, hblk, hi, ho, hl, hu⟩
          intro x2 s2 h2
          obtain ⟨r, s3, h3, hin3, hsp3, hg3⟩ := hok x2 s2 h2.1 h2.2.1 (by
            intro g2 k2 hh
            have := hShole g2 k2 (h2.2.2.1 g2 k2 hh)
            omega)
          have hσ : calleeSummary env.prog env.ops rank dep g o =
              summary env.prog env.ops rank dep o := by
            simp [calleeSummary, hlt]
          rw [hσ]
          exact ⟨r, s3, h3, h2.followedBy hin3, hsp3, hg3⟩
        wellFormed := hord.wellFormed
        acyclic := hord.acyclic
        unique := hord.unique
        pos := hpos }
    obtain ⟨w, hw, p⟩ := walkBlock_ord hwalk k 0 env.ops.nil x
      { s := S, blockCache := [], exitLockSets := NewLockSetSet } hN hfuel Enters.entry
      (InOrdWalk.atStart hSgood hSrec) keyInv_New
      (fun c k2 hr _ => absurd hr (not_ran_nil _ _))
    obtain ⟨hwgood, hwrec, hwhole, hwkept⟩ := p.sinv
    obtain ⟨fiw, hfiw⟩ := hwkept g fiS hfiS
    have hplace : memoOf w.s g x.Key = some none := by
      have hk := walkBlock_keeps env _ (walkFunction_keeps env k) g k _ _ _ _ _ hw
      exact hk g x.Key none hSself
    obtain ⟨sf, hsf⟩ : ∃ sf : State, sf = { setMemo w.s g x.Key (some w.exitLockSets) with
        stack := (setMemo w.s g x.Key (some w.exitLockSets)).stack.dropLast } := ⟨_, rfl⟩
    have hfmemo : ∀ g2 k2, ¬ (g2 = g ∧ k2 = x.Key) → memoOf sf g2 k2 = memoOf w.s g2 k2 := by
      intro g2 k2 hne
      rw [hsf, memoOf_stack, memoOf_setMemo_of_ne _ _ _ _ _ _ hne]
    have hfself : memoOf sf g x.Key = some (some w.exitLockSets) := by
      rw [hsf, memoOf_stack]
      exact memoOf_setMemo_self _ _ _ _ fiw hfiw
    have hfsp : sf.sp = w.s.sp := by
      rw [hsf]
      simp only
      rw [setMemo_sp]
    have hwsp : w.s.sp = internAll (summary env.prog env.ops rank dep g).labels s.sp := by
      rw [p.sp, hsum]
      simp only
      rw [hSsp]
    have hres : GoodRes (summary env.prog env.ops rank dep g) sf.sp x w.exitLockSets := by
      rw [hfsp, hsum]
      refine ⟨p.key, ?_, ?_⟩
      · rw [p.live]
        simp [NewLockSetSet]
      · intro SP he y
        rw [p.has SP he y]
        simp [has_New_iff]
    refine ⟨w.exitLockSets, sf, ?_, ⟨?_, ?_, ?_, ?_⟩, by rw [hfsp, hwsp], hres⟩
    · simp only [walkFunction, hfv, if_neg hlen, hmemo]
      rw [← hS, hw, hsf]
    · intro g2 k2 r hr x2 hx2
      by_cases hne : g2 = g ∧ k2 = x.Key
      · obtain ⟨e1, e2⟩ := hne
        subst e1; subst e2
        rw [hfself] at hr
        cases hr
        have hxe : x2 = x := Key_injective _ _ hx2
        subst hxe
        refine ⟨?_, hres⟩
        rw [hfsp, hwsp]
        exact interned_internAll _ _
      · rw [hfmemo g2 k2 hne] at hr
        obtain ⟨a1, a2⟩ := hwgood g2 k2 r hr x2 hx2
        rw [hfsp]
        exact ⟨a1, a2⟩
    · rw [hsf]
      exact hwrec.afterMemo g x.Key (some w.exitLockSets)
    · intro g2 k2 hh
      by_cases hne : g2 = g ∧ k2 = x.Key
      · obtain ⟨e1, e2⟩ := hne
        subst e1; subst e2
        rw [hfself] at hh
        cases hh
      · rw [hfmemo g2 k2 hne] at hh
        have h2 := hwhole g2 k2 hh
        rw [hSmemo g2 k2 hne, hmemo1] at h2
        exact h2
    · intro g2 fi2 h2
      obtain ⟨fi3, h3⟩ := hkept1 g2 fi2 h2
      obtain ⟨fi4, h4⟩ : ∃ fi, mapGet S.fns g2 = some fi := by
        rw [hS]
        exact setMemo_has s1 g x.Key none g2 fi3 h3
      obtain ⟨fi5, h5⟩ := hwkept g2 fi4 h4
      rw [hsf]
      exact setMemo_has w.s g x.Key (some w.exitLockSets) g2 fi5 h5

theorem fnOk_all {VS : Type} (env : Env VS) (hrange : ∀ l, (env.range l).Perm l)
    (rank : FuncId → Nat) (dep : FuncId → Nat → Nat) (R : Nat)
    (hord : ∀ g, rank g ≤ R → Orderly env.prog env.ops rank (dep g) g) :
    ∀ n g, rank g = n → n ≤ R → ∃ N, ∀ k, N ≤ k → FnOk env rank dep k g := by
  intro n
  induction n using Nat.strong_induction_on with
  | _ n ih =>
    intro g hg hn
    by_cases hext : (env.prog.funcs g).Blocks = []
    · refine ⟨1, ?_⟩
      intro k hk
      obtain ⟨k2, rfl⟩ : ∃ k2, k = k2 + 1 := ⟨k - 1, by omega⟩
      exact fnOk_external env rank dep g hext k2
    · have ho := hord g (by omega)
      obtain ⟨NC, hNC⟩ := callees_bound env.prog g (fun o N => ∀ k, N ≤ k → FnOk env rank dep k o)
        (fun o a b hab hq k hk => hq k (le_trans hab hk))
        (by
          rintro b idx o ⟨blk, static, fn, args, pos, hblk, hi, hmem, hl, hu⟩
          have hlt := (ho.calls b blk idx static fn args pos hblk hi o hmem).2 hl hu
          exact ih (rank o) (by omega) o rfl (by omega))
      obtain ⟨nl, deps, hl⟩ := ho.live
      obtain ⟨EB, hEB⟩ := exitPos_uniform _ _ ho.pos
      refine ⟨NC + nl + dep g 0 + EB + 2, ?_⟩
      intro k hk
      obtain ⟨k2, rfl⟩ : ∃ k2, k = k2 + 1 := ⟨k - 1, by omega⟩
      exact fnOk_body env hrange rank dep g ho hext k2
        (fun b idx o hc => hNC b idx o hc k2 (by omega)) deps
        (livenessFor_mono_le nl k2 (by omega) _ _ _ hl) EB hEB (by omega)

theorem mem_of_has_iff (a b : LockSetSet) (ha : KeyInv a) (hb : KeyInv b)
    (h : ∀ y, a.has y ↔ b.has y) (e : LockSetKey × LockSet) : e ∈ a.M ↔ e ∈ b.M := by
  constructor
  · intro he
    have hk := ha e he
    have := (h e.2).1 (has_of_mem a ha e he)
    rw [LockSetSet.has, hk] at this
    exact this
  · intro he
    have hk := hb e he
    have := (h e.2).2 (has_of_mem b hb e he)
    rw [LockSetSet.has, hk] at this
    exact this

/-- C9 (amended): in a program without recursion the order in which the members of a
frontier are met does not matter, when the control-flow graphs have no cycle and each
block is entered with one value state only.  Let the calls lead from a function to
functions of lower `rank` only, and let every function `g` that the walk of `f` can
reach (`rank g ≤ rank f`) be `Orderly`: its control-flow graph is well formed and `dep
g` decreases along its edges, `walkBlock` is called on each of its blocks with one value
state only, `livenessFor` and `exitPos` return on it, and its calls of the lock
primitives have a lock argument.  Then two runs of `walkFunction` on `f` from the same
lockset in the same state without records, which meet the entries of every map in the
orders `r1` and `r2`, both return, with every larger amount of fuel, and they return
`LockSetSet`s with the same members under the same canonical keys and leave the same
string space. -/
theorem walkFunction_order {VS : Type} (prog : Prog) (ops : ValStateOps VS)
    (r1 r2 : List (LockSetKey × LockSet) → List (LockSetKey × LockSet))
    (h1 : ∀ l, (r1 l).Perm l) (h2 : ∀ l, (r2 l).Perm l)
    (rank : FuncId → Nat) (dep : FuncId → Nat → Nat) (f : FuncId)
    (hord : ∀ g, rank g ≤ rank f → Orderly prog ops rank (dep g) g)
    (L : LockSet) (s : State) (hfresh : s.fns = []) :
    ∃ n, ∀ fuel, n ≤ fuel → ∃ R1 s1 R2 s2,
      walkFunction ⟨prog, ops, r1⟩ fuel f L s = .ok (some R1, s1) ∧
      walkFunction ⟨prog, ops, r2⟩ fuel f L s = .ok (some R2, s2) ∧
      R1.keys = R2.keys ∧ (∀ e, e ∈ R1.M ↔ e ∈ R2.M) ∧ s1.sp = s2.sp := by
  obtain ⟨N1, hN1⟩ := fnOk_all ⟨prog, ops, r1⟩ h1 rank dep (rank f) hord (rank f) f rfl
    (le_refl _)
  obtain ⟨N2, hN2⟩ := fnOk_all ⟨prog, ops, r2⟩ h2 rank dep (rank f) hord (rank f) f rfl
    (le_refl _)
  have hmemo : ∀ g k, memoOf s g k = none := by
    intro g k
    simp [memoOf, hfresh, mapGet]
  have hgood : AllGood prog ops rank dep s := by
    intro g k r hr
    rw [hmemo] at hr
    cases hr
  have hrec : RecsOk prog s := by
    intro g fi hfi
    rw [hfresh] at hfi
    cases hfi
  have hhole : NoHole rank (rank f + 1) s := by
    intro g k hh
    rw [hmemo] at hh
    cases hh
  refine ⟨max N1 N2, ?_⟩
  intro fuel hfuel
  obtain ⟨R1, s1, e1, _, hsp1, g1⟩ := hN1 fuel (le_trans (le_max_left _ _) hfuel) L s hgood hrec
    hhole
  obtain ⟨R2, s2, e2, _, hsp2, g2⟩ := hN2 fuel (le_trans (le_max_right _ _) hfuel) L s hgood hrec
    hhole
  have hsp : s1.sp = s2.sp := by rw [hsp1, hsp2]
  have hhas : ∀ y, R1.has y ↔ R2.has y := by
    intro y
    rw [g1.has s1.sp (Ext.itself _) y, g2.has s1.sp (by rw [hsp]; exact Ext.itself _) y]
  exact ⟨R1, s1, R2, s2, e1, e2, keys_of_has R1 R2 g1.key g2.key hhas,
    mem_of_has_iff R1 R2 g1.key g2.key hhas, hsp⟩

theorem pruneSuccs_nodup (succs0 : List Nat) (x : Option DynConst) (succs : List Nat)
    (h : pruneSuccs succs0 x = .ok succs) (hn : succs0.Nodup) : succs.Nodup := by
  cases x with
  | none => cases h; exact hn
  | some d =>
    cases succs0 with
    | nil => cases h
    | cons b0 rest =>
      simp only [pruneSuccs] at h
      split_ifs at h
      · cases h; exact List.nodup_singleton b0
      · cases h; exact (List.nodup_cons.1 hn).2

/-- In a function without joins each block is entered with one value state only. -/
theorem unique_of_treeShaped {VS : Type} (p : Prog) (ops : ValStateOps VS) (g : FuncId)
    (ht : TreeShaped (p.funcs g)) (b : Nat) (vs vs2 : VS)
    (h1 : Enters p ops g b vs) (h2 : Enters p ops g b vs2) : vs = vs2 := by
  induction h1 generalizing vs2 with
  | entry =>
    cases h2 with
    | entry => rfl
    | step b1 blk vs1 succs i _ _ _ hblk hf hi _ =>
      exfalso
      exact (ht.1 b1 blk hblk).1 (pruneSuccs_sub _ _ _ hf _ (List.getElem?_mem hi))
  | step b1 blk vs1 succs i b2 vs3 _ hblk hf hi hh ih =>
    have hmem : b2 ∈ blk.Succs := pruneSuccs_sub _ _ _ hf _ (List.getElem?_mem hi)
    obtain ⟨b3, hb3⟩ : ∃ b3, b3 = b2 := ⟨_, rfl⟩
    rw [← hb3] at h2
    cases h2 with
    | entry =>
      exfalso
      rw [← hb3] at hmem
      exact (ht.1 b1 blk hblk).1 hmem
    | step b1' blk' vs1' succs' i' _ _ h' hblk' hf' hi' hh' =>
      rw [hb3] at hi'
      have hmem' : b2 ∈ blk'.Succs := pruneSuccs_sub _ _ _ hf' _ (List.getElem?_mem hi')
      have hb : b1 = b1' := ht.2 b1 b1' blk blk' b2 hblk hblk' hmem hmem'
      subst hb
      rw [hblk] at hblk'
      cases hblk'
      have hv := ih vs1' h'
      subst hv
      rw [hf] at hf'
      cases hf'
      have hnd : succs.Nodup := pruneSuccs_nodup _ _ _ hf (ht.1 b1 blk hblk).2
      have hi2 : i = i' := by
        have hl : i < succs.length := by
          by_contra hge
          rw [List.getElem?_eq_none (by omega)] at hi
          cases hi
        have hl' : i' < succs.length := by
          by_contra hge
          rw [List.getElem?_eq_none (by omega)] at hi'
          cases hi'
        rw [List.getElem?_eq_getElem hl] at hi
        rw [List.getElem?_eq_getElem hl'] at hi'
        have he : succs[i] = succs[i'] := by
          rw [Option.some.inj hi, Option.some.inj hi']
        exact (List.Nodup.getElem_inj_iff hnd).1 he
      subst hi2
      rw [hb3] at hh'
      rw [hh] at hh'
      cases hh'
      rfl

/-! ## The example program -/

theorem Key_0 : LockSet.Key { bits := 0 } = "0" := by decide
theorem Key_1 : LockSet.Key { bits := 1 } = "1" := by decide
theorem Key_2 : LockSet.Key { bits := 2 } = "2" := by decide
theorem Key_3 : LockSet.Key { bits := 3 } = "3" := by decide

theorem Bit_table :
    (Bit 0 0 = 0) ∧
    (Bit 0 1 = 0) ∧
    (Bit 1 0 = 1) ∧
    (Bit 1 1 = 0) ∧
    (Bit 2 0 = 0) ∧
    (Bit 2 1 = 1) ∧
    (Bit 3 0 = 1) ∧
    (Bit 3 1 = 1) := by decide

theorem SetBit_table :
    (SetBit 0 0 1 = 1) ∧
    (SetBit 0 0 0 = 0) ∧
    (SetBit 0 1 1 = 2) ∧
    (SetBit 0 1 0 = 0) ∧
    (SetBit 1 0 1 = 1) ∧
    (SetBit 1 0 0 = 0) ∧
    (SetBit 1 1 1 = 3) ∧
    (SetBit 1 1 0 = 1) ∧
    (SetBit 2 0 1 = 3) ∧
    (SetBit 2 0 0 = 2) ∧
    (SetBit 2 1 1 = 2) ∧
    (SetBit 2 1 0 = 0) ∧
    (SetBit 3 0 1 = 3) ∧
    (SetBit 3 0 0 = 2) ∧
    (SetBit 3 1 1 = 3) ∧
    (SetBit 3 1 0 = 1) := by decide

theorem keysOf_mono {VS : Type} (env : Env VS) (n m : Nat) (hle : n ≤ m) (f : FuncId)
    (L : LockSet) (s : State) (ks : List LockSetKey)
    (h : keysOf (walkFunction env n f L s) = some ks) :
    keysOf (walkFunction env m f L s) = some ks := by
  cases hr : walkFunction env n f L s with
  | error e => rw [hr] at h; cases h
  | ok r => rw [walkFunction_mono_le env n m hle f L s r hr, ← hr]; exact h

set_option maxRecDepth 100000 in
set_option maxHeartbeats 4000000 in
theorem keysOf_top_stored :
    keysOf (walkFunction exEnv 6 9 NewSet initState) = some ["1", "0"] := by
  simp [exEnv, walkFunction, walkBlock, walkBlockBody, walkBlockRun, resolveCond, logPos, exitPos, lastPos,
    firstVisit, livenessFor, doVals, doInstr, doInstrBody, doRands, doPhiEdges, walk, walkBody,
    walkPreds, depsAdd, ifInstrsFrom, Instruction.Operands, memoOf, setMemo, mapGet, mapSet,
    cacheStop, doInstructions, doInstruction, doOuts, callOuts, callAll, plusAll, minusAll,
    pruneSuccs, walkFrontier, walkSuccs, succState, phiInstrs, phiEdges,
    LockSet.Plus, LockSet.Minus, plusLoop, minusLoop, StringSpace.Intern, Bit_table, SetBit_table,
    LockSetSet.Add, LockSetSet.Union, unionLoop, NewLockSetSet, NewSet, NewStringSpace,
    Key_0, Key_1, Key_2, Key_3, exProg, exFuncs, exPta, topFn, eitherFn, toggleFn,
    lockCall, unlockCall, plainCall, ret, listOps, initState, keysOf]

set_option maxRecDepth 100000 in
set_option maxHeartbeats 4000000 in
theorem keysOf_top_reverse :
    keysOf (walkFunction exEnvRev 6 9 NewSet initState) = some ["0", "3", "1"] := by
  simp [exEnvRev, walkFunction, walkBlock, walkBlockBody, walkBlockRun, resolveCond, logPos, exitPos, lastPos,
    firstVisit, livenessFor, doVals, doInstr, doInstrBody, doRands, doPhiEdges, walk, walkBody,
    walkPreds, depsAdd, ifInstrsFrom, Instruction.Operands, memoOf, setMemo, mapGet, mapSet,
    cacheStop, doInstructions, doInstruction, doOuts, callOuts, callAll, plusAll, minusAll,
    pruneSuccs, walkFrontier, walkSuccs, succState, phiInstrs, phiEdges,
    LockSet.Plus, LockSet.Minus, plusLoop, minusLoop, StringSpace.Intern, Bit_table, SetBit_table,
    LockSetSet.Add, LockSetSet.Union, unionLoop, NewLockSetSet, NewSet, NewStringSpace,
    Key_0, Key_1, Key_2, Key_3, exProg, exFuncs, exPta, topFn, eitherFn, toggleFn,
    lockCall, unlockCall, plainCall, ret, listOps, initState, keysOf]

/-- C9 (counterexample): two runs of `walkFunction` on function 9 of the example
program from the empty lockset in the initial state, one meeting the entries of
a frontier in stored order and one in reverse order, return the key sets
`{"1", "0"}` and `{"0", "3", "1"}`, with any fuel from 6 on. -/
theorem walkFunction_order_dependent :
    ((∀ l, (exEnv.range l).Perm l) ∧ (∀ l, (exEnvRev.range l).Perm l)) ∧
    (∀ fuel, 6 ≤ fuel → keysOf (walkFunction exEnv fuel 9 NewSet initState) = some ["1", "0"]) ∧
    (∀ fuel, 6 ≤ fuel →
      keysOf (walkFunction exEnvRev fuel 9 NewSet initState) = some ["0", "3", "1"]) :=
  ⟨⟨fun l => List.Perm.refl l, fun l => List.reverse_perm l⟩,
    fun fuel h => keysOf_mono exEnv 6 fuel h 9 NewSet initState _ keysOf_top_stored,
    fun fuel h => keysOf_mono exEnvRev 6 fuel h 9 NewSet initState _ keysOf_top_reverse⟩

theorem orderly_external {VS : Type} (p : Prog) (ops : ValStateOps VS) (rank : FuncId → Nat)
    (dep : Nat → Nat) (g : FuncId) (hext : (p.funcs g).Blocks = []) :
    Orderly p ops rank dep g := by
  refine ⟨?_, ⟨1, [], ?_⟩, ?_, ?_, ?_, ?_⟩
  · intro blk hblk
    rw [hext] at hblk
    cases hblk
  · simp [hext, ifInstrsFrom, livenessFor, doVals]
  · intro b hb
    rw [hext] at hb
    cases hb
  · intro b blk idx static fn args pos hblk
    rw [hext] at hblk
    cases hblk
  · intro b blk hblk
    rw [hext] at hblk
    cases hblk
  · intro b vs vs2 h1 h2
    have hnil : ∀ c v, Enters p ops g c v → v = ops.nil := by
      intro c v h
      cases h with
      | entry => rfl
      | step b1 blk vs1 succs i b2 vs3 _ hblk _ _ _ =>
        rw [hext] at hblk
        cases hblk
    rw [hnil b vs h1, hnil b vs2 h2]

theorem enters_either (b : Nat) (vs : List (Value × DynConst))
    (h : Enters ordProg listOps 10 b vs) :
    (b = 0 ∧ vs = []) ∨ (b = 1 ∧ vs = [(.Parameter 0, ⟨true⟩)]) ∨
      (b = 2 ∧ vs = [(.Parameter 0, ⟨false⟩)]) := by
  induction h with
  | entry => exact Or.inl ⟨rfl, rfl⟩
  | step b1 blk vs1 succs i b2 vs2 _ hblk hf hi hh ih =>
    have hblocks : (ordProg.funcs 10).Blocks = eitherFn.Blocks := rfl
    rw [hblocks, eitherFn] at hblk
    rcases ih with ⟨hb, hv⟩ | ⟨hb, hv⟩ | ⟨hb, hv⟩
    · subst hb; subst hv
      simp only [List.getElem?_cons_zero, Option.some.injEq] at hblk
      subst hblk
      have hs : succs = [1, 2] := by
        have : followed listOps 0 ⟨[⟨.If (.Parameter 0), 0⟩], [], [1, 2]⟩ [] = .ok [1, 2] := rfl
        rw [this] at hf
        cases hf
        rfl
      subst hs
      match i, hi with
      | 0, hi =>
        simp only [List.getElem?_cons_zero, Option.some.injEq] at hi
        subst hi
        have : handed listOps (ordProg.funcs 10) 0 ⟨[⟨.If (.Parameter 0), 0⟩], [], [1, 2]⟩ [] 0 1 =
            .ok [(.Parameter 0, ⟨true⟩)] := rfl
        rw [this] at hh
        cases hh
        exact Or.inr (Or.inl ⟨rfl, rfl⟩)
      | 1, hi =>
        simp only [List.getElem?_cons_succ, List.getElem?_cons_zero, Option.some.injEq] at hi
        subst hi
        have : handed listOps (ordProg.funcs 10) 0 ⟨[⟨.If (.Parameter 0), 0⟩], [], [1, 2]⟩ [] 1 2 =
            .ok [(.Parameter 0, ⟨false⟩)] := rfl
        rw [this] at hh
        cases hh
        exact Or.inr (Or.inr ⟨rfl, rfl⟩)
      | n + 2, hi => simp at hi
    · subst hb; subst hv
      simp only [List.getElem?_cons_succ, List.getElem?_cons_zero, Option.some.injEq] at hblk
      subst hblk
      have : followed listOps 1 ⟨[lockCall 0, ret], [0], []⟩ [(.Parameter 0, ⟨true⟩)] = .ok [] := rfl
      rw [this] at hf
      cases hf
      simp at hi
    · subst hb; subst hv
      simp only [List.getElem?_cons_succ, List.getElem?_cons_zero, Option.some.injEq] at hblk
      subst hblk
      have : followed listOps 2 ⟨[ret], [0], []⟩ [(.Parameter 0, ⟨false⟩)] = .ok [] := rfl
      rw [this] at hf
      cases hf
      simp at hi

theorem orderly_either : Orderly ordProg listOps ordRank (ordDep 10) 10 := by
  have hblocks : (ordProg.funcs 10).Blocks = eitherFn.Blocks := rfl
  have hlen : (ordProg.funcs 10).Blocks.length = 3 := rfl
  refine ⟨?_, ⟨5, [[.Parameter 0], [], []], rfl⟩, ?_, ?_, ?_, ?_⟩
  · intro blk hblk
    rw [hblocks, eitherFn] at hblk
    simp only [List.mem_cons, List.mem_singleton, List.not_mem_nil, or_false] at hblk
    rcases hblk with h | h | h <;> subst h
    · refine ⟨by simp [hlen], ?_, by simp⟩
      intro instr hin edges hk
      simp only [List.mem_singleton] at hin
      subst hin
      simp at hk
    · refine ⟨by simp, ?_, ?_⟩
      · intro instr hin edges hk
        simp only [List.mem_cons, List.mem_singleton, List.not_mem_nil, or_false] at hin
        rcases hin with h | h <;> subst h <;> simp [lockCall, ret] at hk
      · rintro ⟨instr, hin, c, hk⟩
        simp only [List.mem_cons, List.mem_singleton, List.not_mem_nil, or_false] at hin
        rcases hin with h | h <;> subst h <;> simp [lockCall, ret] at hk
    · refine ⟨by simp, ?_, ?_⟩
      · intro instr hin edges hk
        simp only [List.mem_singleton] at hin
        subst hin
        simp [ret] at hk
      · rintro ⟨instr, hin, c, hk⟩
        simp only [List.mem_singleton] at hin
        subst hin
        simp [ret] at hk
  · intro b hb
    have hb3 : b < 3 := hb
    interval_cases b
    · exact ⟨3, 0, rfl⟩
    · exact ⟨3, 1, rfl⟩
    · exact ⟨3, 0, rfl⟩
  · intro b blk idx static fn args pos hblk hi o ho
    rw [hblocks, eitherFn] at hblk
    match b, hblk with
    | 0, hblk =>
      simp only [List.getElem?_cons_zero, Option.some.injEq] at hblk
      subst hblk
      match idx, hi with
      | 0, hi => simp at hi
      | n + 1, hi => simp at hi
    | 1, hblk =>
      simp only [List.getElem?_cons_succ, List.getElem?_cons_zero, Option.some.injEq] at hblk
      subst hblk
      match idx, hi with
      | 0, hi =>
        simp only [List.getElem?_cons_zero, Option.some.injEq, lockCall, Instruction.mk.injEq,
          InstrKind.Call.injEq] at hi
        obtain ⟨⟨hst, _, hargs⟩, _⟩ := hi
        subst hst
        subst hargs
        simp only [callOuts, List.mem_singleton] at ho
        subst ho
        exact ⟨fun _ => by simp, fun hl => absurd rfl hl⟩
      | 1, hi => simp [ret] at hi
      | n + 2, hi => simp at hi
    | 2, hblk =>
      simp only [List.getElem?_cons_succ, List.getElem?_cons_zero, Option.some.injEq] at hblk
      subst hblk
      match idx, hi with
      | 0, hi => simp [ret] at hi
      | n + 1, hi => simp at hi
    | n + 3, hblk => simp at hblk
  · intro b blk hblk b2 hb2
    rw [hblocks, eitherFn] at hblk
    match b, hblk with
    | 0, hblk =>
      simp only [List.getElem?_cons_zero, Option.some.injEq] at hblk
      subst hblk
      simp only [List.mem_cons, List.mem_singleton, List.not_mem_nil, or_false] at hb2
      rcases hb2 with h | h <;> subst h <;> simp [ordDep]
    | 1, hblk =>
      simp only [List.getElem?_cons_succ, List.getElem?_cons_zero, Option.some.injEq] at hblk
      subst hblk
      simp at hb2
    | 2, hblk =>
      simp only [List.getElem?_cons_succ, List.getElem?_cons_zero, Option.some.injEq] at hblk
      subst hblk
      simp at hb2
    | n + 3, hblk => simp at hblk
  · intro b vs vs2 h1 h2
    rcases enters_either b vs h1 with ⟨hb, hv⟩ | ⟨hb, hv⟩ | ⟨hb, hv⟩ <;>
      rcases enters_either b vs2 h2 with ⟨hb2, hv2⟩ | ⟨hb2, hv2⟩ | ⟨hb2, hv2⟩ <;>
      first
        | (exfalso; omega)
        | (rw [hv, hv2])

theorem orderly_afterEither : Orderly ordProg listOps ordRank (ordDep 15) 15 := by
  have hblocks : (ordProg.funcs 15).Blocks = afterEitherFn.Blocks := rfl
  have hlen : (ordProg.funcs 15).Blocks.length = 1 := rfl
  refine ⟨?_, ⟨5, [[]], rfl⟩, ?_, ?_, ?_, ?_⟩
  · intro blk hblk
    rw [hblocks, afterEitherFn] at hblk
    simp only [List.mem_singleton] at hblk
    subst hblk
    refine ⟨by simp, ?_, ?_⟩
    · intro instr hin edges hk
      simp only [List.mem_cons, List.mem_singleton, List.not_mem_nil, or_false] at hin
      rcases hin with h | h | h <;> subst h <;> simp [lockCall, plainCall, ret] at hk
    · rintro ⟨instr, hin, c, hk⟩
      simp only [List.mem_cons, List.mem_singleton, List.not_mem_nil, or_false] at hin
      rcases hin with h | h | h <;> subst h <;> simp [lockCall, plainCall, ret] at hk
  · intro b hb
    have hb1 : b < 1 := hb
    interval_cases b
    exact ⟨3, 1, rfl⟩
  · intro b blk idx static fn args pos hblk hi o ho
    rw [hblocks, afterEitherFn] at hblk
    match b, hblk with
    | 0, hblk =>
      simp only [List.getElem?_cons_zero, Option.some.injEq] at hblk
      subst hblk
      match idx, hi with
      | 0, hi =>
        simp only [List.getElem?_cons_zero, Option.some.injEq, plainCall, Instruction.mk.injEq,
          InstrKind.Call.injEq] at hi
        obtain ⟨⟨hst, _, hargs⟩, _⟩ := hi
        subst hst
        subst hargs
        simp only [callOuts, List.mem_singleton] at ho
        subst ho
        exact ⟨fun h => (by rcases h with h | h <;> cases h), fun _ _ => (by decide)⟩
      | 1, hi =>
        simp only [List.getElem?_cons_succ, List.getElem?_cons_zero, Option.some.injEq, lockCall,
          Instruction.mk.injEq, InstrKind.Call.injEq] at hi
        obtain ⟨⟨hst, _, hargs⟩, _⟩ := hi
        subst hst
        subst hargs
        simp only [callOuts, List.mem_singleton] at ho
        subst ho
        exact ⟨fun _ => by simp, fun hl => absurd rfl hl⟩
      | 2, hi => simp [ret] at hi
      | n + 3, hi => simp at hi
    | n + 1, hblk => simp at hblk
  · intro b blk hblk b2 hb2
    rw [hblocks, afterEitherFn] at hblk
    match b, hblk with
    | 0, hblk =>
      simp only [List.getElem?_cons_zero, Option.some.injEq] at hblk
      subst hblk
      simp at hb2
    | n + 1, hblk => simp at hblk
  · intro b vs vs2 h1 h2
    have hnil : ∀ c v, Enters ordProg listOps 15 c v → v = [] := by
      intro c v h
      cases h with
      | entry => rfl
      | step b1 blk vs1 succs i b2 vs3 _ hblk hf hi _ =>
        exfalso
        rw [hblocks, afterEitherFn] at hblk
        match b1, hblk with
        | 0, hblk =>
          simp only [List.getElem?_cons_zero, Option.some.injEq] at hblk
          subst hblk
          have hsub := pruneSuccs_sub _ _ _ hf _ (List.getElem?_mem hi)
          simp at hsub
        | n + 1, hblk => simp at hblk
    rw [hnil b vs h1, hnil b vs2 h2]

theorem orderly_ord (g : FuncId) (hg : ordRank g ≤ ordRank 15) :
    Orderly ordProg listOps ordRank (ordDep g) g := by
  by_cases h15 : g = 15
  · subst h15; exact orderly_afterEither
  · by_cases h10 : g = 10
    · subst h10; exact orderly_either
    · apply orderly_external
      have h17 : g ≠ 17 := by intro e; subst e; simp [ordRank] at hg
      have h18 : g ≠ 18 := by intro e; subst e; simp [ordRank] at hg
      have h19 : g ≠ 19 := by intro e; subst e; simp [ordRank] at hg
      show (ordFuncs g).Blocks = []
      unfold ordFuncs
      split <;> first | rfl | contradiction

theorem keysOf_after_orders :
    keysOf (walkFunction ordEnv 5 15 NewSet initState) = some ["3", "2"] ∧
    keysOf (walkFunction ordEnvRev 5 15 NewSet initState) = some ["2", "3"] := by
  decide!

theorem keysOf_join_orders :
    keysOf (walkFunction ordEnv 8 17 NewSet initState) = some ["3", "1", "2", "0"] ∧
    keysOf (walkFunction ordEnvRev 8 17 NewSet initState) = some ["2", "0", "1"] := by
  decide!

theorem keysOf_loop_orders :
    keysOf (walkFunction blindEnv 8 19 NewSet initState) = some ["3", "5", "4"] ∧
    keysOf (walkFunction blindEnvRev 8 19 NewSet initState) = some ["3", "5", "2"] := by
  decide!

/-- The runs of the witness of C9 (amended) do meet the members of a frontier in
different orders: function 15 of `ordProg` is `func h() { p(); lock(&m) }`, the call of
`p` (`func p(c bool) { if c { lock(&b) } }`) leaves the two locksets `{b}` and `{}` in
the frontier, and the loop over them at `lock(&m)` yields `{b, m}` (key "3") before
`{m}` (key "2") in stored order and after it in reverse order. -/
theorem walkFunction_order_met :
    (∀ fuel, 5 ≤ fuel → keysOf (walkFunction ordEnv fuel 15 NewSet initState) = some ["3", "2"]) ∧
    (∀ fuel, 5 ≤ fuel →
      keysOf (walkFunction ordEnvRev fuel 15 NewSet initState) = some ["2", "3"]) :=
  ⟨fun fuel h => keysOf_mono ordEnv 5 fuel h 15 NewSet initState _ keysOf_after_orders.1,
    fun fuel h => keysOf_mono ordEnvRev 5 fuel h 15 NewSet initState _ keysOf_after_orders.2⟩

/-- Why C9 (amended) asks for one value state per block: function 17 of `ordProg` has
neither recursion nor a cycle, and its block 3 is a join that is entered with different
value states (`x` true and `x` false) under the same lockset `{b}`.  The value `x` is not
in the live set of block 3 (a gap of `livenessFor` at joins), so the memoization check of
`walkBlock` finds the two states equal and walks block 3 for the one that comes first,
which depends on the order of the frontier `{b}, {}` after the call in block 0: the runs
in stored and in reverse order return the key sets `{"3", "1", "2", "0"}` and
`{"2", "0", "1"}`, with any fuel from 8 on. -/
theorem walkFunction_order_join :
    (∀ fuel, 8 ≤ fuel →
      keysOf (walkFunction ordEnv fuel 17 NewSet initState) = some ["3", "1", "2", "0"]) ∧
    (∀ fuel, 8 ≤ fuel →
      keysOf (walkFunction ordEnvRev fuel 17 NewSet initState) = some ["2", "0", "1"]) :=
  ⟨fun fuel h => keysOf_mono ordEnv 8 fuel h 17 NewSet initState _ keysOf_join_orders.1,
    fun fuel h => keysOf_mono ordEnvRev 8 fuel h 17 NewSet initState _ keysOf_join_orders.2⟩

/-- Why C9 (amended) asks for control-flow graphs without a cycle: function 19 of
`ordProg` calls `p` and then the loop `q` (function 18), without recursion, and with the
value state `blindOps` every block is entered with one value state only.  The walks of
`q` from `{b}` and from `{}` stop at different blocks of the loop that are still being
walked, so that they meet the labels `m` and `y` in different orders; the walk that comes
first decides which label gets the lower bit.  The runs in stored and in reverse order
return the key sets `{"3", "5", "4"}` and `{"3", "5", "2"}`, with any fuel from 8 on. -/
theorem walkFunction_order_loop :
    (∀ fuel, 8 ≤ fuel →
      keysOf (walkFunction blindEnv fuel 19 NewSet initState) = some ["3", "5", "4"]) ∧
    (∀ fuel, 8 ≤ fuel →
      keysOf (walkFunction blindEnvRev fuel 19 NewSet initState) = some ["3", "5", "2"]) :=
  ⟨fun fuel h => keysOf_mono blindEnv 8 fuel h 19 NewSet initState _ keysOf_loop_orders.1,
    fun fuel h => keysOf_mono blindEnvRev 8 fuel h 19 NewSet initState _ keysOf_loop_orders.2⟩

theorem walkFunction_order_witness :
    ((∀ l : List (LockSetKey × LockSet), (id l).Perm l) ∧
      (∀ l : List (LockSetKey × LockSet), (List.reverse l).Perm l) ∧
      (∀ g, ordRank g ≤ ordRank 15 → Orderly ordProg listOps ordRank (ordDep g) g) ∧
      initState.fns = []) ∧
    ∃ n, ∀ fuel, n ≤ fuel → ∃ R1 s1 R2 s2,
      walkFunction ⟨ordProg, listOps, id⟩ fuel 15 NewSet initState = .ok (some R1, s1) ∧
      walkFunction ⟨ordProg, listOps, List.reverse⟩ fuel 15 NewSet initState =
        .ok (some R2, s2) ∧
      R1.keys = R2.keys ∧ (∀ e, e ∈ R1.M ↔ e ∈ R2.M) ∧ s1.sp = s2.sp :=
  ⟨⟨fun l => List.Perm.refl l, fun l => List.reverse_perm l, orderly_ord, rfl⟩,
    walkFunction_order ordProg listOps id List.reverse (fun l => List.Perm.refl l)
      (fun l => List.reverse_perm l) ordRank ordDep 15 orderly_ord NewSet initState rfl⟩

theorem selfOrExternal_condSelf : SelfOrExternal exProg 13 := by
  intro b blk idx static fn args pos hb hi
  have hblocks : (exProg.funcs 13).Blocks = condSelfFn.Blocks := rfl
  rw [hblocks, condSelfFn] at hb
  match b, hb with
  | 0, hb =>
    simp only [List.getElem?_cons_zero, Option.some.injEq] at hb
    subst hb
    match idx, hi with
    | 0, hi => simp at hi
    | n + 1, hi => simp at hi
  | 1, hb =>
    simp only [List.getElem?_cons_succ, List.getElem?_cons_zero, Option.some.injEq] at hb
    subst hb
    match idx, hi with
    | 0, hi =>
      simp only [List.getElem?_cons_zero, Option.some.injEq, Instruction.mk.injEq,
        InstrKind.Call.injEq] at hi
      obtain ⟨⟨h1, _, _⟩, _⟩ := hi
      subst h1
      refine ⟨by simp [callOuts], ?_⟩
      intro o ho
      have ho13 : o = 13 := by simpa [callOuts] using ho
      subst ho13
      exact ⟨by decide, by decide, Or.inl rfl⟩
    | 1, hi => simp at hi
    | n + 2, hi => simp at hi
  | 2, hb =>
    simp only [List.getElem?_cons_succ, List.getElem?_cons_zero, Option.some.injEq] at hb
    subst hb
    match idx, hi with
    | 0, hi => simp [ret] at hi
    | n + 1, hi => simp at hi
  | n + 3, hb => simp at hb

theorem wellFormed_condSelf : WellFormed (exProg.funcs 13) := by
  intro blk hblk
  have hblocks : (exProg.funcs 13).Blocks = condSelfFn.Blocks := rfl
  have hlen : (exProg.funcs 13).Blocks.length = 3 := rfl
  rw [hblocks, condSelfFn] at hblk
  simp only [List.mem_cons, List.mem_singleton, List.not_mem_nil, or_false] at hblk
  rcases hblk with h | h | h <;> subst h
  · refine ⟨by simp [hlen], ?_, by simp⟩
    intro instr hin edges hk
    simp only [List.mem_singleton] at hin
    subst hin
    simp at hk
  · refine ⟨by simp [hlen], ?_, by simp⟩
    intro instr hin edges hk
    simp only [List.mem_cons, List.mem_singleton, List.not_mem_nil, or_false] at hin
    rcases hin with h | h <;> subst h <;> simp at hk
  · refine ⟨by simp, ?_, ?_⟩
    · intro instr hin edges hk
      simp only [List.mem_singleton] at hin
      subst hin
      simp [ret] at hk
    · rintro ⟨instr, hin, c, hk⟩
      simp only [List.mem_singleton] at hin
      subst hin
      simp [ret] at hk

theorem arises_condSelf_entry (b : Nat) (vs : List (Value × DynConst))
    (h : Arises exEnv 13 b vs) (hb : b = 0) : vs = [] := by
  cases h with
  | entry => rfl
  | step b1 blk vs1 succs i b2 vs2 _ hblk _ hpr hi _ =>
    exfalso
    have hmem := pruneSuccs_sub _ _ _ hpr _ (List.getElem?_mem hi)
    rw [hb] at hmem
    have hblocks : (exEnv.prog.funcs 13).Blocks = condSelfFn.Blocks := rfl
    rw [hblocks, condSelfFn] at hblk
    match b1, hblk with
    | 0, hblk => simp at hblk; subst hblk; simp at hmem
    | 1, hblk => simp at hblk; subst hblk; simp at hmem
    | 2, hblk => simp at hblk; subst hblk; simp at hmem
    | n + 3, hblk => simp at hblk

theorem direct_condSelf : Direct exEnv 13 2 ∧ Records exProg 13 2 := by
  refine ⟨Direct.step 0 ⟨[⟨.If (.Parameter 0), 0⟩], [], [1, 2]⟩ 2 Direct.entry rfl rfl ?_
    (by simp), ⟨⟨[ret], [0, 1], []⟩, rfl, rfl⟩⟩
  intro blk vs hblk ha
  have hvs := arises_condSelf_entry 0 vs ha rfl
  subst hvs
  have hblocks : (exEnv.prog.funcs 13).Blocks = condSelfFn.Blocks := rfl
  rw [hblocks, condSelfFn] at hblk
  simp only [List.getElem?_cons_zero, Option.some.injEq] at hblk
  subst hblk
  rfl

theorem walkFunction_self_witness :
    ∃ n r s1, (∀ fuel, n ≤ fuel → walkFunction exEnv fuel 13 NewSet initState = .ok (some r, s1)) ∧
      (r.M = [(NewSet.Key, NewSet)] ∨ r.M = []) ∧
      ((∃ b, Direct exEnv 13 b ∧ Records exEnv.prog 13 b) → r.M = [(NewSet.Key, NewSet)]) ∧
      ((¬ ∃ b vs, Arises exEnv 13 b vs ∧ Records exEnv.prog 13 b) → r.M = []) ∧
      ((∀ b, Undecided exEnv 13 b) →
        (r.M = [(NewSet.Key, NewSet)] ↔ ∃ b, Passes exEnv.prog 13 b ∧ Records exEnv.prog 13 b)) :=
  walkFunction_self exEnv 13 initState (fun l => List.Perm.refl l) selfOrExternal_condSelf
    wellFormed_condSelf (by decide) ⟨5, [[.Parameter 0], [], []], rfl⟩
    (fun b hb => by
      have hb3 : b < 3 := hb
      interval_cases b
      · exact ⟨3, 0, rfl⟩
      · exact ⟨3, 1, rfl⟩
      · exact ⟨3, 0, rfl⟩)
    rfl

set_option maxRecDepth 100000 in
set_option maxHeartbeats 4000000 in
theorem keysOf_self_callee :
    keysOf (walkFunction exEnv 8 14 NewSet initState) = some ["1"] := by
  simp [exEnv, walkFunction, walkBlock, walkBlockBody, walkBlockRun, resolveCond, logPos, exitPos, lastPos,
    firstVisit, livenessFor, doVals, doInstr, doInstrBody, doRands, doPhiEdges, walk, walkBody,
    walkPreds, depsAdd, ifInstrsFrom, Instruction.Operands, memoOf, setMemo, mapGet, mapSet,
    cacheStop, doInstructions, doInstruction, doOuts, callOuts, callAll, plusAll, minusAll,
    pruneSuccs, walkFrontier, walkSuccs, succState, phiInstrs, phiEdges,
    LockSet.Plus, LockSet.Minus, plusLoop, minusLoop, StringSpace.Intern, Bit_table, SetBit_table,
    LockSetSet.Add, LockSetSet.Union, unionLoop, NewLockSetSet, NewSet, NewStringSpace,
    Key_0, Key_1, Key_2, Key_3, exProg, exFuncs, exPta, condCallFn, unbalancedFn,
    lockCall, unlockCall, plainCall, ret, listOps, initState, keysOf]

/-- C5 (counterexample): the walk of `func f() { f() }` from the empty lockset in the
initial state returns, with any fuel from 2 on, the `LockSetSet` without any
member, not the one whose sole member is the empty lockset. -/
theorem walkFunction_self_empty :
    walkFunction exEnv 2 6 NewSet initState = .ok (some { M := [] }, selfDone) ∧
    (∀ fuel, 2 ≤ fuel →
      walkFunction exEnv fuel 6 NewSet initState = .ok (some { M := [] }, selfDone)) :=
  ⟨rfl, fun fuel h => walkFunction_mono_le exEnv 2 fuel h 6 NewSet initState _ rfl⟩

/-! ## The memo across walks in progress -/

theorem later_balancedThenInside :
    Later exEnv (fun _ _ => True) balancedDone balancedThenInside := by
  have h := @Later.enter _ exEnv (fun _ _ => True) balancedDone balancedDone
    { fns := [(2, { exitLockSets := [("0", some ⟨[("0", ⟨0⟩)]⟩)], ifDeps := [[]] }),
              (3, { exitLockSets := [], ifDeps := [[]] })]
      stack := []
      sp := { m := [("b", 0)], s := ["b"] } } 2 3 NewSet (Later.refl _) rfl (by decide) rfl
  exact h

theorem walkFunction_memoized_witness :
    walkFunction exEnv 1 2 NewSet balancedThenInside =
      .ok (some { M := [("0", { bits := 0 })] }, balancedThenInside) :=
  walkFunction_memoized exEnv 2 2 NewSet initState balancedDone
    (some { M := [("0", { bits := 0 })] }) (by decide) rfl (fun _ _ => True)
    (fun h => by cases h) balancedThenInside later_balancedThenInside NewSet rfl 0

theorem later_condDone : Later exEnv (fun _ _ => True) condMid condDone := by
  have h := @Later.leave _ exEnv (fun _ _ => True) condMid condMid 13 "0"
    ⟨[("0", ⟨0⟩)]⟩ (Later.refl _) trivial rfl
  exact h

/-- C8 (counterexample): in the walk of `func f(c bool) { if c { f(c) } }` from the
empty lockset, which starts in `initState` and ends in `condDone` with the result
`{∅}`, the recursive call `walkFunction(f, ∅)` is made in the state `condMid`, finds
the nil placeholder and returns nil; once the walk has ended, the same call returns
`{∅}`: not what the first completed call returned. -/
theorem walkFunction_memo_placeholder :
    walkFunction exEnv 7 13 NewSet initState = .ok (some ⟨[("0", ⟨0⟩)]⟩, condDone) ∧
    walkFunction exEnv 1 13 NewSet condMid = .ok (none, condMid) ∧
    Later exEnv (fun _ _ => True) condMid condDone ∧
    walkFunction exEnv 1 13 NewSet condDone = .ok (some ⟨[("0", ⟨0⟩)]⟩, condDone) :=
  ⟨by rfl, by rfl, later_condDone, by rfl⟩

/-! ## The value state handed to a successor -/

theorem walkBlockRun_true_edge {VS : Type} (env : Env VS)
    (wf : FuncId → LockSet → State → Except Halt (Option LockSetSet × State))
    (exitPosF : Nat → Except Halt Nat)
    (rec : Nat → VS → LockSet → Walk VS → Except Halt (Walk VS))
    (f b : Nat) (pre : List Instruction) (cond : Value) (p0 : Nat) (preds : List Nat)
    (t e : Nat) (tblk : BasicBlock) (vs : VS) (L : LockSet) (w : Walk VS) (pp : Nat)
    (hpre : ∀ i ∈ pre, i.isOther = true)
    (hrange : ∀ l, (env.range l).Perm l)
    (hget : env.ops.Get (runDo env.ops b 0 (pre ++ [⟨.If cond, p0⟩]) vs) cond = some ⟨true⟩)
    (hpos : exitPosF b = .ok pp)
    (ht : (env.prog.funcs f).Blocks[t]? = some tblk)
    (hphi : ∀ i, tblk.Instrs.head? = some i → ∀ es, i.kind ≠ .Phi es) :
    walkBlockRun env wf exitPosF rec f b ⟨pre ++ [⟨.If cond, p0⟩], preds, [t, e]⟩ vs L w =
      rec t (env.ops.Extend (runDo env.ops b 0 (pre ++ [⟨.If cond, p0⟩]) vs) cond { c := true })
        L { s := w.s,
            blockCache := mapSet w.blockCache (b, L.Key)
              ((mapGet w.blockCache (b, L.Key)).getD [] ++ [vs]),
            exitLockSets := w.exitLockSets } := by
  have hrun : runDo env.ops b 0 (pre ++ [⟨.If cond, p0⟩]) vs =
      env.ops.Do (runDo env.ops b 0 pre vs) (b, pre.length) ⟨.If cond, p0⟩ := by
    rw [runDo_append]; simp [runDo]
  rw [hrun] at hget ⊢
  simp only [walkBlockRun, doInstructions_pre _ _ _ _ _ _ _ _ hpre, Nat.zero_add,
    doInstructions, doInstruction, resolveCond, hget, logPos, hpos, pruneSuccs,
    NewLockSetSet, LockSetSet.Add, mapSet, range_single env hrange, walkFrontier, walkSuccs,
    succState, ht, phiInstrs_noPhi _ _ _ _ _ _ _ hphi, if_true,
    beq_self_eq_true]
  cases rec t _ L _ <;> rfl

theorem walkBlockRun_both_edges {VS : Type} (env : Env VS)
    (wf : FuncId → LockSet → State → Except Halt (Option LockSetSet × State))
    (exitPosF : Nat → Except Halt Nat)
    (rec : Nat → VS → LockSet → Walk VS → Except Halt (Walk VS))
    (f b : Nat) (pre : List Instruction) (cond : Value) (p0 : Nat) (preds : List Nat)
    (t e : Nat) (tblk eblk : BasicBlock) (vs : VS) (L : LockSet) (w : Walk VS)
    (hpre : ∀ i ∈ pre, i.isOther = true)
    (hrange : ∀ l, (env.range l).Perm l)
    (hget : env.ops.Get (runDo env.ops b 0 (pre ++ [⟨.If cond, p0⟩]) vs) cond = none)
    (ht : (env.prog.funcs f).Blocks[t]? = some tblk)
    (hphit : ∀ i, tblk.Instrs.head? = some i → ∀ es, i.kind ≠ .Phi es)
    (he : (env.prog.funcs f).Blocks[e]? = some eblk)
    (hphie : ∀ i, eblk.Instrs.head? = some i → ∀ es, i.kind ≠ .Phi es) :
    walkBlockRun env wf exitPosF rec f b ⟨pre ++ [⟨.If cond, p0⟩], preds, [t, e]⟩ vs L w =
      match rec t
          (env.ops.Extend (runDo env.ops b 0 (pre ++ [⟨.If cond, p0⟩]) vs) cond { c := true })
          L { s := w.s,
              blockCache := mapSet w.blockCache (b, L.Key)
                ((mapGet w.blockCache (b, L.Key)).getD [] ++ [vs]),
              exitLockSets := w.exitLockSets } with
      | .error x => .error x
      | .ok w1 =>
        rec e
          (env.ops.Extend (runDo env.ops b 0 (pre ++ [⟨.If cond, p0⟩]) vs) cond { c := false })
          L w1 := by
  have hrun : runDo env.ops b 0 (pre ++ [⟨.If cond, p0⟩]) vs =
      env.ops.Do (runDo env.ops b 0 pre vs) (b, pre.length) ⟨.If cond, p0⟩ := by
    rw [runDo_append]; simp [runDo]
  rw [hrun] at hget ⊢
  simp only [walkBlockRun, doInstructions_pre _ _ _ _ _ _ _ _ hpre, Nat.zero_add,
    doInstructions, doInstruction, resolveCond, hget, logPos, pruneSuccs,
    NewLockSetSet, LockSetSet.Add, mapSet, range_single env hrange, walkFrontier, walkSuccs,
    succState, ht, he, phiInstrs_noPhi _ _ _ _ _ _ _ hphit, phiInstrs_noPhi _ _ _ _ _ _ _ hphie,
    beq_self_eq_true]
  cases rec t _ L _ with
  | error x => rfl
  | ok w1 =>
    simp only [Nat.zero_add, Nat.reduceBEq, Nat.reduceEqDiff, beq_iff_eq, one_ne_zero]
    cases rec e _ L w1 <;> simp

/-- C18: when the condition of the `If` that ends a block is resolved to false, the
only successor walked is the false target `e`, and the value state handed to it is
the state at the end of the block extended with the condition bound to true: the
index `i` of `i == 0` counts in the pruned slice `succs[1:]`, in which the false
target comes first. -/
theorem walkBlockRun_false_edge {VS : Type} (env : Env VS)
    (wf : FuncId → LockSet → State → Except Halt (Option LockSetSet × State))
    (exitPosF : Nat → Except Halt Nat)
    (rec : Nat → VS → LockSet → Walk VS → Except Halt (Walk VS))
    (f b : Nat) (pre : List Instruction) (cond : Value) (p0 : Nat) (preds : List Nat)
    (t e : Nat) (eblk : BasicBlock) (vs : VS) (L : LockSet) (w : Walk VS) (pp : Nat)
    (hpre : ∀ i ∈ pre, i.isOther = true)
    (hrange : ∀ l, (env.range l).Perm l)
    (hget : env.ops.Get (runDo env.ops b 0 (pre ++ [⟨.If cond, p0⟩]) vs) cond = some ⟨false⟩)
    (hpos : exitPosF b = .ok pp)
    (he : (env.prog.funcs f).Blocks[e]? = some eblk)
    (hphi : ∀ i, eblk.Instrs.head? = some i → ∀ es, i.kind ≠ .Phi es) :
    walkBlockRun env wf exitPosF rec f b ⟨pre ++ [⟨.If cond, p0⟩], preds, [t, e]⟩ vs L w =
      rec e (env.ops.Extend (runDo env.ops b 0 (pre ++ [⟨.If cond, p0⟩]) vs) cond { c := true })
        L { s := w.s,
            blockCache := mapSet w.blockCache (b, L.Key)
              ((mapGet w.blockCache (b, L.Key)).getD [] ++ [vs]),
            exitLockSets := w.exitLockSets } := by
  have hrun : runDo env.ops b 0 (pre ++ [⟨.If cond, p0⟩]) vs =
      env.ops.Do (runDo env.ops b 0 pre vs) (b, pre.length) ⟨.If cond, p0⟩ := by
    rw [runDo_append]; simp [runDo]
  rw [hrun] at hget ⊢
  simp only [walkBlockRun, doInstructions_pre _ _ _ _ _ _ _ _ hpre, Nat.zero_add,
    doInstructions, doInstruction, resolveCond, hget, logPos, hpos, pruneSuccs,
    NewLockSetSet, LockSetSet.Add, mapSet, range_single env hrange, walkFrontier, walkSuccs,
    succState, he, phiInstrs_noPhi _ _ _ _ _ _ _ hphi, Bool.false_eq_true, if_false,
    beq_self_eq_true]
  cases rec e _ L _ <;> rfl

theorem walkBlockRun_false_edge_witness :
    walkBlockRun exEnv (walkFunction exEnv 0) (exitPos twiceFn 3) (walkBlock exEnv (walkFunction exEnv 0) 12 3)
        12 2 ⟨[] ++ [⟨.If (.Parameter 0), 0⟩], [0], [3, 4]⟩ [(.Parameter 0, ⟨false⟩)] NewSet
        ⟨initState, [], NewLockSetSet⟩ =
      walkBlock exEnv (walkFunction exEnv 0) 12 3 4
        (listOps.Extend (runDo listOps 2 0 ([] ++ [⟨.If (.Parameter 0), 0⟩])
          [(.Parameter 0, ⟨false⟩)]) (.Parameter 0) { c := true })
        NewSet
        { s := initState,
          blockCache := mapSet [] (2, NewSet.Key) ((mapGet ([] : List ((Nat × LockSetKey) ×
            List (List (Value × DynConst)))) (2, NewSet.Key)).getD [] ++
            [[(.Parameter 0, ⟨false⟩)]]),
          exitLockSets := NewLockSetSet } :=
  walkBlockRun_false_edge exEnv (walkFunction exEnv 0) (exitPos twiceFn 3)
    (walkBlock exEnv (walkFunction exEnv 0) 12 3) 12 2 [] (.Parameter 0) 0 [0] 3 4
    ⟨[⟨.If (.Parameter 0), 0⟩], [2], [5, 6]⟩ [(.Parameter 0, ⟨false⟩)] NewSet
    ⟨initState, [], NewLockSetSet⟩ 0
    (by simp) (fun l => List.Perm.refl l) rfl rfl rfl (fun i h es => by cases h; simp)

set_option maxRecDepth 100000 in
set_option maxHeartbeats 4000000 in
theorem keysOf_twice :
    keysOf (walkFunction exEnv 7 12 NewSet initState) = some ["0", "1"] := by
  simp [exEnv, walkFunction, walkBlock, walkBlockBody, walkBlockRun, resolveCond, logPos, exitPos, lastPos,
    firstVisit, livenessFor, doVals, doInstr, doInstrBody, doRands, doPhiEdges, walk, walkBody,
    walkPreds, depsAdd, ifInstrsFrom, Instruction.Operands, memoOf, setMemo, mapGet, mapSet,
    cacheStop, doInstructions, doInstruction, doOuts, callOuts, callAll, plusAll, minusAll,
    pruneSuccs, walkFrontier, walkSuccs, succState, phiInstrs, phiEdges,
    LockSet.Plus, LockSet.Minus, plusLoop, minusLoop, StringSpace.Intern, Bit_table, SetBit_table,
    LockSetSet.Add, LockSetSet.Union, unionLoop, NewLockSetSet, NewSet, NewStringSpace,
    Key_0, Key_1, Key_2, Key_3, exProg, exFuncs, exPta, twiceFn,
    lockCall, unlockCall, plainCall, ret, listOps, initState, keysOf]

/-- The function 12 of the example program,
`func f(c bool) { if c { return }; if c { return }; if c { lock(&b); return }; return }`,
walked from the empty lockset returns the key set `{"0", "1"}`: the exit with `b` held
is reached through the false edge of the second `if c`, on which `c` is bound to true. -/
theorem walkFunction_twice (fuel : Nat) :
    keysOf (walkFunction exEnv (fuel + 7) 12 NewSet initState) = some ["0", "1"] :=
  keysOf_mono exEnv 7 (fuel + 7) (by omega) 12 NewSet initState _ keysOf_twice
/-! ## Liveness through phis -/

/-- C19: in
`func f(p int, c bool) { y := false; if c { y = p > 0 } else { }; if y { return }; return }`
the decision `if y` reaches the phi `y = phi [t, false]`, whose operand `t = p > 0`
is instruction 0 of block 1; `livenessFor` on the function's `If`s returns, and in
its result the operand `p` of `t` is not live in block 1, nor anywhere else: the phi
case of `doInstr` calls itself on the phi again, not on the operand. -/
theorem livenessFor_phi_operand (fuel : Nat) :
    livenessFor (fuel + 3) phiFn (ifInstrsFrom 0 phiFn.Blocks) =
      .ok [[.Parameter 1], [.Instr 1 0], [.Const 0], [.Instr 3 0, .Instr 1 0, .Const 0], [], []] :=
  livenessFor_mono_le 3 (fuel + 3) (by omega) _ _ _ rfl

/-- C20: in
`func f(p bool) { x := g(); y := 0; if p { y = x } else { }; if y < x { return }; return }`
the value `x`, defined in block 0, is an operand of the comparison in block 3, and block
2 lies between the two; `livenessFor` on the function's `If`s does not mark `x` live
in block 2 when the comparison lists the phi `y` before `x`, and does when it lists
`x` first: the phi case marks `x` in block 3 and walks one predecessor only, and the
later walk from the comparison stops at the mark. -/
theorem livenessFor_join (fuel : Nat) :
    livenessFor (fuel + 5) (joinFn [some (.Instr 3 0), some (.Instr 0 0)])
        (ifInstrsFrom 0 (joinFn [some (.Instr 3 0), some (.Instr 0 0)]).Blocks) =
      .ok [[.Parameter 0, .Instr 0 0, .Function 8], [.Instr 0 0], [.Const 0],
        [.Instr 3 1, .Instr 3 0, .Instr 0 0, .Const 0], [], []] ∧
    livenessFor (fuel + 5) (joinFn [some (.Instr 0 0), some (.Instr 3 0)])
        (ifInstrsFrom 0 (joinFn [some (.Instr 0 0), some (.Instr 3 0)]).Blocks) =
      .ok [[.Parameter 0, .Instr 0 0, .Function 8], [.Instr 0 0], [.Instr 0 0, .Const 0],
        [.Instr 3 1, .Instr 0 0, .Instr 3 0, .Const 0], [], []] :=
  ⟨livenessFor_mono_le 5 (fuel + 5) (by omega) _ _ _ rfl,
    livenessFor_mono_le 5 (fuel + 5) (by omega) _ _ _ rfl⟩
/-! ## The backward walk of `livenessFor` -/

theorem Marked_depsAdd (deps : Deps) (i : Nat) (v d : Value) (b : Nat) (hi : i < deps.length) :
    Marked (depsAdd deps i v) d b ↔ Marked deps d b ∨ (b = i ∧ d = v) := by
  unfold depsAdd Marked
  by_cases hv : v ∈ deps.getD i []
  · rw [if_pos hv]
    constructor
    · exact Or.inl
    · rintro (h | ⟨rfl, rfl⟩)
      · exact h
      · exact hv
  · rw [if_neg hv]
    by_cases hb : b = i
    · subst hb
      simp [List.getD_eq_getElem?_getD, List.getElem?_set, hi]
    · have : (deps.set i (deps.getD i [] ++ [v])).getD b [] = deps.getD b [] := by
        simp [List.getD_eq_getElem?_getD, List.getElem?_set, Ne.symm hb]
      rw [this]
      constructor
      · exact Or.inl
      · rintro (h | ⟨h, _⟩)
        · exact h
        · exact absurd h hb

theorem unmarked_le (n : Nat) (deps deps1 : Deps) (d : Value)
    (h : ∀ b, Marked deps d b → Marked deps1 d b) : unmarked n deps1 d ≤ unmarked n deps d := by
  apply Finset.card_le_card
  intro b hb
  simp only [Finset.mem_filter] at hb ⊢
  exact ⟨hb.1, fun hm => hb.2 (h b hm)⟩

theorem unmarked_lt (n : Nat) (deps : Deps) (d : Value) (u : Nat) (hu : u < n)
    (hlen : deps.length = n) (hm : ¬ Marked deps d u) :
    unmarked n (depsAdd deps u d) d < unmarked n deps d := by
  apply Finset.card_lt_card
  constructor
  · intro b hb
    simp only [Finset.mem_filter] at hb ⊢
    exact ⟨hb.1, fun h => hb.2 ((Marked_depsAdd deps u d d b (hlen ▸ hu)).2 (Or.inl h))⟩
  · intro hsub
    have : u ∈ (Finset.range n).filter (fun b => ¬ Marked deps d b) := by
      simp only [Finset.mem_filter, Finset.mem_range]
      exact ⟨hu, hm⟩
    have h2 := hsub this
    simp only [Finset.mem_filter] at h2
    exact h2.2 ((Marked_depsAdd deps u d d u (hlen ▸ hu)).2 (Or.inr ⟨rfl, rfl⟩))

theorem unmarked_le_n (n : Nat) (deps : Deps) (d : Value) : unmarked n deps d ≤ n := by
  unfold unmarked
  calc _ ≤ (Finset.range n).card := Finset.card_le_card (Finset.filter_subset _ _)
    _ = n := Finset.card_range n

theorem Reaches.weaken {fn : Function} {d : Value} {deps deps1 : Deps} {u b : Nat}
    (h : Reaches fn d deps1 u b) (hk : ∀ c, Marked deps d c → Marked deps1 d c) :
    Reaches fn d deps u b := by
  induction h with
  | start hm => exact Reaches.start (fun h => hm (hk _ h))
  | step c b _ hs hp hm ih => exact Reaches.step c b ih hs hp (fun h => hm (hk _ h))

theorem Reaches.from_pred {fn : Function} {d : Value} {deps : Deps} {u p b : Nat}
    (h : Reaches fn d deps p b) (hu : ¬ Marked deps d u) (hs : stopsAt fn d u = false)
    (hp : p ∈ predsOf fn u) : Reaches fn d deps u b := by
  induction h with
  | start hm => exact Reaches.step u p (Reaches.start hu) hs hp hm
  | step c b _ hs1 hp1 hm ih => exact Reaches.step c b ih hs1 hp1 hm

theorem walkBody_eq (fn : Function) (rec : Value → Nat → Deps → Except Halt Deps)
    (d : Value) (use : Nat) (deps : Deps) (ub : BasicBlock) (hb : fn.Blocks[use]? = some ub) :
    walkBody fn rec d use deps =
      if Marked deps d use then .ok deps
      else if stopsAt fn d use = true then .ok (depsAdd deps use d)
      else if predsOf fn use = [] then .error .fatal
      else walkPreds rec d (predsOf fn use) (depsAdd deps use d) := by
  have hp : predsOf fn use = ub.Preds := by simp [predsOf, hb]
  unfold walkBody
  simp only [hb, Marked, hp]
  cases d <;> simp [stopsAt, hp, List.length_eq_zero]

theorem walkPreds_spec (fn : Function) (d : Value) (F : Nat)
    (rec : Value → Nat → Deps → Except Halt Deps)
    (hrec : ∀ use deps, use < fn.Blocks.length → deps.length = fn.Blocks.length →
      unmarked fn.Blocks.length deps d < F → WalkSpec fn d use deps (rec d use deps))
    (ps : List Nat) (deps : Deps) (hps : ∀ p ∈ ps, p < fn.Blocks.length)
    (hlen : deps.length = fn.Blocks.length) (hm : unmarked fn.Blocks.length deps d < F) :
    (∃ deps1, walkPreds rec d ps deps = .ok deps1 ∧ LoopPost fn d deps ps deps1) ∨
    (walkPreds rec d ps deps = .error .fatal ∧
      ∃ p ∈ ps, ∃ b, Reaches fn d deps p b ∧ stopsAt fn d b = false ∧ predsOf fn b = []) := by
  induction ps generalizing deps with
  | nil =>
    exact Or.inl ⟨deps, rfl, ⟨rfl, fun _ _ h => h, fun _ _ _ h => h, fun _ h => (by cases h),
      fun b h1 h2 => absurd h1 h2, fun c h1 h2 => absurd h1 h2⟩⟩
  | cons p rest ih =>
    have hp := hps p (List.mem_cons_self _ _)
    rcases hrec p deps hp hlen hm with ⟨deps2, hr, post⟩ | ⟨hr, b, hb, hbad⟩
    · have hlen2 : deps2.length = fn.Blocks.length := post.length.trans hlen
      have hm2 : unmarked fn.Blocks.length deps2 d < F :=
        lt_of_le_of_lt (unmarked_le _ _ _ _ (post.keeps d)) hm
      rcases ih deps2 (fun q hq => hps q (List.mem_cons_of_mem _ hq)) hlen2 hm2 with
        ⟨deps1, hl, lp⟩ | ⟨hl, q, hq, b, hb, hbad⟩
      · refine Or.inl ⟨deps1, by simp only [walkPreds, hr, hl], ?_⟩
        refine ⟨lp.length.trans post.length, fun d1 b h => lp.keeps d1 b (post.keeps d1 b h),
          fun d1 b hne h => post.others d1 b hne (lp.others d1 b hne h), ?_, ?_, ?_⟩
        · intro q hq
          rcases List.mem_cons.1 hq with e | e
          · subst e; exact lp.keeps d q post.here
          · exact lp.preds q e
        · intro b h1 h0
          by_cases h2 : Marked deps2 d b
          · exact ⟨p, List.mem_cons_self _ _, post.reached b h2 h0⟩
          · obtain ⟨q, hq, hr2⟩ := lp.reached b h1 h2
            exact ⟨q, List.mem_cons_of_mem _ hq, hr2.weaken (post.keeps d)⟩
        · intro c h1 h0 hs
          by_cases h2 : Marked deps2 d c
          · obtain ⟨hne, hall⟩ := post.closed c h2 h0 hs
            exact ⟨hne, fun q hq => lp.keeps d q (hall q hq)⟩
          · exact lp.closed c h1 h2 hs
      · refine Or.inr ⟨by simp only [walkPreds, hr, hl], q, List.mem_cons_of_mem _ hq, b,
          hb.weaken (post.keeps d), hbad⟩
    · exact Or.inr ⟨by simp only [walkPreds, hr], p, List.mem_cons_self _ _, b, hb, hbad⟩

theorem walk_spec (fn : Function) (hv : ValidPreds fn) (d : Value) (fuel : Nat) :
    ∀ use deps, use < fn.Blocks.length → deps.length = fn.Blocks.length →
      unmarked fn.Blocks.length deps d < fuel →
      WalkSpec fn d use deps (walk fn fuel d use deps) := by
  induction fuel with
  | zero => intro use deps _ _ h; omega
  | succ F ih =>
    intro use deps hu hlen hm
    obtain ⟨ub, hb⟩ : ∃ ub, fn.Blocks[use]? = some ub := ⟨fn.Blocks[use], List.getElem?_eq_getElem hu⟩
    rw [walk, walkBody_eq fn _ d use deps ub hb]
    by_cases h0 : Marked deps d use
    · rw [if_pos h0]
      exact Or.inl ⟨deps, rfl, ⟨rfl, fun _ _ h => h, fun _ _ _ h => h, h0,
        fun b h1 h2 => absurd h1 h2, fun c h1 h2 => absurd h1 h2⟩⟩
    · rw [if_neg h0]
      have hi : use < deps.length := hlen ▸ hu
      have hadd := fun d1 b => Marked_depsAdd deps use d d1 b hi
      by_cases hs : stopsAt fn d use = true
      · rw [if_pos hs]
        refine Or.inl ⟨_, rfl, ⟨depsAdd_length _ _ _, fun d1 b h => (hadd d1 b).2 (Or.inl h), ?_,
          (hadd d use).2 (Or.inr ⟨rfl, rfl⟩), ?_, ?_⟩⟩
        · intro d1 b hne h
          rcases (hadd d1 b).1 h with h | ⟨_, e⟩
          · exact h
          · exact absurd e hne
        · intro b h1 h2
          rcases (hadd d b).1 h1 with h | ⟨e, _⟩
          · exact absurd h h2
          · subst e; exact Reaches.start h0
        · intro c h1 h2 hsc
          rcases (hadd d c).1 h1 with h | ⟨e, _⟩
          · exact absurd h h2
          · subst e; rw [hs] at hsc; cases hsc
      · rw [if_neg hs]
        have hs0 : stopsAt fn d use = false := by simpa using hs
        by_cases hp : predsOf fn use = []
        · rw [if_pos hp]
          exact Or.inr ⟨rfl, use, Reaches.start h0, hs0, hp⟩
        · rw [if_neg hp]
          have hlen1 : (depsAdd deps use d).length = fn.Blocks.length :=
            (depsAdd_length _ _ _).trans hlen
          have hm1 : unmarked fn.Blocks.length (depsAdd deps use d) d < F := by
            have := unmarked_lt fn.Blocks.length deps d use hu hlen h0
            omega
          have hk1 : ∀ c, Marked deps d c → Marked (depsAdd deps use d) d c :=
            fun c h => (hadd d c).2 (Or.inl h)
          rcases walkPreds_spec fn d F (walk fn F) (fun u2 deps2 => ih u2 deps2)
              (predsOf fn use) (depsAdd deps use d) (hv use) hlen1 hm1 with
            ⟨deps1, hl, lp⟩ | ⟨hl, q, hq, b, hb2, hbad⟩
          · refine Or.inl ⟨deps1, hl, ⟨lp.length.trans (depsAdd_length _ _ _),
              fun d1 b h => lp.keeps d1 b ((hadd d1 b).2 (Or.inl h)), ?_,
              lp.keeps d use ((hadd d use).2 (Or.inr ⟨rfl, rfl⟩)), ?_, ?_⟩⟩
            · intro d1 b hne h
              rcases (hadd d1 b).1 (lp.others d1 b hne h) with h | ⟨_, e⟩
              · exact h
              · exact absurd e hne
            · intro b h1 h2
              by_cases hbu : b = use
              · subst hbu; exact Reaches.start h0
              · have h3 : ¬ Marked (depsAdd deps use d) d b := by
                  intro h
                  rcases (hadd d b).1 h with h | ⟨e, _⟩
                  · exact h2 h
                  · exact hbu e
                obtain ⟨q, hq, hr⟩ := lp.reached b h1 h3
                exact (hr.weaken hk1).from_pred h0 hs0 hq
            · intro c h1 h2 hsc
              by_cases hcu : c = use
              · subst hcu; exact ⟨hp, lp.preds⟩
              · have h3 : ¬ Marked (depsAdd deps use d) d c := by
                  intro h
                  rcases (hadd d c).1 h with h | ⟨e, _⟩
                  · exact h2 h
                  · exact hcu e
                exact lp.closed c h1 h3 hsc
          · exact Or.inr ⟨hl, b, (hb2.weaken hk1).from_pred h0 hs0 hq, hbad⟩

theorem Reaches.unmarked {fn : Function} {d : Value} {deps : Deps} {u b : Nat}
    (h : Reaches fn d deps u b) : ¬ Marked deps d b := by
  cases h with
  | start hm => exact hm
  | step c _ _ _ _ hm => exact hm

/-- Every block that the walk reaches is marked when the walk returns. -/
theorem WalkPost.marks {fn : Function} {d : Value} {deps deps1 : Deps} {u : Nat}
    (post : WalkPost fn d deps u deps1) (b : Nat) (h : Reaches fn d deps u b) :
    Marked deps1 d b := by
  induction h with
  | start _ => exact post.here
  | step c b hc hs hp _ ih => exact (post.closed c ih hc.unmarked hs).2 b hp

theorem walk_fatal_iff_bad (fn : Function) (hv : ValidPreds fn) (d : Value) (fuel use : Nat)
    (deps : Deps) (hu : use < fn.Blocks.length) (hlen : deps.length = fn.Blocks.length)
    (hfuel : fn.Blocks.length < fuel) :
    walk fn fuel d use deps = .error .fatal ↔
      ∃ b, Reaches fn d deps use b ∧ stopsAt fn d b = false ∧ predsOf fn b = [] := by
  have hm : unmarked fn.Blocks.length deps d < fuel :=
    lt_of_le_of_lt (unmarked_le_n _ _ _) hfuel
  rcases walk_spec fn hv d fuel use deps hu hlen hm with ⟨deps1, hr, post⟩ | ⟨hr, hbad⟩
  · constructor
    · intro h; rw [hr] at h; cases h
    · rintro ⟨b, hb, hs, hp⟩
      exact absurd hp (post.closed b (post.marks b hb) hb.unmarked hs).1
  · exact ⟨fun _ => hbad, fun _ => hr⟩

theorem stopsAt_instr (fn : Function) (D i b : Nat) :
    stopsAt fn (.Instr D i) b = false ↔ b ≠ D := by
  simp only [stopsAt, beq_eq_false_iff_ne, ne_eq]
  exact ⟨fun h e => h e.symm, fun h e => h e.symm⟩

theorem stopsAt_defFree (fn : Function) (d : Value) (b : Nat) (h : d.isDefFree = true) :
    stopsAt fn d b = true := by
  cases d <;> simp_all [stopsAt, Value.isDefFree]

theorem stopsAt_entryDef (fn : Function) (d : Value) (b : Nat) (h : d.isEntryDef = true) :
    stopsAt fn d b = true ↔ predsOf fn b = [] := by
  cases d <;> simp_all [stopsAt, Value.isEntryDef, List.length_eq_zero]

theorem predsOf_ge (fn : Function) (b : Nat) (h : fn.Blocks.length ≤ b) : predsOf fn b = [] := by
  simp [predsOf, List.getElem?_eq_none h]

theorem dominates_self (fn : Function) (D : Nat) : Dominates fn D D :=
  fun _ _ hl _ => List.mem_of_getLast?_eq_some hl

theorem dominates_entry (fn : Function) (B : Nat) : Dominates fn 0 B := by
  intro path hh _ _
  cases path with
  | nil => cases hh
  | cons x xs =>
    simp only [List.head?_cons, Option.some.injEq] at hh
    subst hh
    exact List.mem_cons_self _ _

theorem validPreds_phiFn : ValidPreds phiFn := by
  intro b p hp
  by_cases hb : b < 6
  · interval_cases b <;> simp [predsOf, phiFn] at hp <;> simp [phiFn] <;> omega
  · rw [predsOf_ge phiFn b (by simp [phiFn]; omega)] at hp
    cases hp

theorem validPreds_useFn : ValidPreds useFn := by
  intro b p hp
  by_cases hb : b < 4
  · interval_cases b <;> simp [predsOf, useFn] at hp <;> simp [useFn] <;> omega
  · rw [predsOf_ge useFn b (by simp [useFn]; omega)] at hp
    cases hp
/-! ## `livenessFor`: fatal ends and termination -/

theorem Marked_nil (d : Value) (b : Nat) : ¬ Marked [] d b := by
  simp [Marked]

theorem walk_fatal_reaches (fn : Function) (d : Value) (fuel : Nat) :
    ∀ use deps, walk fn fuel d use deps = .error .fatal →
      ∃ b, Reaches fn d [] use b ∧ stopsAt fn d b = false ∧ predsOf fn b = [] := by
  induction fuel with
  | zero => intro use deps h; cases h
  | succ F ih =>
    intro use deps h
    rw [walk] at h
    cases hb : fn.Blocks[use]? with
    | none => simp [walkBody, hb] at h
    | some ub =>
      rw [walkBody_eq fn _ d use deps ub hb] at h
      split_ifs at h with h0 hs hp
      · exact ⟨use, Reaches.start (Marked_nil _ _), by simpa using hs, hp⟩
      · have hs0 : stopsAt fn d use = false := by simpa using hs
        have key : ∀ ps deps2, (∀ p ∈ ps, p ∈ predsOf fn use) →
            walkPreds (walk fn F) d ps deps2 = .error .fatal →
            ∃ b, Reaches fn d [] use b ∧ stopsAt fn d b = false ∧ predsOf fn b = [] := by
          intro ps
          induction ps with
          | nil => intro deps2 _ h2; cases h2
          | cons p rest ihp =>
            intro deps2 hps h2
            simp only [walkPreds] at h2
            cases hr : walk fn F d p deps2 with
            | error e =>
              rw [hr] at h2
              simp only at h2
              cases h2
              obtain ⟨b, hb2, hbad⟩ := ih p deps2 hr
              exact ⟨b, hb2.from_pred (Marked_nil _ _) hs0 (hps p (List.mem_cons_self _ _)), hbad⟩
            | ok deps3 =>
              rw [hr] at h2
              exact ihp deps3 (fun q hq => hps q (List.mem_cons_of_mem _ hq)) h2
        exact key _ _ (fun _ h => h) h

theorem doRands_fatal (fn : Function) (walkF : Value → Nat → Deps → Except Halt Deps)
    (rec : Nat × Nat → Live → Except Halt Live) (blk : Nat)
    (hw : ∀ d u deps, walkF d u deps = .error .fatal →
      ∃ b, Reaches fn d [] u b ∧ stopsAt fn d b = false ∧ predsOf fn b = [])
    (hrec : ∀ val st, rec val st = .error .fatal → BadReach fn)
    (rands : List (Option Value)) (hstart : ∀ d, some d ∈ rands → WalkStart fn d blk)
    (st : Live) (h : doRands walkF rec blk rands st = .error .fatal) : BadReach fn := by
  induction rands generalizing st with
  | nil => cases h
  | cons r rest ih =>
    have hrest : ∀ d, some d ∈ rest → WalkStart fn d blk :=
      fun d hd => hstart d (List.mem_cons_of_mem _ hd)
    cases r with
    | none => exact ih hrest st h
    | some rand =>
      simp only [doRands] at h
      cases hwr : walkF rand blk st.deps with
      | error e =>
        rw [hwr] at h
        simp only at h
        cases h
        obtain ⟨b, hb, hbad⟩ := hw _ _ _ hwr
        exact ⟨rand, blk, b, hstart rand (List.mem_cons_self _ _), hb, hbad⟩
      | ok deps1 =>
        rw [hwr] at h
        simp only at h
        cases rand with
        | Instr bb ii =>
          simp only at h
          cases hrr : rec (bb, ii) { st with deps := deps1 } with
          | error e =>
            rw [hrr] at h
            simp only at h
            cases h
            exact hrec _ _ hrr
          | ok st1 =>
            rw [hrr] at h
            exact ih hrest st1 h
        | Const _ => exact ih hrest _ h
        | Global _ => exact ih hrest _ h
        | Function _ => exact ih hrest _ h
        | Builtin _ => exact ih hrest _ h
        | Parameter _ => exact ih hrest _ h
        | FreeVar _ => exact ih hrest _ h

theorem doPhiEdges_fatal (fn : Function) (walkF : Value → Nat → Deps → Except Halt Deps)
    (rec : Nat × Nat → Live → Except Halt Live) (self : Nat × Nat) (preds : List Nat)
    (hw : ∀ d u deps, walkF d u deps = .error .fatal →
      ∃ b, Reaches fn d [] u b ∧ stopsAt fn d b = false ∧ predsOf fn b = [])
    (hrec : ∀ val st, rec val st = .error .fatal → BadReach fn)
    (i : Nat) (edges : List Value)
    (hstart : ∀ k d u, edges[k]? = some d → preds[i + k]? = some u → WalkStart fn d u)
    (st : Live) (h : doPhiEdges walkF rec self preds i edges st = .error .fatal) :
    BadReach fn := by
  induction edges generalizing i st with
  | nil => cases h
  | cons rand rest ih =>
    simp only [doPhiEdges] at h
    cases hp : preds[i]? with
    | none => rw [hp] at h; simp only at h; cases h
    | some pred =>
      rw [hp] at h
      simp only at h
      cases hwr : walkF rand pred (depsAdd st.deps self.1 rand) with
      | error e =>
        rw [hwr] at h
        simp only at h
        cases h
        obtain ⟨b, hb, hbad⟩ := hw _ _ _ hwr
        exact ⟨rand, pred, b, hstart 0 rand pred (by simp) (by simpa using hp), hb, hbad⟩
      | ok deps2 =>
        rw [hwr] at h
        simp only at h
        cases hrr : rec self { st with deps := deps2 } with
        | error e =>
          rw [hrr] at h
          simp only at h
          cases h
          exact hrec _ _ hrr
        | ok st1 =>
          rw [hrr] at h
          refine ih (i + 1) ?_ st1 h
          intro k d u hk hu
          refine hstart (k + 1) d u (by simpa using hk) ?_
          rw [← hu]; congr 1; omega

theorem doInstr_fatal (fn : Function) (fuel : Nat) :
    ∀ val st, doInstr fn fuel val st = .error .fatal → BadReach fn := by
  induction fuel with
  | zero => intro val st h; cases h
  | succ F ih =>
    intro val st h
    rw [doInstr] at h
    unfold doInstrBody at h
    split_ifs at h with hvis
    cases hb : fn.Blocks[val.1]? with
    | none => rw [hb] at h; simp only at h; cases h
    | some blk =>
      rw [hb] at h
      simp only at h
      cases hi : blk.Instrs[val.2]? with
      | none => rw [hi] at h; simp only at h; cases h
      | some ins =>
        rw [hi] at h
        simp only at h
        have hat : instrAt fn (val.1, val.2) = some ins := by simp [instrAt, hb, hi]
        have hpreds : predsOf fn val.1 = blk.Preds := by simp [predsOf, hb]
        cases hk : ins.kind with
        | Phi edges =>
          rw [hk] at h
          simp only at h
          refine doPhiEdges_fatal fn _ _ val blk.Preds (walk_fatal_reaches fn · F) ih 0 edges ?_ _ h
          intro k d u hkd hu
          exact ⟨val.1, val.2, ins, hat, Or.inr ⟨edges, k, hk, hkd, by
            rw [hpreds]; simpa using hu⟩⟩
        | If c =>
          rw [hk] at h
          refine doRands_fatal fn _ _ val.1 (walk_fatal_reaches fn · F) ih _ ?_ _ h
          intro d hd
          exact ⟨val.1, val.2, ins, hat, Or.inl ⟨by simp [hk], hd, rfl⟩⟩
        | Call a b c =>
          rw [hk] at h
          refine doRands_fatal fn _ _ val.1 (walk_fatal_reaches fn · F) ih _ ?_ _ h
          intro d hd
          exact ⟨val.1, val.2, ins, hat, Or.inl ⟨by simp [hk], hd, rfl⟩⟩
        | Return rs =>
          rw [hk] at h
          refine doRands_fatal fn _ _ val.1 (walk_fatal_reaches fn · F) ih _ ?_ _ h
          intro d hd
          exact ⟨val.1, val.2, ins, hat, Or.inl ⟨by simp [hk], hd, rfl⟩⟩
        | Other rs =>
          rw [hk] at h
          refine doRands_fatal fn _ _ val.1 (walk_fatal_reaches fn · F) ih _ ?_ _ h
          intro d hd
          exact ⟨val.1, val.2, ins, hat, Or.inl ⟨by simp [hk], hd, rfl⟩⟩

theorem doVals_fatal (fn : Function) (fuel : Nat) (vals : List (Nat × Nat)) (st : Live)
    (h : doVals fn fuel vals st = .error .fatal) : BadReach fn := by
  induction vals generalizing st with
  | nil => cases h
  | cons v rest ih =>
    simp only [doVals] at h
    cases hr : doInstr fn fuel v st with
    | error e =>
      rw [hr] at h
      simp only at h
      cases h
      exact doInstr_fatal fn fuel v st hr
    | ok st1 =>
      rw [hr] at h
      exact ih st1 h

theorem livenessFor_fatal (fn : Function) (fuel : Nat) (vals : List (Nat × Nat))
    (h : livenessFor fuel fn vals = .error .fatal) : BadReach fn := by
  unfold livenessFor at h
  cases hr : doVals fn fuel vals { deps := List.replicate fn.Blocks.length [], visited := [] } with
  | error e =>
    rw [hr] at h
    simp only at h
    cases h
    exact doVals_fatal fn fuel vals _ hr
  | ok st => rw [hr] at h; cases h

theorem DoPost.same (st : Live) : DoPost st st := ⟨rfl, fun _ h => h⟩

theorem DoPost.andThen {a b c : Live} (h1 : DoPost a b) (h2 : DoPost b c) : DoPost a c :=
  ⟨h2.1.trans h1.1, fun v hv => h2.2 v (h1.2 v hv)⟩

theorem length_le_maxInstrs (fn : Function) (b : Nat) (blk : BasicBlock)
    (h : fn.Blocks[b]? = some blk) : blk.Instrs.length ≤ maxInstrs fn := by
  unfold maxInstrs
  have hm := List.getElem?_mem h
  generalize fn.Blocks = bs at hm
  induction bs with
  | nil => cases hm
  | cons x rest ih =>
    simp only [List.map_cons, List.foldr_cons]
    rcases List.mem_cons.1 hm with e | e
    · subst e; exact le_max_left _ _
    · exact le_trans (ih e) (le_max_right _ _)

theorem instrAt_bounds (fn : Function) (val : Nat × Nat) (h : (instrAt fn val).isSome = true) :
    val.1 < fn.Blocks.length ∧ val.2 < maxInstrs fn := by
  unfold instrAt at h
  cases hb : fn.Blocks[val.1]? with
  | none => rw [hb] at h; cases h
  | some blk =>
    rw [hb] at h
    simp only at h
    obtain ⟨ins, hi⟩ := Option.isSome_iff_exists.1 h
    have h1 := (List.getElem?_eq_some_iff.1 hb).1
    have h2 := (List.getElem?_eq_some_iff.1 hi).1
    exact ⟨h1, lt_of_lt_of_le h2 (length_le_maxInstrs fn _ _ hb)⟩

theorem unvisited_le (fn : Function) (st st1 : Live) (h : ∀ v ∈ st.visited, v ∈ st1.visited) :
    unvisited fn st1 ≤ unvisited fn st := by
  apply Finset.card_le_card
  intro p hp
  simp only [Finset.mem_filter] at hp ⊢
  exact ⟨hp.1, fun hm => hp.2 (h p hm)⟩

theorem unvisited_lt (fn : Function) (st : Live) (val : Nat × Nat)
    (hval : (instrAt fn val).isSome = true) (hnot : val ∉ st.visited) :
    unvisited fn { st with visited := st.visited ++ [val] } < unvisited fn st := by
  apply Finset.card_lt_card
  constructor
  · intro p hp
    simp only [Finset.mem_filter, List.mem_append, List.mem_singleton, not_or] at hp ⊢
    exact ⟨hp.1, hp.2.1⟩
  · intro hsub
    have hb := instrAt_bounds fn val hval
    have : val ∈ (Finset.range fn.Blocks.length ×ˢ Finset.range (maxInstrs fn)).filter
        (fun p => p ∉ st.visited) := by
      simp only [Finset.mem_filter, Finset.mem_product, Finset.mem_range]
      exact ⟨hb, hnot⟩
    have h2 := hsub this
    simp only [Finset.mem_filter, List.mem_append, List.mem_singleton, not_or] at h2
    exact h2.2.2 trivial

theorem unvisited_le_box (fn : Function) (st : Live) :
    unvisited fn st ≤ fn.Blocks.length * maxInstrs fn := by
  unfold unvisited
  calc _ ≤ (Finset.range fn.Blocks.length ×ˢ Finset.range (maxInstrs fn)).card :=
        Finset.card_le_card (Finset.filter_subset _ _)
    _ = _ := by simp

theorem doRands_total (fn : Function) (walkF : Value → Nat → Deps → Except Halt Deps)
    (rec : Nat × Nat → Live → Except Halt Live) (blk K : Nat)
    (hw : ∀ d u deps, u < fn.Blocks.length → deps.length = fn.Blocks.length →
      (∃ deps1, walkF d u deps = .ok deps1 ∧ deps1.length = fn.Blocks.length) ∨
        walkF d u deps = .error .fatal)
    (hrec : ∀ val st, (instrAt fn val).isSome = true → st.deps.length = fn.Blocks.length →
      unvisited fn st ≤ K → (∃ st1, rec val st = .ok st1 ∧ DoPost st st1) ∨
        rec val st = .error .fatal)
    (hblk : blk < fn.Blocks.length)
    (rands : List (Option Value))
    (hr : ∀ D i, some (Value.Instr D i) ∈ rands → (instrAt fn (D, i)).isSome = true)
    (st : Live) (hlen : st.deps.length = fn.Blocks.length) (hK : unvisited fn st ≤ K) :
    (∃ st1, doRands walkF rec blk rands st = .ok st1 ∧ DoPost st st1) ∨
      doRands walkF rec blk rands st = .error .fatal := by
  induction rands generalizing st with
  | nil => exact Or.inl ⟨st, rfl, DoPost.same st⟩
  | cons r rest ih =>
    have hrest : ∀ D i, some (Value.Instr D i) ∈ rest → (instrAt fn (D, i)).isSome = true :=
      fun D i h => hr D i (List.mem_cons_of_mem _ h)
    cases r with
    | none => exact ih hrest st hlen hK
    | some rand =>
      simp only [doRands]
      rcases hw rand blk st.deps hblk hlen with ⟨deps1, hw1, hl1⟩ | hw1
      · rw [hw1]
        simp only
        have next : ∀ st2 : Live, DoPost st st2 →
            (∃ st1, doRands walkF rec blk rest st2 = .ok st1 ∧ DoPost st st1) ∨
              doRands walkF rec blk rest st2 = .error .fatal := by
          intro st2 h2
          rcases ih hrest st2 (h2.1.trans hlen) (le_trans (unvisited_le fn st st2 h2.2) hK) with
            ⟨st1, h3, h4⟩ | h3
          · exact Or.inl ⟨st1, h3, h2.andThen h4⟩
          · exact Or.inr h3
        have hmid : DoPost st { st with deps := deps1 } := ⟨hl1.trans hlen.symm, fun _ h => h⟩
        cases rand with
        | Instr bb ii =>
          simp only
          rcases hrec (bb, ii) { st with deps := deps1 } (hr bb ii (List.mem_cons_self _ _)) hl1
            hK with ⟨st2, h2, p2⟩ | h2
          · rw [h2]; exact next st2 (hmid.andThen p2)
          · rw [h2]; exact Or.inr rfl
        | Const _ => exact next _ hmid
        | Global _ => exact next _ hmid
        | Function _ => exact next _ hmid
        | Builtin _ => exact next _ hmid
        | Parameter _ => exact next _ hmid
        | FreeVar _ => exact next _ hmid
      · rw [hw1]; exact Or.inr rfl

theorem doPhiEdges_total (fn : Function) (walkF : Value → Nat → Deps → Except Halt Deps)
    (rec : Nat × Nat → Live → Except Halt Live) (self : Nat × Nat) (preds : List Nat) (K : Nat)
    (hw : ∀ d u deps, u < fn.Blocks.length → deps.length = fn.Blocks.length →
      (∃ deps1, walkF d u deps = .ok deps1 ∧ deps1.length = fn.Blocks.length) ∨
        walkF d u deps = .error .fatal)
    (hrec : ∀ val st, (instrAt fn val).isSome = true → st.deps.length = fn.Blocks.length →
      unvisited fn st ≤ K → (∃ st1, rec val st = .ok st1 ∧ DoPost st st1) ∨
        rec val st = .error .fatal)
    (hself : (instrAt fn self).isSome = true)
    (hpreds : ∀ p ∈ preds, p < fn.Blocks.length)
    (i : Nat) (edges : List Value) (hi : i + edges.length ≤ preds.length)
    (st : Live) (hlen : st.deps.length = fn.Blocks.length) (hK : unvisited fn st ≤ K) :
    (∃ st1, doPhiEdges walkF rec self preds i edges st = .ok st1 ∧ DoPost st st1) ∨
      doPhiEdges walkF rec self preds i edges st = .error .fatal := by
  induction edges generalizing i st with
  | nil => exact Or.inl ⟨st, rfl, DoPost.same st⟩
  | cons rand rest ih =>
    simp only [List.length_cons] at hi
    have hilt : i < preds.length := by omega
    simp only [doPhiEdges, List.getElem?_eq_getElem hilt]
    have hp := hpreds _ (List.getElem_mem hilt)
    rcases hw rand preds[i] (depsAdd st.deps self.1 rand) hp
        ((depsAdd_length _ _ _).trans hlen) with ⟨deps2, hw1, hl2⟩ | hw1
    · rw [hw1]
      simp only
      have hmid : DoPost st { st with deps := deps2 } := ⟨hl2.trans hlen.symm, fun _ h => h⟩
      rcases hrec self { st with deps := deps2 } hself hl2 hK with ⟨st2, h2, p2⟩ | h2
      · rw [h2]
        simp only
        have p3 := hmid.andThen p2
        rcases ih (i + 1) (by omega) st2 (p3.1.trans hlen)
            (le_trans (unvisited_le fn st st2 p3.2) hK) with ⟨st1, h3, h4⟩ | h3
        · exact Or.inl ⟨st1, h3, p3.andThen h4⟩
        · exact Or.inr h3
      · rw [h2]; exact Or.inr rfl
    · rw [hw1]; exact Or.inr rfl

theorem walk_total (fn : Function) (hv : ValidPreds fn) (fuel : Nat)
    (hfuel : fn.Blocks.length < fuel) (d : Value) (u : Nat) (deps : Deps)
    (hu : u < fn.Blocks.length) (hlen : deps.length = fn.Blocks.length) :
    (∃ deps1, walk fn fuel d u deps = .ok deps1 ∧ deps1.length = fn.Blocks.length) ∨
      walk fn fuel d u deps = .error .fatal := by
  rcases walk_spec fn hv d fuel u deps hu hlen
      (lt_of_le_of_lt (unmarked_le_n _ _ _) hfuel) with ⟨deps1, hr, post⟩ | ⟨hr, _⟩
  · exact Or.inl ⟨deps1, hr, post.length.trans hlen⟩
  · exact Or.inr hr

theorem doInstr_total (fn : Function) (hv : ValidFn fn) (fuel : Nat) :
    ∀ val st, (instrAt fn val).isSome = true → st.deps.length = fn.Blocks.length →
      unvisited fn st + fn.Blocks.length + 2 ≤ fuel →
      (∃ st1, doInstr fn fuel val st = .ok st1 ∧ DoPost st st1) ∨
        doInstr fn fuel val st = .error .fatal := by
  induction fuel with
  | zero => intro val st _ _ h; omega
  | succ F ih =>
    intro val st hval hlen hfuel
    rw [doInstr]
    unfold doInstrBody
    by_cases hvis : val ∈ st.visited
    · rw [if_pos hvis]; exact Or.inl ⟨st, rfl, DoPost.same st⟩
    · rw [if_neg hvis]
      have hlt := unvisited_lt fn st val hval hvis
      have hbounds := instrAt_bounds fn val hval
      have hat : instrAt fn (val.1, val.2) = instrAt fn val := rfl
      unfold instrAt at hval hat
      cases hb : fn.Blocks[val.1]? with
      | none => rw [hb] at hval; cases hval
      | some blk =>
        rw [hb] at hval hat
        simp only at hval hat ⊢
        obtain ⟨ins, hi⟩ := Option.isSome_iff_exists.1 hval
        rw [hi]
        simp only
        have hins : instrAt fn (val.1, val.2) = some ins := by simp [instrAt, hb, hi]
        have hpreds : predsOf fn val.1 = blk.Preds := by simp [predsOf, hb]
        have hK : unvisited fn { st with visited := st.visited ++ [val] } ≤
            F - (fn.Blocks.length + 2) := by omega
        have hw := walk_total fn hv.preds F (by omega)
        have hrec : ∀ val2 st2, (instrAt fn val2).isSome = true →
            st2.deps.length = fn.Blocks.length →
            unvisited fn st2 ≤ F - (fn.Blocks.length + 2) →
            (∃ st1, doInstr fn F val2 st2 = .ok st1 ∧ DoPost st2 st1) ∨
              doInstr fn F val2 st2 = .error .fatal :=
          fun val2 st2 h1 h2 h3 => ih val2 st2 h1 h2 (by omega)
        have hmid : DoPost st { st with visited := st.visited ++ [val] } :=
          ⟨rfl, fun v h => List.mem_append_left _ h⟩
        have wrap : ∀ r : Except Halt Live,
            ((∃ st1, r = .ok st1 ∧ DoPost { st with visited := st.visited ++ [val] } st1) ∨
              r = .error .fatal) →
            (∃ st1, r = .ok st1 ∧ DoPost st st1) ∨ r = .error .fatal := by
          rintro r (⟨st1, h1, h2⟩ | h1)
          · exact Or.inl ⟨st1, h1, hmid.andThen h2⟩
          · exact Or.inr h1
        have hrands : (∀ es, ins.kind ≠ .Phi es) →
            (∃ st1, doRands (walk fn F) (doInstr fn F) val.1 ins.Operands
                { st with visited := st.visited ++ [val] } = .ok st1 ∧ DoPost st st1) ∨
              doRands (walk fn F) (doInstr fn F) val.1 ins.Operands
                { st with visited := st.visited ++ [val] } = .error .fatal := by
          intro hnp
          exact wrap _ (doRands_total fn _ _ val.1 _ hw hrec hbounds.1 _
            (hv.rands (val.1, val.2) ins hins hnp) _ hlen hK)
        cases hk : ins.kind with
        | Phi edges =>
          simp only
          refine wrap _ (doPhiEdges_total fn _ _ val blk.Preds _ hw hrec ?_ ?_ 0 edges ?_ _ hlen hK)
          · simp [instrAt, hb, hi]
          · intro p hp; exact hv.preds val.1 p (by rw [hpreds]; exact hp)
          · have := hv.phis val.1 val.2 ins edges hins hk
            rw [hpreds] at this
            omega
        | If c => simp only; rw [hk] at hrands; exact hrands (by simp)
        | Call a b c => simp only; rw [hk] at hrands; exact hrands (by simp)
        | Return rs => simp only; rw [hk] at hrands; exact hrands (by simp)
        | Other rs => simp only; rw [hk] at hrands; exact hrands (by simp)

theorem Reaches.inRange {fn : Function} {d : Value} {deps : Deps} {u b : Nat}
    (h : Reaches fn d deps u b) (hv : ValidPreds fn) (hu : u < fn.Blocks.length) :
    b < fn.Blocks.length := by
  cases h with
  | start _ => exact hu
  | step c _ _ _ hp _ => exact hv c b hp

theorem Reaches.path {fn : Function} {d : Value} {deps : Deps} {u b : Nat}
    (h : Reaches fn d deps u b) :
    ∃ path : List Nat, path.head? = some b ∧ path.getLast? = some u ∧
      List.Chain' (fun a b => a ∈ predsOf fn b) path ∧
      ∀ c ∈ path, c = b ∨ stopsAt fn d c = false := by
  induction h with
  | start _ => exact ⟨[u], rfl, rfl, List.chain'_singleton _, fun c hc => Or.inl (by simpa using hc)⟩
  | step c b _ hs hp _ ih =>
    obtain ⟨path, hh, hl, hc, hall⟩ := ih
    refine ⟨b :: path, rfl, ?_, ?_, ?_⟩
    · cases path with
      | nil => cases hh
      | cons x xs => simpa [List.getLast?_cons_cons] using hl
    · rw [List.chain'_cons']
      refine ⟨?_, hc⟩
      intro y hy
      rw [hh] at hy
      cases hy
      exact hp
    · intro c' hc'
      rcases List.mem_cons.1 hc' with e | e
      · exact Or.inl e
      · rcases hall c' e with e2 | e2
        · subst e2; exact Or.inr hs
        · exact Or.inr e2

theorem WalkStart.blockInRange {fn : Function} {d : Value} {u : Nat} (h : WalkStart fn d u)
    (hv : ValidPreds fn) : u < fn.Blocks.length := by
  obtain ⟨b, idx, ins, hat, h1 | ⟨es, k, _, _, hp⟩⟩ := h
  · obtain ⟨_, _, rfl⟩ := h1
    exact (instrAt_bounds fn (u, idx) (by rw [hat]; rfl)).1
  · exact hv b u (List.getElem?_mem hp)

theorem no_badReach (fn : Function) (h : WellFormedSSA fn) : ¬ BadReach fn := by
  rintro ⟨d, u, b, hstart, hreach, hs, hp⟩
  have hu := hstart.blockInRange h.valid.preds
  have hb := hreach.inRange h.valid.preds hu
  have hb0 := h.entry b hb hp
  cases d with
  | Instr D i =>
    have hdom : Dominates fn D u := by
      obtain ⟨b', idx, ins, hat, h1 | ⟨es, k, hk, he, hpk⟩⟩ := hstart
      · obtain ⟨hnp, hmem, rfl⟩ := h1
        exact h.uses u idx ins D i hat hnp hmem
      · exact h.phiUses b' idx ins es k D i u hat hk he hpk
    obtain ⟨path, hh, hl, hc, hall⟩ := hreach.path
    have hD := hdom path (by rw [hh, hb0]) hl hc
    rcases hall D hD with e | e
    · rw [e] at hs
      simp [stopsAt] at hs
    · simp [stopsAt] at e
  | Const _ => simp [stopsAt] at hs
  | Global _ => simp [stopsAt] at hs
  | Function _ => simp [stopsAt] at hs
  | Builtin _ => simp [stopsAt] at hs
  | Parameter _ => simp [stopsAt, hp] at hs
  | FreeVar _ => simp [stopsAt, hp] at hs

theorem doVals_total (fn : Function) (hv : ValidFn fn) (fuel : Nat) (vals : List (Nat × Nat))
    (hvals : ∀ v ∈ vals, (instrAt fn v).isSome = true) (st : Live)
    (hlen : st.deps.length = fn.Blocks.length)
    (hfuel : unvisited fn st + fn.Blocks.length + 2 ≤ fuel) :
    (∃ st1, doVals fn fuel vals st = .ok st1 ∧ DoPost st st1) ∨
      doVals fn fuel vals st = .error .fatal := by
  induction vals generalizing st with
  | nil => exact Or.inl ⟨st, rfl, DoPost.same st⟩
  | cons v rest ih =>
    simp only [doVals]
    rcases doInstr_total fn hv fuel v st (hvals v (List.mem_cons_self _ _)) hlen hfuel with
      ⟨st1, h1, p1⟩ | h1
    · rw [h1]
      simp only
      rcases ih (fun w hw => hvals w (List.mem_cons_of_mem _ hw)) st1 (p1.1.trans hlen)
          (by have := unvisited_le fn st st1 p1.2; omega) with ⟨st2, h2, p2⟩ | h2
      · exact Or.inl ⟨st2, h2, p1.andThen p2⟩
      · exact Or.inr h2
    · rw [h1]; exact Or.inr rfl

theorem ifInstrsFrom_valid (bs : List BasicBlock) (bi : Nat) (v : Nat × Nat)
    (h : v ∈ ifInstrsFrom bi bs) :
    ∃ blk, bi ≤ v.1 ∧ bs[v.1 - bi]? = some blk ∧ (blk.Instrs[v.2]?).isSome = true := by
  induction bs generalizing bi with
  | nil => cases h
  | cons b rest ih =>
    have tail : v ∈ ifInstrsFrom (bi + 1) rest →
        ∃ blk, bi ≤ v.1 ∧ (b :: rest)[v.1 - bi]? = some blk ∧
          (blk.Instrs[v.2]?).isSome = true := by
      intro h1
      obtain ⟨blk, h2, h3, h4⟩ := ih (bi + 1) h1
      refine ⟨blk, by omega, ?_, h4⟩
      rw [show v.1 - bi = (v.1 - (bi + 1)) + 1 by omega]
      simpa using h3
    simp only [ifInstrsFrom] at h
    split at h
    · rename_i c pos hlast
      rcases List.mem_cons.1 h with e | e
      · subst e
        refine ⟨b, le_refl _, by simp, ?_⟩
        have hne : b.Instrs ≠ [] := by
          intro hn; rw [hn] at hlast; cases hlast
        have : b.Instrs.length - 1 < b.Instrs.length :=
          Nat.sub_lt (List.length_pos.2 hne) (by decide)
        simp [List.getElem?_eq_getElem this]
      · exact tail e
    · exact tail h

theorem livenessFor_total (fn : Function) (hv : ValidFn fn) (fuel : Nat)
    (hfuel : liveFuel fn ≤ fuel) (vals : List (Nat × Nat))
    (hvals : ∀ v ∈ vals, (instrAt fn v).isSome = true) :
    (∃ deps, livenessFor fuel fn vals = .ok deps ∧ deps.length = fn.Blocks.length) ∨
      livenessFor fuel fn vals = .error .fatal := by
  unfold livenessFor
  have hbox := unvisited_le_box fn ⟨List.replicate fn.Blocks.length [], []⟩
  have hf : unvisited fn ⟨List.replicate fn.Blocks.length [], []⟩ + fn.Blocks.length + 2 ≤
      fuel := by
    unfold liveFuel at hfuel
    omega
  rcases doVals_total fn hv fuel vals hvals ⟨List.replicate fn.Blocks.length [], []⟩
      (by simp) hf with ⟨st1, h1, p1⟩ | h1
  · rw [h1]
    refine Or.inl ⟨st1.deps, rfl, ?_⟩
    simpa using p1.1
  · rw [h1]; exact Or.inr rfl

/-- C24: for a function in well-formed SSA form, `livenessFor` on the function's `If`
instructions returns, with any fuel in the model from `liveFuel` on, one live set per
block: it does not loop, it reaches no `log.Fatalf` (the first one, for a value of an
unexpected type, has no case in `Value`), and it does not index out of range. -/
theorem livenessFor_wellFormed (fn : Function) (h : WellFormedSSA fn) (fuel : Nat)
    (hfuel : liveFuel fn ≤ fuel) :
    ∃ deps, livenessFor fuel fn (ifInstrsFrom 0 fn.Blocks) = .ok deps ∧
      deps.length = fn.Blocks.length := by
  have hvals : ∀ v ∈ ifInstrsFrom 0 fn.Blocks, (instrAt fn v).isSome = true := by
    intro v hv
    obtain ⟨blk, _, hb, hi⟩ := ifInstrsFrom_valid fn.Blocks 0 v hv
    simp only [Nat.sub_zero] at hb
    simp [instrAt, hb, hi]
  rcases livenessFor_total fn h.valid fuel hfuel _ hvals with hok | hfatal
  · exact hok
  · exact absurd (livenessFor_fatal fn fuel _ hfatal) (no_badReach fn h)

theorem instrAt_phiFn (b idx : Nat) (ins : Instruction) (h : instrAt phiFn (b, idx) = some ins) :
    (b = 0 ∧ idx = 0 ∧ ins = ⟨.If (.Parameter 1), 0⟩) ∨
    (b = 1 ∧ idx = 0 ∧ ins = ⟨.Other [some (.Parameter 0), some (.Const 1)], 1⟩) ∨
    (b = 1 ∧ idx = 1 ∧ ins = ⟨.Other [], 0⟩) ∨
    (b = 2 ∧ idx = 0 ∧ ins = ⟨.Other [], 0⟩) ∨
    (b = 3 ∧ idx = 0 ∧ ins = ⟨.Phi [.Instr 1 0, .Const 0], 0⟩) ∨
    (b = 3 ∧ idx = 1 ∧ ins = ⟨.If (.Instr 3 0), 0⟩) ∨
    (b = 4 ∧ idx = 0 ∧ ins = ret) ∨
    (b = 5 ∧ idx = 0 ∧ ins = ret) := by
  have hb := instrAt_bounds phiFn (b, idx) (by rw [h]; rfl)
  have h1 : b < 6 := hb.1
  have h2 : idx < 2 := hb.2
  interval_cases b <;> interval_cases idx <;> simp [instrAt, phiFn] at h <;> simp [h]

theorem wellFormed_phiFn : WellFormedSSA phiFn := by
  refine ⟨⟨validPreds_phiFn, ?_, ?_⟩, ?_, ?_, ?_⟩
  · rintro ⟨b, idx⟩ ins hat hnp D i hmem
    rcases instrAt_phiFn b idx ins hat with h | h | h | h | h | h | h | h <;>
      obtain ⟨rfl, rfl, rfl⟩ := h <;>
      simp [Instruction.Operands, ret] at hmem
    · exact absurd rfl (hnp _)
    · obtain ⟨rfl, rfl⟩ := hmem; rfl
  · intro b idx ins es hat hk
    rcases instrAt_phiFn b idx ins hat with h | h | h | h | h | h | h | h <;>
      obtain ⟨rfl, rfl, rfl⟩ := h <;> simp [ret] at hk
    subst hk
    simp [predsOf, phiFn]
  · intro b hb hp
    have hb6 : b < 6 := hb
    interval_cases b <;> simp [predsOf, phiFn] at hp ⊢
  · intro b idx ins D i hat hnp hmem
    rcases instrAt_phiFn b idx ins hat with h | h | h | h | h | h | h | h <;>
      obtain ⟨rfl, rfl, rfl⟩ := h <;>
      simp [Instruction.Operands, ret] at hmem
    · exact absurd rfl (hnp _)
    · obtain ⟨rfl, rfl⟩ := hmem; exact dominates_self _ _
  · intro b idx ins es k D i p hat hk he hp
    rcases instrAt_phiFn b idx ins hat with h | h | h | h | h | h | h | h <;>
      obtain ⟨rfl, rfl, rfl⟩ := h <;> simp [ret] at hk
    subst hk
    have hk2 : k < 2 := by
      have := (List.getElem?_eq_some_iff.1 he).1
      simpa using this
    interval_cases k
    · simp [predsOf, phiFn] at hp he
      obtain ⟨rfl, rfl⟩ := he
      subst hp
      exact dominates_self _ _
    · simp at he

theorem livenessFor_wellFormed_witness :
    ∃ deps, livenessFor 20 phiFn (ifInstrsFrom 0 phiFn.Blocks) = .ok deps ∧
      deps.length = phiFn.Blocks.length :=
  livenessFor_wellFormed phiFn wellFormed_phiFn 20 (by decide)

theorem walk_cases (fn : Function) (hv : ValidPreds fn) (fuel use : Nat) (deps : Deps)
    (hu : use < fn.Blocks.length) (hlen : deps.length = fn.Blocks.length)
    (hfuel : fn.Blocks.length < fuel) :
    (∀ D i, walk fn fuel (.Instr D i) use deps = .error .fatal ↔
      ∃ b, Reaches fn (.Instr D i) deps use b ∧ predsOf fn b = [] ∧ b ≠ D) ∧
    (∀ D i, walk fn fuel (.Instr D i) use deps ≠ .error .fatal →
      ∃ deps1, walk fn fuel (.Instr D i) use deps = .ok deps1) ∧
    (∀ d, d.isDefFree = true → walk fn fuel d use deps = .ok (depsAdd deps use d)) ∧
    (∀ d, d.isEntryDef = true → ∃ deps1, walk fn fuel d use deps = .ok deps1 ∧
      ∀ c, Marked deps1 d c → ¬ Marked deps d c → predsOf fn c ≠ [] →
        ∀ p ∈ predsOf fn c, Marked deps1 d p) ∧
    (∀ fuel2 vals, livenessFor fuel2 fn vals = .error .fatal → BadReach fn) := by
  have hm : ∀ d, unmarked fn.Blocks.length deps d < fuel :=
    fun d => lt_of_le_of_lt (unmarked_le_n _ _ _) hfuel
  refine ⟨?_, ?_, ?_, ?_, fun fuel2 vals h => livenessFor_fatal fn fuel2 vals h⟩
  · intro D i
    rw [walk_fatal_iff_bad fn hv _ fuel use deps hu hlen hfuel]
    constructor
    · rintro ⟨b, hb, hs, hp⟩
      exact ⟨b, hb, hp, (stopsAt_instr fn D i b).1 hs⟩
    · rintro ⟨b, hb, hp, hne⟩
      exact ⟨b, hb, (stopsAt_instr fn D i b).2 hne, hp⟩
  · intro D i hne
    rcases walk_spec fn hv _ fuel use deps hu hlen (hm _) with ⟨deps1, hr, _⟩ | ⟨hr, _⟩
    · exact ⟨deps1, hr⟩
    · exact absurd hr hne
  · intro d hd
    obtain ⟨F, rfl⟩ : ∃ F, fuel = F + 1 := ⟨fuel - 1, by omega⟩
    obtain ⟨ub, hb⟩ : ∃ ub, fn.Blocks[use]? = some ub :=
      ⟨fn.Blocks[use], List.getElem?_eq_getElem hu⟩
    rw [walk, walkBody_eq fn _ d use deps ub hb]
    by_cases h0 : Marked deps d use
    · rw [if_pos h0]
      simp only [depsAdd, Marked] at h0 ⊢
      rw [if_pos h0]
    · rw [if_neg h0, if_pos (stopsAt_defFree fn d use hd)]
  · intro d hd
    rcases walk_spec fn hv d fuel use deps hu hlen (hm d) with ⟨deps1, hr, post⟩ | ⟨hr, b, _, hs, hp⟩
    · refine ⟨deps1, hr, ?_⟩
      intro c h1 h0 hpc
      have hs : stopsAt fn d c = false := by
        cases h : stopsAt fn d c with
        | false => rfl
        | true => exact absurd ((stopsAt_entryDef fn d c hd).1 h) hpc
      exact (post.closed c h1 h0 hs).2
    · have := (stopsAt_entryDef fn d b hd).2 hp
      rw [hs] at this
      cases this

/-! ## When `livenessFor` aborts -/

theorem walk_logSpec (fn : Function) (hv : ValidPreds fn) (fuel : Nat)
    (hfuel : fn.Blocks.length < fuel) (d : Value) (u : Nat) (deps : Deps)
    (hu : u < fn.Blocks.length) (hlen : deps.length = fn.Blocks.length) :
    (∃ deps1, walk fn fuel d u deps = .ok deps1 ∧ deps1.length = fn.Blocks.length ∧
        ¬ WalkCall.Stuck fn ⟨d, u, deps⟩) ∨
      (walk fn fuel d u deps = .error .fatal ∧ WalkCall.Stuck fn ⟨d, u, deps⟩) := by
  have hiff := walk_fatal_iff_bad fn hv d fuel u deps hu hlen hfuel
  rcases walk_total fn hv fuel hfuel d u deps hu hlen with ⟨deps1, h1, h2⟩ | h1
  · refine Or.inl ⟨deps1, h1, h2, ?_⟩
    intro hs
    have := hiff.2 hs
    rw [h1] at this
    cases this
  · exact Or.inr ⟨h1, hiff.1 h1⟩

theorem LogSpec.after {fn : Function} {st st2 : Live} {r : Except Halt Live}
    {log1 log2 : List WalkCall} (h1 : DoPost st st2) (hlog : ∀ c ∈ log1, ¬ c.Stuck fn)
    (h2 : LogSpec fn st2 r log2) : LogSpec fn st r (log1 ++ log2) := by
  rcases h2 with ⟨st1, hr, hp, hl⟩ | ⟨hr, c, hc, hs⟩
  · refine Or.inl ⟨st1, hr, h1.andThen hp, ?_⟩
    intro c hc
    rcases List.mem_append.1 hc with e | e
    · exact hlog c e
    · exact hl c e
  · exact Or.inr ⟨hr, c, List.mem_append_right _ hc, hs⟩

theorem LogSpec.later {fn : Function} {st st2 : Live} {r : Except Halt Live}
    {log : List WalkCall} (h1 : DoPost st st2) (h2 : LogSpec fn st2 r log) :
    LogSpec fn st r log := by
  rcases h2 with ⟨st1, hr, hp, hl⟩ | h
  · exact Or.inl ⟨st1, hr, h1.andThen hp, hl⟩
  · exact Or.inr h

theorem doRands_logSpec (fn : Function) (walkF : Value → Nat → Deps → Except Halt Deps)
    (rec : Nat × Nat → Live → Except Halt Live) (recLog : Nat × Nat → Live → List WalkCall)
    (blk K : Nat)
    (hw : ∀ d u deps, u < fn.Blocks.length → deps.length = fn.Blocks.length →
      (∃ deps1, walkF d u deps = .ok deps1 ∧ deps1.length = fn.Blocks.length ∧
          ¬ WalkCall.Stuck fn ⟨d, u, deps⟩) ∨
        (walkF d u deps = .error .fatal ∧ WalkCall.Stuck fn ⟨d, u, deps⟩))
    (hrec : ∀ val st, (instrAt fn val).isSome = true → st.deps.length = fn.Blocks.length →
      unvisited fn st ≤ K → LogSpec fn st (rec val st) (recLog val st))
    (hblk : blk < fn.Blocks.length)
    (rands : List (Option Value))
    (hr : ∀ D i, some (Value.Instr D i) ∈ rands → (instrAt fn (D, i)).isSome = true)
    (st : Live) (hlen : st.deps.length = fn.Blocks.length) (hK : unvisited fn st ≤ K) :
    LogSpec fn st (doRands walkF rec blk rands st) (doRandsLog walkF rec recLog blk rands st) := by
  induction rands generalizing st with
  | nil => exact Or.inl ⟨st, rfl, DoPost.same st, fun c hc => by cases hc⟩
  | cons r rest ih =>
    have hrest : ∀ D i, some (Value.Instr D i) ∈ rest → (instrAt fn (D, i)).isSome = true :=
      fun D i h => hr D i (List.mem_cons_of_mem _ h)
    cases r with
    | none => exact ih hrest st hlen hK
    | some rand =>
      simp only [doRands, doRandsLog]
      rcases hw rand blk st.deps hblk hlen with ⟨deps1, hw1, hl1, hns⟩ | ⟨hw1, hs⟩
      · rw [hw1]
        simp only
        have hmid : DoPost st { st with deps := deps1 } := ⟨hl1.trans hlen.symm, fun _ h => h⟩
        have hone : ∀ c ∈ [(⟨rand, blk, st.deps⟩ : WalkCall)], ¬ c.Stuck fn := by
          intro c hc
          rw [List.mem_singleton] at hc
          rw [hc]; exact hns
        have next : ∀ st2 : Live, DoPost st st2 →
            LogSpec fn st (doRands walkF rec blk rest st2)
              (doRandsLog walkF rec recLog blk rest st2) := by
          intro st2 h2
          exact LogSpec.later h2
            (ih hrest st2 (h2.1.trans hlen) (le_trans (unvisited_le fn st st2 h2.2) hK))
        have plain : LogSpec fn st (doRands walkF rec blk rest { st with deps := deps1 })
            ((⟨rand, blk, st.deps⟩ : WalkCall) ::
              doRandsLog walkF rec recLog blk rest { st with deps := deps1 }) :=
          LogSpec.after (DoPost.same st) hone (next _ hmid)
        cases rand with
        | Instr bb ii =>
          simp only
          have hsub := hrec (bb, ii) { st with deps := deps1 } (hr bb ii (List.mem_cons_self _ _))
            hl1 hK
          rcases hsub with ⟨st2, h2, p2, l2⟩ | ⟨h2, c, hc, hcs⟩
          · rw [h2]
            simp only
            have h5 := next st2 (hmid.andThen p2)
            have h6 : LogSpec fn st (doRands walkF rec blk rest st2)
                (recLog (bb, ii) { st with deps := deps1 } ++
                  doRandsLog walkF rec recLog blk rest st2) :=
              LogSpec.after (DoPost.same st) l2 h5
            exact LogSpec.after (DoPost.same st) hone h6
          · rw [h2]
            exact Or.inr ⟨rfl, c, List.mem_cons_of_mem _ (List.mem_append_left _ hc), hcs⟩
        | Const _ => exact plain
        | Global _ => exact plain
        | Function _ => exact plain
        | Builtin _ => exact plain
        | Parameter _ => exact plain
        | FreeVar _ => exact plain
      · rw [hw1]
        exact Or.inr ⟨rfl, _, List.mem_cons_self _ _, hs⟩

theorem doPhiEdges_logSpec (fn : Function) (walkF : Value → Nat → Deps → Except Halt Deps)
    (rec : Nat × Nat → Live → Except Halt Live) (recLog : Nat × Nat → Live → List WalkCall)
    (self : Nat × Nat) (preds : List Nat) (K : Nat)
    (hw : ∀ d u deps, u < fn.Blocks.length → deps.length = fn.Blocks.length →
      (∃ deps1, walkF d u deps = .ok deps1 ∧ deps1.length = fn.Blocks.length ∧
          ¬ WalkCall.Stuck fn ⟨d, u, deps⟩) ∨
        (walkF d u deps = .error .fatal ∧ WalkCall.Stuck fn ⟨d, u, deps⟩))
    (hrec : ∀ val st, (instrAt fn val).isSome = true → st.deps.length = fn.Blocks.length →
      unvisited fn st ≤ K → LogSpec fn st (rec val st) (recLog val st))
    (hself : (instrAt fn self).isSome = true)
    (hpreds : ∀ p ∈ preds, p < fn.Blocks.length)
    (i : Nat) (edges : List Value) (hi : i + edges.length ≤ preds.length)
    (st : Live) (hlen : st.deps.length = fn.Blocks.length) (hK : unvisited fn st ≤ K) :
    LogSpec fn st (doPhiEdges walkF rec self preds i edges st)
      (doPhiEdgesLog walkF rec recLog self preds i edges st) := by
  induction edges generalizing i st with
  | nil => exact Or.inl ⟨st, rfl, DoPost.same st, fun c hc => by cases hc⟩
  | cons rand rest ih =>
    simp only [List.length_cons] at hi
    have hilt : i < preds.length := by omega
    simp only [doPhiEdges, doPhiEdgesLog, List.getElem?_eq_getElem hilt]
    have hp := hpreds _ (List.getElem_mem hilt)
    rcases hw rand preds[i] (depsAdd st.deps self.1 rand) hp
        ((depsAdd_length _ _ _).trans hlen) with ⟨deps2, hw1, hl2, hns⟩ | ⟨hw1, hs⟩
    · rw [hw1]
      simp only
      have hmid : DoPost st { st with deps := deps2 } := ⟨hl2.trans hlen.symm, fun _ h => h⟩
      have hone : ∀ c ∈ [(⟨rand, preds[i], depsAdd st.deps self.1 rand⟩ : WalkCall)],
          ¬ c.Stuck fn := by
        intro c hc
        rw [List.mem_singleton] at hc
        rw [hc]; exact hns
      rcases hrec self { st with deps := deps2 } hself hl2 hK with
        ⟨st2, h2, p2, l2⟩ | ⟨h2, c, hc, hcs⟩
      · rw [h2]
        simp only
        have p3 := hmid.andThen p2
        have h3 := ih (i + 1) (by omega) st2 (p3.1.trans hlen)
          (le_trans (unvisited_le fn st st2 p3.2) hK)
        have h4 : LogSpec fn st (doPhiEdges walkF rec self preds (i + 1) rest st2)
            (recLog self { st with deps := deps2 } ++
              doPhiEdgesLog walkF rec recLog self preds (i + 1) rest st2) :=
          LogSpec.after p3 l2 h3
        exact LogSpec.after (DoPost.same st) hone h4
      · rw [h2]
        exact Or.inr ⟨rfl, c, List.mem_cons_of_mem _ (List.mem_append_left _ hc), hcs⟩
    · rw [hw1]
      exact Or.inr ⟨rfl, _, List.mem_cons_self _ _, hs⟩

theorem doInstr_logSpec (fn : Function) (hv : ValidFn fn) (fuel : Nat) :
    ∀ val st, (instrAt fn val).isSome = true → st.deps.length = fn.Blocks.length →
      unvisited fn st + fn.Blocks.length + 2 ≤ fuel →
      LogSpec fn st (doInstr fn fuel val st) (doInstrLog fn fuel val st) := by
  induction fuel with
  | zero => intro val st _ _ h; omega
  | succ F ih =>
    intro val st hval hlen hfuel
    rw [doInstr]
    unfold doInstrBody
    simp only [doInstrLog]
    by_cases hvis : val ∈ st.visited
    · rw [if_pos hvis, if_pos hvis]
      exact Or.inl ⟨st, rfl, DoPost.same st, fun c hc => by cases hc⟩
    · rw [if_neg hvis, if_neg hvis]
      have hlt := unvisited_lt fn st val hval hvis
      have hbounds := instrAt_bounds fn val hval
      unfold instrAt at hval
      cases hb : fn.Blocks[val.1]? with
      | none => rw [hb] at hval; cases hval
      | some blk =>
        rw [hb] at hval
        simp only at hval ⊢
        obtain ⟨ins, hi⟩ := Option.isSome_iff_exists.1 hval
        rw [hi]
        simp only
        have hins : instrAt fn (val.1, val.2) = some ins := by simp [instrAt, hb, hi]
        have hpreds : predsOf fn val.1 = blk.Preds := by simp [predsOf, hb]
        have hK : unvisited fn { st with visited := st.visited ++ [val] } ≤
            F - (fn.Blocks.length + 2) := by omega
        have hw := walk_logSpec fn hv.preds F (by omega)
        have hrec : ∀ val2 st2, (instrAt fn val2).isSome = true →
            st2.deps.length = fn.Blocks.length →
            unvisited fn st2 ≤ F - (fn.Blocks.length + 2) →
            LogSpec fn st2 (doInstr fn F val2 st2) (doInstrLog fn F val2 st2) :=
          fun val2 st2 h1 h2 h3 => ih val2 st2 h1 h2 (by omega)
        have hmid : DoPost st { st with visited := st.visited ++ [val] } :=
          ⟨rfl, fun v h => List.mem_append_left _ h⟩
        have wrap : ∀ (r : Except Halt Live) (log : List WalkCall),
            LogSpec fn { st with visited := st.visited ++ [val] } r log → LogSpec fn st r log := by
          intro r log h
          exact LogSpec.later hmid h
        have hrands : (∀ es, ins.kind ≠ .Phi es) →
            LogSpec fn st
              (doRands (walk fn F) (doInstr fn F) val.1 ins.Operands
                { st with visited := st.visited ++ [val] })
              (doRandsLog (walk fn F) (doInstr fn F) (doInstrLog fn F) val.1 ins.Operands
                { st with visited := st.visited ++ [val] }) := by
          intro hnp
          exact wrap _ _ (doRands_logSpec fn _ _ _ val.1 _ hw hrec hbounds.1 _
            (hv.rands (val.1, val.2) ins hins hnp) _ hlen hK)
        cases hk : ins.kind with
        | Phi edges =>
          simp only
          refine wrap _ _ (doPhiEdges_logSpec fn _ _ _ val blk.Preds _ hw hrec ?_ ?_ 0 edges ?_ _
            hlen hK)
          · simp [instrAt, hb, hi]
          · intro p hp; exact hv.preds val.1 p (by rw [hpreds]; exact hp)
          · have := hv.phis val.1 val.2 ins edges hins hk
            rw [hpreds] at this
            omega
        | If c => simp only; rw [hk] at hrands; exact hrands (by simp)
        | Call a b c => simp only; rw [hk] at hrands; exact hrands (by simp)
        | Return rs => simp only; rw [hk] at hrands; exact hrands (by simp)
        | Other rs => simp only; rw [hk] at hrands; exact hrands (by simp)

theorem doVals_logSpec (fn : Function) (hv : ValidFn fn) (fuel : Nat) (vals : List (Nat × Nat))
    (hvals : ∀ v ∈ vals, (instrAt fn v).isSome = true) (st : Live)
    (hlen : st.deps.length = fn.Blocks.length)
    (hfuel : unvisited fn st + fn.Blocks.length + 2 ≤ fuel) :
    LogSpec fn st (doVals fn fuel vals st) (doValsLog fn fuel vals st) := by
  induction vals generalizing st with
  | nil => exact Or.inl ⟨st, rfl, DoPost.same st, fun c hc => by cases hc⟩
  | cons v rest ih =>
    simp only [doVals, doValsLog]
    rcases doInstr_logSpec fn hv fuel v st (hvals v (List.mem_cons_self _ _)) hlen hfuel with
      ⟨st1, h1, p1, l1⟩ | ⟨h1, c, hc, hcs⟩
    · rw [h1]
      simp only
      have h2 := ih (fun w hw => hvals w (List.mem_cons_of_mem _ hw)) st1 (p1.1.trans hlen)
        (by have := unvisited_le fn st st1 p1.2; omega)
      exact LogSpec.after p1 l1 h2
    · rw [h1]
      exact Or.inr ⟨rfl, c, List.mem_append_left _ hc, hcs⟩

theorem stuck_instr (fn : Function) (c : WalkCall) (h : c.Stuck fn) :
    ∃ D i b, c.d = .Instr D i ∧ Reaches fn c.d c.deps c.use b ∧ predsOf fn b = [] ∧ b ≠ D := by
  obtain ⟨b, hb, hs, hp⟩ := h
  cases hd : c.d with
  | Instr D i =>
    rw [hd] at hb hs
    exact ⟨D, i, b, rfl, hb, hp, (stopsAt_instr fn D i b).1 hs⟩
  | Const _ => rw [hd] at hs; simp [stopsAt] at hs
  | Global _ => rw [hd] at hs; simp [stopsAt] at hs
  | Function _ => rw [hd] at hs; simp [stopsAt] at hs
  | Builtin _ => rw [hd] at hs; simp [stopsAt] at hs
  | Parameter _ => rw [hd] at hs; simp [stopsAt, hp] at hs
  | FreeVar _ => rw [hd] at hs; simp [stopsAt, hp] at hs

theorem instrAt_orphanFn (b idx : Nat) (ins : Instruction)
    (h : instrAt orphanFn (b, idx) = some ins) :
    (b = 0 ∧ idx = 0 ∧ ins = plainCall 8) ∨ (b = 0 ∧ idx = 1 ∧ ins = ret) ∨
    (b = 1 ∧ idx = 0 ∧ ins = ⟨.Other [some (.Instr 0 0)], 1⟩) ∨
    (b = 1 ∧ idx = 1 ∧ ins = ret) := by
  have hb := instrAt_bounds orphanFn (b, idx) (by rw [h]; rfl)
  have h1 : b < 2 := hb.1
  have h2 : idx < 2 := hb.2
  interval_cases b <;> interval_cases idx <;> simp [instrAt, orphanFn] at h <;> simp [h]

theorem validFn_orphanFn : ValidFn orphanFn := by
  refine ⟨?_, ?_, ?_⟩
  · intro b p hp
    by_cases hb : b < 2
    · interval_cases b <;> simp [predsOf, orphanFn] at hp
    · rw [predsOf_ge orphanFn b (by simp [orphanFn]; omega)] at hp
      cases hp
  · rintro ⟨b, idx⟩ ins hat hnp D i hmem
    rcases instrAt_orphanFn b idx ins hat with h | h | h | h <;>
      obtain ⟨rfl, rfl, rfl⟩ := h <;>
      simp [Instruction.Operands, ret, plainCall] at hmem
    obtain ⟨rfl, rfl⟩ := hmem; rfl
  · intro b idx ins es hat hk
    rcases instrAt_orphanFn b idx ins hat with h | h | h | h <;>
      obtain ⟨rfl, rfl, rfl⟩ := h <;> simp [ret, plainCall] at hk

theorem livenessFor_orphanFn : livenessFor 10 orphanFn [(1, 0)] = .error .fatal := by
  rfl

/-- C21: for a closed program representation and fuel from `liveFuel` on,
`livenessFor` ends in `log.Fatalf` if and only if one of the backward walks it starts,
for a value defined by an instruction of a block `D`, reaches a block without
predecessors other than `D`; otherwise it returns.  A walk reaches the blocks in which
the value is not yet marked, going from a block other than `D` to its predecessors,
and by itself it is fatal exactly in that case.  A walk for a constant, global,
function or builtin marks the use block and returns; a walk for a parameter or free
variable returns, having stopped only in blocks without predecessors: every other
newly marked block has all its predecessors marked. -/
theorem livenessFor_fatal_iff (fn : Function) (hv : ValidFn fn) (vals : List (Nat × Nat))
    (hvals : ∀ v ∈ vals, (instrAt fn v).isSome = true) (fuel : Nat)
    (hfuel : liveFuel fn ≤ fuel) :
    (livenessFor fuel fn vals = .error .fatal ↔
      ∃ c ∈ walksOf fuel fn vals, ∃ D i b, c.d = .Instr D i ∧
        Reaches fn c.d c.deps c.use b ∧ predsOf fn b = [] ∧ b ≠ D) ∧
    (livenessFor fuel fn vals ≠ .error .fatal →
      ∃ deps, livenessFor fuel fn vals = .ok deps ∧ deps.length = fn.Blocks.length) ∧
    (∀ wfuel use deps, use < fn.Blocks.length → deps.length = fn.Blocks.length →
      fn.Blocks.length < wfuel →
      (∀ D i, walk fn wfuel (.Instr D i) use deps = .error .fatal ↔
        ∃ b, Reaches fn (.Instr D i) deps use b ∧ predsOf fn b = [] ∧ b ≠ D) ∧
      (∀ D i, walk fn wfuel (.Instr D i) use deps ≠ .error .fatal →
        ∃ deps1, walk fn wfuel (.Instr D i) use deps = .ok deps1) ∧
      (∀ d, d.isDefFree = true → walk fn wfuel d use deps = .ok (depsAdd deps use d)) ∧
      (∀ d, d.isEntryDef = true → ∃ deps1, walk fn wfuel d use deps = .ok deps1 ∧
        ∀ c, Marked deps1 d c → ¬ Marked deps d c → predsOf fn c ≠ [] →
          ∀ p ∈ predsOf fn c, Marked deps1 d p)) := by
  have hbox := unvisited_le_box fn ⟨List.replicate fn.Blocks.length [], []⟩
  have hf : unvisited fn ⟨List.replicate fn.Blocks.length [], []⟩ + fn.Blocks.length + 2 ≤
      fuel := by
    unfold liveFuel at hfuel
    omega
  have hspec := doVals_logSpec fn hv fuel vals hvals ⟨List.replicate fn.Blocks.length [], []⟩
    (by simp) hf
  refine ⟨?_, ?_, ?_⟩
  · unfold livenessFor walksOf
    rcases hspec with ⟨st1, h1, _, l1⟩ | ⟨h1, c, hc, hcs⟩
    · rw [h1]
      constructor
      · intro h; cases h
      · rintro ⟨c, hc, D, i, b, hd, hb, hp, hne⟩
        refine absurd ?_ (l1 c hc)
        refine ⟨b, hb, ?_, hp⟩
        rw [hd]
        exact (stopsAt_instr fn D i b).2 hne
    · rw [h1]
      exact ⟨fun _ => ⟨c, hc, stuck_instr fn c hcs⟩, fun _ => rfl⟩
  · intro hne
    rcases livenessFor_total fn hv fuel hfuel vals hvals with hok | hfatal
    · exact hok
    · exact absurd hfatal hne
  · intro wfuel use deps hu hlen hw
    have h := walk_cases fn hv.preds wfuel use deps hu hlen hw
    exact ⟨h.1, h.2.1, h.2.2.1, h.2.2.2.1⟩

theorem livenessFor_fatal_iff_witness :
    (livenessFor 10 orphanFn [(1, 0)] = .error .fatal ↔
      ∃ c ∈ walksOf 10 orphanFn [(1, 0)], ∃ D i b, c.d = .Instr D i ∧
        Reaches orphanFn c.d c.deps c.use b ∧ predsOf orphanFn b = [] ∧ b ≠ D) ∧
    (livenessFor 10 orphanFn [(1, 0)] ≠ .error .fatal →
      ∃ deps, livenessFor 10 orphanFn [(1, 0)] = .ok deps ∧
        deps.length = orphanFn.Blocks.length) ∧
    (∀ wfuel use deps, use < orphanFn.Blocks.length → deps.length = orphanFn.Blocks.length →
      orphanFn.Blocks.length < wfuel →
      (∀ D i, walk orphanFn wfuel (.Instr D i) use deps = .error .fatal ↔
        ∃ b, Reaches orphanFn (.Instr D i) deps use b ∧ predsOf orphanFn b = [] ∧ b ≠ D) ∧
      (∀ D i, walk orphanFn wfuel (.Instr D i) use deps ≠ .error .fatal →
        ∃ deps1, walk orphanFn wfuel (.Instr D i) use deps = .ok deps1) ∧
      (∀ d, d.isDefFree = true → walk orphanFn wfuel d use deps = .ok (depsAdd deps use d)) ∧
      (∀ d, d.isEntryDef = true → ∃ deps1, walk orphanFn wfuel d use deps = .ok deps1 ∧
        ∀ c, Marked deps1 d c → ¬ Marked deps d c → predsOf orphanFn c ≠ [] →
          ∀ p ∈ predsOf orphanFn c, Marked deps1 d p)) :=
  livenessFor_fatal_iff orphanFn validFn_orphanFn [(1, 0)]
    (by intro v hv; rw [List.mem_singleton] at hv; rw [hv]; rfl) 10 (by decide)

/-! ## What the backward walk marks -/

theorem depsAdd_kept (deps : Deps) (i : Nat) (v d : Value) (b : Nat) (h : Marked deps d b) :
    Marked (depsAdd deps i v) d b := by
  by_cases hi : i < deps.length
  · exact (Marked_depsAdd deps i v d b hi).2 (Or.inl h)
  · unfold depsAdd
    split
    · exact h
    · rw [List.set_eq_of_length_le (by omega)]
      exact h

theorem walkPreds_kept (rec : Value → Nat → Deps → Except Halt Deps) (d : Value)
    (hrec : ∀ use deps deps1, rec d use deps = .ok deps1 →
      ∀ d1 b, Marked deps d1 b → Marked deps1 d1 b)
    (ps : List Nat) (deps deps1 : Deps) (h : walkPreds rec d ps deps = .ok deps1) :
    ∀ d1 b, Marked deps d1 b → Marked deps1 d1 b := by
  induction ps generalizing deps with
  | nil => cases h; exact fun _ _ h => h
  | cons p rest ih =>
    simp only [walkPreds] at h
    cases hr : rec d p deps with
    | error e => rw [hr] at h; cases h
    | ok deps2 =>
      rw [hr] at h
      exact fun d1 b hm => ih deps2 h d1 b (hrec p deps deps2 hr d1 b hm)

theorem walk_kept (fn : Function) (d : Value) (fuel : Nat) :
    ∀ use deps deps1, walk fn fuel d use deps = .ok deps1 →
      ∀ d1 b, Marked deps d1 b → Marked deps1 d1 b := by
  induction fuel with
  | zero => intro use deps deps1 h; cases h
  | succ F ih =>
    intro use deps deps1 h
    rw [walk] at h
    cases hb : fn.Blocks[use]? with
    | none => simp [walkBody, hb] at h
    | some ub =>
      rw [walkBody_eq fn _ d use deps ub hb] at h
      split_ifs at h with h0 hs hp
      · cases h; exact fun _ _ h => h
      · cases h; exact fun d1 b hm => depsAdd_kept _ _ _ _ _ hm
      · exact fun d1 b hm => walkPreds_kept _ d ih _ _ _ h d1 b (depsAdd_kept _ _ _ _ _ hm)

theorem doRands_kept (walkF : Value → Nat → Deps → Except Halt Deps)
    (rec : Nat × Nat → Live → Except Halt Live) (blk : Nat)
    (hw : ∀ d u deps deps1, walkF d u deps = .ok deps1 →
      ∀ d1 b, Marked deps d1 b → Marked deps1 d1 b)
    (hrec : ∀ val st st1, rec val st = .ok st1 →
      ∀ d1 b, Marked st.deps d1 b → Marked st1.deps d1 b)
    (rands : List (Option Value)) (st st1 : Live)
    (h : doRands walkF rec blk rands st = .ok st1) :
    ∀ d1 b, Marked st.deps d1 b → Marked st1.deps d1 b := by
  induction rands generalizing st with
  | nil => cases h; exact fun _ _ h => h
  | cons r rest ih =>
    cases r with
    | none => exact ih st h
    | some rand =>
      simp only [doRands] at h
      cases hwr : walkF rand blk st.deps with
      | error e => rw [hwr] at h; cases h
      | ok deps1 =>
        rw [hwr] at h
        simp only at h
        have h1 := hw _ _ _ _ hwr
        cases rand with
        | Instr bb ii =>
          simp only at h
          cases hrr : rec (bb, ii) { st with deps := deps1 } with
          | error e => rw [hrr] at h; cases h
          | ok st2 =>
            rw [hrr] at h
            exact fun d1 b hm => ih st2 h d1 b (hrec _ _ _ hrr d1 b (h1 d1 b hm))
        | Const _ => exact fun d1 b hm => ih _ h d1 b (h1 d1 b hm)
        | Global _ => exact fun d1 b hm => ih _ h d1 b (h1 d1 b hm)
        | Function _ => exact fun d1 b hm => ih _ h d1 b (h1 d1 b hm)
        | Builtin _ => exact fun d1 b hm => ih _ h d1 b (h1 d1 b hm)
        | Parameter _ => exact fun d1 b hm => ih _ h d1 b (h1 d1 b hm)
        | FreeVar _ => exact fun d1 b hm => ih _ h d1 b (h1 d1 b hm)

theorem doPhiEdges_kept (walkF : Value → Nat → Deps → Except Halt Deps)
    (rec : Nat × Nat → Live → Except Halt Live) (self : Nat × Nat) (preds : List Nat)
    (hw : ∀ d u deps deps1, walkF d u deps = .ok deps1 →
      ∀ d1 b, Marked deps d1 b → Marked deps1 d1 b)
    (hrec : ∀ val st st1, rec val st = .ok st1 →
      ∀ d1 b, Marked st.deps d1 b → Marked st1.deps d1 b)
    (i : Nat) (edges : List Value) (st st1 : Live)
    (h : doPhiEdges walkF rec self preds i edges st = .ok st1) :
    ∀ d1 b, Marked st.deps d1 b → Marked st1.deps d1 b := by
  induction edges generalizing i st with
  | nil => cases h; exact fun _ _ h => h
  | cons rand rest ih =>
    simp only [doPhiEdges] at h
    cases hp : preds[i]? with
    | none => rw [hp] at h; cases h
    | some pred =>
      rw [hp] at h
      simp only at h
      cases hwr : walkF rand pred (depsAdd st.deps self.1 rand) with
      | error e => rw [hwr] at h; cases h
      | ok deps2 =>
        rw [hwr] at h
        simp only at h
        cases hrr : rec self { st with deps := deps2 } with
        | error e => rw [hrr] at h; cases h
        | ok st2 =>
          rw [hrr] at h
          exact fun d1 b hm => ih (i + 1) st2 h d1 b
            (hrec _ _ _ hrr d1 b (hw _ _ _ _ hwr d1 b (depsAdd_kept _ _ _ _ _ hm)))

theorem doInstr_kept (fn : Function) (fuel : Nat) :
    ∀ val st st1, doInstr fn fuel val st = .ok st1 →
      ∀ d1 b, Marked st.deps d1 b → Marked st1.deps d1 b := by
  induction fuel with
  | zero => intro val st st1 h; cases h
  | succ F ih =>
    intro val st st1 h
    rw [doInstr] at h
    unfold doInstrBody at h
    split_ifs at h with hvis
    · cases h; exact fun _ _ h => h
    · cases hb : fn.Blocks[val.1]? with
      | none => rw [hb] at h; cases h
      | some blk =>
        rw [hb] at h
        simp only at h
        cases hi : blk.Instrs[val.2]? with
        | none => rw [hi] at h; cases h
        | some ins =>
          rw [hi] at h
          simp only at h
          have hw := fun d u deps deps1 => walk_kept fn d F u deps deps1
          cases hk : ins.kind with
          | Phi edges =>
            rw [hk] at h
            simp only at h
            exact fun d1 b hm => doPhiEdges_kept _ _ val blk.Preds hw ih 0 edges _ st1 h d1 b hm
          | If c =>
            rw [hk] at h
            simp only at h
            exact fun d1 b hm => doRands_kept _ _ val.1 hw ih _ _ st1 h d1 b hm
          | Call a b c =>
            rw [hk] at h
            simp only at h
            exact fun d1 b hm => doRands_kept _ _ val.1 hw ih _ _ st1 h d1 b hm
          | Return rs =>
            rw [hk] at h
            simp only at h
            exact fun d1 b hm => doRands_kept _ _ val.1 hw ih _ _ st1 h d1 b hm
          | Other rs =>
            rw [hk] at h
            simp only at h
            exact fun d1 b hm => doRands_kept _ _ val.1 hw ih _ _ st1 h d1 b hm

theorem doVals_kept (fn : Function) (fuel : Nat) (vals : List (Nat × Nat)) (st st1 : Live)
    (h : doVals fn fuel vals st = .ok st1) :
    ∀ d1 b, Marked st.deps d1 b → Marked st1.deps d1 b := by
  induction vals generalizing st with
  | nil => cases h; exact fun _ _ h => h
  | cons v rest ih =>
    simp only [doVals] at h
    cases hr : doInstr fn fuel v st with
    | error e => rw [hr] at h; cases h
    | ok st2 =>
      rw [hr] at h
      exact fun d1 b hm => ih st2 h d1 b (doInstr_kept fn fuel v st st2 hr d1 b hm)

theorem walk_post (fn : Function) (hv : ValidPreds fn) (d : Value) (fuel use : Nat)
    (deps deps1 : Deps) (hlen : deps.length = fn.Blocks.length)
    (hr : walk fn fuel d use deps = .ok deps1) : WalkPost fn d deps use deps1 := by
  have hu : use < fn.Blocks.length := by
    cases fuel with
    | zero => cases hr
    | succ F =>
      rw [walk] at hr
      cases hb : fn.Blocks[use]? with
      | none => simp [walkBody, hb] at hr
      | some ub => exact (List.getElem?_eq_some_iff.1 hb).1
  have hbig := walk_mono_le fn fuel (fuel + fn.Blocks.length + 1) (by omega) d use deps deps1 hr
  rcases walk_spec fn hv d (fuel + fn.Blocks.length + 1) use deps hu hlen
      (lt_of_le_of_lt (unmarked_le_n _ _ _) (by omega)) with ⟨deps2, h2, post⟩ | ⟨h2, _⟩
  · rw [hbig] at h2
    cases h2
    exact post
  · rw [hbig] at h2; cases h2

theorem Reaches_nil_iff (fn : Function) (d : Value) (n u b : Nat) :
    Reaches fn d (List.replicate n []) u b ↔ Reaches fn d [] u b := by
  have h1 : ∀ c, ¬ Marked (List.replicate n []) d c := by
    intro c h
    unfold Marked at h
    rw [List.getD_eq_getElem?_getD] at h
    by_cases hc : c < n
    · simp [List.getElem?_replicate, hc] at h
    · simp [List.getElem?_replicate, hc] at h
  constructor
  · exact fun h => h.weaken (fun c hc => absurd hc (Marked_nil d c))
  · exact fun h => h.weaken (fun c hc => absurd hc (h1 c))

/-- When the first decision of `livenessFor` is an `If` on the value `v` defined by
instruction `i` of block `D`, the result marks `v` live in every block that a walk from
the block of the `If` reaches when nothing is marked, and so in `D` itself when that
walk reaches `D`: marks are never taken back. -/
theorem livenessFor_first_decision (fn : Function) (hv : ValidPreds fn) (D i fuel U idx : Nat)
    (pos : Nat) (rest : List (Nat × Nat)) (deps : Deps)
    (hins : instrAt fn (U, idx) = some ⟨.If (.Instr D i), pos⟩)
    (hr : livenessFor fuel fn ((U, idx) :: rest) = .ok deps) (b : Nat)
    (hb : Reaches fn (.Instr D i) [] U b) : Marked deps (.Instr D i) b := by
  unfold livenessFor at hr
  cases hd : doVals fn fuel ((U, idx) :: rest) ⟨List.replicate fn.Blocks.length [], []⟩ with
  | error e => rw [hd] at hr; cases hr
  | ok stf =>
    rw [hd] at hr
    cases hr
    simp only [doVals] at hd
    cases h1 : doInstr fn fuel (U, idx) ⟨List.replicate fn.Blocks.length [], []⟩ with
    | error e => rw [h1] at hd; cases hd
    | ok st1 =>
      rw [h1] at hd
      simp only at hd
      refine doVals_kept fn fuel rest st1 stf hd _ b ?_
      cases fuel with
      | zero => cases h1
      | succ F =>
        rw [doInstr] at h1
        unfold instrAt at hins
        cases hblk : fn.Blocks[U]? with
        | none => rw [hblk] at hins; cases hins
        | some blk =>
          rw [hblk] at hins
          simp only at hins
          simp only [doInstrBody, List.not_mem_nil, if_false, hblk, hins,
            Instruction.Operands, doRands] at h1
          cases hw : walk fn F (.Instr D i) U (List.replicate fn.Blocks.length []) with
          | error e => rw [hw] at h1; cases h1
          | ok deps1 =>
            rw [hw] at h1
            simp only at h1
            cases hrr : doInstr fn F (D, i) ⟨deps1, [] ++ [(U, idx)]⟩ with
            | error e => rw [hrr] at h1; cases h1
            | ok st2 =>
              rw [hrr] at h1
              cases h1
              refine doInstr_kept fn F _ _ _ hrr _ b ?_
              exact (walk_post fn hv _ F U _ deps1 (by simp) hw).marks b
                ((Reaches_nil_iff fn _ _ U b).2 hb)

/-- C23 (amended): a backward walk for the value `v` defined by instruction `i` of
block `D` that returns has marked `v` live in exactly the blocks it reached: the
start, if `v` was not marked there, and the not yet marked predecessors of reached
blocks other than `D`; the defining block `D` is marked like any other block when it
is reached, and nothing else changes. -/
theorem walk_marks (fn : Function) (hv : ValidPreds fn) (D i fuel use : Nat)
    (deps deps1 : Deps) (hlen : deps.length = fn.Blocks.length)
    (hr : walk fn fuel (.Instr D i) use deps = .ok deps1) :
    (∀ b, Marked deps1 (.Instr D i) b ↔
      Marked deps (.Instr D i) b ∨ Reaches fn (.Instr D i) deps use b) ∧
    (∀ d1 b, d1 ≠ .Instr D i → (Marked deps1 d1 b ↔ Marked deps d1 b)) ∧
    (Reaches fn (.Instr D i) deps use D → Marked deps1 (.Instr D i) D) := by
  have post := walk_post fn hv _ fuel use deps deps1 hlen hr
  refine ⟨?_, fun d1 b hne => ⟨post.others d1 b hne, post.keeps d1 b⟩, fun h => post.marks D h⟩
  intro b
  constructor
  · intro h
    by_cases h0 : Marked deps (.Instr D i) b
    · exact Or.inl h0
    · exact Or.inr (post.reached b h h0)
  · rintro (h | h)
    · exact post.keeps _ b h
    · exact post.marks b h

theorem walk_marks_witness :
    (∀ b, Marked [[.Instr 0 0], [.Instr 0 0], [], []] (.Instr 0 0) b ↔
      Marked (List.replicate 4 []) (.Instr 0 0) b ∨
        Reaches useFn (.Instr 0 0) (List.replicate 4 []) 1 b) ∧
    (∀ d1 b, d1 ≠ .Instr 0 0 →
      (Marked [[.Instr 0 0], [.Instr 0 0], [], []] d1 b ↔ Marked (List.replicate 4 []) d1 b)) ∧
    (Reaches useFn (.Instr 0 0) (List.replicate 4 []) 1 0 →
      Marked [[.Instr 0 0], [.Instr 0 0], [], []] (.Instr 0 0) 0) :=
  walk_marks useFn validPreds_useFn 0 0 5 1 (List.replicate 4 [])
    [[.Instr 0 0], [.Instr 0 0], [], []] rfl rfl

/-- C23 (counterexample): in `func f(p bool) { x := g(); if p { if x { return } }; return }`
the value `x` is defined in block 0 and used by the `If` of block 1; `livenessFor` on
the function's `If`s marks `x` live in block 1 and in its defining block 0. -/
theorem livenessFor_marks_def :
    Marked [[.Parameter 0, .Instr 0 0, .Function 8], [.Instr 0 0], [], []] (.Instr 0 0) 0 ∧
    ∀ fuel, livenessFor (fuel + 3) useFn (ifInstrsFrom 0 useFn.Blocks) =
      .ok [[.Parameter 0, .Instr 0 0, .Function 8], [.Instr 0 0], [], []] :=
  ⟨by decide, fun fuel => livenessFor_mono_le 3 (fuel + 3) (by omega) _ _ _ rfl⟩
/-! ## The cap on recorded states -/

theorem cacheStop_false_length {VS : Type} (ops : ValStateOps VS) (s : State) (f : FuncId)
    (b : Nat) (vs : VS) (bck2s : List VS) (h : cacheStop ops s f b vs bck2s = .ok false) :
    bck2s.length ≤ 10 := by
  unfold cacheStop at h
  cases bck2s with
  | nil => simp
  | cons x xs =>
    simp only at h
    cases hf : mapGet s.fns f with
    | none => rw [hf] at h; cases h
    | some fi =>
      rw [hf] at h
      simp only at h
      cases hl : fi.ifDeps[b]? with
      | none => rw [hl] at h; cases h
      | some live =>
        rw [hl] at h
        simp only [Except.ok.injEq, Bool.or_eq_false_iff, decide_eq_false_iff_not] at h
        omega

theorem CacheSmall.record {VS : Type} (cache : List ((Nat × LockSetKey) × List VS))
    (key : Nat × LockSetKey) (vs : VS) (h : CacheSmall cache)
    (hlen : ((mapGet cache key).getD []).length ≤ 10) :
    CacheSmall (mapSet cache key ((mapGet cache key).getD [] ++ [vs])) := by
  intro k l hk
  by_cases e : key = k
  · subst e
    rw [mapGet_mapSet_self] at hk
    cases hk
    simp only [List.length_append, List.length_singleton]
    omega
  · rw [mapGet_mapSet_of_ne _ _ _ _ e] at hk
    exact h k l hk

theorem walkSuccs_small {VS : Type} (ops : ValStateOps VS) (fn : Function)
    (rec : Nat → VS → LockSet → Walk VS → Except Halt (Walk VS))
    (hrec : ∀ b2 vs2 L2 w2 w3, CacheSmall w2.blockCache → rec b2 vs2 L2 w2 = .ok w3 →
      CacheSmall w3.blockCache)
    (b : Nat) (vs : VS) (ifCond : Option Value) (L : LockSet) (i : Nat) (succs : List Nat)
    (w w1 : Walk VS) (hw : CacheSmall w.blockCache)
    (h : walkSuccs ops fn rec b vs ifCond L i succs w = .ok w1) : CacheSmall w1.blockCache := by
  induction succs generalizing i w with
  | nil => cases h; exact hw
  | cons b2 rest ih =>
    simp only [walkSuccs] at h
    cases hs : succState ops fn b vs ifCond i b2 with
    | error e => rw [hs] at h; cases h
    | ok vs2 =>
      rw [hs] at h
      simp only at h
      cases hr : rec b2 vs2 L w with
      | error e => rw [hr] at h; cases h
      | ok w2 =>
        rw [hr] at h
        exact ih (i + 1) w2 (hrec _ _ _ _ _ hw hr) h

theorem walkFrontier_small {VS : Type} (ops : ValStateOps VS) (fn : Function)
    (rec : Nat → VS → LockSet → Walk VS → Except Halt (Walk VS))
    (hrec : ∀ b2 vs2 L2 w2 w3, CacheSmall w2.blockCache → rec b2 vs2 L2 w2 = .ok w3 →
      CacheSmall w3.blockCache)
    (b : Nat) (vs : VS) (ifCond : Option Value) (succs : List Nat)
    (frontier : List (LockSetKey × LockSet)) (w w1 : Walk VS) (hw : CacheSmall w.blockCache)
    (h : walkFrontier ops fn rec b vs ifCond succs frontier w = .ok w1) :
    CacheSmall w1.blockCache := by
  induction frontier generalizing w with
  | nil => cases h; exact hw
  | cons p rest ih =>
    obtain ⟨k, L⟩ := p
    simp only [walkFrontier] at h
    cases hs : walkSuccs ops fn rec b vs ifCond L 0 succs w with
    | error e => rw [hs] at h; cases h
    | ok w2 =>
      rw [hs] at h
      exact ih w2 (walkSuccs_small ops fn rec hrec b vs ifCond L 0 succs w w2 hw hs) h

theorem walkBlockBody_small {VS : Type} (env : Env VS)
    (wf : FuncId → LockSet → State → Except Halt (Option LockSetSet × State))
    (exitPosF : Nat → Except Halt Nat)
    (rec : Nat → VS → LockSet → Walk VS → Except Halt (Walk VS))
    (hrec : ∀ b2 vs2 L2 w2 w3, CacheSmall w2.blockCache → rec b2 vs2 L2 w2 = .ok w3 →
      CacheSmall w3.blockCache)
    (f : FuncId) (b : Nat) (vs : VS) (L : LockSet) (w w1 : Walk VS)
    (hw : CacheSmall w.blockCache)
    (h : walkBlockBody env wf exitPosF rec f b vs L w = .ok w1) : CacheSmall w1.blockCache := by
  unfold walkBlockBody at h
  cases hb : (env.prog.funcs f).Blocks[b]? with
  | none => rw [hb] at h; cases h
  | some blk =>
    rw [hb] at h
    simp only at h
    cases hc : cacheStop env.ops w.s f b vs ((mapGet w.blockCache (b, L.Key)).getD []) with
    | error e => rw [hc] at h; cases h
    | ok stop =>
      rw [hc] at h
      cases stop with
      | true => cases h; exact hw
      | false =>
        simp only at h
        unfold walkBlockRun at h
        cases hd : doInstructions env wf f b 0 blk.Instrs
            { vs := vs, lockSets := NewLockSetSet.Add L, ifCond := none, s := w.s,
              exitLockSets := w.exitLockSets } with
        | error e => rw [hd] at h; cases h
        | ok fr =>
          rw [hd] at h
          simp only at h
          cases hl : logPos exitPosF b (resolveCond env.ops fr.vs fr.ifCond) with
          | error e => rw [hl] at h; cases h
          | ok pp =>
            rw [hl] at h
            simp only at h
            cases hp : pruneSuccs blk.Succs (resolveCond env.ops fr.vs fr.ifCond) with
            | error e => rw [hp] at h; cases h
            | ok succs =>
              rw [hp] at h
              simp only at h
              exact walkFrontier_small env.ops _ rec hrec b fr.vs fr.ifCond succs _ _ w1
                (CacheSmall.record _ _ vs hw (cacheStop_false_length _ _ _ _ _ _ hc)) h

theorem walkBlock_small {VS : Type} (env : Env VS)
    (wf : FuncId → LockSet → State → Except Halt (Option LockSetSet × State)) (f : FuncId)
    (fuel : Nat) : ∀ b vs L (w w1 : Walk VS), CacheSmall w.blockCache →
      walkBlock env wf f fuel b vs L w = .ok w1 → CacheSmall w1.blockCache := by
  induction fuel with
  | zero => intro b vs L w w1 _ h; cases h
  | succ n ih =>
    intro b vs L w w1 hw h
    rw [walkBlock] at h
    exact walkBlockBody_small env wf _ _ ih f b vs L w w1 hw h

/-- C22: a call of `walkBlock` on a `(block, entry lockset)` pair with more than 10
recorded value states returns at once and changes nothing, also when none of the
states is `EqualAt` the current state on the live set of the block: with any
function in the place of
`walkFunction` and with fuel for no further call of `walkBlock` it returns the
same state, block cache and exit lockset set.  And every call of `walkBlock` that returns
keeps the block cache free of pairs with more than 11 recorded states. -/
theorem walkBlock_cap {VS : Type} (env : Env VS)
    (wf : FuncId → LockSet → State → Except Halt (Option LockSetSet × State))
    (f : FuncId) (b : Nat) (vs : VS) (L : LockSet) (w : Walk VS) (blk : BasicBlock)
    (fi : funcInfo) (live : List Value) (bck2s : List VS)
    (hb : (env.prog.funcs f).Blocks[b]? = some blk)
    (hc : mapGet w.blockCache (b, L.Key) = some bck2s)
    (hmany : 10 < bck2s.length)
    (hfi : mapGet w.s.fns f = some fi) (hlive : fi.ifDeps[b]? = some live) :
    walkBlock env wf f 1 b vs L w = .ok w ∧
    (∀ fuel, walkBlock env wf f (fuel + 1) b vs L w = .ok w) ∧
    (∀ fuel b2 vs2 L2 (w2 w3 : Walk VS), CacheSmall w2.blockCache →
      walkBlock env wf f fuel b2 vs2 L2 w2 = .ok w3 → CacheSmall w3.blockCache) := by
  have hstop : cacheStop env.ops w.s f b vs ((mapGet w.blockCache (b, L.Key)).getD []) =
      .ok true := by
    rw [hc]
    simp only [Option.getD]
    unfold cacheStop
    cases bck2s with
    | nil => simp at hmany
    | cons x xs =>
      simp only [hfi, hlive]
      have : decide ((x :: xs).length > 10) = true := by simpa using hmany
      rw [this, Bool.or_true]
  have hone : ∀ fuel, walkBlock env wf f (fuel + 1) b vs L w = .ok w := by
    intro fuel
    rw [walkBlock]
    unfold walkBlockBody
    simp only [hb, hstop]
  exact ⟨hone 0, hone, fun fuel b2 vs2 L2 w2 w3 => walkBlock_small env wf f fuel b2 vs2 L2 w2 w3⟩

theorem walkBlock_cap_witness :
    walkBlock exEnv (fun _ _ _ => .error .panic) 12 1 2 [(.Parameter 0, ⟨false⟩)] NewSet
        fullWalk = .ok fullWalk ∧
    (∀ fuel, walkBlock exEnv (fun _ _ _ => .error .panic) 12 (fuel + 1) 2
        [(.Parameter 0, ⟨false⟩)] NewSet fullWalk = .ok fullWalk) ∧
    (∀ fuel b2 vs2 L2 (w2 w3 : Walk (List (Value × DynConst))), CacheSmall w2.blockCache →
      walkBlock exEnv (fun _ _ _ => .error .panic) 12 fuel b2 vs2 L2 w2 = .ok w3 →
      CacheSmall w3.blockCache) :=
  walkBlock_cap exEnv (fun _ _ _ => .error .panic) 12 2 [(.Parameter 0, ⟨false⟩)] NewSet
    fullWalk ⟨[⟨.If (.Parameter 0), 0⟩], [0], [3, 4]⟩
    { exitLockSets := [], ifDeps := [[], [], [.Parameter 0], [], [], [], []] }
    [.Parameter 0] (List.replicate 11 [(.Parameter 0, ⟨true⟩)])
    rfl (by rw [Key_NewSet]; rfl) (by decide) rfl rfl
end Rtcheck
